import Mathlib

/-!
The jsmn tokenizer: shallow embedding of `src/jsmn.c`.

The embedding follows the default build of the source: neither `JSMN_STRICT`
nor `JSMN_PARENT_LINKS` is defined.

Conventions of the embedding.

* The source buffer `const char *js` is a list of bytes (`List Nat`); the byte
  at index `i` is `byte_at js i`.  The length `len` stays a separate argument,
  as in the source, so a call on a prefix of a buffer is a call with a
  smaller `len` on the same buffer.
* The token array `jsmntok_t *tokens` is an index-addressed memory
  `Nat → jsmntok_t`; the null pointer is `none`.  The capacity `num_tokens`
  stays a separate argument, as in the source.  The initial content of the
  memory is arbitrary (the caller's array is not initialised).
* `unsigned int pos, toknext` are natural numbers and the `int` fields are
  integers; buffers are taken shorter than `2^31` bytes, so no counter wraps.
* Each `for` loop of the source is a function recursive on a fuel argument
  which the caller sets to the number of bytes left (`len - pos`); every
  iteration advances `pos`, so the fuel reaches `0` only when the loop
  condition `pos < len` is false, and the `0` case returns what the source
  does on leaving the loop.
-/

namespace Jsmn

/-- Modelled from the spec: the token kinds `Undefined, Object, Array, String,
Primitive` of `jsmntype_t`, declared in `jsmn.h`, which is not under `src/`. -/
inductive jsmntype_t
  | JSMN_UNDEFINED
  | JSMN_OBJECT
  | JSMN_ARRAY
  | JSMN_STRING
  | JSMN_PRIMITIVE
  deriving DecidableEq, Inhabited

open jsmntype_t

/-- Modelled from the spec: the token record `jsmntok_t` of `jsmn.h` (default
build, no `parent` field); `end_` is the field `end`. -/
structure jsmntok_t where
  type : jsmntype_t
  start : Int
  end_ : Int
  size : Int
  deriving DecidableEq, Inhabited

/-- Modelled from the spec: the cursor record `jsmn_parser` of `jsmn.h`: scan
position, next free token index, current open container (`-1` for none). -/
structure jsmn_parser_t where
  pos : Nat
  toknext : Nat
  toksuper : Int
  deriving DecidableEq

/-- Modelled from the spec: `OutOfTokens`, a negative code (`-1` in `jsmn.h`). -/
def JSMN_ERROR_NOMEM : Int := -1

/-- Modelled from the spec: `Invalid`, a negative code (`-2` in `jsmn.h`). -/
def JSMN_ERROR_INVAL : Int := -2

/-- Modelled from the spec: `Incomplete`, a negative code (`-3` in `jsmn.h`). -/
def JSMN_ERROR_PART : Int := -3

/-- The byte `js[i]` of the source buffer. -/
def byte_at (js : List Nat) (i : Nat) : Nat :=
  js.getD i 0

/-- The token array as a memory indexed by token number. -/
abbrev Tokens := Nat → jsmntok_t

/-- What `jsmn_parse` and its two helpers hand back: the `int` result, the
parser after the call and the token array after the call. -/
abbrev ParseResult := Int × jsmn_parser_t × Option Tokens

/-- `jsmn_alloc_token` (jsmn.c 6-19): `none` is the `NULL` return; otherwise
the index of the fresh token, the parser with `toknext` advanced and the array
with `start = end = -1`, `size = 0` written (the kind is left as it was). -/
def jsmn_alloc_token (parser : jsmn_parser_t) (tokens : Tokens) (num_tokens : Nat) :
    Option (Nat × jsmn_parser_t × Tokens) :=
  if parser.toknext ≥ num_tokens then none
  else
    some (parser.toknext, { parser with toknext := parser.toknext + 1 },
      Function.update tokens parser.toknext
        { tokens parser.toknext with start := -1, end_ := -1, size := 0 })

/-- `jsmn_fill_token` (jsmn.c 24-30). -/
def jsmn_fill_token (_token : jsmntok_t) (type : jsmntype_t) (start end_ : Int) : jsmntok_t :=
  { type := type, start := start, end_ := end_, size := 0 }

/-- The `case` labels that end a primitive in the default build (jsmn.c 46-49):
`:` tab CR LF space `,` `]` `}`. -/
def is_prim_boundary (c : Nat) : Bool :=
  c = 58 || c = 9 || c = 13 || c = 10 || c = 32 || c = 44 || c = 93 || c = 125

/-- The `for` loop of `jsmn_parse_primitive` (jsmn.c 42-56): `some pos` is the
arrival at label `found` with that position, `none` the `JSMN_ERROR_INVAL`
exit. -/
def primitive_scan (js : List Nat) (len : Nat) : Nat → Nat → Option Nat
  | 0, pos => some pos
  | fuel + 1, pos =>
    if pos < len ∧ byte_at js pos ≠ 0 then
      if is_prim_boundary (byte_at js pos) then some pos
      else if byte_at js pos < 32 ∨ byte_at js pos ≥ 127 then none
      else primitive_scan js len fuel (pos + 1)
    else some pos

/-- `jsmn_parse_primitive` (jsmn.c 35-79), default build. -/
def jsmn_parse_primitive (parser : jsmn_parser_t) (js : List Nat) (len : Nat)
    (tokens : Option Tokens) (num_tokens : Nat) : ParseResult :=
  let start := parser.pos
  match primitive_scan js len (len - parser.pos) parser.pos with
  | none => (JSMN_ERROR_INVAL, { parser with pos := start }, tokens)
  | some pos =>
    match tokens with
    | none => (0, { parser with pos := pos - 1 }, none)
    | some ts =>
      match jsmn_alloc_token { parser with pos := pos } ts num_tokens with
      | none => (JSMN_ERROR_NOMEM, { parser with pos := start }, some ts)
      | some (i, p1, ts1) =>
        (0, { p1 with pos := pos - 1 },
          some (Function.update ts1 i (jsmn_fill_token (ts1 i) JSMN_PRIMITIVE start pos)))

/-- The hexadecimal test of jsmn.c 127-129. -/
def is_hex (c : Nat) : Bool :=
  (48 ≤ c && c ≤ 57) || (65 ≤ c && c ≤ 70) || (97 ≤ c && c ≤ 102)

/-- The escape letters of jsmn.c 119-120: `"` `/` `\` `b` `f` `r` `n` `t`. -/
def is_escape (c : Nat) : Bool :=
  c = 34 || c = 47 || c = 92 || c = 98 || c = 102 || c = 114 || c = 110 || c = 116

/-- The loop over the hexadecimal digits of a `\u` escape (jsmn.c 125-134);
the first argument is the number of iterations left (`4 - i`).  `none` is the
`JSMN_ERROR_INVAL` exit, `some pos` the position on leaving the loop. -/
def hex_scan (js : List Nat) (len : Nat) : Nat → Nat → Option Nat
  | 0, pos => some pos
  | n + 1, pos =>
    if pos < len ∧ byte_at js pos ≠ 0 then
      if is_hex (byte_at js pos) then hex_scan js len n (pos + 1) else none
    else some pos

/-- The three ways the `for` loop of `jsmn_parse_string` ends: on the closing
quote at a position, on a bad escape, or on running out of input. -/
inductive StrScan
  | closed (pos : Nat)
  | inval
  | part
  deriving DecidableEq

/-- The `for` loop of `jsmn_parse_string` (jsmn.c 93-143). -/
def string_scan (js : List Nat) (len : Nat) : Nat → Nat → StrScan
  | 0, _ => StrScan.part
  | fuel + 1, pos =>
    if pos < len ∧ byte_at js pos ≠ 0 then
      if byte_at js pos = 34 then StrScan.closed pos
      else if byte_at js pos = 92 ∧ pos + 1 < len then
        if is_escape (byte_at js (pos + 1)) then string_scan js len fuel (pos + 1 + 1)
        else if byte_at js (pos + 1) = 117 then
          match hex_scan js len 4 (pos + 1 + 1) with
          | none => StrScan.inval
          | some q => string_scan js len fuel (q - 1 + 1)
        else StrScan.inval
      else string_scan js len fuel (pos + 1)
    else StrScan.part

/-- `jsmn_parse_string` (jsmn.c 84-146). -/
def jsmn_parse_string (parser : jsmn_parser_t) (js : List Nat) (len : Nat)
    (tokens : Option Tokens) (num_tokens : Nat) : ParseResult :=
  let start := parser.pos
  match string_scan js len (len - (parser.pos + 1)) (parser.pos + 1) with
  | StrScan.closed pos =>
    match tokens with
    | none => (0, { parser with pos := pos }, none)
    | some ts =>
      match jsmn_alloc_token { parser with pos := pos } ts num_tokens with
      | none => (JSMN_ERROR_NOMEM, { parser with pos := start }, some ts)
      | some (i, p1, ts1) =>
        (0, p1, some (Function.update ts1 i
          (jsmn_fill_token (ts1 i) JSMN_STRING ((start : Int) + 1) pos)))
  | StrScan.inval => (JSMN_ERROR_INVAL, { parser with pos := start }, tokens)
  | StrScan.part => (JSMN_ERROR_PART, { parser with pos := start }, tokens)

/-- The test `token->start != -1 && token->end == -1` (jsmn.c 211, 224, 296). -/
def is_open (t : jsmntok_t) : Bool :=
  t.start ≠ -1 && t.end_ = -1

/-- The backward scans `for (i = n - 1; i >= 0; i--)` of jsmn.c 209-219,
222-228 and 294-299, started with `n` tokens to look at: the index of the
first token found open, `none` when the loop runs down to `i == -1`. -/
def find_open (tokens : Tokens) : Nat → Option Nat
  | 0 => none
  | n + 1 => if is_open (tokens n) then some n else find_open tokens n

/-- The backward scan of the `,` case (jsmn.c 250-257): the first open token
of kind array or object. -/
def find_open_container (tokens : Tokens) : Nat → Option Nat
  | 0 => none
  | n + 1 =>
    if ((tokens n).type = JSMN_ARRAY ∨ (tokens n).type = JSMN_OBJECT) ∧ is_open (tokens n) = true
    then some n
    else find_open_container tokens n

/-- The statement `tokens[i].size++`. -/
def incr_size (tokens : Tokens) (i : Nat) : Tokens :=
  Function.update tokens i { tokens i with size := (tokens i).size + 1 }

/-- The statement `if (parser->toksuper != -1 && tokens != NULL)
tokens[parser->toksuper].size++;` (jsmn.c 235-236, 281-282). -/
def incr_super (parser : jsmn_parser_t) (tokens : Option Tokens) : Option Tokens :=
  match tokens with
  | none => none
  | some ts => if parser.toksuper ≠ -1 then some (incr_size ts parser.toksuper.toNat) else some ts

/-- The body of the `for` loop of `jsmn_parse`, i.e. the `switch` on the byte
at `parser.pos` (jsmn.c 162-290, default build).  `Except.error` is a `return`
from inside the loop; `Except.ok` carries `count`, the parser and the token
array to the loop increment `parser->pos++`. -/
def parse_switch (js : List Nat) (len : Nat) (num_tokens : Nat) (count : Int)
    (parser : jsmn_parser_t) (tokens : Option Tokens) :
    Except ParseResult (Int × jsmn_parser_t × Option Tokens) :=
  let c := byte_at js parser.pos
  if c = 123 ∨ c = 91 then
    match tokens with
    | none => Except.ok (count + 1, parser, none)
    | some ts =>
      match jsmn_alloc_token parser ts num_tokens with
      | none => Except.error (JSMN_ERROR_NOMEM, parser, some ts)
      | some (i, p1, ts1) =>
        let ts2 := if p1.toksuper ≠ -1 then incr_size ts1 p1.toksuper.toNat else ts1
        let ts3 := Function.update ts2 i
          { ts2 i with type := (if c = 123 then JSMN_OBJECT else JSMN_ARRAY), start := p1.pos }
        Except.ok (count + 1, { p1 with toksuper := (p1.toknext : Int) - 1 }, some ts3)
  else if c = 125 ∨ c = 93 then
    match tokens with
    | none => Except.ok (count, parser, none)
    | some ts =>
      match find_open ts parser.toknext with
      | none => Except.error (JSMN_ERROR_INVAL, parser, some ts)
      | some i =>
        if (ts i).type ≠ (if c = 125 then JSMN_OBJECT else JSMN_ARRAY) then
          Except.error (JSMN_ERROR_INVAL, parser, some ts)
        else
          let ts1 := Function.update ts i { ts i with end_ := (parser.pos : Int) + 1 }
          match find_open ts1 (i + 1) with
          | some j => Except.ok (count, { parser with toksuper := (j : Int) }, some ts1)
          | none => Except.ok (count, { parser with toksuper := -1 }, some ts1)
  else if c = 34 then
    match jsmn_parse_string parser js len tokens num_tokens with
    | (r, p1, toks1) =>
      if r < 0 then Except.error (r, p1, toks1)
      else Except.ok (count + 1, p1, incr_super p1 toks1)
  else if c = 9 ∨ c = 13 ∨ c = 10 ∨ c = 32 then
    Except.ok (count, parser, tokens)
  else if c = 58 then
    Except.ok (count, { parser with toksuper := (parser.toknext : Int) - 1 }, tokens)
  else if c = 44 then
    match tokens with
    | none => Except.ok (count, parser, none)
    | some ts =>
      if parser.toksuper ≠ -1 ∧ (ts parser.toksuper.toNat).type ≠ JSMN_ARRAY ∧
          (ts parser.toksuper.toNat).type ≠ JSMN_OBJECT then
        match find_open_container ts parser.toknext with
        | some i => Except.ok (count, { parser with toksuper := (i : Int) }, some ts)
        | none => Except.ok (count, parser, some ts)
      else Except.ok (count, parser, some ts)
  else
    match jsmn_parse_primitive parser js len tokens num_tokens with
    | (r, p1, toks1) =>
      if r < 0 then Except.error (r, p1, toks1)
      else Except.ok (count + 1, p1, incr_super p1 toks1)

/-- The end of `jsmn_parse` after the loop (jsmn.c 293-302). -/
def parse_finish (count : Int) (parser : jsmn_parser_t) (tokens : Option Tokens) : ParseResult :=
  match tokens with
  | none => (count, parser, none)
  | some ts =>
    match find_open ts parser.toknext with
    | some _ => (JSMN_ERROR_PART, parser, some ts)
    | none => (count, parser, some ts)

/-- The `for` loop of `jsmn_parse` (jsmn.c 158-291) followed by its end. -/
def parse_loop (js : List Nat) (len : Nat) (num_tokens : Nat) :
    Nat → Int → jsmn_parser_t → Option Tokens → ParseResult
  | 0, count, parser, tokens => parse_finish count parser tokens
  | fuel + 1, count, parser, tokens =>
    if parser.pos < len ∧ byte_at js parser.pos ≠ 0 then
      match parse_switch js len num_tokens count parser tokens with
      | Except.error r => r
      | Except.ok (count1, p1, toks1) =>
        parse_loop js len num_tokens fuel count1 { p1 with pos := p1.pos + 1 } toks1
    else parse_finish count parser tokens

/-- `jsmn_parse` (jsmn.c 151-303), default build. -/
def jsmn_parse (parser : jsmn_parser_t) (js : List Nat) (len : Nat)
    (tokens : Option Tokens) (num_tokens : Nat) : ParseResult :=
  parse_loop js len num_tokens (len - parser.pos) (parser.toknext : Int) parser tokens

/-- `jsmn_init` (jsmn.c 309-313). -/
def jsmn_init : jsmn_parser_t :=
  { pos := 0, toknext := 0, toksuper := -1 }

/-- `jsmn_getTokenLen` (jsmn.c 319-327): a parse of `json + startIndex` with a
null token array. -/
def jsmn_getTokenLen (json : List Nat) (startIndex : Nat) (len : Nat) : Int :=
  (jsmn_parse jsmn_init (json.drop startIndex) len none 0).1

/-! ## Auxiliary definitions for the proofs

The loop body reads the buffer only to classify the construct at the current
position (and, for a string or a primitive, to find where it ends); everything
else is bookkeeping on the parser and the token array.  `lex` is the first
part, `tok_apply` and `null_apply` are the second part for a non-null and for
a null token array; `parse_switch_some` and `parse_switch_none` below prove
that `parse_switch` is their composition. -/

/-- What the loop body finds at a position: an opening or closing bracket
(`true` for a brace), a string with the outcome of its scan, white space, a
colon, a comma, or a primitive with the outcome of its scan. -/
inductive Lex
  | opn (obj : Bool)
  | cls (obj : Bool)
  | str (r : StrScan)
  | ws
  | colon
  | comma
  | prim (r : Option Nat)
  deriving DecidableEq

/-- The classification made by the `switch` of `jsmn_parse` at `pos`. -/
def lex (js : List Nat) (len : Nat) (pos : Nat) : Lex :=
  if byte_at js pos = 123 then Lex.opn true
  else if byte_at js pos = 91 then Lex.opn false
  else if byte_at js pos = 125 then Lex.cls true
  else if byte_at js pos = 93 then Lex.cls false
  else if byte_at js pos = 34 then Lex.str (string_scan js len (len - (pos + 1)) (pos + 1))
  else if byte_at js pos = 9 ∨ byte_at js pos = 13 ∨ byte_at js pos = 10 ∨ byte_at js pos = 32 then
    Lex.ws
  else if byte_at js pos = 58 then Lex.colon
  else if byte_at js pos = 44 then Lex.comma
  else Lex.prim (primitive_scan js len (len - pos) pos)

/-- The kind of container a bracket stands for. -/
def bracket_type (obj : Bool) : jsmntype_t :=
  if obj then JSMN_OBJECT else JSMN_ARRAY

/-- The array after `tokens[parser->toksuper].size++` guarded by
`parser->toksuper != -1`. -/
def super_incr (ts : Tokens) (p : jsmn_parser_t) : Tokens :=
  if p.toksuper ≠ -1 then incr_size ts p.toksuper.toNat else ts

/-- The array after the `{` / `[` case (jsmn.c 169-179). -/
def open_write (ts : Tokens) (p : jsmn_parser_t) (obj : Bool) : Tokens :=
  Function.update
    (super_incr
      (Function.update ts p.toknext { ts p.toknext with start := -1, end_ := -1, size := 0 }) p)
    p.toknext
    { super_incr
        (Function.update ts p.toknext { ts p.toknext with start := -1, end_ := -1, size := 0 })
        p p.toknext with
      type := bracket_type obj, start := (p.pos : Int) }

/-- The array after `token->end = parser->pos + 1` on token `i` (jsmn.c 216). -/
def close_write (ts : Tokens) (i : Nat) (pos : Nat) : Tokens :=
  Function.update ts i { ts i with end_ := (pos : Int) + 1 }

/-- The array after `jsmn_parse_string` closed a string at `q` (jsmn.c 106). -/
def string_write (ts : Tokens) (p : jsmn_parser_t) (q : Nat) : Tokens :=
  Function.update ts p.toknext
    { type := JSMN_STRING, start := (p.pos : Int) + 1, end_ := (q : Int), size := 0 }

/-- The array after `jsmn_parse_primitive` stopped at `q` (jsmn.c 73). -/
def primitive_write (ts : Tokens) (p : jsmn_parser_t) (q : Nat) : Tokens :=
  Function.update ts p.toknext
    { type := JSMN_PRIMITIVE, start := (p.pos : Int), end_ := (q : Int), size := 0 }

/-- The loop body on a non-null token array, given the classification. -/
def tok_apply (cap : Nat) (count : Int) (p : jsmn_parser_t) (ts : Tokens) :
    Lex → Except ParseResult (Int × jsmn_parser_t × Option Tokens)
  | Lex.opn obj =>
    if cap ≤ p.toknext then Except.error (JSMN_ERROR_NOMEM, p, some ts)
    else Except.ok (count + 1,
      { pos := p.pos, toknext := p.toknext + 1, toksuper := (p.toknext : Int) },
      some (open_write ts p obj))
  | Lex.cls obj =>
    match find_open ts p.toknext with
    | none => Except.error (JSMN_ERROR_INVAL, p, some ts)
    | some i =>
      if (ts i).type ≠ bracket_type obj then Except.error (JSMN_ERROR_INVAL, p, some ts)
      else
        match find_open (close_write ts i p.pos) (i + 1) with
        | some j => Except.ok (count, { p with toksuper := (j : Int) }, some (close_write ts i p.pos))
        | none => Except.ok (count, { p with toksuper := -1 }, some (close_write ts i p.pos))
  | Lex.str (StrScan.closed q) =>
    if cap ≤ p.toknext then Except.error (JSMN_ERROR_NOMEM, p, some ts)
    else Except.ok (count + 1,
      { pos := q, toknext := p.toknext + 1, toksuper := p.toksuper },
      some (super_incr (string_write ts p q) p))
  | Lex.str StrScan.inval => Except.error (JSMN_ERROR_INVAL, p, some ts)
  | Lex.str StrScan.part => Except.error (JSMN_ERROR_PART, p, some ts)
  | Lex.ws => Except.ok (count, p, some ts)
  | Lex.colon => Except.ok (count, { p with toksuper := (p.toknext : Int) - 1 }, some ts)
  | Lex.comma =>
    if p.toksuper ≠ -1 ∧ (ts p.toksuper.toNat).type ≠ JSMN_ARRAY ∧
        (ts p.toksuper.toNat).type ≠ JSMN_OBJECT then
      match find_open_container ts p.toknext with
      | some i => Except.ok (count, { p with toksuper := (i : Int) }, some ts)
      | none => Except.ok (count, p, some ts)
    else Except.ok (count, p, some ts)
  | Lex.prim none => Except.error (JSMN_ERROR_INVAL, p, some ts)
  | Lex.prim (some q) =>
    if cap ≤ p.toknext then Except.error (JSMN_ERROR_NOMEM, p, some ts)
    else Except.ok (count + 1,
      { pos := q - 1, toknext := p.toknext + 1, toksuper := p.toksuper },
      some (super_incr (primitive_write ts p q) p))

/-- The loop body on a null token array, given the classification. -/
def null_apply (count : Int) (p : jsmn_parser_t) :
    Lex → Except ParseResult (Int × jsmn_parser_t × Option Tokens)
  | Lex.opn _ => Except.ok (count + 1, p, none)
  | Lex.cls _ => Except.ok (count, p, none)
  | Lex.str (StrScan.closed q) => Except.ok (count + 1, { p with pos := q }, none)
  | Lex.str StrScan.inval => Except.error (JSMN_ERROR_INVAL, p, none)
  | Lex.str StrScan.part => Except.error (JSMN_ERROR_PART, p, none)
  | Lex.ws => Except.ok (count, p, none)
  | Lex.colon => Except.ok (count, { p with toksuper := (p.toknext : Int) - 1 }, none)
  | Lex.comma => Except.ok (count, p, none)
  | Lex.prim none => Except.error (JSMN_ERROR_INVAL, p, none)
  | Lex.prim (some q) => Except.ok (count + 1, { p with pos := q - 1 }, none)

/-- The value `parser->toksuper` has after a closing bracket closed token `i`
(jsmn.c 215, 222-228): the nearest token still open, `-1` when there is none. -/
def close_super (ts : Tokens) (i : Nat) (pos : Nat) : Int :=
  match find_open (close_write ts i pos) (i + 1) with
  | some j => (j : Int)
  | none => -1

/-- The value `parser->toksuper` has after a comma (jsmn.c 244-259). -/
def comma_super (ts : Tokens) (p : jsmn_parser_t) : Int :=
  if p.toksuper ≠ -1 ∧ (ts p.toksuper.toNat).type ≠ JSMN_ARRAY ∧
      (ts p.toksuper.toNat).type ≠ JSMN_OBJECT then
    match find_open_container ts p.toknext with
    | some i => (i : Int)
    | none => p.toksuper
  else p.toksuper

/-- One iteration of the loop of `jsmn_parse` on a non-null array that comes
back to the loop head (loop increment `parser->pos++` included): the parser
and array before, the parser and array after. -/
inductive TStep (js : List Nat) (len cap : Nat) (p : jsmn_parser_t) (ts : Tokens) :
    jsmn_parser_t → Tokens → Prop
  | opn (obj : Bool) (hl : lex js len p.pos = Lex.opn obj) (hc : p.toknext < cap) :
      TStep js len cap p ts
        { pos := p.pos + 1, toknext := p.toknext + 1, toksuper := (p.toknext : Int) }
        (open_write ts p obj)
  | cls (obj : Bool) (i : Nat) (hl : lex js len p.pos = Lex.cls obj)
      (hf : find_open ts p.toknext = some i) (ht : (ts i).type = bracket_type obj) :
      TStep js len cap p ts
        { pos := p.pos + 1, toknext := p.toknext, toksuper := close_super ts i p.pos }
        (close_write ts i p.pos)
  | str (q : Nat) (hl : lex js len p.pos = Lex.str (StrScan.closed q)) (hc : p.toknext < cap) :
      TStep js len cap p ts
        { pos := q + 1, toknext := p.toknext + 1, toksuper := p.toksuper }
        (super_incr (string_write ts p q) p)
  | ws (hl : lex js len p.pos = Lex.ws) :
      TStep js len cap p ts { pos := p.pos + 1, toknext := p.toknext, toksuper := p.toksuper } ts
  | colon (hl : lex js len p.pos = Lex.colon) :
      TStep js len cap p ts
        { pos := p.pos + 1, toknext := p.toknext, toksuper := (p.toknext : Int) - 1 } ts
  | comma (hl : lex js len p.pos = Lex.comma) :
      TStep js len cap p ts
        { pos := p.pos + 1, toknext := p.toknext, toksuper := comma_super ts p } ts
  | prim (q : Nat) (hl : lex js len p.pos = Lex.prim (some q)) (hc : p.toknext < cap) :
      TStep js len cap p ts
        { pos := q - 1 + 1, toknext := p.toknext + 1, toksuper := p.toksuper }
        (super_incr (primitive_write ts p q) p)

/-- One iteration of the loop of `jsmn_parse` on a non-null array that returns
from inside the loop: the parser and array before (they are the parser and
array on return) and the code returned. -/
inductive TErr (js : List Nat) (len cap : Nat) (p : jsmn_parser_t) (ts : Tokens) : Int → Prop
  | opn_nomem (obj : Bool) (hl : lex js len p.pos = Lex.opn obj) (hc : cap ≤ p.toknext) :
      TErr js len cap p ts JSMN_ERROR_NOMEM
  | cls_unmatched (obj : Bool) (hl : lex js len p.pos = Lex.cls obj)
      (hf : find_open ts p.toknext = none) : TErr js len cap p ts JSMN_ERROR_INVAL
  | cls_mismatch (obj : Bool) (i : Nat) (hl : lex js len p.pos = Lex.cls obj)
      (hf : find_open ts p.toknext = some i) (ht : (ts i).type ≠ bracket_type obj) :
      TErr js len cap p ts JSMN_ERROR_INVAL
  | str_nomem (q : Nat) (hl : lex js len p.pos = Lex.str (StrScan.closed q))
      (hc : cap ≤ p.toknext) : TErr js len cap p ts JSMN_ERROR_NOMEM
  | str_inval (hl : lex js len p.pos = Lex.str StrScan.inval) :
      TErr js len cap p ts JSMN_ERROR_INVAL
  | str_part (hl : lex js len p.pos = Lex.str StrScan.part) :
      TErr js len cap p ts JSMN_ERROR_PART
  | prim_inval (hl : lex js len p.pos = Lex.prim none) : TErr js len cap p ts JSMN_ERROR_INVAL
  | prim_nomem (q : Nat) (hl : lex js len p.pos = Lex.prim (some q)) (hc : cap ≤ p.toknext) :
      TErr js len cap p ts JSMN_ERROR_NOMEM

/-- The loop condition of `jsmn_parse` (jsmn.c 158). -/
def loop_cond (js : List Nat) (len : Nat) (p : jsmn_parser_t) : Prop :=
  p.pos < len ∧ byte_at js p.pos ≠ 0

/-- The scan of `jsmn_parse` on a non-null array goes from one loop head to a
later one without returning in between. -/
inductive Reach (js : List Nat) (len cap : Nat) :
    jsmn_parser_t → Tokens → jsmn_parser_t → Tokens → Prop
  | refl (p : jsmn_parser_t) (ts : Tokens) : Reach js len cap p ts p ts
  | step (p : jsmn_parser_t) (ts : Tokens) (p1 : jsmn_parser_t) (ts1 : Tokens)
      (p2 : jsmn_parser_t) (ts2 : Tokens)
      (hg : loop_cond js len p) (h1 : TStep js len cap p ts p1 ts1)
      (h2 : Reach js len cap p1 ts1 p2 ts2) : Reach js len cap p ts p2 ts2

/-! ## Concrete inputs used by the witnesses and counterexamples -/

/-- A token array whose slots all hold the default token. -/
def blank_tokens : Tokens := fun _ => default

/-- The bytes of `{"a":1}`. -/
def doc_a1 : List Nat := [123, 34, 97, 34, 58, 49, 125]

/-! ## Sequences of calls on one parser -/

/-- One call of `jsmn_parse` as the caller sees it: the buffer, its length and
the capacity of the (non-null) token array passed. -/
structure Call where
  js : List Nat
  len : Nat
  num_tokens : Nat

/-- The parser and the token array after a sequence of `jsmn_parse` calls on
them, each with a non-null array, whatever each call returned. -/
def jsmn_calls : List Call → jsmn_parser_t → Tokens → jsmn_parser_t × Tokens
  | [], parser, tokens => (parser, tokens)
  | c :: cs, parser, tokens =>
    match jsmn_parse parser c.js c.len (some tokens) c.num_tokens with
    | (_, p1, some ts1) => jsmn_calls cs p1 ts1
    | (_, p1, none) => jsmn_calls cs p1 tokens

/-! ## Token spans and string literals -/

/-- The bytes `js[a..b)` of the buffer. -/
def slice (js : List Nat) (a b : Nat) : List Nat :=
  (js.drop a).take (b - a)

/-- The characters between the quotes of a string literal: a sequence of plain
bytes (not `"`, not `\`, at least `low`), of two-byte escapes `\` + one of
`"` `/` `\` `b` `f` `r` `n` `t`, and of six-byte escapes `\u` + four
hexadecimal digits.  RFC 8259 is `low = 32` (no raw control byte). -/
def string_body (low : Nat) : List Nat → Bool
  | [] => true
  | c :: rest =>
    if c = 92 then
      match rest with
      | [] => false
      | e :: rest1 =>
        if is_escape e then string_body low rest1
        else if e = 117 then
          match rest1 with
          | h1 :: h2 :: h3 :: h4 :: rest2 =>
            is_hex h1 && is_hex h2 && is_hex h3 && is_hex h4 && string_body low rest2
          | _ => false
        else false
    else decide (c ≠ 34) && decide (low ≤ c) && string_body low rest

/-- A string literal: a double quote, a `string_body low`, a double quote.
With `low = 32` this is the string literal of RFC 8259. -/
def string_literal (low : Nat) (l : List Nat) : Bool :=
  match l with
  | 34 :: rest =>
    match rest.getLast? with
    | some 34 => string_body low rest.dropLast
    | _ => false
  | _ => false

/-- The round trip of a string token `t` of buffer `js`: the bytes
`js[start..end)` wrapped in double quotes are a `string_literal low`, and they
are the source text `js[start-1..end+1)`. -/
def string_roundtrip (low : Nat) (js : List Nat) (t : jsmntok_t) : Prop :=
  string_literal low (34 :: (slice js t.start.toNat t.end_.toNat ++ [34])) = true ∧
  slice js (t.start.toNat - 1) (t.end_.toNat + 1)
    = 34 :: (slice js t.start.toNat t.end_.toNat ++ [34])

/-- What holds of a token once the construct it stands for is written: a
string token spans the bytes between two quotes and these bytes are a string
body (NUL excluded, other control bytes allowed); a primitive token spans at
least one byte; an object or array token starts on its opening bracket and,
once closed, ends just after the matching kind of closing bracket. -/
def tok_ok (js : List Nat) (t : jsmntok_t) : Prop :=
  (t.type = JSMN_STRING ∧ ∃ s e : Nat, t.start = (s : Int) + 1 ∧ t.end_ = (e : Int) ∧
      s + 1 ≤ e ∧ byte_at js s = 34 ∧ byte_at js e = 34 ∧
      string_body 1 (slice js (s + 1) e) = true) ∨
  (t.type = JSMN_PRIMITIVE ∧ ∃ s e : Nat, t.start = (s : Int) ∧ t.end_ = (e : Int) ∧ s < e) ∨
  (∃ obj : Bool, t.type = bracket_type obj ∧ ∃ s : Nat, t.start = (s : Int) ∧
      byte_at js s = (if obj then 123 else 91) ∧
      (t.end_ = -1 ∨ ∃ e : Nat, t.end_ = (e : Int) + 1 ∧
        byte_at js e = (if obj then 125 else 93)))

/-- Every token allocated so far is `tok_ok`. -/
def TokInv (js : List Nat) (p : jsmn_parser_t) (ts : Tokens) : Prop :=
  ∀ i, i < p.toknext → tok_ok js (ts i)

/-- Two tokens with the same kind, start and end (the sizes may differ). -/
def same_span (t u : jsmntok_t) : Prop :=
  t.type = u.type ∧ t.start = u.start ∧ t.end_ = u.end_

/-! ## The state of the scan inside a call -/

/-- The parser and the array at the head of the `n`-th iteration of the loop
of `jsmn_parse` (non-null array), counted from the loop head given; `none`
when the call has returned before that iteration. -/
def scan_state (js : List Nat) (len cap : Nat) :
    Nat → jsmn_parser_t → Tokens → Option (jsmn_parser_t × Tokens)
  | 0, p, ts => some (p, ts)
  | n + 1, p, ts =>
    if p.pos < len ∧ byte_at js p.pos ≠ 0 then
      match parse_switch js len cap (p.toknext : Int) p (some ts) with
      | Except.ok (_, p1, some ts1) => scan_state js len cap n { p1 with pos := p1.pos + 1 } ts1
      | _ => none
    else none

/-- An object or array token that is still open. -/
def open_container (t : jsmntok_t) : Prop :=
  (t.type = JSMN_OBJECT ∨ t.type = JSMN_ARRAY) ∧ t.start ≠ -1 ∧ t.end_ = -1

/-- The span of a token delimits its construct in `js`: a string token lies
between two double quotes (quotes excluded), an object token goes from `{` to
`}` and an array token from `[` to `]` (brackets included). -/
def span_delimits (js : List Nat) (t : jsmntok_t) : Prop :=
  (t.type = JSMN_STRING →
    1 ≤ t.start ∧ t.start ≤ t.end_ ∧
    byte_at js (t.start - 1).toNat = 34 ∧ byte_at js t.end_.toNat = 34) ∧
  (t.type = JSMN_OBJECT →
    0 ≤ t.start ∧ 1 ≤ t.end_ ∧
    byte_at js t.start.toNat = 123 ∧ byte_at js (t.end_ - 1).toNat = 125) ∧
  (t.type = JSMN_ARRAY →
    0 ≤ t.start ∧ 1 ≤ t.end_ ∧
    byte_at js t.start.toNat = 91 ∧ byte_at js (t.end_ - 1).toNat = 93)

/-- The bytes of a string literal holding one raw tab: `"`, TAB, `"`. -/
def doc_tab : List Nat := [34, 9, 34]

/-! ## Invariants and relations between runs -/

/-- The range of `parser->toksuper`: `-1` or the index of an allocated token. -/
def SuperInv (p : jsmn_parser_t) : Prop :=
  -1 ≤ p.toksuper ∧ p.toksuper < (p.toknext : Int)

/-- Two token arrays hold the same tokens at the indices below `n`. -/
def agree (n : Nat) (ts ts1 : Tokens) : Prop :=
  ∀ i, i < n → ts i = ts1 i

/-- The position is the first byte of a construct that needs a token: a
bracket `{` or `[`, the opening quote of a string that is closed inside the
buffer, or the first byte of a primitive without illegal byte. -/
def token_start (js : List Nat) (len : Nat) (pos : Nat) : Prop :=
  match lex js len pos with
  | Lex.opn _ => True
  | Lex.str (StrScan.closed _) => True
  | Lex.prim (some _) => True
  | _ => False

/-! ## Lexemes: the constructs the scan meets, one per loop iteration -/

/-- A construct of the text as the loop of `jsmn_parse` meets it: one white
space byte, an opening or closing bracket (`true` for a brace), a colon, a
comma, a string literal (given by the bytes between its quotes) or a primitive
(given by its bytes). -/
inductive Lexeme
  | ws (c : Nat)
  | opn (obj : Bool)
  | cls (obj : Bool)
  | colon
  | comma
  | str (body : List Nat)
  | prim (bs : List Nat)

/-- The bytes of a lexeme. -/
def Lexeme.bytes : Lexeme → List Nat
  | Lexeme.ws c => [c]
  | Lexeme.opn obj => [if obj then 123 else 91]
  | Lexeme.cls obj => [if obj then 125 else 93]
  | Lexeme.colon => [58]
  | Lexeme.comma => [44]
  | Lexeme.str body => 34 :: (body ++ [34])
  | Lexeme.prim bs => bs

/-- The bytes of a sequence of lexemes. -/
def lex_bytes : List Lexeme → List Nat
  | [] => []
  | l :: r => l.bytes ++ lex_bytes r

/-- JSON white space: space, tab, line feed, carriage return. -/
def is_ws (c : Nat) : Bool :=
  c = 32 || c = 9 || c = 10 || c = 13

/-- A byte a primitive is made of, as far as the scan is concerned: printable
ASCII that neither ends a primitive nor starts another construct. -/
def prim_byte (c : Nat) : Bool :=
  decide (33 ≤ c) && decide (c ≤ 126) && !is_prim_boundary c &&
    decide (c ≠ 34) && decide (c ≠ 123) && decide (c ≠ 91)

/-- A lexeme the scan accepts: white space is a white space byte, a string
body is a `string_body 1`, a primitive is a non-empty run of `prim_byte`. -/
def Lexeme.ok : Lexeme → Prop
  | Lexeme.ws c => is_ws c = true
  | Lexeme.str body => string_body 1 body = true
  | Lexeme.prim bs => bs ≠ [] ∧ ∀ c, c ∈ bs → prim_byte c = true
  | _ => True

/-- The number of tokens a lexeme takes: one for an opening bracket, a string
or a primitive. -/
def Lexeme.tokens : Lexeme → Nat
  | Lexeme.opn _ => 1
  | Lexeme.str _ => 1
  | Lexeme.prim _ => 1
  | _ => 0

/-- The number of tokens a sequence of lexemes takes. -/
def lex_tokens : List Lexeme → Nat
  | [] => 0
  | l :: r => l.tokens + lex_tokens r

/-- What may stand right after a primitive: the end of the text (a NUL byte,
or nothing, which `byte_at` reads as `0`) or a byte that ends a primitive. -/
def follow (js : List Nat) (e : Nat) : Prop :=
  byte_at js e = 0 ∨ is_prim_boundary (byte_at js e) = true

/-- Every primitive of the sequence, laid out in `js` from index `s`, is
followed by what may follow a primitive. -/
def delims_ok (js : List Nat) : Nat → List Lexeme → Prop
  | _, [] => True
  | s, l :: r =>
    (match l with
      | Lexeme.prim bs => follow js (s + bs.length)
      | _ => True) ∧
    delims_ok js (s + l.bytes.length) r

/-- The stack of open brackets (innermost first) after a sequence of lexemes,
`none` when a closing bracket finds no open bracket or one of the other
kind. -/
def run_stack : List jsmntype_t → List Lexeme → Option (List jsmntype_t)
  | st, [] => some st
  | st, l :: r =>
    match l with
    | Lexeme.opn obj => run_stack (bracket_type obj :: st) r
    | Lexeme.cls obj =>
      match st with
      | [] => none
      | t :: st1 => if t = bracket_type obj then run_stack st1 r else none
    | _ => run_stack st r

/-- Index `k` lies strictly inside a primitive of the sequence laid out from
index `s`: after the first and before the last byte boundary of it. -/
def cut_in_prim : List Lexeme → Nat → Nat → Prop
  | [], _, _ => False
  | l :: r, s, k =>
    (match l with
      | Lexeme.prim bs => s < k ∧ k < s + bs.length
      | _ => False) ∨
    cut_in_prim r (s + l.bytes.length) k

/-- The kinds of the tokens that are open among the first `n`, most recent
first. -/
def open_types (ts : Tokens) : Nat → List jsmntype_t
  | 0 => []
  | n + 1 => if is_open (ts n) = true then (ts n).type :: open_types ts n else open_types ts n

/-- The bytes `l` stand in `js` from index `s` on. -/
def occupies (js : List Nat) (s : Nat) (l : List Nat) : Prop :=
  ∀ i, i < l.length → byte_at js (s + i) = byte_at l i

/-! ## Well-formed JSON documents (RFC 8259) -/

/-- What a piece of JSON text is: a value, the elements of a non-empty array,
the members of a non-empty object. -/
inductive JKind
  | value
  | elems
  | members

/-- JSON text as a tree that keeps the white space: a primitive (number or
literal name, given by its bytes), a string (given by the bytes between the
quotes), an array or an object, empty (with the white space between the
brackets) or not; elements are `ws value ws` separated by commas, members are
`ws string ws : ws value ws` separated by commas. -/
inductive Json : JKind → Type
  | prim (bs : List Nat) : Json JKind.value
  | str (body : List Nat) : Json JKind.value
  | arr0 (w : List Nat) : Json JKind.value
  | arr (es : Json JKind.elems) : Json JKind.value
  | obj0 (w : List Nat) : Json JKind.value
  | obj (ms : Json JKind.members) : Json JKind.value
  | elem (w1 : List Nat) (v : Json JKind.value) (w2 : List Nat) : Json JKind.elems
  | elems (w1 : List Nat) (v : Json JKind.value) (w2 : List Nat) (rest : Json JKind.elems) :
      Json JKind.elems
  | member (w1 key w2 w3 : List Nat) (v : Json JKind.value) (w4 : List Nat) :
      Json JKind.members
  | members (w1 key w2 w3 : List Nat) (v : Json JKind.value) (w4 : List Nat)
      (rest : Json JKind.members) : Json JKind.members

/-- The text of a JSON tree. -/
def Json.render : {k : JKind} → Json k → List Nat
  | _, Json.prim bs => bs
  | _, Json.str body => 34 :: (body ++ [34])
  | _, Json.arr0 w => 91 :: (w ++ [93])
  | _, Json.arr es => 91 :: (es.render ++ [93])
  | _, Json.obj0 w => 123 :: (w ++ [125])
  | _, Json.obj ms => 123 :: (ms.render ++ [125])
  | _, Json.elem w1 v w2 => w1 ++ (v.render ++ w2)
  | _, Json.elems w1 v w2 rest => w1 ++ (v.render ++ (w2 ++ (44 :: rest.render)))
  | _, Json.member w1 key w2 w3 v w4 =>
    w1 ++ (34 :: (key ++ (34 :: (w2 ++ (58 :: (w3 ++ (v.render ++ w4)))))))
  | _, Json.members w1 key w2 w3 v w4 rest =>
    w1 ++ (34 :: (key ++ (34 :: (w2 ++ (58 :: (w3 ++ (v.render ++ (w4 ++ (44 :: rest.render)))))))))

/-- The lexemes of a JSON tree, in text order. -/
def Json.lexemes : {k : JKind} → Json k → List Lexeme
  | _, Json.prim bs => [Lexeme.prim bs]
  | _, Json.str body => [Lexeme.str body]
  | _, Json.arr0 w => Lexeme.opn false :: (w.map Lexeme.ws ++ [Lexeme.cls false])
  | _, Json.arr es => Lexeme.opn false :: (es.lexemes ++ [Lexeme.cls false])
  | _, Json.obj0 w => Lexeme.opn true :: (w.map Lexeme.ws ++ [Lexeme.cls true])
  | _, Json.obj ms => Lexeme.opn true :: (ms.lexemes ++ [Lexeme.cls true])
  | _, Json.elem w1 v w2 => w1.map Lexeme.ws ++ (v.lexemes ++ w2.map Lexeme.ws)
  | _, Json.elems w1 v w2 rest =>
    w1.map Lexeme.ws ++ (v.lexemes ++ (w2.map Lexeme.ws ++ (Lexeme.comma :: rest.lexemes)))
  | _, Json.member w1 key w2 w3 v w4 =>
    w1.map Lexeme.ws ++ (Lexeme.str key :: (w2.map Lexeme.ws ++ (Lexeme.colon ::
      (w3.map Lexeme.ws ++ (v.lexemes ++ w4.map Lexeme.ws)))))
  | _, Json.members w1 key w2 w3 v w4 rest =>
    w1.map Lexeme.ws ++ (Lexeme.str key :: (w2.map Lexeme.ws ++ (Lexeme.colon ::
      (w3.map Lexeme.ws ++ (v.lexemes ++ (w4.map Lexeme.ws ++
        (Lexeme.comma :: rest.lexemes)))))))

/-- A decimal digit. -/
def is_digit (c : Nat) : Bool :=
  decide (48 ≤ c) && decide (c ≤ 57)

/-- The integer part of a JSON number: `0`, or a digit `1`-`9` and digits. -/
def json_int (l : List Nat) : Prop :=
  l = [48] ∨ ∃ d ds, l = d :: ds ∧ 49 ≤ d ∧ d ≤ 57 ∧ ∀ c, c ∈ ds → is_digit c = true

/-- The optional fraction of a JSON number: `.` and one or more digits. -/
def json_frac (l : List Nat) : Prop :=
  l = [] ∨ ∃ ds, l = 46 :: ds ∧ ds ≠ [] ∧ ∀ c, c ∈ ds → is_digit c = true

/-- The optional exponent of a JSON number: `e` or `E`, an optional sign, one
or more digits. -/
def json_exp (l : List Nat) : Prop :=
  l = [] ∨ ∃ e sg ds, l = e :: (sg ++ ds) ∧ (e = 101 ∨ e = 69) ∧
    (sg = [] ∨ sg = [43] ∨ sg = [45]) ∧ ds ≠ [] ∧ ∀ c, c ∈ ds → is_digit c = true

/-- A JSON number (RFC 8259, section 6). -/
def json_number (l : List Nat) : Prop :=
  ∃ sg ip fp ep, l = sg ++ (ip ++ (fp ++ ep)) ∧ (sg = [] ∨ sg = [45]) ∧
    json_int ip ∧ json_frac fp ∧ json_exp ep

/-- A JSON primitive: a number or one of the literal names `true`, `false`,
`null`. -/
def json_primitive (l : List Nat) : Prop :=
  json_number l ∨ l = [116, 114, 117, 101] ∨ l = [102, 97, 108, 115, 101] ∨
    l = [110, 117, 108, 108]

/-- White space only. -/
def all_ws (w : List Nat) : Prop :=
  ∀ c, c ∈ w → is_ws c = true

/-- The tree is well-formed JSON: primitives are numbers or literal names,
string bodies follow RFC 8259 (no raw control byte), white space is white
space. -/
def Json.wf : {k : JKind} → Json k → Prop
  | _, Json.prim bs => json_primitive bs
  | _, Json.str body => string_body 32 body = true
  | _, Json.arr0 w => all_ws w
  | _, Json.arr es => es.wf
  | _, Json.obj0 w => all_ws w
  | _, Json.obj ms => ms.wf
  | _, Json.elem w1 v w2 => all_ws w1 ∧ v.wf ∧ all_ws w2
  | _, Json.elems w1 v w2 rest => all_ws w1 ∧ v.wf ∧ all_ws w2 ∧ rest.wf
  | _, Json.member w1 key w2 w3 v w4 =>
    all_ws w1 ∧ string_body 32 key = true ∧ all_ws w2 ∧ all_ws w3 ∧ v.wf ∧ all_ws w4
  | _, Json.members w1 key w2 w3 v w4 rest =>
    all_ws w1 ∧ string_body 32 key = true ∧ all_ws w2 ∧ all_ws w3 ∧ v.wf ∧ all_ws w4 ∧ rest.wf

/-- A JSON document: a value with white space before and after it. -/
structure JsonDoc where
  lead : List Nat
  value : Json JKind.value
  trail : List Nat

/-- The text of a document. -/
def JsonDoc.render (d : JsonDoc) : List Nat :=
  d.lead ++ (d.value.render ++ d.trail)

/-- The lexemes of a document. -/
def JsonDoc.lexemes (d : JsonDoc) : List Lexeme :=
  d.lead.map Lexeme.ws ++ (d.value.lexemes ++ d.trail.map Lexeme.ws)

/-- The document is well-formed JSON text. -/
def JsonDoc.wf (d : JsonDoc) : Prop :=
  all_ws d.lead ∧ d.value.wf ∧ all_ws d.trail

/-- The top-level value of the document is a primitive. -/
def Json.is_prim : Json JKind.value → Bool
  | Json.prim _ => true
  | _ => false

/-! ## The parser and the array after a lexeme -/

/-- The parser and the array at the next loop head after the loop iteration
on lexeme `l` (which the parser stands on), when that iteration does not
return. -/
def lex_next (l : Lexeme) (p : jsmn_parser_t) (ts : Tokens) : jsmn_parser_t × Tokens :=
  match l with
  | Lexeme.ws _ => ({ pos := p.pos + 1, toknext := p.toknext, toksuper := p.toksuper }, ts)
  | Lexeme.opn obj =>
    ({ pos := p.pos + 1, toknext := p.toknext + 1, toksuper := (p.toknext : Int) },
      open_write ts p obj)
  | Lexeme.cls _ =>
    match find_open ts p.toknext with
    | some i =>
      ({ pos := p.pos + 1, toknext := p.toknext, toksuper := close_super ts i p.pos },
        close_write ts i p.pos)
    | none => (p, ts)
  | Lexeme.colon =>
    ({ pos := p.pos + 1, toknext := p.toknext, toksuper := (p.toknext : Int) - 1 }, ts)
  | Lexeme.comma =>
    ({ pos := p.pos + 1, toknext := p.toknext, toksuper := comma_super ts p }, ts)
  | Lexeme.str body =>
    ({ pos := p.pos + 1 + body.length + 1, toknext := p.toknext + 1, toksuper := p.toksuper },
      super_incr (string_write ts p (p.pos + 1 + body.length)) p)
  | Lexeme.prim bs =>
    ({ pos := p.pos + bs.length - 1 + 1, toknext := p.toknext + 1, toksuper := p.toksuper },
      super_incr (primitive_write ts p (p.pos + bs.length)) p)

/-- The parser and the array after the loop iterations on a sequence of
lexemes. -/
def lex_run : List Lexeme → jsmn_parser_t → Tokens → jsmn_parser_t × Tokens
  | [], p, ts => (p, ts)
  | l :: r, p, ts => lex_run r (lex_next l p ts).1 (lex_next l p ts).2

/-- The document `{"a":1}` as a tree. -/
def tree_a1 : JsonDoc :=
  { lead := [], value := Json.obj (Json.member [] [97] [] [] (Json.prim [49]) []), trail := [] }

/-- The document `12` as a tree. -/
def tree_12 : JsonDoc :=
  { lead := [], value := Json.prim [49, 50], trail := [] }

/-- The document `[12]` as a tree. -/
def tree_arr12 : JsonDoc :=
  { lead := [], value := Json.arr (Json.elem [] (Json.prim [49, 50]) []), trail := [] }

/-- The 17 bytes of `{"a":1,"b":[2,3]}` (Example 1 of the specification). -/
def doc_ex1 : List Nat :=
  [123, 34, 97, 34, 58, 49, 44, 34, 98, 34, 58, 91, 50, 44, 51, 93, 125]

/-- The token `tokens[i]` of the array a call hands back (the default token
when the array is null). -/
def result_token (r : ParseResult) (i : Nat) : jsmntok_t :=
  match r.2.2 with
  | some ts => ts i
  | none => default

/-- The byte goes to the `default:` label of the `switch` of `jsmn_parse`
(jsmn.c 162-275, default build): it is none of `{` `[` `}` `]` `"` tab CR LF
space `:` `,`, so a primitive starts on it. -/
def is_prim_start (c : Nat) : Bool :=
  !(c = 123 || c = 91 || c = 125 || c = 93 || c = 34 || c = 9 || c = 13 || c = 10 ||
    c = 32 || c = 58 || c = 44)

/-- A byte `jsmn_parse_primitive` rejects (jsmn.c 52): below 32 and none of
NUL, tab, LF, CR, or 127 and above. -/
def is_illegal (c : Nat) : Bool :=
  (decide (c < 32) && decide (c ≠ 0) && decide (c ≠ 9) && decide (c ≠ 10) && decide (c ≠ 13))
    || decide (127 ≤ c)

/-- The 15 bytes of `{"a": "\uZZZZ"}` (Example 3 of the specification). -/
def doc_ex3 : List Nat :=
  [123, 34, 97, 34, 58, 32, 34, 92, 117, 90, 90, 90, 90, 34, 125]

/-! ## Order and range of the token spans -/

/-- What holds of the spans of the tokens allocated so far, at a loop head of
a call on a buffer of at most `bound` bytes: the position is inside the
buffer; every token starts at a non-negative index before the position; a
closed token ends at or after its start, inside the buffer; and the tokens
start at increasing indices. -/
def SpanInv (bound : Nat) (p : jsmn_parser_t) (ts : Tokens) : Prop :=
  p.pos ≤ bound ∧
  (∀ i, i < p.toknext → 0 ≤ (ts i).start ∧ (ts i).start < (p.pos : Int) ∧
    ((ts i).end_ ≠ -1 → (ts i).start ≤ (ts i).end_ ∧ (ts i).end_ ≤ (bound : Int))) ∧
  (∀ i j, i < j → j < p.toknext → (ts i).start < (ts j).start)

/-- The 3-byte buffer `"`, `\`, NUL: a string cut right after a backslash by
the NUL byte. -/
def doc_bs_nul : List Nat := [34, 92, 0]

/-! ## The path explorer -/

/-- The C library call `strndup(&json[start], n)`: the bytes of the buffer
from index `start` on, at most `n` of them, up to the first NUL byte
(allocation is taken to succeed). -/
def strndup (json : List Nat) (start n : Nat) : List Nat :=
  ((json.drop start).take n).takeWhile (fun c => c != 0)

/-- The test `!strcmp(a, b)`: the two byte sequences, each read up to its
first NUL byte, are equal. -/
def str_eq (a b : List Nat) : Bool :=
  a.takeWhile (fun c => c != 0) == b.takeWhile (fun c => c != 0)

/-- The text `strndup(&json[t.start], t.end - t.start)` of a token. -/
def token_text (json : List Nat) (t : jsmntok_t) : List Nat :=
  strndup json t.start.toNat (t.end_ - t.start).toNat

/-- The `for` loop of `jsmn_variadic_explore` and the test after it
(jsmn.c 342-381).  The arguments after the fuel are `i`, `j`, `game_over`,
`current_parameter` and the variadic arguments not yet read.  The value is the
pair of the `int` returned and of `*result` (`none` for `NULL`); it is `none`
when the function returns `i_result` without having assigned it. -/
def explore_loop (json : List Nat) (jstokens : Tokens) (jstok_dim len : Int) :
    Nat → Nat → Int → Int → List Nat → List (List Nat) → Option (Int × Option (List Nat))
  | 0, i, _, game_over, _, _ =>
    if (i : Int) = jstok_dim ∨ game_over = 0 then some (-1, none) else none
  | fuel + 1, i, j, game_over, current, args =>
    if (i : Int) < jstok_dim ∧ game_over > 0 then
      if j < len then
        if (jstokens i).type = JSMN_STRING ∧ (jstokens (i + 1)).type = JSMN_OBJECT then
          if str_eq (token_text json (jstokens i)) current = true then
            explore_loop json jstokens jstok_dim len fuel (i + 1) (j + 1)
              (jsmn_getTokenLen json (jstokens (i + 1)).start.toNat
                ((jstokens (i + 1)).end_ - (jstokens (i + 1)).start).toNat - 1)
              (args.headD []) args.tail
          else explore_loop json jstokens jstok_dim len fuel (i + 1) j (game_over - 1) current args
        else explore_loop json jstokens jstok_dim len fuel (i + 1) j (game_over - 1) current args
      else
        if (jstokens i).type = JSMN_STRING then
          if str_eq (token_text json (jstokens i)) current = true then
            some ((i : Int) + 1, some (token_text json (jstokens (i + 1))))
          else explore_loop json jstokens jstok_dim len fuel (i + 1) j (game_over - 1) current args
        else explore_loop json jstokens jstok_dim len fuel (i + 1) j (game_over - 1) current args
    else if (i : Int) = jstok_dim ∨ game_over = 0 then some (-1, none) else none

/-- `jsmn_variadic_explore` (jsmn.c 332-383); `args` are the variadic
arguments, the keys of the path. -/
def jsmn_variadic_explore (json : List Nat) (jstokens : Tokens) (jstok_dim len : Int)
    (args : List (List Nat)) : Option (Int × Option (List Nat)) :=
  explore_loop json jstokens jstok_dim len jstok_dim.toNat 0 1 jstok_dim (args.headD [])
    args.tail

/-- `jsmn_explore` (jsmn.c 394-406). -/
def jsmn_explore (json : List Nat) (jstokens : Tokens) (jstok_dim len : Int)
    (args : List (List Nat)) : Option (Int × Option (List Nat)) :=
  jsmn_variadic_explore json jstokens jstok_dim len args

/-- `jsmn_parse_explore` (jsmn.c 416-441); `malloc` is taken to succeed and
`memory` is what the allocated array holds. -/
def jsmn_parse_explore (json : List Nat) (memory : Tokens) (len : Int)
    (args : List (List Nat)) : Option (Int × Option (List Nat)) :=
  let json_len := (json.takeWhile (fun c => c != 0)).length
  let jstok_dim := jsmn_getTokenLen json 0 json_len
  if jstok_dim < 0 then some (-1, none)
  else
    match jsmn_parse jsmn_init json json_len (some memory) jstok_dim.toNat with
    | (r, _, some jstokens) =>
      if r < 0 then some (-3, none)
      else jsmn_variadic_explore json jstokens jstok_dim len args
    | (_, _, none) => some (-3, none)

/-- The 15 bytes of `{"a":{"b":"c"}}` (Example 4 of the specification). -/
def doc_ex4 : List Nat :=
  [123, 34, 97, 34, 58, 123, 34, 98, 34, 58, 34, 99, 34, 125, 125]

/-- The 17 bytes of `{"x":"b","b":"c"}`. -/
def doc_xb : List Nat :=
  [123, 34, 120, 34, 58, 34, 98, 34, 44, 34, 98, 34, 58, 34, 99, 34, 125]

/-! ## The tokens of well-formed JSON -/

/-- The number of elements of an array body or of members of an object body
(`0` for a value). -/
def Json.count : {k : JKind} → Json k → Nat
  | _, Json.prim _ => 0
  | _, Json.str _ => 0
  | _, Json.arr0 _ => 0
  | _, Json.arr _ => 0
  | _, Json.obj0 _ => 0
  | _, Json.obj _ => 0
  | _, Json.elem _ _ _ => 1
  | _, Json.elems _ _ _ rest => rest.count + 1
  | _, Json.member _ _ _ _ _ _ => 1
  | _, Json.members _ _ _ _ _ _ rest => rest.count + 1

/-- The tokens of a JSON tree whose text starts at index `s` of the buffer, in
text order: a primitive token over the bytes of a primitive; a string token
over the bytes between the quotes of a string; an array token from `[` to
just after `]` whose size is the number of elements, followed by the tokens
of the elements; an object token from `{` to just after `}` whose size is the
number of members, followed for each member by the string token of the key,
of size 1, and the tokens of the value.  Primitives and strings that are not
keys have size 0. -/
def Json.toks : {k : JKind} → Json k → Nat → List jsmntok_t
  | _, Json.prim bs, s =>
    [{ type := JSMN_PRIMITIVE, start := (s : Int), end_ := ((s + bs.length : Nat) : Int),
       size := 0 }]
  | _, Json.str body, s =>
    [{ type := JSMN_STRING, start := ((s + 1 : Nat) : Int),
       end_ := ((s + 1 + body.length : Nat) : Int), size := 0 }]
  | _, Json.arr0 w, s =>
    [{ type := JSMN_ARRAY, start := (s : Int), end_ := ((s + 1 + w.length + 1 : Nat) : Int),
       size := 0 }]
  | _, Json.arr es, s =>
    { type := JSMN_ARRAY, start := (s : Int),
      end_ := ((s + 1 + es.render.length + 1 : Nat) : Int), size := (es.count : Int) }
      :: es.toks (s + 1)
  | _, Json.obj0 w, s =>
    [{ type := JSMN_OBJECT, start := (s : Int), end_ := ((s + 1 + w.length + 1 : Nat) : Int),
       size := 0 }]
  | _, Json.obj ms, s =>
    { type := JSMN_OBJECT, start := (s : Int),
      end_ := ((s + 1 + ms.render.length + 1 : Nat) : Int), size := (ms.count : Int) }
      :: ms.toks (s + 1)
  | _, Json.elem w1 v _, s => v.toks (s + w1.length)
  | _, Json.elems w1 v w2 rest, s =>
    v.toks (s + w1.length) ++ rest.toks (s + w1.length + v.render.length + w2.length + 1)
  | _, Json.member w1 key w2 w3 v _, s =>
    { type := JSMN_STRING, start := ((s + w1.length + 1 : Nat) : Int),
      end_ := ((s + w1.length + 1 + key.length : Nat) : Int), size := 1 }
      :: v.toks (s + w1.length + 1 + key.length + 1 + w2.length + 1 + w3.length)
  | _, Json.members w1 key w2 w3 v w4 rest, s =>
    { type := JSMN_STRING, start := ((s + w1.length + 1 : Nat) : Int),
      end_ := ((s + w1.length + 1 + key.length : Nat) : Int), size := 1 }
      :: (v.toks (s + w1.length + 1 + key.length + 1 + w2.length + 1 + w3.length) ++
        rest.toks (s + w1.length + 1 + key.length + 1 + w2.length + 1 + w3.length +
          v.render.length + w4.length + 1))

/-- The tokens of a document. -/
def JsonDoc.toks (d : JsonDoc) : List jsmntok_t :=
  d.value.toks d.lead.length

/-- The value is an array or an object. -/
def Json.is_container : Json JKind.value → Bool
  | Json.arr0 _ => true
  | Json.arr _ => true
  | Json.obj0 _ => true
  | Json.obj _ => true
  | _ => false

/-- The array `ts` holds the tokens of the list `l` from index `base` on. -/
def holds_at (ts : Tokens) (base : Nat) (l : List jsmntok_t) : Prop :=
  ∀ i t, l[i]? = some t → ts (base + i) = t

/-- The array after `d` increments of `tokens[a].size`. -/
def add_size (ts : Tokens) (a : Nat) (d : Int) : Tokens :=
  Function.update ts a { ts a with size := (ts a).size + d }

/-- The value of `toksuper` that stands for the nearest open token `e`:
its index, `-1` when there is none. -/
def super_of (e : Option Nat) : Int :=
  match e with
  | some i => (i : Int)
  | none => -1

/-- What the run of `jsmn_parse` over the lexemes of a value does to the
parser and the array (`e` is the nearest open token before the value): the
position and `toknext` advance by the text and the tokens of the value;
`toksuper` is left as it was after a primitive or a string, and is the
nearest open token after an array or an object; the tokens allocated before
are as they were but for the size of `tokens[toksuper]`, incremented once; the
tokens of the value are written from the old `toknext` on; the nearest open
token is the same as before. -/
def value_spec (v : Json JKind.value) : Prop :=
  ∀ (p : jsmn_parser_t) (ts : Tokens) (e : Option Nat),
    SuperInv p → find_open ts p.toknext = e →
    (lex_run v.lexemes p ts).1.pos = p.pos + v.render.length ∧
    (lex_run v.lexemes p ts).1.toknext = p.toknext + lex_tokens v.lexemes ∧
    (lex_run v.lexemes p ts).1.toksuper
      = (if v.is_container = true then super_of e else p.toksuper) ∧
    (∀ i, i < p.toknext → (lex_run v.lexemes p ts).2 i = super_incr ts p i) ∧
    holds_at (lex_run v.lexemes p ts).2 p.toknext (v.toks p.pos) ∧
    find_open (lex_run v.lexemes p ts).2 (lex_run v.lexemes p ts).1.toknext = e

/-- What the run of `jsmn_parse` over the lexemes of the elements of an array
(`t = JSMN_ARRAY`) or of the members of an object (`t = JSMN_OBJECT`) does,
started with `toksuper = a`, the token of that array or object and the
nearest open token: the position and `toknext` advance by the text and the
tokens of the body; the tokens allocated before are as they were but for the
size of token `a`, which grows by the number of elements or members; the
tokens of the body are written from the old `toknext` on; token `a` is still
the nearest open token; after the elements of an array `toksuper` is `a`. -/
def body_spec {k : JKind} (b : Json k) (t : jsmntype_t) : Prop :=
  ∀ (p : jsmn_parser_t) (ts : Tokens) (a : Nat),
    a < p.toknext → p.toksuper = (a : Int) → (ts a).type = t →
    find_open ts p.toknext = some a →
    (lex_run b.lexemes p ts).1.pos = p.pos + b.render.length ∧
    (lex_run b.lexemes p ts).1.toknext = p.toknext + lex_tokens b.lexemes ∧
    (t = JSMN_ARRAY → (lex_run b.lexemes p ts).1.toksuper = (a : Int)) ∧
    (∀ i, i < p.toknext → (lex_run b.lexemes p ts).2 i = add_size ts a (b.count : Int) i) ∧
    holds_at (lex_run b.lexemes p ts).2 p.toknext (b.toks p.pos) ∧
    find_open (lex_run b.lexemes p ts).2 (lex_run b.lexemes p ts).1.toknext = some a

/-- The specification of the run over the lexemes of a JSON tree, by kind. -/
def run_spec : (k : JKind) → Json k → Prop
  | JKind.value, v => value_spec v
  | JKind.elems, es => body_spec es JSMN_ARRAY
  | JKind.members, ms => body_spec ms JSMN_OBJECT

/-! ## The build with `JSMN_PARENT_LINKS`

The same source compiled with `JSMN_PARENT_LINKS` defined (and `JSMN_STRICT`
not defined).  The scans of strings and primitives read no token, so
`primitive_scan` and `string_scan` serve both builds. -/

/-- Modelled from the spec: the token record of `jsmn.h` under
`JSMN_PARENT_LINKS`: the fields of `jsmntok_t` and `parent`, the index of the
token that was `toksuper` when this one was written, `-1` for none. -/
structure jsmntok_pl extends jsmntok_t where
  parent : Int
  deriving DecidableEq, Inhabited

/-- The token array of the build with parent links. -/
abbrev TokensPL := Nat → jsmntok_pl

/-- What `jsmn_parse` hands back in the build with parent links. -/
abbrev ParseResultPL := Int × jsmn_parser_t × Option TokensPL

/-- `jsmn_alloc_token` (jsmn.c 6-19) with `JSMN_PARENT_LINKS`: also
`tok->parent = -1`. -/
def jsmn_alloc_token_pl (parser : jsmn_parser_t) (tokens : TokensPL) (num_tokens : Nat) :
    Option (Nat × jsmn_parser_t × TokensPL) :=
  if parser.toknext ≥ num_tokens then none
  else
    some (parser.toknext, { parser with toknext := parser.toknext + 1 },
      Function.update tokens parser.toknext
        { tokens parser.toknext with start := -1, end_ := -1, size := 0, parent := -1 })

/-- `jsmn_fill_token` (jsmn.c 24-30) on a token with a `parent` field, which
it leaves as it is. -/
def jsmn_fill_token_pl (token : jsmntok_pl) (type : jsmntype_t) (start end_ : Int) :
    jsmntok_pl :=
  { token with type := type, start := start, end_ := end_, size := 0 }

/-- `jsmn_parse_primitive` (jsmn.c 35-79) with `JSMN_PARENT_LINKS`: after
`jsmn_fill_token`, `token->parent = parser->toksuper`. -/
def jsmn_parse_primitive_pl (parser : jsmn_parser_t) (js : List Nat) (len : Nat)
    (tokens : Option TokensPL) (num_tokens : Nat) : ParseResultPL :=
  let start := parser.pos
  match primitive_scan js len (len - parser.pos) parser.pos with
  | none => (JSMN_ERROR_INVAL, { parser with pos := start }, tokens)
  | some pos =>
    match tokens with
    | none => (0, { parser with pos := pos - 1 }, none)
    | some ts =>
      match jsmn_alloc_token_pl { parser with pos := pos } ts num_tokens with
      | none => (JSMN_ERROR_NOMEM, { parser with pos := start }, some ts)
      | some (i, p1, ts1) =>
        (0, { p1 with pos := pos - 1 },
          some (Function.update ts1 i
            { jsmn_fill_token_pl (ts1 i) JSMN_PRIMITIVE start pos with parent := p1.toksuper }))

/-- `jsmn_parse_string` (jsmn.c 84-146) with `JSMN_PARENT_LINKS`. -/
def jsmn_parse_string_pl (parser : jsmn_parser_t) (js : List Nat) (len : Nat)
    (tokens : Option TokensPL) (num_tokens : Nat) : ParseResultPL :=
  let start := parser.pos
  match string_scan js len (len - (parser.pos + 1)) (parser.pos + 1) with
  | StrScan.closed pos =>
    match tokens with
    | none => (0, { parser with pos := pos }, none)
    | some ts =>
      match jsmn_alloc_token_pl { parser with pos := pos } ts num_tokens with
      | none => (JSMN_ERROR_NOMEM, { parser with pos := start }, some ts)
      | some (i, p1, ts1) =>
        (0, p1, some (Function.update ts1 i
          { jsmn_fill_token_pl (ts1 i) JSMN_STRING ((start : Int) + 1) pos with
            parent := p1.toksuper }))
  | StrScan.inval => (JSMN_ERROR_INVAL, { parser with pos := start }, tokens)
  | StrScan.part => (JSMN_ERROR_PART, { parser with pos := start }, tokens)

/-- The tokens without their `parent` field. -/
def strip (tokens : TokensPL) : Tokens :=
  fun i => (tokens i).tojsmntok_t

/-- How the walk along the parent links at a closing bracket ends
(jsmn.c 190-207): on an open token; on a token that is not open and has
`parent == -1`; or not at all. -/
inductive Walk
  | found (i : Nat)
  | root (i : Nat)
  | hang
  deriving DecidableEq

/-- The loop `for (;;)` of the closing bracket case (jsmn.c 190-207), started
on token `i`.  The first argument bounds the number of tokens visited; it is
set to `toknext`: from `jsmn_init` on every `parent` is below the index of its
token, so the walk visits fewer tokens than that, and a walk that visits more
has left the allocated tokens or turns in a circle (`hang`). -/
def walk_open (tokens : TokensPL) : Nat → Nat → Walk
  | 0, _ => Walk.hang
  | fuel + 1, i =>
    if is_open (tokens i).tojsmntok_t = true then Walk.found i
    else if (tokens i).parent = -1 then Walk.root i
    else walk_open tokens fuel (tokens i).parent.toNat

/-- The statement `tokens[i].size++` in the build with parent links. -/
def incr_size_pl (tokens : TokensPL) (i : Nat) : TokensPL :=
  Function.update tokens i { tokens i with size := (tokens i).size + 1 }

/-- The statement `if (parser->toksuper != -1 && tokens != NULL)
tokens[parser->toksuper].size++;` in the build with parent links. -/
def incr_super_pl (parser : jsmn_parser_t) (tokens : Option TokensPL) : Option TokensPL :=
  match tokens with
  | none => none
  | some ts =>
    if parser.toksuper ≠ -1 then some (incr_size_pl ts parser.toksuper.toNat) else some ts

/-- The body of the `for` loop of `jsmn_parse` with `JSMN_PARENT_LINKS`
(jsmn.c 162-290).  `Except.error (some r)` is a `return r` from inside the
loop, `Except.error none` a walk along the parent links that does not end,
`Except.ok` carries `count`, the parser and the array to the loop increment. -/
def parse_switch_pl (js : List Nat) (len : Nat) (num_tokens : Nat) (count : Int)
    (parser : jsmn_parser_t) (tokens : Option TokensPL) :
    Except (Option ParseResultPL) (Int × jsmn_parser_t × Option TokensPL) :=
  let c := byte_at js parser.pos
  if c = 123 ∨ c = 91 then
    match tokens with
    | none => Except.ok (count + 1, parser, none)
    | some ts =>
      match jsmn_alloc_token_pl parser ts num_tokens with
      | none => Except.error (some (JSMN_ERROR_NOMEM, parser, some ts))
      | some (i, p1, ts1) =>
        let ts2 :=
          if p1.toksuper ≠ -1 then
            Function.update (incr_size_pl ts1 p1.toksuper.toNat) i
              { incr_size_pl ts1 p1.toksuper.toNat i with parent := p1.toksuper }
          else ts1
        let ts3 := Function.update ts2 i
          { ts2 i with type := (if c = 123 then JSMN_OBJECT else JSMN_ARRAY), start := p1.pos }
        Except.ok (count + 1, { p1 with toksuper := (p1.toknext : Int) - 1 }, some ts3)
  else if c = 125 ∨ c = 93 then
    match tokens with
    | none => Except.ok (count, parser, none)
    | some ts =>
      if parser.toknext < 1 then Except.error (some (JSMN_ERROR_INVAL, parser, some ts))
      else
        match walk_open ts parser.toknext (parser.toknext - 1) with
        | Walk.found i =>
          if (ts i).type ≠ (if c = 125 then JSMN_OBJECT else JSMN_ARRAY) then
            Except.error (some (JSMN_ERROR_INVAL, parser, some ts))
          else
            Except.ok (count, { parser with toksuper := (ts i).parent },
              some (Function.update ts i { ts i with end_ := (parser.pos : Int) + 1 }))
        | Walk.root i =>
          if (ts i).type ≠ (if c = 125 then JSMN_OBJECT else JSMN_ARRAY) ∨
              parser.toksuper = -1 then
            Except.error (some (JSMN_ERROR_INVAL, parser, some ts))
          else Except.ok (count, parser, some ts)
        | Walk.hang => Except.error none
  else if c = 34 then
    match jsmn_parse_string_pl parser js len tokens num_tokens with
    | (r, p1, toks1) =>
      if r < 0 then Except.error (some (r, p1, toks1))
      else Except.ok (count + 1, p1, incr_super_pl p1 toks1)
  else if c = 9 ∨ c = 13 ∨ c = 10 ∨ c = 32 then
    Except.ok (count, parser, tokens)
  else if c = 58 then
    Except.ok (count, { parser with toksuper := (parser.toknext : Int) - 1 }, tokens)
  else if c = 44 then
    match tokens with
    | none => Except.ok (count, parser, none)
    | some ts =>
      if parser.toksuper ≠ -1 ∧ (ts parser.toksuper.toNat).type ≠ JSMN_ARRAY ∧
          (ts parser.toksuper.toNat).type ≠ JSMN_OBJECT then
        Except.ok (count, { parser with toksuper := (ts parser.toksuper.toNat).parent }, some ts)
      else Except.ok (count, parser, some ts)
  else
    match jsmn_parse_primitive_pl parser js len tokens num_tokens with
    | (r, p1, toks1) =>
      if r < 0 then Except.error (some (r, p1, toks1))
      else Except.ok (count + 1, p1, incr_super_pl p1 toks1)

/-- The end of `jsmn_parse` after the loop (jsmn.c 293-302), which reads only
`start` and `end`, in the build with parent links. -/
def parse_finish_pl (count : Int) (parser : jsmn_parser_t) (tokens : Option TokensPL) :
    ParseResultPL :=
  match tokens with
  | none => (count, parser, none)
  | some ts =>
    match find_open (strip ts) parser.toknext with
    | some _ => (JSMN_ERROR_PART, parser, some ts)
    | none => (count, parser, some ts)

/-- The `for` loop of `jsmn_parse` (jsmn.c 158-291) followed by its end, with
`JSMN_PARENT_LINKS`; `none` when the call does not return. -/
def parse_loop_pl (js : List Nat) (len : Nat) (num_tokens : Nat) :
    Nat → Int → jsmn_parser_t → Option TokensPL → Option ParseResultPL
  | 0, count, parser, tokens => some (parse_finish_pl count parser tokens)
  | fuel + 1, count, parser, tokens =>
    if parser.pos < len ∧ byte_at js parser.pos ≠ 0 then
      match parse_switch_pl js len num_tokens count parser tokens with
      | Except.error r => r
      | Except.ok (count1, p1, toks1) =>
        parse_loop_pl js len num_tokens fuel count1 { p1 with pos := p1.pos + 1 } toks1
    else some (parse_finish_pl count parser tokens)

/-- `jsmn_parse` (jsmn.c 151-303) with `JSMN_PARENT_LINKS`; `none` when the
call does not return. -/
def jsmn_parse_pl (parser : jsmn_parser_t) (js : List Nat) (len : Nat)
    (tokens : Option TokensPL) (num_tokens : Nat) : Option ParseResultPL :=
  parse_loop_pl js len num_tokens (len - parser.pos) (parser.toknext : Int) parser tokens

/-- A token array of the build with parent links whose slots all hold the
default token. -/
def blank_tokens_pl : TokensPL := fun _ => default

/-- The return value and the token `tokens[i]` a call hands back in the build
with parent links, without the `parent` field (`none` when the call does not
return or the array is null). -/
def result_token_pl (r : Option ParseResultPL) (i : Nat) : Option jsmntok_t :=
  match r with
  | some (_, _, some ts) => some (ts i).tojsmntok_t
  | _ => none

/-- The array after `tokens[parser->toksuper].size++` guarded by
`parser->toksuper != -1`, in the build with parent links. -/
def super_incr_pl (us : TokensPL) (p : jsmn_parser_t) : TokensPL :=
  if p.toksuper ≠ -1 then incr_size_pl us p.toksuper.toNat else us

/-- The array after the `{` / `[` case with parent links (jsmn.c 169-179). -/
def open_write_pl (us : TokensPL) (p : jsmn_parser_t) (obj : Bool) : TokensPL :=
  Function.update
    (if p.toksuper ≠ -1 then
      Function.update
        (incr_size_pl (Function.update us p.toknext
          { us p.toknext with start := -1, end_ := -1, size := 0, parent := -1 })
          p.toksuper.toNat) p.toknext
        { incr_size_pl (Function.update us p.toknext
            { us p.toknext with start := -1, end_ := -1, size := 0, parent := -1 })
            p.toksuper.toNat p.toknext with parent := p.toksuper }
    else Function.update us p.toknext
      { us p.toknext with start := -1, end_ := -1, size := 0, parent := -1 })
    p.toknext
    { (if p.toksuper ≠ -1 then
        Function.update
          (incr_size_pl (Function.update us p.toknext
            { us p.toknext with start := -1, end_ := -1, size := 0, parent := -1 })
            p.toksuper.toNat) p.toknext
          { incr_size_pl (Function.update us p.toknext
              { us p.toknext with start := -1, end_ := -1, size := 0, parent := -1 })
              p.toksuper.toNat p.toknext with parent := p.toksuper }
      else Function.update us p.toknext
        { us p.toknext with start := -1, end_ := -1, size := 0, parent := -1 }) p.toknext with
      type := bracket_type obj, start := (p.pos : Int) }

/-- The array after `token->end = parser->pos + 1` on token `i` (jsmn.c 195). -/
def close_write_pl (us : TokensPL) (i : Nat) (pos : Nat) : TokensPL :=
  Function.update us i { us i with end_ := (pos : Int) + 1 }

/-- The array after `jsmn_parse_string` closed a string at `q`, with parent
links (jsmn.c 106-109). -/
def string_write_pl (us : TokensPL) (p : jsmn_parser_t) (q : Nat) : TokensPL :=
  Function.update us p.toknext
    { type := JSMN_STRING, start := (p.pos : Int) + 1, end_ := (q : Int), size := 0,
      parent := p.toksuper }

/-- The array after `jsmn_parse_primitive` stopped at `q`, with parent links
(jsmn.c 73-76). -/
def primitive_write_pl (us : TokensPL) (p : jsmn_parser_t) (q : Nat) : TokensPL :=
  Function.update us p.toknext
    { type := JSMN_PRIMITIVE, start := (p.pos : Int), end_ := (q : Int), size := 0,
      parent := p.toksuper }

/-- The value `parser->toksuper` has after a comma, with parent links
(jsmn.c 244-248). -/
def comma_super_pl (us : TokensPL) (p : jsmn_parser_t) : Int :=
  if p.toksuper ≠ -1 ∧ (us p.toksuper.toNat).type ≠ JSMN_ARRAY ∧
      (us p.toksuper.toNat).type ≠ JSMN_OBJECT then
    (us p.toksuper.toNat).parent
  else p.toksuper

/-- The loop body on a non-null token array with parent links, given the
classification. -/
def tok_apply_pl (cap : Nat) (count : Int) (p : jsmn_parser_t) (us : TokensPL) :
    Lex → Except (Option ParseResultPL) (Int × jsmn_parser_t × Option TokensPL)
  | Lex.opn obj =>
    if cap ≤ p.toknext then Except.error (some (JSMN_ERROR_NOMEM, p, some us))
    else Except.ok (count + 1,
      { pos := p.pos, toknext := p.toknext + 1, toksuper := (p.toknext : Int) },
      some (open_write_pl us p obj))
  | Lex.cls obj =>
    if p.toknext < 1 then Except.error (some (JSMN_ERROR_INVAL, p, some us))
    else
      match walk_open us p.toknext (p.toknext - 1) with
      | Walk.found i =>
        if (us i).type ≠ bracket_type obj then
          Except.error (some (JSMN_ERROR_INVAL, p, some us))
        else
          Except.ok (count, { p with toksuper := (us i).parent },
            some (close_write_pl us i p.pos))
      | Walk.root i =>
        if (us i).type ≠ bracket_type obj ∨ p.toksuper = -1 then
          Except.error (some (JSMN_ERROR_INVAL, p, some us))
        else Except.ok (count, p, some us)
      | Walk.hang => Except.error none
  | Lex.str (StrScan.closed q) =>
    if cap ≤ p.toknext then Except.error (some (JSMN_ERROR_NOMEM, p, some us))
    else Except.ok (count + 1,
      { pos := q, toknext := p.toknext + 1, toksuper := p.toksuper },
      some (super_incr_pl (string_write_pl us p q) p))
  | Lex.str StrScan.inval => Except.error (some (JSMN_ERROR_INVAL, p, some us))
  | Lex.str StrScan.part => Except.error (some (JSMN_ERROR_PART, p, some us))
  | Lex.ws => Except.ok (count, p, some us)
  | Lex.colon => Except.ok (count, { p with toksuper := (p.toknext : Int) - 1 }, some us)
  | Lex.comma => Except.ok (count, { p with toksuper := comma_super_pl us p }, some us)
  | Lex.prim none => Except.error (some (JSMN_ERROR_INVAL, p, some us))
  | Lex.prim (some q) =>
    if cap ≤ p.toknext then Except.error (some (JSMN_ERROR_NOMEM, p, some us))
    else Except.ok (count + 1,
      { pos := q - 1, toknext := p.toknext + 1, toksuper := p.toksuper },
      some (super_incr_pl (primitive_write_pl us p q) p))

/-- The classification `lex` makes on the first byte of a lexeme that lies
whole inside the buffer, from index `pos` on. -/
def lexeme_class (l : Lexeme) (pos : Nat) : Lex :=
  match l with
  | Lexeme.ws _ => Lex.ws
  | Lexeme.opn obj => Lex.opn obj
  | Lexeme.cls obj => Lex.cls obj
  | Lexeme.colon => Lex.colon
  | Lexeme.comma => Lex.comma
  | Lexeme.str body => Lex.str (StrScan.closed (pos + 1 + body.length))
  | Lexeme.prim bs => Lex.prim (some (pos + bs.length))

/-- The parser and the array at the next loop head after the loop iteration
on lexeme `l`, in the build with parent links, when that iteration does not
return. -/
def lex_next_pl (l : Lexeme) (p : jsmn_parser_t) (us : TokensPL) :
    jsmn_parser_t × TokensPL :=
  match l with
  | Lexeme.ws _ => ({ pos := p.pos + 1, toknext := p.toknext, toksuper := p.toksuper }, us)
  | Lexeme.opn obj =>
    ({ pos := p.pos + 1, toknext := p.toknext + 1, toksuper := (p.toknext : Int) },
      open_write_pl us p obj)
  | Lexeme.cls _ =>
    match walk_open us p.toknext (p.toknext - 1) with
    | Walk.found i =>
      ({ pos := p.pos + 1, toknext := p.toknext, toksuper := (us i).parent },
        close_write_pl us i p.pos)
    | _ => (p, us)
  | Lexeme.colon =>
    ({ pos := p.pos + 1, toknext := p.toknext, toksuper := (p.toknext : Int) - 1 }, us)
  | Lexeme.comma =>
    ({ pos := p.pos + 1, toknext := p.toknext, toksuper := comma_super_pl us p }, us)
  | Lexeme.str body =>
    ({ pos := p.pos + 1 + body.length + 1, toknext := p.toknext + 1, toksuper := p.toksuper },
      super_incr_pl (string_write_pl us p (p.pos + 1 + body.length)) p)
  | Lexeme.prim bs =>
    ({ pos := p.pos + bs.length - 1 + 1, toknext := p.toknext + 1, toksuper := p.toksuper },
      super_incr_pl (primitive_write_pl us p (p.pos + bs.length)) p)

/-- The parser and the array after the loop iterations on a sequence of
lexemes, in the build with parent links. -/
def lex_run_pl : List Lexeme → jsmn_parser_t → TokensPL → jsmn_parser_t × TokensPL
  | [], p, us => (p, us)
  | l :: r, p, us => lex_run_pl r (lex_next_pl l p us).1 (lex_next_pl l p us).2

/-- The lexemes the scan gets through with room for `b` more tokens: those
before the first one that needs a token when none is left. -/
def cap_take : List Lexeme → Nat → List Lexeme
  | [], _ => []
  | l :: r, b => if l.tokens ≤ b then l :: cap_take r (b - l.tokens) else []

/-- At every closing bracket of the sequence, the walk along the parent links
ends on an open token of the kind of the bracket. -/
def closes_ok_pl : List Lexeme → jsmn_parser_t → TokensPL → Prop
  | [], _, _ => True
  | l :: r, p, us =>
    (match l with
      | Lexeme.cls obj => 1 ≤ p.toknext ∧
        ∃ i, walk_open us p.toknext (p.toknext - 1) = Walk.found i ∧
          (us i).type = bracket_type obj
      | _ => True) ∧
    closes_ok_pl r (lex_next_pl l p us).1 (lex_next_pl l p us).2

/-- The parent links of the tokens below `n` point downwards and not below
the nearest open token: for a token `i` with an open token below it, `parent`
lies between the nearest such token and `i`. -/
def LinkInv (us : TokensPL) (n : Nat) : Prop :=
  ∀ i, i < n → ∀ e, find_open (strip us) i = some e →
    (e : Int) ≤ (us i).parent ∧ (us i).parent < (i : Int)

/-- The states of the two builds correspond: same position, same next free
slot, same tokens but for `parent`. -/
def Sim (p : jsmn_parser_t) (ts : Tokens) (q : jsmn_parser_t) (us : TokensPL) : Prop :=
  q.pos = p.pos ∧ q.toknext = p.toknext ∧ ts = strip us

/-- At a closing bracket the walk along the parent links ends on an open token
of the kind of the bracket. -/
def step_ok (l : Lexeme) (q : jsmn_parser_t) (us : TokensPL) : Prop :=
  match l with
  | Lexeme.cls obj => 1 ≤ q.toknext ∧
    ∃ i, walk_open us q.toknext (q.toknext - 1) = Walk.found i ∧
      (us i).type = bracket_type obj
  | _ => True

/-- The runs of the two builds over a sequence of lexemes stay in
correspondence at every lexeme, every closing bracket finds its open token by
the parent links, and the states after the sequence satisfy `Post`. -/
def sim_run : List Lexeme → jsmn_parser_t → Tokens → jsmn_parser_t → TokensPL →
    (jsmn_parser_t → Tokens → jsmn_parser_t → TokensPL → Prop) → Prop
  | [], p, ts, q, us, Post => Sim p ts q us ∧ Post p ts q us
  | l :: r, p, ts, q, us, Post =>
    Sim p ts q us ∧ step_ok l q us ∧
    sim_run r (lex_next l p ts).1 (lex_next l p ts).2 (lex_next_pl l q us).1
      (lex_next_pl l q us).2 Post

/-- The two builds side by side over the lexemes of a value, started in
corresponding states with the same `toksuper` and the parent links in order:
they stay in correspondence, the build with parent links has `toksuper` back
at its old value after the value, the parent links are in order again and
those of the tokens allocated before are untouched. -/
def value_sim (v : Json JKind.value) : Prop :=
  ∀ (p : jsmn_parser_t) (ts : Tokens) (q : jsmn_parser_t) (us : TokensPL),
    Sim p ts q us → q.toksuper = p.toksuper → SuperInv p →
    (∀ e, find_open ts p.toknext = some e → (e : Int) ≤ p.toksuper) →
    LinkInv us q.toknext →
    sim_run v.lexemes p ts q us (fun _ _ q1 us1 =>
      q1.toksuper = q.toksuper ∧ LinkInv us1 q1.toknext ∧
      ∀ i, i < q.toknext → (us1 i).parent = (us i).parent)

/-- The two builds side by side over the elements of an array or the members
of an object, started in corresponding states with `toksuper` on the token
`a` of that array or object, the nearest open token. -/
def body_sim {k : JKind} (b : Json k) : Prop :=
  ∀ (p : jsmn_parser_t) (ts : Tokens) (q : jsmn_parser_t) (us : TokensPL) (a : Nat),
    Sim p ts q us → a < p.toknext → p.toksuper = (a : Int) → q.toksuper = (a : Int) →
    ((ts a).type = JSMN_ARRAY ∨ (ts a).type = JSMN_OBJECT) →
    find_open ts p.toknext = some a → LinkInv us q.toknext →
    sim_run b.lexemes p ts q us (fun _ _ q1 us1 =>
      LinkInv us1 q1.toknext ∧ ∀ i, i < q.toknext → (us1 i).parent = (us i).parent)

/-- The correspondence of the two builds over the lexemes of a JSON tree, by
kind. -/
def link_spec : (k : JKind) → Json k → Prop
  | JKind.value, v => value_sim v
  | JKind.elems, es => body_sim es
  | JKind.members, ms => body_sim ms

/-- The document `{"a":[1,{}],"b":1}` as a tree. -/
def tree_nest : JsonDoc :=
  { lead := [], value := Json.obj (Json.members [] [97] [] [] (Json.arr (Json.elems [] (Json.prim [49]) [] (Json.elem [] (Json.obj0 []) []))) [] (Json.member [] [98] [] [] (Json.prim [49]) [])), trail := [] }

/-! ## Scanning loops -/

theorem primitive_scan_ge (js : List Nat) (len : Nat) :
    ∀ fuel pos q, primitive_scan js len fuel pos = some q → pos ≤ q := by
  intro fuel
  induction fuel with
  | zero => intro pos q h; simp [primitive_scan] at h; omega
  | succ n ih =>
    intro pos q h
    unfold primitive_scan at h
    split_ifs at h with h1 h2 h3
    · simp at h; omega
    · have := ih _ _ h; omega
    · simp at h; omega

theorem primitive_scan_le (js : List Nat) (len : Nat) :
    ∀ fuel pos q, primitive_scan js len fuel pos = some q → pos ≤ len → q ≤ len := by
  intro fuel
  induction fuel with
  | zero => intro pos q h hl; simp [primitive_scan] at h; omega
  | succ n ih =>
    intro pos q h hl
    unfold primitive_scan at h
    split_ifs at h with h1 h2 h3
    · simp at h; omega
    · exact ih _ _ h (by omega)
    · simp at h; omega

/-- The first byte of a primitive is consumed when it is neither a boundary
nor NUL: label `found` is reached past it. -/
theorem primitive_scan_gt (js : List Nat) (len : Nat) (pos q : Nat)
    (hlt : pos < len) (h0 : byte_at js pos ≠ 0) (hb : is_prim_boundary (byte_at js pos) = false)
    (h : primitive_scan js len (len - pos) pos = some q) : pos + 1 ≤ q := by
  obtain ⟨k, hk⟩ : ∃ k, len - pos = k + 1 := ⟨len - pos - 1, by omega⟩
  rw [hk] at h
  unfold primitive_scan at h
  rw [if_pos ⟨hlt, h0⟩, hb] at h
  simp only [Bool.false_eq_true, if_false] at h
  split_ifs at h with h3
  exact primitive_scan_ge js len _ _ _ h

theorem hex_scan_ge (js : List Nat) (len : Nat) :
    ∀ n pos q, hex_scan js len n pos = some q → pos ≤ q := by
  intro n
  induction n with
  | zero => intro pos q h; simp [hex_scan] at h; omega
  | succ n ih =>
    intro pos q h
    unfold hex_scan at h
    split_ifs at h with h1 h2
    · have := ih _ _ h; omega
    · simp at h; omega

theorem string_scan_closed (js : List Nat) (len : Nat) :
    ∀ fuel pos q, string_scan js len fuel pos = StrScan.closed q →
      pos ≤ q ∧ q < len ∧ byte_at js q = 34 := by
  intro fuel
  induction fuel with
  | zero => intro pos q h; simp [string_scan] at h
  | succ n ih =>
    intro pos q h
    unfold string_scan at h
    split_ifs at h with h1 h2 h3 h4 h5
    · simp at h; subst h; exact ⟨le_refl _, h1.1, h2⟩
    · have := ih _ _ h; omega
    · split at h
      · simp at h
      · rename_i q1 hq1
        have := ih _ _ h
        have := hex_scan_ge js len _ _ _ hq1
        omega
    · have := ih _ _ h; omega

theorem jsmn_parse_string_some (p : jsmn_parser_t) (js : List Nat) (len : Nat)
    (ts : Tokens) (cap : Nat) :
    jsmn_parse_string p js len (some ts) cap =
      match string_scan js len (len - (p.pos + 1)) (p.pos + 1) with
      | StrScan.closed q =>
        if cap ≤ p.toknext then (JSMN_ERROR_NOMEM, p, some ts)
        else (0, { pos := q, toknext := p.toknext + 1, toksuper := p.toksuper },
              some (string_write ts p q))
      | StrScan.inval => (JSMN_ERROR_INVAL, p, some ts)
      | StrScan.part => (JSMN_ERROR_PART, p, some ts) := by
  unfold jsmn_parse_string jsmn_alloc_token string_write jsmn_fill_token
  cases string_scan js len (len - (p.pos + 1)) (p.pos + 1) with
  | closed q =>
    by_cases hc : cap ≤ p.toknext
    · simp [hc]
    · simp [hc]
  | inval => rfl
  | part => rfl

theorem jsmn_parse_string_none (p : jsmn_parser_t) (js : List Nat) (len : Nat) (cap : Nat) :
    jsmn_parse_string p js len none cap =
      match string_scan js len (len - (p.pos + 1)) (p.pos + 1) with
      | StrScan.closed q => (0, { p with pos := q }, none)
      | StrScan.inval => (JSMN_ERROR_INVAL, p, none)
      | StrScan.part => (JSMN_ERROR_PART, p, none) := by
  unfold jsmn_parse_string
  cases string_scan js len (len - (p.pos + 1)) (p.pos + 1) <;> rfl

theorem jsmn_parse_primitive_some (p : jsmn_parser_t) (js : List Nat) (len : Nat)
    (ts : Tokens) (cap : Nat) :
    jsmn_parse_primitive p js len (some ts) cap =
      match primitive_scan js len (len - p.pos) p.pos with
      | none => (JSMN_ERROR_INVAL, p, some ts)
      | some q =>
        if cap ≤ p.toknext then (JSMN_ERROR_NOMEM, p, some ts)
        else (0, { pos := q - 1, toknext := p.toknext + 1, toksuper := p.toksuper },
              some (primitive_write ts p q)) := by
  unfold jsmn_parse_primitive jsmn_alloc_token primitive_write jsmn_fill_token
  cases primitive_scan js len (len - p.pos) p.pos with
  | none => rfl
  | some q =>
    by_cases hc : cap ≤ p.toknext
    · simp [hc]
    · simp [hc]

theorem jsmn_parse_primitive_none (p : jsmn_parser_t) (js : List Nat) (len : Nat) (cap : Nat) :
    jsmn_parse_primitive p js len none cap =
      match primitive_scan js len (len - p.pos) p.pos with
      | none => (JSMN_ERROR_INVAL, p, none)
      | some q => (0, { p with pos := q - 1 }, none) := by
  unfold jsmn_parse_primitive
  cases primitive_scan js len (len - p.pos) p.pos <;> rfl

theorem neg_codes : JSMN_ERROR_NOMEM < 0 ∧ JSMN_ERROR_INVAL < 0 ∧ JSMN_ERROR_PART < 0 := by
  decide

/-- On a non-null array the loop body is `tok_apply` after `lex`. -/
theorem parse_switch_some (js : List Nat) (len cap : Nat) (count : Int) (p : jsmn_parser_t)
    (ts : Tokens) :
    parse_switch js len cap count p (some ts) = tok_apply cap count p ts (lex js len p.pos) := by
  unfold parse_switch lex
  simp only []
  by_cases h1 : byte_at js p.pos = 123
  · simp [h1, tok_apply, jsmn_alloc_token, open_write, super_incr, bracket_type]
    by_cases hc : cap ≤ p.toknext
    · simp [hc]
    · simp [hc]
  by_cases h2 : byte_at js p.pos = 91
  · simp [h2, tok_apply, jsmn_alloc_token, open_write, super_incr, bracket_type]
    by_cases hc : cap ≤ p.toknext
    · simp [hc]
    · simp [hc]
  by_cases h3 : byte_at js p.pos = 125
  · simp only [h3, tok_apply, bracket_type, close_write]
    simp
  by_cases h4 : byte_at js p.pos = 93
  · simp only [h4, tok_apply, bracket_type, close_write]
    simp
  by_cases h5 : byte_at js p.pos = 34
  · simp only [h5]
    simp
    rw [jsmn_parse_string_some]
    cases string_scan js len (len - (p.pos + 1)) (p.pos + 1) with
    | closed q =>
      by_cases hc : cap ≤ p.toknext
      · simp [hc, tok_apply, neg_codes.1]
      · simp [hc, tok_apply, incr_super, super_incr]
        split_ifs <;> rfl
    | inval => simp [tok_apply, neg_codes.2.1]
    | part => simp [tok_apply, neg_codes.2.2]
  by_cases h6 : byte_at js p.pos = 9 ∨ byte_at js p.pos = 13 ∨ byte_at js p.pos = 10 ∨
      byte_at js p.pos = 32
  · simp [h1, h2, h3, h4, h5, h6, tok_apply]
  by_cases h7 : byte_at js p.pos = 58
  · simp [h7, tok_apply]
  by_cases h8 : byte_at js p.pos = 44
  · simp only [h8, tok_apply]
    simp
  · simp only [h1, h2, h3, h4, h5, h6, h7, h8, or_self, if_false]
    rw [jsmn_parse_primitive_some]
    cases primitive_scan js len (len - p.pos) p.pos with
    | none => simp [tok_apply, neg_codes.2.1]
    | some q =>
      by_cases hc : cap ≤ p.toknext
      · simp [hc, tok_apply, neg_codes.1]
      · simp [hc, tok_apply, incr_super, super_incr]
        split_ifs <;> rfl

/-- On a null array the loop body is `null_apply` after `lex`. -/
theorem parse_switch_none (js : List Nat) (len cap : Nat) (count : Int) (p : jsmn_parser_t) :
    parse_switch js len cap count p none = null_apply count p (lex js len p.pos) := by
  unfold parse_switch lex
  simp only []
  by_cases h1 : byte_at js p.pos = 123
  · simp [h1, null_apply]
  by_cases h2 : byte_at js p.pos = 91
  · simp [h2, null_apply]
  by_cases h3 : byte_at js p.pos = 125
  · simp [h3, null_apply]
  by_cases h4 : byte_at js p.pos = 93
  · simp [h4, null_apply]
  by_cases h5 : byte_at js p.pos = 34
  · simp only [h5]
    simp
    rw [jsmn_parse_string_none]
    cases string_scan js len (len - (p.pos + 1)) (p.pos + 1) with
    | closed q => simp [null_apply, incr_super]
    | inval => simp [null_apply, neg_codes.2.1]
    | part => simp [null_apply, neg_codes.2.2]
  by_cases h6 : byte_at js p.pos = 9 ∨ byte_at js p.pos = 13 ∨ byte_at js p.pos = 10 ∨
      byte_at js p.pos = 32
  · simp [h1, h2, h3, h4, h5, h6, null_apply]
  by_cases h7 : byte_at js p.pos = 58
  · simp [h7, null_apply]
  by_cases h8 : byte_at js p.pos = 44
  · simp [h8, null_apply]
  · simp only [h1, h2, h3, h4, h5, h6, h7, h8, or_self, if_false]
    rw [jsmn_parse_primitive_none]
    cases primitive_scan js len (len - p.pos) p.pos with
    | none => simp [null_apply, neg_codes.2.1]
    | some q => simp [null_apply, incr_super]

/-! ## Facts about the classification -/

theorem lex_opn (js : List Nat) (len pos : Nat) (obj : Bool)
    (h : lex js len pos = Lex.opn obj) :
    byte_at js pos = (if obj then 123 else 91) := by
  unfold lex at h
  split_ifs at h <;> simp_all

theorem lex_cls (js : List Nat) (len pos : Nat) (obj : Bool)
    (h : lex js len pos = Lex.cls obj) :
    byte_at js pos = (if obj then 125 else 93) := by
  unfold lex at h
  split_ifs at h <;> simp_all

theorem lex_str (js : List Nat) (len pos : Nat) (r : StrScan)
    (h : lex js len pos = Lex.str r) :
    byte_at js pos = 34 ∧ r = string_scan js len (len - (pos + 1)) (pos + 1) := by
  unfold lex at h
  split_ifs at h
  simp_all

theorem lex_str_closed (js : List Nat) (len pos q : Nat)
    (h : lex js len pos = Lex.str (StrScan.closed q)) :
    byte_at js pos = 34 ∧ pos + 1 ≤ q ∧ q < len ∧ byte_at js q = 34 := by
  obtain ⟨h1, h2⟩ := lex_str js len pos _ h
  exact ⟨h1, string_scan_closed js len _ _ _ h2.symm⟩

theorem lex_prim (js : List Nat) (len pos : Nat) (r : Option Nat)
    (h : lex js len pos = Lex.prim r) :
    is_prim_boundary (byte_at js pos) = false ∧ byte_at js pos ≠ 34 ∧
      byte_at js pos ≠ 123 ∧ byte_at js pos ≠ 91 ∧
      r = primitive_scan js len (len - pos) pos := by
  unfold lex at h
  split_ifs at h with h1 h2 h3 h4 h5 h6 h7 h8
  simp only [Lex.prim.injEq] at h
  refine ⟨?_, h5, h1, h2, h.symm⟩
  simp only [not_or] at h6
  simp [is_prim_boundary, h3, h4, h6, h7, h8]

theorem lex_prim_some (js : List Nat) (len pos q : Nat)
    (hlt : pos < len) (h0 : byte_at js pos ≠ 0)
    (h : lex js len pos = Lex.prim (some q)) : pos + 1 ≤ q ∧ q ≤ len := by
  obtain ⟨hb, -, -, -, hr⟩ := lex_prim js len pos _ h
  exact ⟨primitive_scan_gt js len pos q hlt h0 hb hr.symm,
    primitive_scan_le js len _ _ _ hr.symm (le_of_lt hlt)⟩

/-! ## The loop body advances -/

theorem tok_apply_pos (js : List Nat) (len cap : Nat) (count : Int) (p : jsmn_parser_t)
    (ts : Tokens) (hlt : p.pos < len) (h0 : byte_at js p.pos ≠ 0)
    (c1 : Int) (p1 : jsmn_parser_t) (t1 : Option Tokens)
    (h : tok_apply cap count p ts (lex js len p.pos) = Except.ok (c1, p1, t1)) :
    p.pos ≤ p1.pos ∧ p1.pos < len := by
  cases hl : lex js len p.pos with
  | opn obj =>
    rw [hl] at h; simp only [tok_apply] at h
    split_ifs at h
    simp only [Except.ok.injEq, Prod.mk.injEq] at h
    obtain ⟨-, rfl, -⟩ := h
    exact ⟨le_refl _, hlt⟩
  | cls obj =>
    rw [hl] at h; simp only [tok_apply] at h
    split at h
    · simp at h
    · split_ifs at h
      split at h <;>
      · simp only [Except.ok.injEq, Prod.mk.injEq] at h
        obtain ⟨-, rfl, -⟩ := h
        exact ⟨le_refl _, hlt⟩
  | str r =>
    cases r with
    | closed q =>
      have := lex_str_closed js len p.pos q hl
      rw [hl] at h; simp only [tok_apply] at h
      split_ifs at h
      simp only [Except.ok.injEq, Prod.mk.injEq] at h
      obtain ⟨-, rfl, -⟩ := h
      simp only; omega
    | inval => rw [hl] at h; simp [tok_apply] at h
    | part => rw [hl] at h; simp [tok_apply] at h
  | ws =>
    rw [hl] at h; simp only [tok_apply, Except.ok.injEq, Prod.mk.injEq] at h
    obtain ⟨-, rfl, -⟩ := h
    exact ⟨le_refl _, hlt⟩
  | colon =>
    rw [hl] at h; simp only [tok_apply, Except.ok.injEq, Prod.mk.injEq] at h
    obtain ⟨-, rfl, -⟩ := h
    exact ⟨le_refl _, hlt⟩
  | comma =>
    rw [hl] at h; simp only [tok_apply] at h
    split_ifs at h
    · split at h <;>
      · simp only [Except.ok.injEq, Prod.mk.injEq] at h
        obtain ⟨-, rfl, -⟩ := h
        exact ⟨le_refl _, hlt⟩
    · simp only [Except.ok.injEq, Prod.mk.injEq] at h
      obtain ⟨-, rfl, -⟩ := h
      exact ⟨le_refl _, hlt⟩
  | prim r =>
    cases r with
    | none => rw [hl] at h; simp [tok_apply] at h
    | some q =>
      have := lex_prim_some js len p.pos q hlt h0 hl
      rw [hl] at h; simp only [tok_apply] at h
      split_ifs at h
      simp only [Except.ok.injEq, Prod.mk.injEq] at h
      obtain ⟨-, rfl, -⟩ := h
      simp only; omega

theorem null_apply_pos (js : List Nat) (len : Nat) (count : Int) (p : jsmn_parser_t)
    (hlt : p.pos < len) (h0 : byte_at js p.pos ≠ 0)
    (c1 : Int) (p1 : jsmn_parser_t) (t1 : Option Tokens)
    (h : null_apply count p (lex js len p.pos) = Except.ok (c1, p1, t1)) :
    p.pos ≤ p1.pos ∧ p1.pos < len := by
  cases hl : lex js len p.pos with
  | str r =>
    cases r with
    | closed q =>
      have := lex_str_closed js len p.pos q hl
      rw [hl] at h; simp only [null_apply, Except.ok.injEq, Prod.mk.injEq] at h
      obtain ⟨-, rfl, -⟩ := h
      simp only; omega
    | inval => rw [hl] at h; simp [null_apply] at h
    | part => rw [hl] at h; simp [null_apply] at h
  | prim r =>
    cases r with
    | none => rw [hl] at h; simp [null_apply] at h
    | some q =>
      have := lex_prim_some js len p.pos q hlt h0 hl
      rw [hl] at h; simp only [null_apply, Except.ok.injEq, Prod.mk.injEq] at h
      obtain ⟨-, rfl, -⟩ := h
      simp only; omega
  | _ =>
    rw [hl] at h; simp only [null_apply, Except.ok.injEq, Prod.mk.injEq] at h
    obtain ⟨-, rfl, -⟩ := h
    exact ⟨le_refl _, hlt⟩

theorem parse_switch_pos (js : List Nat) (len cap : Nat) (count : Int) (p : jsmn_parser_t)
    (toks : Option Tokens) (hlt : p.pos < len) (h0 : byte_at js p.pos ≠ 0)
    (c1 : Int) (p1 : jsmn_parser_t) (t1 : Option Tokens)
    (h : parse_switch js len cap count p toks = Except.ok (c1, p1, t1)) :
    p.pos ≤ p1.pos ∧ p1.pos < len := by
  cases toks with
  | none =>
    rw [parse_switch_none] at h
    exact null_apply_pos js len count p hlt h0 c1 p1 t1 h
  | some ts =>
    rw [parse_switch_some] at h
    exact tok_apply_pos js len cap count p ts hlt h0 c1 p1 t1 h

/-! ## The main loop with the fuel of `jsmn_parse` -/

theorem parse_loop_fuel_succ (js : List Nat) (len cap : Nat) :
    ∀ fuel count p toks, len - p.pos ≤ fuel →
      parse_loop js len cap (fuel + 1) count p toks = parse_loop js len cap fuel count p toks := by
  intro fuel
  induction fuel with
  | zero =>
    intro count p toks h
    have hg : ¬ (p.pos < len ∧ byte_at js p.pos ≠ 0) := by omega
    simp only [parse_loop, if_neg hg]
  | succ n ih =>
    intro count p toks h
    rw [parse_loop]
    conv_rhs => rw [parse_loop]
    by_cases hg : p.pos < len ∧ byte_at js p.pos ≠ 0
    · rw [if_pos hg, if_pos hg]
      cases hs : parse_switch js len cap count p toks with
      | error r => rfl
      | ok x =>
        obtain ⟨c1, p1, t1⟩ := x
        have := parse_switch_pos js len cap count p toks hg.1 hg.2 c1 p1 t1 hs
        simp only
        exact ih _ _ _ (by simp only; omega)
    · rw [if_neg hg, if_neg hg]

theorem parse_loop_fuel (js : List Nat) (len cap : Nat) (count : Int) (p : jsmn_parser_t)
    (toks : Option Tokens) :
    ∀ d, parse_loop js len cap (len - p.pos + d) count p toks =
      parse_loop js len cap (len - p.pos) count p toks := by
  intro d
  induction d with
  | zero => rfl
  | succ d ih =>
    rw [← ih, ← Nat.add_assoc]
    exact parse_loop_fuel_succ js len cap _ count p toks (by omega)

/-- The loop of `jsmn_parse` unfolded once, with the fuel `jsmn_parse` gives it. -/
theorem parse_loop_unfold (js : List Nat) (len cap : Nat) (count : Int) (p : jsmn_parser_t)
    (toks : Option Tokens) :
    parse_loop js len cap (len - p.pos) count p toks =
      if p.pos < len ∧ byte_at js p.pos ≠ 0 then
        match parse_switch js len cap count p toks with
        | Except.error r => r
        | Except.ok (c1, p1, t1) =>
          parse_loop js len cap (len - (p1.pos + 1)) c1 { p1 with pos := p1.pos + 1 } t1
      else parse_finish count p toks := by
  by_cases hg : p.pos < len ∧ byte_at js p.pos ≠ 0
  · rw [if_pos hg]
    obtain ⟨k, hk⟩ : ∃ k, len - p.pos = k + 1 := ⟨len - p.pos - 1, by omega⟩
    rw [hk, parse_loop, if_pos hg]
    cases hs : parse_switch js len cap count p toks with
    | error r => rfl
    | ok x =>
      obtain ⟨c1, p1, t1⟩ := x
      have := parse_switch_pos js len cap count p toks hg.1 hg.2 c1 p1 t1 hs
      simp only
      obtain ⟨d, hd⟩ : ∃ d, k = len - (p1.pos + 1) + d := ⟨k - (len - (p1.pos + 1)), by omega⟩
      rw [hd]
      exact parse_loop_fuel js len cap c1 { p1 with pos := p1.pos + 1 } t1 d
  · rw [if_neg hg]
    cases hk : len - p.pos with
    | zero => rfl
    | succ k => rw [parse_loop, if_neg hg]

/-! ## The loop body as a step relation -/

theorem tok_apply_of_TStep (js : List Nat) (len cap : Nat) (count : Int) (p : jsmn_parser_t)
    (ts : Tokens) (p1 : jsmn_parser_t) (ts1 : Tokens) (h : TStep js len cap p ts p1 ts1) :
    ∃ p0, tok_apply cap count p ts (lex js len p.pos) =
        Except.ok (count + ((p1.toknext : Int) - (p.toknext : Int)), p0, some ts1) ∧
      p1 = { p0 with pos := p0.pos + 1 } := by
  cases h with
  | opn obj hl hc =>
    refine ⟨{ pos := p.pos, toknext := p.toknext + 1, toksuper := (p.toknext : Int) }, ?_, rfl⟩
    rw [hl]; simp only [tok_apply, if_neg (not_le.mpr hc)]
    congr 2; push_cast; ring
  | cls obj i hl hf ht =>
    refine ⟨{ p with toksuper := close_super ts i p.pos }, ?_, rfl⟩
    rw [hl]; simp only [tok_apply, hf, ht, ne_eq, not_true_eq_false, if_false, close_super]
    cases find_open (close_write ts i p.pos) (i + 1) <;> simp
  | str q hl hc =>
    refine ⟨{ pos := q, toknext := p.toknext + 1, toksuper := p.toksuper }, ?_, rfl⟩
    rw [hl]; simp only [tok_apply, if_neg (not_le.mpr hc)]
    congr 2; push_cast; ring
  | ws hl =>
    refine ⟨p, ?_, rfl⟩
    rw [hl]; simp [tok_apply]
  | colon hl =>
    refine ⟨{ p with toksuper := (p.toknext : Int) - 1 }, ?_, rfl⟩
    rw [hl]; simp [tok_apply]
  | comma hl =>
    refine ⟨{ p with toksuper := comma_super ts p }, ?_, rfl⟩
    rw [hl]; simp only [tok_apply, comma_super]
    split_ifs
    · cases find_open_container ts p.toknext <;> simp
    · simp
  | prim q hl hc =>
    refine ⟨{ pos := q - 1, toknext := p.toknext + 1, toksuper := p.toksuper }, ?_, rfl⟩
    rw [hl]; simp only [tok_apply, if_neg (not_le.mpr hc)]
    congr 2; push_cast; ring

theorem tok_apply_of_TErr (js : List Nat) (len cap : Nat) (count : Int) (p : jsmn_parser_t)
    (ts : Tokens) (r : Int) (h : TErr js len cap p ts r) :
    tok_apply cap count p ts (lex js len p.pos) = Except.error (r, p, some ts) := by
  cases h with
  | opn_nomem obj hl hc => rw [hl]; simp only [tok_apply, if_pos hc]
  | cls_unmatched obj hl hf => rw [hl]; simp only [tok_apply, hf]
  | cls_mismatch obj i hl hf ht => rw [hl]; simp only [tok_apply, hf, ne_eq, ht, not_false_eq_true, if_true]
  | str_nomem q hl hc => rw [hl]; simp only [tok_apply, if_pos hc]
  | str_inval hl => rw [hl]; simp only [tok_apply]
  | str_part hl => rw [hl]; simp only [tok_apply]
  | prim_inval hl => rw [hl]; simp only [tok_apply]
  | prim_nomem q hl hc => rw [hl]; simp only [tok_apply, if_pos hc]

/-- Every iteration either comes back to the loop head or returns. -/
theorem TStep_or_TErr (js : List Nat) (len cap : Nat) (p : jsmn_parser_t) (ts : Tokens) :
    (∃ p1 ts1, TStep js len cap p ts p1 ts1) ∨ (∃ r, TErr js len cap p ts r) := by
  cases hl : lex js len p.pos with
  | opn obj =>
    by_cases hc : p.toknext < cap
    · exact Or.inl ⟨_, _, TStep.opn obj hl hc⟩
    · exact Or.inr ⟨_, TErr.opn_nomem obj hl (not_lt.mp hc)⟩
  | cls obj =>
    cases hf : find_open ts p.toknext with
    | none => exact Or.inr ⟨_, TErr.cls_unmatched obj hl hf⟩
    | some i =>
      by_cases ht : (ts i).type = bracket_type obj
      · exact Or.inl ⟨_, _, TStep.cls obj i hl hf ht⟩
      · exact Or.inr ⟨_, TErr.cls_mismatch obj i hl hf ht⟩
  | str r =>
    cases r with
    | closed q =>
      by_cases hc : p.toknext < cap
      · exact Or.inl ⟨_, _, TStep.str q hl hc⟩
      · exact Or.inr ⟨_, TErr.str_nomem q hl (not_lt.mp hc)⟩
    | inval => exact Or.inr ⟨_, TErr.str_inval hl⟩
    | part => exact Or.inr ⟨_, TErr.str_part hl⟩
  | ws => exact Or.inl ⟨_, _, TStep.ws hl⟩
  | colon => exact Or.inl ⟨_, _, TStep.colon hl⟩
  | comma => exact Or.inl ⟨_, _, TStep.comma hl⟩
  | prim r =>
    cases r with
    | none => exact Or.inr ⟨_, TErr.prim_inval hl⟩
    | some q =>
      by_cases hc : p.toknext < cap
      · exact Or.inl ⟨_, _, TStep.prim q hl hc⟩
      · exact Or.inr ⟨_, TErr.prim_nomem q hl (not_lt.mp hc)⟩

/-- An iteration that comes back to the loop head: the call goes on as a call
on the parser and array it leaves. -/
theorem jsmn_parse_step (js : List Nat) (len cap : Nat) (p : jsmn_parser_t) (ts : Tokens)
    (p1 : jsmn_parser_t) (ts1 : Tokens) (hg : loop_cond js len p)
    (h : TStep js len cap p ts p1 ts1) :
    jsmn_parse p js len (some ts) cap = jsmn_parse p1 js len (some ts1) cap := by
  obtain ⟨p0, h0, hp⟩ := tok_apply_of_TStep js len cap (p.toknext : Int) p ts p1 ts1 h
  have hg' : p.pos < len ∧ byte_at js p.pos ≠ 0 := hg
  unfold jsmn_parse
  rw [parse_loop_unfold, if_pos hg', parse_switch_some, h0]
  subst hp
  simp only
  congr 1
  ring

/-- An iteration that returns from inside the loop: the call returns the code
and leaves the parser and array as they were at the loop head. -/
theorem jsmn_parse_err (js : List Nat) (len cap : Nat) (p : jsmn_parser_t) (ts : Tokens)
    (r : Int) (hg : loop_cond js len p) (h : TErr js len cap p ts r) :
    jsmn_parse p js len (some ts) cap = (r, p, some ts) := by
  have hg' : p.pos < len ∧ byte_at js p.pos ≠ 0 := hg
  unfold jsmn_parse
  rw [parse_loop_unfold, if_pos hg', parse_switch_some, tok_apply_of_TErr js len cap _ p ts r h]

/-- The loop condition fails: the call is the end of `jsmn_parse`. -/
theorem jsmn_parse_stop (js : List Nat) (len cap : Nat) (p : jsmn_parser_t) (ts : Tokens)
    (hg : ¬ loop_cond js len p) :
    jsmn_parse p js len (some ts) cap = parse_finish (p.toknext : Int) p (some ts) := by
  have hg' : ¬ (p.pos < len ∧ byte_at js p.pos ≠ 0) := hg
  unfold jsmn_parse
  rw [parse_loop_unfold, if_neg hg']

theorem jsmn_parse_reach (js : List Nat) (len cap : Nat) (p : jsmn_parser_t) (ts : Tokens)
    (p1 : jsmn_parser_t) (ts1 : Tokens) (h : Reach js len cap p ts p1 ts1) :
    jsmn_parse p js len (some ts) cap = jsmn_parse p1 js len (some ts1) cap := by
  induction h with
  | refl p ts => rfl
  | step p ts p1 ts1 p2 ts2 hg h1 _ ih => rw [jsmn_parse_step js len cap p ts p1 ts1 hg h1, ih]

theorem Reach.trans {js : List Nat} {len cap : Nat} {p : jsmn_parser_t} {ts : Tokens}
    {p1 : jsmn_parser_t} {ts1 : Tokens} {p2 : jsmn_parser_t} {ts2 : Tokens}
    (h1 : Reach js len cap p ts p1 ts1) (h2 : Reach js len cap p1 ts1 p2 ts2) :
    Reach js len cap p ts p2 ts2 := by
  induction h1 with
  | refl p ts => exact h2
  | step p ts p1 ts1 p2 ts2 hg h1 _ ih => exact Reach.step p ts p1 ts1 _ _ hg h1 (ih h2)

theorem Reach.single {js : List Nat} {len cap : Nat} {p : jsmn_parser_t} {ts : Tokens}
    {p1 : jsmn_parser_t} {ts1 : Tokens} (hg : loop_cond js len p)
    (h1 : TStep js len cap p ts p1 ts1) : Reach js len cap p ts p1 ts1 :=
  Reach.step p ts p1 ts1 p1 ts1 hg h1 (Reach.refl p1 ts1)

/-- The progress made by one iteration. -/
theorem TStep_pos (js : List Nat) (len cap : Nat) (p : jsmn_parser_t) (ts : Tokens)
    (p1 : jsmn_parser_t) (ts1 : Tokens) (hg : loop_cond js len p)
    (h : TStep js len cap p ts p1 ts1) :
    p.pos + 1 ≤ p1.pos ∧ p1.pos ≤ len ∧ p.toknext ≤ p1.toknext ∧ p1.toknext ≤ p.toknext + 1 := by
  cases h with
  | str q hl hc =>
    have := lex_str_closed js len p.pos q hl
    simp only; omega
  | prim q hl hc =>
    have := lex_prim_some js len p.pos q hg.1 hg.2 hl
    simp only; omega
  | _ => have := hg.1; simp only; omega

/-- Induction on the scan from a loop head to the end of the call. -/
theorem jsmn_parse_induct (js : List Nat) (len cap : Nat)
    (motive : jsmn_parser_t → Tokens → Prop)
    (hstop : ∀ p ts, ¬ loop_cond js len p → motive p ts)
    (herr : ∀ p ts r, loop_cond js len p → TErr js len cap p ts r → motive p ts)
    (hstep : ∀ p ts p1 ts1, loop_cond js len p → TStep js len cap p ts p1 ts1 →
      motive p1 ts1 → motive p ts) :
    ∀ p ts, motive p ts := by
  intro p ts
  generalize hn : len - p.pos = n
  induction n using Nat.strong_induction_on generalizing p ts with
  | _ n ih =>
    by_cases hg : loop_cond js len p
    · rcases TStep_or_TErr js len cap p ts with ⟨p1, ts1, h1⟩ | ⟨r, hr⟩
      · have hp := TStep_pos js len cap p ts p1 ts1 hg h1
        have hlt := hg.1
        exact hstep p ts p1 ts1 hg h1 (ih (len - p1.pos) (by omega) p1 ts1 rfl)
      · exact herr p ts r hg hr
    · exact hstop p ts hg

theorem neg_of_TErr (js : List Nat) (len cap : Nat) (p : jsmn_parser_t) (ts : Tokens) (r : Int)
    (h : TErr js len cap p ts r) : r < 0 := by
  cases h <;> decide

theorem parse_finish_closed (count : Int) (p : jsmn_parser_t) (ts : Tokens)
    (h : find_open ts p.toknext = none) :
    parse_finish count p (some ts) = (count, p, some ts) := by
  simp only [parse_finish, h]

theorem parse_finish_open (count : Int) (p : jsmn_parser_t) (ts : Tokens) (i : Nat)
    (h : find_open ts p.toknext = some i) :
    parse_finish count p (some ts) = (JSMN_ERROR_PART, p, some ts) := by
  simp only [parse_finish, h]

theorem jsmn_parse_count (p : jsmn_parser_t) (js : List Nat) (len : Nat) (ts : Tokens) (cap : Nat)
    (h : 0 ≤ (jsmn_parse p js len (some ts) cap).1) :
    (jsmn_parse p js len (some ts) cap).1 = ((jsmn_parse p js len (some ts) cap).2.1.toknext : Int) := by
  revert h
  refine jsmn_parse_induct js len cap
    (fun p ts => 0 ≤ (jsmn_parse p js len (some ts) cap).1 →
      (jsmn_parse p js len (some ts) cap).1
        = ((jsmn_parse p js len (some ts) cap).2.1.toknext : Int)) ?_ ?_ ?_ p ts
  · intro p ts hg
    rw [jsmn_parse_stop js len cap p ts hg]
    cases hf : find_open ts p.toknext with
    | none => rw [parse_finish_closed _ p ts hf]; intro _; rfl
    | some i => rw [parse_finish_open _ p ts i hf]; intro h; simp [JSMN_ERROR_PART] at h
  · intro p ts r hg hr
    rw [jsmn_parse_err js len cap p ts r hg hr]
    intro h
    have := neg_of_TErr js len cap p ts r hr
    simp only at h
    omega
  · intro p ts p1 ts1 hg h1 ih
    rw [jsmn_parse_step js len cap p ts p1 ts1 hg h1]
    exact ih

/-! ## Slices of the buffer -/

theorem byte_at_lt (js : List Nat) (i : Nat) (h : byte_at js i ≠ 0) : i < js.length := by
  by_contra hc
  apply h
  unfold byte_at
  rw [List.getD_eq_default]
  omega

theorem slice_self (js : List Nat) (a : Nat) : slice js a a = [] := by
  simp [slice]

theorem slice_cons (js : List Nat) (a b : Nat) (hab : a < b) (ha : a < js.length) :
    slice js a b = byte_at js a :: slice js (a + 1) b := by
  unfold slice byte_at
  obtain ⟨k, hk⟩ : ∃ k, b - a = k + 1 := ⟨b - a - 1, by omega⟩
  have hk' : b - (a + 1) = k := by omega
  rw [hk, hk', List.drop_eq_getElem_cons ha, List.take_succ_cons]
  simp [List.getElem?_eq_getElem ha]

theorem slice_length (js : List Nat) (a b : Nat) (hb : b ≤ js.length) :
    (slice js a b).length = b - a := by
  unfold slice
  simp
  omega

/-! ## What the string scan accepts -/

theorem string_body_nil (low : Nat) : string_body low [] = true := by
  unfold string_body; rfl

theorem string_body_esc (low e : Nat) (rest : List Nat) (he : is_escape e = true) :
    string_body low (92 :: e :: rest) = string_body low rest := by
  conv_lhs => unfold string_body
  simp [he]

theorem string_body_hex (low h1 h2 h3 h4 : Nat) (rest : List Nat)
    (e1 : is_hex h1 = true) (e2 : is_hex h2 = true) (e3 : is_hex h3 = true)
    (e4 : is_hex h4 = true) :
    string_body low (92 :: 117 :: h1 :: h2 :: h3 :: h4 :: rest) = string_body low rest := by
  conv_lhs => unfold string_body
  simp [e1, e2, e3, e4, show is_escape 117 = false by decide]

theorem string_body_plain (low c : Nat) (rest : List Nat) (h1 : c ≠ 92) (h2 : c ≠ 34)
    (h3 : low ≤ c) : string_body low (c :: rest) = string_body low rest := by
  conv_lhs => unfold string_body
  simp [h1, h2, h3]


theorem hex_scan_full (js : List Nat) (len : Nat) :
    ∀ n pos q, hex_scan js len n pos = some q → q < len ∧ byte_at js q ≠ 0 →
      q = pos + n ∧ ∀ i, i < n → is_hex (byte_at js (pos + i)) = true := by
  intro n
  induction n with
  | zero =>
    intro pos q h _
    simp only [hex_scan, Option.some.injEq] at h
    exact ⟨by omega, by intro i hi; omega⟩
  | succ n ih =>
    intro pos q h hq
    unfold hex_scan at h
    split_ifs at h with h1 h2
    · obtain ⟨e1, e2⟩ := ih _ _ h hq
      refine ⟨by omega, ?_⟩
      intro i hi
      cases i with
      | zero => simpa using h2
      | succ i =>
        have := e2 i (by omega)
        rwa [show pos + (i + 1) = pos + 1 + i by omega]
    · simp only [Option.some.injEq] at h
      subst h
      exact absurd hq h1

theorem string_scan_part_of_stop (js : List Nat) (len : Nat) (fuel pos : Nat)
    (h : ¬ (pos < len ∧ byte_at js pos ≠ 0)) : string_scan js len fuel pos = StrScan.part := by
  cases fuel with
  | zero => rfl
  | succ n => rw [string_scan, if_neg h]

theorem string_scan_body (js : List Nat) (len : Nat) :
    ∀ fuel pos q, string_scan js len fuel pos = StrScan.closed q →
      string_body 1 (slice js pos q) = true := by
  intro fuel
  induction fuel with
  | zero => intro pos q h; simp [string_scan] at h
  | succ n ih =>
    intro pos q h
    have hpq := (string_scan_closed js len _ _ _ h).1
    unfold string_scan at h
    split_ifs at h with h1 h2 h3 h4 h5
    · simp only [StrScan.closed.injEq] at h
      subst h
      rw [slice_self]; exact string_body_nil 1
    · -- two-byte escape
      have hq := (string_scan_closed js len _ _ _ h).1
      have hlt1 : pos + 1 < js.length := by
        apply byte_at_lt
        intro h0; rw [h0] at h4; simp [is_escape] at h4
      rw [slice_cons js pos q (by omega) (byte_at_lt js pos h1.2),
        slice_cons js (pos + 1) q (by omega) hlt1, h3.1]
      rw [string_body_esc 1 _ _ h4]
      exact ih _ _ h
    · -- \u escape
      split at h
      · simp at h
      · rename_i q1 hq1
        have hge := hex_scan_ge js len _ _ _ hq1
        have hq1' : q1 - 1 + 1 = q1 := by omega
        rw [hq1'] at h
        have hstop : q1 < len ∧ byte_at js q1 ≠ 0 := by
          by_contra hc
          rw [string_scan_part_of_stop js len n q1 hc] at h
          simp at h
        obtain ⟨e1, e2⟩ := hex_scan_full js len 4 _ _ hq1 hstop
        have hq := (string_scan_closed js len _ _ _ h).1
        have b0 := e2 0 (by omega)
        have b1 := e2 1 (by omega)
        have b2 := e2 2 (by omega)
        have b3 := e2 3 (by omega)
        have nz : ∀ i, is_hex (byte_at js i) = true → i < js.length := by
          intro i hi
          apply byte_at_lt
          intro h0; rw [h0] at hi; simp [is_hex] at hi
        have hlt1 : pos + 1 < js.length := by
          apply byte_at_lt; rw [h5]; decide
        rw [slice_cons js pos q (by omega) (byte_at_lt js pos h1.2),
          slice_cons js (pos + 1) q (by omega) hlt1,
          slice_cons js (pos + 1 + 1) q (by omega) (by have := nz _ b0; omega),
          slice_cons js (pos + 1 + 1 + 1) q (by omega) (by have := nz _ b1; omega),
          slice_cons js (pos + 1 + 1 + 1 + 1) q (by omega) (by have := nz _ b2; omega),
          slice_cons js (pos + 1 + 1 + 1 + 1 + 1) q (by omega) (by have := nz _ b3; omega),
          h3.1, h5]
        have b0' : is_hex (byte_at js (pos + 1 + 1)) = true := by simpa using b0
        have b1' : is_hex (byte_at js (pos + 1 + 1 + 1)) = true := by simpa using b1
        have b2' : is_hex (byte_at js (pos + 1 + 1 + 1 + 1)) = true := by
          rw [show pos + 1 + 1 + 1 + 1 = pos + 1 + 1 + 2 by omega]; exact b2
        have b3' : is_hex (byte_at js (pos + 1 + 1 + 1 + 1 + 1)) = true := by
          rw [show pos + 1 + 1 + 1 + 1 + 1 = pos + 1 + 1 + 3 by omega]; exact b3
        have hr : pos + 1 + 1 + 1 + 1 + 1 + 1 = q1 := by omega
        rw [string_body_hex 1 _ _ _ _ _ b0' b1' b2' b3', hr]
        exact ih _ _ h
    · -- plain byte, or a backslash in the last position
      have hq := (string_scan_closed js len _ _ _ h).1
      by_cases hb : byte_at js pos = 92
      · have hge : ¬ (pos + 1 < len ∧ byte_at js (pos + 1) ≠ 0) := by
          intro hc; exact h3 ⟨hb, hc.1⟩
        rw [string_scan_part_of_stop js len n (pos + 1) hge] at h
        simp at h
      · rw [slice_cons js pos q (by omega) (byte_at_lt js pos h1.2)]
        have h1' : 1 ≤ byte_at js pos := Nat.one_le_iff_ne_zero.mpr h1.2
        rw [string_body_plain 1 _ _ hb h2 h1']
        exact ih _ _ h

/-! ## Token writes -/

theorem same_span_refl (t : jsmntok_t) : same_span t t := ⟨rfl, rfl, rfl⟩

theorem incr_size_span (ts : Tokens) (j i : Nat) : same_span (incr_size ts j i) (ts i) := by
  unfold incr_size
  by_cases h : i = j
  · subst h; simp [same_span]
  · rw [Function.update_noteq h]; exact same_span_refl _

theorem super_incr_span (ts : Tokens) (p : jsmn_parser_t) (i : Nat) :
    same_span (super_incr ts p i) (ts i) := by
  unfold super_incr
  split_ifs
  · exact incr_size_span ts _ i
  · exact same_span_refl _

theorem open_write_new (ts : Tokens) (p : jsmn_parser_t) (obj : Bool) :
    (open_write ts p obj p.toknext).type = bracket_type obj ∧
    (open_write ts p obj p.toknext).start = (p.pos : Int) ∧
    (open_write ts p obj p.toknext).end_ = -1 := by
  unfold open_write
  rw [Function.update_same]
  refine ⟨rfl, rfl, ?_⟩
  have := (super_incr_span (Function.update ts p.toknext
    { ts p.toknext with start := -1, end_ := -1, size := 0 }) p p.toknext).2.2
  simp only [Function.update_same] at this
  exact this

theorem open_write_old (ts : Tokens) (p : jsmn_parser_t) (obj : Bool) (i : Nat)
    (h : i ≠ p.toknext) : same_span (open_write ts p obj i) (ts i) := by
  unfold open_write
  rw [Function.update_noteq h]
  have := super_incr_span (Function.update ts p.toknext
    { ts p.toknext with start := -1, end_ := -1, size := 0 }) p i
  rwa [Function.update_noteq h] at this

theorem close_write_new (ts : Tokens) (i pos : Nat) :
    (close_write ts i pos i).type = (ts i).type ∧ (close_write ts i pos i).start = (ts i).start ∧
    (close_write ts i pos i).end_ = (pos : Int) + 1 := by
  unfold close_write
  rw [Function.update_same]
  exact ⟨rfl, rfl, rfl⟩

theorem close_write_old (ts : Tokens) (i pos j : Nat) (h : j ≠ i) :
    close_write ts i pos j = ts j := by
  unfold close_write
  rw [Function.update_noteq h]

theorem string_write_new (ts : Tokens) (p : jsmn_parser_t) (q : Nat) :
    same_span (super_incr (string_write ts p q) p p.toknext)
      { type := JSMN_STRING, start := (p.pos : Int) + 1, end_ := (q : Int), size := 0 } := by
  have := super_incr_span (string_write ts p q) p p.toknext
  unfold string_write at this ⊢
  rwa [Function.update_same] at this

theorem string_write_old (ts : Tokens) (p : jsmn_parser_t) (q i : Nat) (h : i ≠ p.toknext) :
    same_span (super_incr (string_write ts p q) p i) (ts i) := by
  have := super_incr_span (string_write ts p q) p i
  unfold string_write at this ⊢
  rwa [Function.update_noteq h] at this

theorem primitive_write_new (ts : Tokens) (p : jsmn_parser_t) (q : Nat) :
    same_span (super_incr (primitive_write ts p q) p p.toknext)
      { type := JSMN_PRIMITIVE, start := (p.pos : Int), end_ := (q : Int), size := 0 } := by
  have := super_incr_span (primitive_write ts p q) p p.toknext
  unfold primitive_write at this ⊢
  rwa [Function.update_same] at this

theorem primitive_write_old (ts : Tokens) (p : jsmn_parser_t) (q i : Nat) (h : i ≠ p.toknext) :
    same_span (super_incr (primitive_write ts p q) p i) (ts i) := by
  have := super_incr_span (primitive_write ts p q) p i
  unfold primitive_write at this ⊢
  rwa [Function.update_noteq h] at this

/-! ## The backward scans -/

theorem find_open_some (ts : Tokens) :
    ∀ n i, find_open ts n = some i →
      i < n ∧ is_open (ts i) = true ∧ ∀ j, i < j → j < n → is_open (ts j) = false := by
  intro n
  induction n with
  | zero => intro i h; simp [find_open] at h
  | succ n ih =>
    intro i h
    unfold find_open at h
    split_ifs at h with h1
    · simp only [Option.some.injEq] at h
      subst h
      exact ⟨by omega, h1, by intro j h2 h3; omega⟩
    · obtain ⟨e1, e2, e3⟩ := ih i h
      refine ⟨by omega, e2, ?_⟩
      intro j h2 h3
      by_cases hj : j = n
      · subst hj; simpa using h1
      · exact e3 j h2 (by omega)

theorem find_open_none (ts : Tokens) :
    ∀ n, find_open ts n = none → ∀ j, j < n → is_open (ts j) = false := by
  intro n
  induction n with
  | zero => intro _ j hj; omega
  | succ n ih =>
    intro h j hj
    unfold find_open at h
    split_ifs at h with h1
    by_cases hjn : j = n
    · subst hjn; simpa using h1
    · exact ih h j (by omega)

theorem find_open_eq_none (ts : Tokens) :
    ∀ n, (∀ j, j < n → is_open (ts j) = false) → find_open ts n = none := by
  intro n
  induction n with
  | zero => intro _; rfl
  | succ n ih =>
    intro h
    unfold find_open
    rw [if_neg (by rw [h n (by omega)]; simp)]
    exact ih (fun j hj => h j (by omega))

theorem find_open_eq_some (ts : Tokens) :
    ∀ n i, i < n → is_open (ts i) = true → (∀ j, i < j → j < n → is_open (ts j) = false) →
      find_open ts n = some i := by
  intro n
  induction n with
  | zero => intro i h; omega
  | succ n ih =>
    intro i hi ho hj
    unfold find_open
    by_cases hin : i = n
    · subst hin; rw [if_pos ho]
    · rw [if_neg (by rw [hj n (by omega) (by omega)]; simp)]
      exact ih i (by omega) ho (fun j h1 h2 => hj j h1 (by omega))

/-! ## The token invariant -/

theorem tok_ok_congr (js : List Nat) (t u : jsmntok_t) (h : same_span t u) (hu : tok_ok js u) :
    tok_ok js t := by
  obtain ⟨h1, h2, h3⟩ := h
  unfold tok_ok at hu ⊢
  rw [h1, h2, h3]
  exact hu

theorem tok_ok_open (js : List Nat) (t : jsmntok_t) (h : tok_ok js t) (ho : is_open t = true) :
    ∃ obj : Bool, t.type = bracket_type obj := by
  unfold is_open at ho
  simp only [ne_eq, Bool.and_eq_true, decide_eq_true_eq] at ho
  rcases h with ⟨-, s, e, -, he, -⟩ | ⟨-, s, e, -, he, -⟩ | ⟨obj, ht, -⟩
  · omega
  · omega
  · exact ⟨obj, ht⟩

theorem bracket_type_inj (a b : Bool) (h : bracket_type a = bracket_type b) : a = b := by
  cases a <;> cases b <;> simp [bracket_type] at h ⊢

theorem TokInv_step (js : List Nat) (len cap : Nat) (p : jsmn_parser_t) (ts : Tokens)
    (p1 : jsmn_parser_t) (ts1 : Tokens) (hg : loop_cond js len p) (hi : TokInv js p ts)
    (h : TStep js len cap p ts p1 ts1) : TokInv js p1 ts1 := by
  cases h with
  | opn obj hl hc =>
    intro i hi'
    simp only at hi'
    by_cases hin : i = p.toknext
    · subst hin
      obtain ⟨e1, e2, e3⟩ := open_write_new ts p obj
      exact Or.inr (Or.inr ⟨obj, e1, p.pos, e2, lex_opn js len p.pos obj hl, Or.inl e3⟩)
    · exact tok_ok_congr js _ _ (open_write_old ts p obj i hin) (hi i (by omega))
  | cls obj i hl hf ht =>
    intro j hj
    simp only at hj
    obtain ⟨f1, f2, -⟩ := find_open_some ts _ _ hf
    by_cases hji : j = i
    · subst hji
      obtain ⟨e1, e2, e3⟩ := close_write_new ts j p.pos
      rcases hi j f1 with ⟨h1, -⟩ | ⟨h1, -⟩ | ⟨obj', h1, s, h2, h3, -⟩
      · rw [h1] at ht; cases obj <;> simp [bracket_type] at ht
      · rw [h1] at ht; cases obj <;> simp [bracket_type] at ht
      · have : obj' = obj := bracket_type_inj _ _ (h1.symm.trans ht)
        subst this
        exact Or.inr (Or.inr ⟨obj', e1.trans h1, s, e2.trans h2, h3,
          Or.inr ⟨p.pos, e3, lex_cls js len p.pos obj' hl⟩⟩)
    · rw [close_write_old ts i p.pos j hji]
      exact hi j hj
  | str q hl hc =>
    intro i hi'
    simp only at hi'
    by_cases hin : i = p.toknext
    · subst hin
      obtain ⟨b1, b2, b3, b4⟩ := lex_str_closed js len p.pos q hl
      have hb := string_scan_body js len _ _ _ (lex_str js len p.pos _ hl).2.symm
      exact tok_ok_congr js _ _ (string_write_new ts p q)
        (Or.inl ⟨rfl, p.pos, q, rfl, rfl, b2, b1, b4, hb⟩)
    · exact tok_ok_congr js _ _ (string_write_old ts p q i hin) (hi i (by omega))
  | ws hl => exact hi
  | colon hl => exact hi
  | comma hl => exact hi
  | prim q hl hc =>
    intro i hi'
    simp only at hi'
    by_cases hin : i = p.toknext
    · subst hin
      have := lex_prim_some js len p.pos q hg.1 hg.2 hl
      exact tok_ok_congr js _ _ (primitive_write_new ts p q)
        (Or.inr (Or.inl ⟨rfl, p.pos, q, rfl, rfl, by omega⟩))
    · exact tok_ok_congr js _ _ (primitive_write_old ts p q i hin) (hi i (by omega))

theorem TokInv_reach (js : List Nat) (len cap : Nat) (p : jsmn_parser_t) (ts : Tokens)
    (p1 : jsmn_parser_t) (ts1 : Tokens) (hi : TokInv js p ts)
    (h : Reach js len cap p ts p1 ts1) : TokInv js p1 ts1 := by
  induction h with
  | refl p ts => exact hi
  | step p ts p1 ts1 p2 ts2 hg h1 _ ih => exact ih (TokInv_step js len cap p ts p1 ts1 hg hi h1)

theorem TokInv_init (js : List Nat) (ts : Tokens) : TokInv js jsmn_init ts := by
  intro i hi
  simp [jsmn_init] at hi

/-! ## Where a call ends -/

/-- A call of `jsmn_parse` on a non-null array scans to a loop head from which
it returns: either the loop condition fails there and the call ends by
`parse_finish`, or the iteration there returns an error code.  The parser and
array on return are those of that loop head. -/
theorem jsmn_parse_final (js : List Nat) (len cap : Nat) (p : jsmn_parser_t) (ts : Tokens) :
    ∃ pf tsf r, Reach js len cap p ts pf tsf ∧
      jsmn_parse p js len (some ts) cap = (r, pf, some tsf) ∧
      ((¬ loop_cond js len pf ∧ (r, pf, some tsf) = parse_finish (pf.toknext : Int) pf (some tsf)) ∨
       (loop_cond js len pf ∧ TErr js len cap pf tsf r)) := by
  refine jsmn_parse_induct js len cap
    (fun p ts => ∃ pf tsf r, Reach js len cap p ts pf tsf ∧
      jsmn_parse p js len (some ts) cap = (r, pf, some tsf) ∧
      ((¬ loop_cond js len pf ∧ (r, pf, some tsf) = parse_finish (pf.toknext : Int) pf (some tsf)) ∨
       (loop_cond js len pf ∧ TErr js len cap pf tsf r))) ?_ ?_ ?_ p ts
  · intro p ts hg
    cases hf : find_open ts p.toknext with
    | none =>
      refine ⟨p, ts, (p.toknext : Int), Reach.refl p ts, ?_, Or.inl ⟨hg, ?_⟩⟩
      · rw [jsmn_parse_stop js len cap p ts hg, parse_finish_closed _ p ts hf]
      · rw [parse_finish_closed _ p ts hf]
    | some i =>
      refine ⟨p, ts, JSMN_ERROR_PART, Reach.refl p ts, ?_, Or.inl ⟨hg, ?_⟩⟩
      · rw [jsmn_parse_stop js len cap p ts hg, parse_finish_open _ p ts i hf]
      · rw [parse_finish_open _ p ts i hf]
  · intro p ts r hg hr
    exact ⟨p, ts, r, Reach.refl p ts, jsmn_parse_err js len cap p ts r hg hr, Or.inr ⟨hg, hr⟩⟩
  · intro p ts p1 ts1 hg h1 ih
    obtain ⟨pf, tsf, r, hr, he, hc⟩ := ih
    exact ⟨pf, tsf, r, Reach.step p ts p1 ts1 pf tsf hg h1 hr,
      by rw [jsmn_parse_step js len cap p ts p1 ts1 hg h1, he], hc⟩

theorem scan_state_reach (js : List Nat) (len cap : Nat) :
    ∀ n p ts p1 ts1, scan_state js len cap n p ts = some (p1, ts1) →
      Reach js len cap p ts p1 ts1 := by
  intro n
  induction n with
  | zero =>
    intro p ts p1 ts1 h
    simp only [scan_state, Option.some.injEq, Prod.mk.injEq] at h
    obtain ⟨rfl, rfl⟩ := h
    exact Reach.refl _ _
  | succ n ih =>
    intro p ts p1 ts1 h
    unfold scan_state at h
    split_ifs at h with hg
    rw [parse_switch_some] at h
    rcases TStep_or_TErr js len cap p ts with ⟨p2, ts2, h2⟩ | ⟨r, hr⟩
    · obtain ⟨p0, e0, ep⟩ := tok_apply_of_TStep js len cap (p.toknext : Int) p ts p2 ts2 h2
      rw [e0] at h
      simp only at h
      rw [← ep] at h
      exact Reach.step p ts p2 ts2 p1 ts1 hg h2 (ih _ _ _ _ h)
    · rw [tok_apply_of_TErr js len cap _ p ts r hr] at h
      simp at h

theorem reach_scan_state (js : List Nat) (len cap : Nat) (p : jsmn_parser_t) (ts : Tokens)
    (p1 : jsmn_parser_t) (ts1 : Tokens) (h : Reach js len cap p ts p1 ts1) :
    ∃ n, scan_state js len cap n p ts = some (p1, ts1) := by
  induction h with
  | refl p ts => exact ⟨0, rfl⟩
  | step p ts p1 ts1 p2 ts2 hg h1 _ ih =>
    obtain ⟨n, hn⟩ := ih
    refine ⟨n + 1, ?_⟩
    obtain ⟨p0, e0, ep⟩ := tok_apply_of_TStep js len cap (p.toknext : Int) p ts p1 ts1 h1
    have hg' : p.pos < len ∧ byte_at js p.pos ≠ 0 := hg
    rw [scan_state, if_pos hg', parse_switch_some, e0]
    simp only
    rw [← ep]
    exact hn

theorem parse_finish_result (p : jsmn_parser_t) (ts : Tokens) (r : Int) (pf : jsmn_parser_t)
    (tf : Option Tokens) (h : (r, pf, tf) = parse_finish (p.toknext : Int) p (some ts)) :
    pf = p ∧ tf = some ts ∧
      ((r = (p.toknext : Int) ∧ find_open ts p.toknext = none) ∨
       (r = JSMN_ERROR_PART ∧ ∃ i, find_open ts p.toknext = some i)) := by
  cases hf : find_open ts p.toknext with
  | none =>
    rw [parse_finish_closed _ p ts hf] at h
    simp only [Prod.mk.injEq] at h
    exact ⟨h.2.1, h.2.2, Or.inl ⟨h.1, rfl⟩⟩
  | some i =>
    rw [parse_finish_open _ p ts i hf] at h
    simp only [Prod.mk.injEq] at h
    exact ⟨h.2.1, h.2.2, Or.inr ⟨h.1, i, rfl⟩⟩

/-- A call keeps the token invariant, and after a call that returns `r ≥ 0`
no token is open. -/
theorem jsmn_parse_TokInv (js : List Nat) (len cap : Nat) (p : jsmn_parser_t) (ts : Tokens)
    (hi : TokInv js p ts) :
    ∃ pf tsf r, jsmn_parse p js len (some ts) cap = (r, pf, some tsf) ∧ TokInv js pf tsf ∧
      (0 ≤ r → find_open tsf pf.toknext = none) := by
  obtain ⟨pf, tsf, r, hr, he, hc⟩ := jsmn_parse_final js len cap p ts
  refine ⟨pf, tsf, r, he, TokInv_reach js len cap p ts pf tsf hi hr, ?_⟩
  intro h0
  rcases hc with ⟨-, hfin⟩ | ⟨-, herr⟩
  · rcases (parse_finish_result pf tsf r pf (some tsf) hfin).2.2 with ⟨-, hn⟩ | ⟨hp, -⟩
    · exact hn
    · rw [hp] at h0; simp [JSMN_ERROR_PART] at h0
  · have := neg_of_TErr js len cap pf tsf r herr
    omega

theorem TokInv_calls (js : List Nat) :
    ∀ (calls : List Call) (p : jsmn_parser_t) (ts : Tokens), (∀ c, c ∈ calls → c.js = js) →
      TokInv js p ts → TokInv js (jsmn_calls calls p ts).1 (jsmn_calls calls p ts).2 := by
  intro calls
  induction calls with
  | nil => intro p ts _ hi; exact hi
  | cons c cs ih =>
    intro p ts hjs hi
    have hc : c.js = js := hjs c (List.mem_cons_self _ _)
    obtain ⟨pf, tsf, r, he, hif, -⟩ := jsmn_parse_TokInv js c.len c.num_tokens p ts hi
    unfold jsmn_calls
    rw [hc, he]
    simp only
    exact ih pf tsf (fun c' hc' => hjs c' (List.mem_cons_of_mem _ hc')) hif

theorem span_delimits_of_ok (js : List Nat) (t : jsmntok_t) (h : tok_ok js t)
    (hc : is_open t = false) : span_delimits js t := by
  rcases h with ⟨ht, s, e, h1, h2, h3, h4, h5, -⟩ | ⟨ht, -⟩ | ⟨obj, ht, s, h1, h2, h3⟩
  · refine ⟨fun _ => ?_, fun h => ?_, fun h => ?_⟩
    · rw [h1, h2]
      refine ⟨by omega, by omega, ?_, ?_⟩
      · rw [show ((s : Int) + 1 - 1).toNat = s by omega]; exact h4
      · rw [Int.toNat_ofNat]; exact h5
    · rw [ht] at h; cases h
    · rw [ht] at h; cases h
  · refine ⟨fun h => ?_, fun h => ?_, fun h => ?_⟩ <;> (rw [ht] at h; cases h)
  · have hne : t.end_ ≠ -1 := by
      intro he
      unfold is_open at hc
      simp [he, h1] at hc
    rcases h3 with h3 | ⟨e, h3, h4⟩
    · exact absurd h3 hne
    · cases obj with
      | true =>
        refine ⟨fun h => ?_, fun _ => ?_, fun h => ?_⟩
        · rw [ht] at h; simp [bracket_type] at h
        · rw [h1, h3]
          refine ⟨by omega, by omega, ?_, ?_⟩
          · rw [Int.toNat_ofNat]; simpa using h2
          · rw [show ((e : Int) + 1 - 1).toNat = e by omega]; simpa using h4
        · rw [ht] at h; simp [bracket_type] at h
      | false =>
        refine ⟨fun h => ?_, fun h => ?_, fun _ => ?_⟩
        · rw [ht] at h; simp [bracket_type] at h
        · rw [ht] at h; simp [bracket_type] at h
        · rw [h1, h3]
          refine ⟨by omega, by omega, ?_, ?_⟩
          · rw [Int.toNat_ofNat]; simpa using h2
          · rw [show ((e : Int) + 1 - 1).toNat = e by omega]; simpa using h4

theorem lex_of_close (js : List Nat) (len pos : Nat)
    (h : byte_at js pos = 125 ∨ byte_at js pos = 93) :
    lex js len pos = Lex.cls (decide (byte_at js pos = 125)) := by
  unfold lex
  rcases h with h | h <;> simp [h]

theorem open_container_iff (js : List Nat) (t : jsmntok_t) (h : tok_ok js t) :
    open_container t ↔ is_open t = true := by
  unfold open_container
  constructor
  · rintro ⟨-, h1, h2⟩
    simp [is_open, h1, h2]
  · intro ho
    obtain ⟨obj, ht⟩ := tok_ok_open js t h ho
    simp only [is_open, ne_eq, Bool.and_eq_true, decide_eq_true_eq] at ho
    refine ⟨?_, ho.1, ho.2⟩
    rw [ht]
    cases obj <;> simp [bracket_type]

theorem slice_snoc (js : List Nat) (a b : Nat) (hab : a ≤ b) (hb : b < js.length) :
    slice js a (b + 1) = slice js a b ++ [byte_at js b] := by
  obtain ⟨d, rfl⟩ : ∃ d, b = a + d := ⟨b - a, by omega⟩
  clear hab
  induction d generalizing a with
  | zero =>
    simp only [Nat.add_zero]
    rw [slice_cons js a (a + 1) (by omega) hb, slice_self, slice_self]
    rfl
  | succ d ih =>
    rw [slice_cons js a (a + (d + 1) + 1) (by omega) (by omega),
      slice_cons js a (a + (d + 1)) (by omega) (by omega)]
    have := ih (a + 1) (by omega)
    rw [show a + 1 + d = a + (d + 1) by omega] at this
    rw [this]
    rfl

theorem string_literal_wrap (low : Nat) (body : List Nat) :
    string_literal low (34 :: (body ++ [34])) = string_body low body := by
  simp [string_literal]

/-- A string token that is `tok_ok` makes the round trip with `low = 1`. -/
theorem string_roundtrip_of_ok (js : List Nat) (t : jsmntok_t) (h : tok_ok js t)
    (ht : t.type = JSMN_STRING) : string_roundtrip 1 js t := by
  rcases h with ⟨-, s, e, h1, h2, h3, h4, h5, h6⟩ | ⟨ht', -⟩ | ⟨obj, ht', -⟩
  · have e1 : t.start.toNat = s + 1 := by omega
    have e2 : t.end_.toNat = e := by omega
    unfold string_roundtrip
    rw [e1, e2, string_literal_wrap]
    refine ⟨h6, ?_⟩
    have hs : s < js.length := byte_at_lt js s (by rw [h4]; decide)
    have he : e < js.length := byte_at_lt js e (by rw [h5]; decide)
    rw [show s + 1 - 1 = s by omega, slice_cons js s (e + 1) (by omega) hs,
      slice_snoc js (s + 1) e h3 he, h4, h5]
  · rw [ht] at ht'; cases ht'
  · rw [ht] at ht'; cases obj <;> simp [bracket_type] at ht'

/-! ## The range of `toksuper` and of `toknext` -/

theorem find_open_container_lt (ts : Tokens) :
    ∀ n i, find_open_container ts n = some i → i < n := by
  intro n
  induction n with
  | zero => intro i h; simp [find_open_container] at h
  | succ n ih =>
    intro i h
    unfold find_open_container at h
    split_ifs at h with h1
    · simp only [Option.some.injEq] at h; omega
    · have := ih i h; omega

theorem SuperInv_init : SuperInv jsmn_init := by
  simp [SuperInv, jsmn_init]

theorem SuperInv_step (js : List Nat) (len cap : Nat) (p : jsmn_parser_t) (ts : Tokens)
    (p1 : jsmn_parser_t) (ts1 : Tokens) (hi : SuperInv p)
    (h : TStep js len cap p ts p1 ts1) : SuperInv p1 := by
  unfold SuperInv at hi ⊢
  cases h with
  | opn obj hl hc => simp only; omega
  | cls obj i hl hf ht =>
    have hlt := (find_open_some ts _ _ hf).1
    simp only [close_super]
    cases hf2 : find_open (close_write ts i p.pos) (i + 1) with
    | none => simp only; omega
    | some j =>
      have := (find_open_some _ _ _ hf2).1
      simp only; omega
  | str q hl hc => simp only; omega
  | ws hl => simp only; omega
  | colon hl => simp only; omega
  | comma hl =>
    simp only [comma_super]
    split_ifs
    · cases hf : find_open_container ts p.toknext with
      | none => simp only; omega
      | some j =>
        have := find_open_container_lt ts _ _ hf
        simp only; omega
    · omega
  | prim q hl hc => simp only; omega

theorem SuperInv_reach (js : List Nat) (len cap : Nat) (p : jsmn_parser_t) (ts : Tokens)
    (p1 : jsmn_parser_t) (ts1 : Tokens) (hi : SuperInv p)
    (h : Reach js len cap p ts p1 ts1) : SuperInv p1 := by
  induction h with
  | refl p ts => exact hi
  | step p ts p1 ts1 p2 ts2 hg h1 _ ih => exact ih (SuperInv_step js len cap p ts p1 ts1 hi h1)

theorem toknext_step (js : List Nat) (len cap : Nat) (p : jsmn_parser_t) (ts : Tokens)
    (p1 : jsmn_parser_t) (ts1 : Tokens) (h : TStep js len cap p ts p1 ts1) :
    p.toknext ≤ p1.toknext ∧ (p.toknext ≤ cap → p1.toknext ≤ cap) := by
  cases h <;> simp only <;> omega

theorem toknext_reach (js : List Nat) (len cap : Nat) (p : jsmn_parser_t) (ts : Tokens)
    (p1 : jsmn_parser_t) (ts1 : Tokens) (h : Reach js len cap p ts p1 ts1) :
    p.toknext ≤ p1.toknext ∧ (p.toknext ≤ cap → p1.toknext ≤ cap) := by
  induction h with
  | refl p ts => exact ⟨le_refl _, id⟩
  | step p ts p1 ts1 p2 ts2 hg h1 _ ih =>
    have := toknext_step js len cap p ts p1 ts1 h1
    exact ⟨by omega, fun h => ih.2 (this.2 h)⟩

/-! ## A larger capacity changes nothing before the array is full -/

theorem TStep_cap (js : List Nat) (len c c1 : Nat) (p : jsmn_parser_t) (ts : Tokens)
    (p1 : jsmn_parser_t) (ts1 : Tokens) (h : TStep js len c p ts p1 ts1)
    (hc1 : p1.toknext ≤ c1) : TStep js len c1 p ts p1 ts1 := by
  cases h with
  | opn obj hl hc => exact TStep.opn obj hl (by simp only at hc1; omega)
  | cls obj i hl hf ht => exact TStep.cls obj i hl hf ht
  | str q hl hc => exact TStep.str q hl (by simp only at hc1; omega)
  | ws hl => exact TStep.ws hl
  | colon hl => exact TStep.colon hl
  | comma hl => exact TStep.comma hl
  | prim q hl hc => exact TStep.prim q hl (by simp only at hc1; omega)

theorem Reach_cap (js : List Nat) (len c c1 : Nat) (p : jsmn_parser_t) (ts : Tokens)
    (p1 : jsmn_parser_t) (ts1 : Tokens) (h : Reach js len c p ts p1 ts1)
    (hc1 : p1.toknext ≤ c1) : Reach js len c1 p ts p1 ts1 := by
  induction h with
  | refl p ts => exact Reach.refl p ts
  | step p ts p1 ts1 p2 ts2 hg h1 h2 ih =>
    have := (toknext_reach js len c p1 ts1 p2 ts2 h2).1
    exact Reach.step p ts p1 ts1 p2 ts2 hg (TStep_cap js len c c1 p ts p1 ts1 h1 (by omega))
      (ih hc1)

theorem TErr_nomem (js : List Nat) (len c : Nat) (p : jsmn_parser_t) (ts : Tokens)
    (h : TErr js len c p ts JSMN_ERROR_NOMEM) : c ≤ p.toknext ∧ token_start js len p.pos := by
  generalize hr : JSMN_ERROR_NOMEM = r at h
  cases h with
  | opn_nomem obj hl hc => exact ⟨hc, by simp [token_start, hl]⟩
  | cls_unmatched obj hl hf => exact absurd hr (by decide)
  | cls_mismatch obj i hl hf ht => exact absurd hr (by decide)
  | str_nomem q hl hc => exact ⟨hc, by simp [token_start, hl]⟩
  | str_inval hl => exact absurd hr (by decide)
  | str_part hl => exact absurd hr (by decide)
  | prim_inval hl => exact absurd hr (by decide)
  | prim_nomem q hl hc => exact ⟨hc, by simp [token_start, hl]⟩

theorem TErr_cap (js : List Nat) (len c c1 : Nat) (p : jsmn_parser_t) (ts : Tokens) (r : Int)
    (h : TErr js len c p ts r) (hr : r ≠ JSMN_ERROR_NOMEM) : TErr js len c1 p ts r := by
  cases h with
  | opn_nomem obj hl hc => exact absurd rfl hr
  | cls_unmatched obj hl hf => exact TErr.cls_unmatched obj hl hf
  | cls_mismatch obj i hl hf ht => exact TErr.cls_mismatch obj i hl hf ht
  | str_nomem q hl hc => exact absurd rfl hr
  | str_inval hl => exact TErr.str_inval hl
  | str_part hl => exact TErr.str_part hl
  | prim_inval hl => exact TErr.prim_inval hl
  | prim_nomem q hl hc => exact absurd rfl hr

/-! ## The scan does not depend on what the array held beyond `toknext` -/

theorem agree_mono (n m : Nat) (ts ts1 : Tokens) (h : agree n ts ts1) (hm : m ≤ n) :
    agree m ts ts1 := fun i hi => h i (by omega)

theorem agree_refl (n : Nat) (ts : Tokens) : agree n ts ts := fun _ _ => rfl

theorem agree_symm (n : Nat) (ts ts1 : Tokens) (h : agree n ts ts1) : agree n ts1 ts :=
  fun i hi => (h i hi).symm

theorem agree_trans (n : Nat) (ts ts1 ts2 : Tokens) (h : agree n ts ts1) (h1 : agree n ts1 ts2) :
    agree n ts ts2 := fun i hi => (h i hi).trans (h1 i hi)

theorem find_open_congr (ts ts1 : Tokens) :
    ∀ n, agree n ts ts1 → find_open ts n = find_open ts1 n := by
  intro n
  induction n with
  | zero => intro _; rfl
  | succ n ih =>
    intro h
    unfold find_open
    rw [h n (by omega), ih (agree_mono _ _ _ _ h (by omega))]

theorem find_open_container_congr (ts ts1 : Tokens) :
    ∀ n, agree n ts ts1 → find_open_container ts n = find_open_container ts1 n := by
  intro n
  induction n with
  | zero => intro _; rfl
  | succ n ih =>
    intro h
    unfold find_open_container
    rw [h n (by omega), ih (agree_mono _ _ _ _ h (by omega))]

theorem incr_size_congr (ts ts1 : Tokens) (j i : Nat) (h : ts i = ts1 i) :
    incr_size ts j i = incr_size ts1 j i := by
  unfold incr_size
  by_cases hij : i = j
  · subst hij; simp [h]
  · rw [Function.update_noteq hij, Function.update_noteq hij, h]

theorem super_incr_congr (ts ts1 : Tokens) (p : jsmn_parser_t) (i : Nat) (h : ts i = ts1 i) :
    super_incr ts p i = super_incr ts1 p i := by
  unfold super_incr
  split_ifs
  · exact incr_size_congr ts ts1 _ i h
  · exact h

theorem update_congr (ts ts1 : Tokens) (n : Nat) (t : jsmntok_t) (i : Nat)
    (h : i ≠ n → ts i = ts1 i) : Function.update ts n t i = Function.update ts1 n t i := by
  by_cases hi : i = n
  · subst hi; simp
  · rw [Function.update_noteq hi, Function.update_noteq hi, h hi]

theorem open_write_congr (ts ts1 : Tokens) (p : jsmn_parser_t) (obj : Bool)
    (h : agree p.toknext ts ts1) : agree (p.toknext + 1) (open_write ts p obj) (open_write ts1 p obj) := by
  intro i hi
  by_cases hin : i = p.toknext
  · subst hin
    unfold open_write
    rw [Function.update_same, Function.update_same]
    unfold super_incr
    split_ifs
    · unfold incr_size
      by_cases hj : p.toknext = p.toksuper.toNat
      · rw [← hj]; simp
      · rw [Function.update_noteq hj, Function.update_noteq hj]; simp
    · simp
  · unfold open_write
    rw [Function.update_noteq hin, Function.update_noteq hin]
    apply super_incr_congr
    rw [Function.update_noteq hin, Function.update_noteq hin]
    exact h i (by omega)

theorem string_write_congr (ts ts1 : Tokens) (p : jsmn_parser_t) (q : Nat)
    (h : agree p.toknext ts ts1) :
    agree (p.toknext + 1) (super_incr (string_write ts p q) p)
      (super_incr (string_write ts1 p q) p) := by
  intro i hi
  apply super_incr_congr
  unfold string_write
  exact update_congr ts ts1 _ _ i (fun hin => h i (by omega))

theorem primitive_write_congr (ts ts1 : Tokens) (p : jsmn_parser_t) (q : Nat)
    (h : agree p.toknext ts ts1) :
    agree (p.toknext + 1) (super_incr (primitive_write ts p q) p)
      (super_incr (primitive_write ts1 p q) p) := by
  intro i hi
  apply super_incr_congr
  unfold primitive_write
  exact update_congr ts ts1 _ _ i (fun hin => h i (by omega))

theorem close_write_congr (ts ts1 : Tokens) (n i pos : Nat) (hi : i < n) (h : agree n ts ts1) :
    agree n (close_write ts i pos) (close_write ts1 i pos) := by
  intro j hj
  unfold close_write
  by_cases hji : j = i
  · subst hji; rw [Function.update_same, Function.update_same, h j hi]
  · rw [Function.update_noteq hji, Function.update_noteq hji, h j hj]

theorem comma_super_congr (ts ts1 : Tokens) (p : jsmn_parser_t) (hs : SuperInv p)
    (h : agree p.toknext ts ts1) : comma_super ts p = comma_super ts1 p := by
  unfold comma_super
  by_cases h1 : p.toksuper = -1
  · simp [h1]
  · have hlt : p.toksuper.toNat < p.toknext := by
      have := hs.1; have := hs.2; omega
    rw [h _ hlt, find_open_container_congr ts ts1 _ h]

theorem TStep_agree (js : List Nat) (len cap : Nat) (p : jsmn_parser_t) (ts ts' : Tokens)
    (p1 : jsmn_parser_t) (ts1 : Tokens) (hs : SuperInv p) (ha : agree p.toknext ts ts')
    (h : TStep js len cap p ts p1 ts1) :
    ∃ ts1', TStep js len cap p ts' p1 ts1' ∧ agree p1.toknext ts1 ts1' := by
  cases h with
  | opn obj hl hc => exact ⟨_, TStep.opn obj hl hc, open_write_congr ts ts' p obj ha⟩
  | cls obj i hl hf ht =>
    have hlt := (find_open_some ts _ _ hf).1
    have hf' : find_open ts' p.toknext = some i := by rw [← find_open_congr ts ts' _ ha]; exact hf
    have ht' : (ts' i).type = bracket_type obj := by rw [← ha i hlt]; exact ht
    have hcw := close_write_congr ts ts' p.toknext i p.pos hlt ha
    have hsup : close_super ts i p.pos = close_super ts' i p.pos := by
      unfold close_super
      rw [find_open_congr _ _ _ (agree_mono _ _ _ _ hcw (by omega))]
    rw [hsup]
    exact ⟨_, TStep.cls obj i hl hf' ht', hcw⟩
  | str q hl hc => exact ⟨_, TStep.str q hl hc, string_write_congr ts ts' p q ha⟩
  | ws hl => exact ⟨_, TStep.ws hl, ha⟩
  | colon hl => exact ⟨_, TStep.colon hl, ha⟩
  | comma hl =>
    rw [comma_super_congr ts ts' p hs ha]
    exact ⟨_, TStep.comma hl, ha⟩
  | prim q hl hc => exact ⟨_, TStep.prim q hl hc, primitive_write_congr ts ts' p q ha⟩

theorem TErr_agree (js : List Nat) (len cap : Nat) (p : jsmn_parser_t) (ts ts' : Tokens)
    (r : Int) (ha : agree p.toknext ts ts') (h : TErr js len cap p ts r) :
    TErr js len cap p ts' r := by
  cases h with
  | opn_nomem obj hl hc => exact TErr.opn_nomem obj hl hc
  | cls_unmatched obj hl hf =>
    exact TErr.cls_unmatched obj hl (by rw [← find_open_congr ts ts' _ ha]; exact hf)
  | cls_mismatch obj i hl hf ht =>
    have hlt := (find_open_some ts _ _ hf).1
    exact TErr.cls_mismatch obj i hl (by rw [← find_open_congr ts ts' _ ha]; exact hf)
      (by rw [← ha i hlt]; exact ht)
  | str_nomem q hl hc => exact TErr.str_nomem q hl hc
  | str_inval hl => exact TErr.str_inval hl
  | str_part hl => exact TErr.str_part hl
  | prim_inval hl => exact TErr.prim_inval hl
  | prim_nomem q hl hc => exact TErr.prim_nomem q hl hc

theorem Reach_agree (js : List Nat) (len cap : Nat) (p : jsmn_parser_t) (ts : Tokens)
    (p1 : jsmn_parser_t) (ts1 : Tokens) (h : Reach js len cap p ts p1 ts1) :
    ∀ ts', SuperInv p → agree p.toknext ts ts' →
      ∃ ts1', Reach js len cap p ts' p1 ts1' ∧ agree p1.toknext ts1 ts1' := by
  induction h with
  | refl p ts => intro ts' _ ha; exact ⟨ts', Reach.refl p ts', ha⟩
  | step p ts p1 ts1 p2 ts2 hg h1 _ ih =>
    intro ts' hs ha
    obtain ⟨ts1', hs1, ha1⟩ := TStep_agree js len cap p ts ts' p1 ts1 hs ha h1
    obtain ⟨ts2', hr2, ha2⟩ := ih ts1' (SuperInv_step js len cap p ts p1 ts1 hs h1) ha1
    exact ⟨ts2', Reach.step p ts' p1 ts1' p2 ts2' hg hs1 hr2, ha2⟩

/-- The result of a call does not depend on what the array held at the
indices from `toknext` on. -/
theorem jsmn_parse_agree (js : List Nat) (len cap : Nat) (p : jsmn_parser_t) (ts ts' : Tokens)
    (hs : SuperInv p) (ha : agree p.toknext ts ts') :
    ∃ r pf tsf tsf', jsmn_parse p js len (some ts) cap = (r, pf, some tsf) ∧
      jsmn_parse p js len (some ts') cap = (r, pf, some tsf') ∧ agree pf.toknext tsf tsf' := by
  obtain ⟨pf, tsf, r, hr, he, hc⟩ := jsmn_parse_final js len cap p ts
  obtain ⟨tsf', hr', ha'⟩ := Reach_agree js len cap p ts pf tsf hr ts' hs ha
  refine ⟨r, pf, tsf, tsf', he, ?_, ha'⟩
  rw [jsmn_parse_reach js len cap p ts' pf tsf' hr']
  rcases hc with ⟨hg, hfin⟩ | ⟨hg, herr⟩
  · rw [jsmn_parse_stop js len cap pf tsf' hg]
    rcases (parse_finish_result pf tsf r pf (some tsf) hfin).2.2 with ⟨h1, h2⟩ | ⟨h1, i, h2⟩
    · rw [parse_finish_closed _ pf tsf' (by rw [← find_open_congr tsf tsf' _ ha']; exact h2), h1]
    · rw [parse_finish_open _ pf tsf' i (by rw [← find_open_congr tsf tsf' _ ha']; exact h2), h1]
  · exact jsmn_parse_err js len cap pf tsf' r hg (TErr_agree js len cap pf tsf tsf' r ha' herr)

/-- A call that does not return `JSMN_ERROR_NOMEM` returns the same with any
capacity that holds the tokens it allocated. -/
theorem jsmn_parse_cap (js : List Nat) (len c c1 : Nat) (p : jsmn_parser_t) (ts : Tokens)
    (r : Int) (pf : jsmn_parser_t) (tf : Option Tokens)
    (h : jsmn_parse p js len (some ts) c = (r, pf, tf)) (hr : r ≠ JSMN_ERROR_NOMEM)
    (hc1 : pf.toknext ≤ c1) : jsmn_parse p js len (some ts) c1 = (r, pf, tf) := by
  obtain ⟨pf', tsf, r', hreach, he, hc⟩ := jsmn_parse_final js len c p ts
  rw [he] at h
  simp only [Prod.mk.injEq] at h
  obtain ⟨rfl, rfl, rfl⟩ := h
  rw [jsmn_parse_reach js len c1 p ts pf' tsf (Reach_cap js len c c1 p ts pf' tsf hreach hc1)]
  rcases hc with ⟨hg, hfin⟩ | ⟨hg, herr⟩
  · rw [jsmn_parse_stop js len c1 pf' tsf hg]; exact hfin.symm
  · exact jsmn_parse_err js len c1 pf' tsf r' hg (TErr_cap js len c c1 pf' tsf r' herr hr)

/-- After a call from a fresh parser `toknext` does not exceed the capacity. -/
theorem jsmn_parse_toknext_le (js : List Nat) (len cap : Nat) (ts : Tokens) :
    (jsmn_parse jsmn_init js len (some ts) cap).2.1.toknext ≤ cap := by
  obtain ⟨pf, tsf, r, hr, he, -⟩ := jsmn_parse_final js len cap jsmn_init ts
  rw [he]
  exact (toknext_reach js len cap _ _ _ _ hr).2 (by simp [jsmn_init])

/-! ## The scan with a null token array -/

theorem null_unfold_stop (js : List Nat) (len cap : Nat) (count : Int) (pn : jsmn_parser_t)
    (hg : ¬ loop_cond js len pn) :
    parse_loop js len cap (len - pn.pos) count pn none = (count, pn, none) := by
  have hg' : ¬ (pn.pos < len ∧ byte_at js pn.pos ≠ 0) := hg
  rw [parse_loop_unfold, if_neg hg']
  rfl

theorem null_unfold_ok (js : List Nat) (len cap : Nat) (count : Int) (pn : jsmn_parser_t)
    (c1 : Int) (pn1 : jsmn_parser_t) (t1 : Option Tokens) (hg : loop_cond js len pn)
    (h : null_apply count pn (lex js len pn.pos) = Except.ok (c1, pn1, t1)) :
    parse_loop js len cap (len - pn.pos) count pn none =
      parse_loop js len cap (len - (pn1.pos + 1)) c1 { pn1 with pos := pn1.pos + 1 } none := by
  have hg' : pn.pos < len ∧ byte_at js pn.pos ≠ 0 := hg
  have ht : t1 = none := by
    cases hl : lex js len pn.pos with
    | str r =>
      cases r with
      | closed q => rw [hl] at h; simp [null_apply] at h; exact h.2.2.symm
      | inval => rw [hl] at h; simp [null_apply] at h
      | part => rw [hl] at h; simp [null_apply] at h
    | prim r =>
      cases r with
      | none => rw [hl] at h; simp [null_apply] at h
      | some q => rw [hl] at h; simp [null_apply] at h; exact h.2.2.symm
    | _ => rw [hl] at h; simp [null_apply] at h; exact h.2.2.symm
  subst ht
  rw [parse_loop_unfold, if_pos hg', parse_switch_none, h]

theorem null_unfold_err (js : List Nat) (len cap : Nat) (count : Int) (pn : jsmn_parser_t)
    (r : ParseResult) (hg : loop_cond js len pn)
    (h : null_apply count pn (lex js len pn.pos) = Except.error r) :
    parse_loop js len cap (len - pn.pos) count pn none = r := by
  have hg' : pn.pos < len ∧ byte_at js pn.pos ≠ 0 := hg
  rw [parse_loop_unfold, if_pos hg', parse_switch_none, h]

theorem null_apply_count (count : Int) (pn : jsmn_parser_t) (l : Lex) (c1 : Int)
    (pn1 : jsmn_parser_t) (t1 : Option Tokens)
    (h : null_apply count pn l = Except.ok (c1, pn1, t1)) : count ≤ c1 := by
  cases l with
  | str r =>
    cases r with
    | closed q => simp [null_apply] at h; omega
    | inval => simp [null_apply] at h
    | part => simp [null_apply] at h
  | prim r =>
    cases r with
    | none => simp [null_apply] at h
    | some q => simp [null_apply] at h; omega
  | _ => simp [null_apply] at h; omega

theorem null_apply_neg (count : Int) (pn : jsmn_parser_t) (l : Lex) (r : ParseResult)
    (h : null_apply count pn l = Except.error r) : r.1 < 0 := by
  cases l with
  | str s =>
    cases s with
    | closed q => simp [null_apply] at h
    | inval => simp only [null_apply, Except.error.injEq] at h; rw [← h]; exact neg_codes.2.1
    | part => simp only [null_apply, Except.error.injEq] at h; rw [← h]; exact neg_codes.2.2
  | prim s =>
    cases s with
    | none => simp only [null_apply, Except.error.injEq] at h; rw [← h]; exact neg_codes.2.1
    | some q => simp [null_apply] at h
  | _ => simp [null_apply] at h

/-- The count returned by a scan with a null array is at least the count the
scan started with. -/
theorem null_count_mono (js : List Nat) (len cap : Nat) :
    ∀ k count pn, len - pn.pos = k →
      0 ≤ (parse_loop js len cap (len - pn.pos) count pn none).1 →
      count ≤ (parse_loop js len cap (len - pn.pos) count pn none).1 := by
  intro k
  induction k using Nat.strong_induction_on with
  | _ k ih =>
    intro count pn hk h
    by_cases hg : loop_cond js len pn
    · cases ha : null_apply count pn (lex js len pn.pos) with
      | error r =>
        rw [null_unfold_err js len cap count pn r hg ha] at h
        have := null_apply_neg count pn _ r ha
        omega
      | ok x =>
        obtain ⟨c1, pn1, t1⟩ := x
        have hpos := null_apply_pos js len count pn hg.1 hg.2 c1 pn1 t1 ha
        have hcount := null_apply_count count pn _ c1 pn1 t1 ha
        rw [null_unfold_ok js len cap count pn c1 pn1 t1 hg ha] at h ⊢
        have := ih (len - (pn1.pos + 1)) (by omega) c1 { pn1 with pos := pn1.pos + 1 } rfl h
        dsimp only at this
        omega
    · rw [null_unfold_stop js len cap count pn hg]

/-- What the scan with a null array does where the scan with an array makes a
step: it goes on, to the same position, with the count grown as `toknext`. -/
theorem null_apply_of_TStep (js : List Nat) (len cap : Nat) (count : Int)
    (pn p : jsmn_parser_t) (ts : Tokens) (p1 : jsmn_parser_t) (ts1 : Tokens)
    (hpos : pn.pos = p.pos) (h : TStep js len cap p ts p1 ts1) :
    ∃ pn1, null_apply count pn (lex js len pn.pos)
        = Except.ok (count + ((p1.toknext : Int) - (p.toknext : Int)), pn1, none) ∧
      pn1.pos + 1 = p1.pos := by
  rw [hpos]
  cases h with
  | opn obj hl hc => rw [hl]; exact ⟨pn, by simp [null_apply], by simp [hpos]⟩
  | cls obj i hl hf ht => rw [hl]; exact ⟨pn, by simp [null_apply], by simp [hpos]⟩
  | str q hl hc => rw [hl]; exact ⟨{ pn with pos := q }, by simp [null_apply], rfl⟩
  | ws hl => rw [hl]; exact ⟨pn, by simp [null_apply], by simp [hpos]⟩
  | colon hl =>
    rw [hl]
    exact ⟨{ pn with toksuper := (pn.toknext : Int) - 1 }, by simp [null_apply], by simp [hpos]⟩
  | comma hl => rw [hl]; exact ⟨pn, by simp [null_apply], by simp [hpos]⟩
  | prim q hl hc => rw [hl]; exact ⟨{ pn with pos := q - 1 }, by simp [null_apply], rfl⟩

/-- Where the scan with an array returns `JSMN_ERROR_NOMEM`, the scan with a
null array counts one token more and goes on. -/
theorem null_apply_of_nomem (js : List Nat) (len cap : Nat) (count : Int)
    (pn p : jsmn_parser_t) (ts : Tokens) (hpos : pn.pos = p.pos)
    (h : TErr js len cap p ts JSMN_ERROR_NOMEM) :
    (∃ pn1, null_apply count pn (lex js len pn.pos) = Except.ok (count + 1, pn1, none)) ∧
      cap ≤ p.toknext := by
  rw [hpos]
  generalize hr : JSMN_ERROR_NOMEM = r at h
  cases h with
  | opn_nomem obj hl hc => rw [hl]; exact ⟨⟨pn, by simp [null_apply]⟩, hc⟩
  | cls_unmatched obj hl hf => exact absurd hr (by decide)
  | cls_mismatch obj i hl hf ht => exact absurd hr (by decide)
  | str_nomem q hl hc => rw [hl]; exact ⟨⟨{ pn with pos := q }, by simp [null_apply]⟩, hc⟩
  | str_inval hl => exact absurd hr (by decide)
  | str_part hl => exact absurd hr (by decide)
  | prim_inval hl => exact absurd hr (by decide)
  | prim_nomem q hl hc => rw [hl]; exact ⟨⟨{ pn with pos := q - 1 }, by simp [null_apply]⟩, hc⟩

/-- The sizing scan against the filling scan from the same position: when the
scan with a null array returns `n ≥ 0` and the capacity holds the tokens
still to come, the scan with an array does not return `JSMN_ERROR_NOMEM`, and
a count it returns is `toknext` plus the tokens the sizing scan counted. -/
theorem sizing_bounds_fill (js : List Nat) (len cap cap0 : Nat) :
    ∀ k count pn p ts, len - p.pos = k → pn.pos = p.pos →
      0 ≤ (parse_loop js len cap0 (len - pn.pos) count pn none).1 →
      (p.toknext : Int) + ((parse_loop js len cap0 (len - pn.pos) count pn none).1 - count)
        ≤ (cap : Int) →
      (jsmn_parse p js len (some ts) cap).1 ≠ JSMN_ERROR_NOMEM ∧
      (0 ≤ (jsmn_parse p js len (some ts) cap).1 →
        (jsmn_parse p js len (some ts) cap).1
          = (p.toknext : Int) + ((parse_loop js len cap0 (len - pn.pos) count pn none).1 - count)) := by
  intro k
  induction k using Nat.strong_induction_on with
  | _ k ih =>
    intro count pn p ts hk hpos h0 hcap
    by_cases hg : loop_cond js len p
    · have hgn : loop_cond js len pn := by unfold loop_cond at hg ⊢; rw [hpos]; exact hg
      rcases TStep_or_TErr js len cap p ts with ⟨p1, ts1, h1⟩ | ⟨r, hr⟩
      · obtain ⟨pn1, hn1, hp1⟩ := null_apply_of_TStep js len cap count pn p ts p1 ts1 hpos h1
        have hprog := TStep_pos js len cap p ts p1 ts1 hg h1
        rw [null_unfold_ok js len cap0 count pn _ pn1 none hgn hn1] at h0 hcap ⊢
        rw [jsmn_parse_step js len cap p ts p1 ts1 hg h1]
        have hlt := hg.1
        have := ih (len - p1.pos) (by omega) (count + ((p1.toknext : Int) - (p.toknext : Int)))
          { pn1 with pos := pn1.pos + 1 } p1 ts1 rfl hp1 h0 (by dsimp only; omega)
        dsimp only at this
        refine ⟨this.1, fun h => ?_⟩
        rw [this.2 h]
        ring
      · rw [jsmn_parse_err js len cap p ts r hg hr]
        have hneg := neg_of_TErr js len cap p ts r hr
        refine ⟨?_, fun h => by simp only at h; omega⟩
        intro hnm
        simp only at hnm
        subst hnm
        obtain ⟨⟨pn1, hn1⟩, hfull⟩ := null_apply_of_nomem js len cap count pn p ts hpos hr
        have hposn := null_apply_pos js len count pn hgn.1 hgn.2 _ pn1 none hn1
        rw [null_unfold_ok js len cap0 count pn _ pn1 none hgn hn1] at h0 hcap
        have := null_count_mono js len cap0 (len - (pn1.pos + 1)) (count + 1)
          { pn1 with pos := pn1.pos + 1 } rfl h0
        dsimp only at this
        omega
    · have hgn : ¬ loop_cond js len pn := by unfold loop_cond at hg ⊢; rw [hpos]; exact hg
      rw [null_unfold_stop js len cap0 count pn hgn]
      rw [jsmn_parse_stop js len cap p ts hg]
      cases hf : find_open ts p.toknext with
      | none =>
        rw [parse_finish_closed _ p ts hf]
        refine ⟨?_, fun _ => by simp⟩
        intro h
        simp only at h
        have : (0 : Int) ≤ (p.toknext : Int) := Int.natCast_nonneg _
        rw [h] at this
        exact absurd this (by decide)
      | some i =>
        rw [parse_finish_open _ p ts i hf]
        exact ⟨by show JSMN_ERROR_PART ≠ JSMN_ERROR_NOMEM; decide,
          fun h => absurd (show (0 : Int) ≤ JSMN_ERROR_PART from h) (by decide)⟩

/-- The filling scan against the sizing scan from the same position: when the
scan with an array returns `r ≥ 0`, the scan with a null array returns its
starting count plus the tokens the filling scan allocated. -/
theorem fill_gives_sizing (js : List Nat) (len cap cap0 : Nat) :
    ∀ k count pn p ts, len - p.pos = k → pn.pos = p.pos →
      0 ≤ (jsmn_parse p js len (some ts) cap).1 →
      (parse_loop js len cap0 (len - pn.pos) count pn none).1
        = count + ((jsmn_parse p js len (some ts) cap).1 - (p.toknext : Int)) := by
  intro k
  induction k using Nat.strong_induction_on with
  | _ k ih =>
    intro count pn p ts hk hpos h0
    by_cases hg : loop_cond js len p
    · have hgn : loop_cond js len pn := by unfold loop_cond at hg ⊢; rw [hpos]; exact hg
      rcases TStep_or_TErr js len cap p ts with ⟨p1, ts1, h1⟩ | ⟨r, hr⟩
      · obtain ⟨pn1, hn1, hp1⟩ := null_apply_of_TStep js len cap count pn p ts p1 ts1 hpos h1
        have hprog := TStep_pos js len cap p ts p1 ts1 hg h1
        rw [null_unfold_ok js len cap0 count pn _ pn1 none hgn hn1]
        rw [jsmn_parse_step js len cap p ts p1 ts1 hg h1] at h0 ⊢
        have hlt := hg.1
        have := ih (len - p1.pos) (by omega) (count + ((p1.toknext : Int) - (p.toknext : Int)))
          { pn1 with pos := pn1.pos + 1 } p1 ts1 rfl hp1 h0
        dsimp only at this
        rw [this]
        ring
      · rw [jsmn_parse_err js len cap p ts r hg hr] at h0
        have hneg := neg_of_TErr js len cap p ts r hr
        simp only at h0
        omega
    · have hgn : ¬ loop_cond js len pn := by unfold loop_cond at hg ⊢; rw [hpos]; exact hg
      rw [null_unfold_stop js len cap0 count pn hgn]
      rw [jsmn_parse_stop js len cap p ts hg] at h0 ⊢
      cases hf : find_open ts p.toknext with
      | none => rw [parse_finish_closed _ p ts hf]; simp
      | some i =>
        rw [parse_finish_open _ p ts i hf] at h0
        exact absurd (show (0 : Int) ≤ JSMN_ERROR_PART from h0) (by decide)

theorem jsmn_getTokenLen_eq (js : List Nat) (len : Nat) :
    jsmn_getTokenLen js 0 len = (parse_loop js len 0 (len - jsmn_init.pos) 0 jsmn_init none).1 := by
  unfold jsmn_getTokenLen jsmn_parse
  rw [List.drop_zero]
  rfl

/-! ## Bytes laid out in the buffer -/

theorem byte_at_cons_zero (c : Nat) (l : List Nat) : byte_at (c :: l) 0 = c := rfl

theorem byte_at_cons_succ (c : Nat) (l : List Nat) (i : Nat) :
    byte_at (c :: l) (i + 1) = byte_at l i := rfl

theorem occupies_nil (js : List Nat) (s : Nat) : occupies js s [] := by
  intro i hi
  simp at hi

theorem occupies_cons (js : List Nat) (s c : Nat) (l : List Nat) :
    occupies js s (c :: l) ↔ byte_at js s = c ∧ occupies js (s + 1) l := by
  constructor
  · intro h
    refine ⟨by simpa using h 0 (by simp), ?_⟩
    intro i hi
    have := h (i + 1) (by simpa using hi)
    rw [byte_at_cons_succ] at this
    rw [← this]
    congr 1
    omega
  · rintro ⟨h0, h1⟩ i hi
    cases i with
    | zero => simpa using h0
    | succ i =>
      rw [byte_at_cons_succ, ← h1 i (by simpa using hi)]
      congr 1
      omega

theorem occupies_append (js : List Nat) (s : Nat) (a b : List Nat) :
    occupies js s (a ++ b) ↔ occupies js s a ∧ occupies js (s + a.length) b := by
  induction a generalizing s with
  | nil => simp [occupies_nil]
  | cons c a ih =>
    rw [List.cons_append, occupies_cons, occupies_cons, ih (s + 1), and_assoc]
    simp only [List.length_cons]
    rw [show s + 1 + a.length = s + (a.length + 1) by omega]

theorem occupies_self (l : List Nat) : occupies l 0 l := by
  intro i _
  rw [Nat.zero_add]

theorem occupies_take (js : List Nat) (s : Nat) (l : List Nat) (n : Nat)
    (h : occupies js s l) : occupies js s (l.take n) := by
  have : occupies js s (l.take n ++ l.drop n) := by rw [List.take_append_drop]; exact h
  exact ((occupies_append js s _ _).mp this).1

theorem byte_at_end (l : List Nat) : byte_at l l.length = 0 := by
  unfold byte_at
  rw [List.getD_eq_default]
  omega

/-! ## The scans on well-formed lexemes -/

theorem prim_byte_facts (c : Nat) (h : prim_byte c = true) :
    c ≠ 0 ∧ is_prim_boundary c = false ∧ ¬ (c < 32 ∨ c ≥ 127) ∧ c ≠ 34 ∧ c ≠ 123 ∧ c ≠ 91 := by
  simp only [prim_byte, Bool.and_eq_true, decide_eq_true_eq, Bool.not_eq_true',
    ne_eq] at h
  obtain ⟨⟨⟨⟨⟨h1, h2⟩, h3⟩, h4⟩, h5⟩, h6⟩ := h
  exact ⟨by omega, h3, by omega, h4, h5, h6⟩

theorem boundary_facts (c : Nat) (h : is_prim_boundary c = false) :
    c ≠ 58 ∧ c ≠ 9 ∧ c ≠ 13 ∧ c ≠ 10 ∧ c ≠ 32 ∧ c ≠ 44 ∧ c ≠ 93 ∧ c ≠ 125 := by
  simp only [is_prim_boundary, Bool.or_eq_false_iff, decide_eq_false_iff_not] at h
  obtain ⟨⟨⟨⟨⟨⟨⟨h1, h2⟩, h3⟩, h4⟩, h5⟩, h6⟩, h7⟩, h8⟩ := h
  exact ⟨h1, h2, h3, h4, h5, h6, h7, h8⟩

/-- The primitive scan runs over a run of primitive bytes and stops right
after it, at the end of the buffer or on what may follow a primitive. -/
theorem primitive_scan_run (js : List Nat) (len : Nat) :
    ∀ (bs : List Nat) (pos fuel : Nat), (∀ c, c ∈ bs → prim_byte c = true) →
      occupies js pos bs → pos + bs.length ≤ len →
      (pos + bs.length = len ∨ follow js (pos + bs.length)) → bs.length ≤ fuel →
      primitive_scan js len fuel pos = some (pos + bs.length) := by
  intro bs
  induction bs with
  | nil =>
    intro pos fuel _ _ _ hend _
    simp only [List.length_nil, Nat.add_zero] at hend ⊢
    cases fuel with
    | zero => rfl
    | succ n =>
      unfold primitive_scan
      by_cases hg : pos < len ∧ byte_at js pos ≠ 0
      · rw [if_pos hg]
        rcases hend with h | h | h
        · omega
        · exact absurd h hg.2
        · rw [if_pos h]
      · rw [if_neg hg]
  | cons c bs ih =>
    intro pos fuel hall hocc hlen hend hfuel
    simp only [List.length_cons] at hlen hend hfuel ⊢
    obtain ⟨n, rfl⟩ : ∃ n, fuel = n + 1 := ⟨fuel - 1, by omega⟩
    obtain ⟨h0, hrest⟩ := (occupies_cons js pos c bs).mp hocc
    obtain ⟨f1, f2, f3, -⟩ := prim_byte_facts c (hall c (List.mem_cons_self _ _))
    unfold primitive_scan
    rw [if_pos ⟨by omega, by rw [h0]; exact f1⟩, h0, f2]
    simp only [Bool.false_eq_true, if_false]
    rw [if_neg f3]
    have := ih (pos + 1) n (fun c hc => hall c (List.mem_cons_of_mem _ hc)) hrest (by omega)
      (by rw [show pos + 1 + bs.length = pos + (bs.length + 1) by omega]; exact hend) (by omega)
    rw [this]
    congr 1
    omega

theorem hex_scan_run (js : List Nat) (len : Nat) :
    ∀ (n pos : Nat), (∀ i, i < n → is_hex (byte_at js (pos + i)) = true) → pos + n ≤ len →
      hex_scan js len n pos = some (pos + n) := by
  intro n
  induction n with
  | zero => intro pos _ _; rfl
  | succ n ih =>
    intro pos hh hl
    have h0 := hh 0 (by omega)
    simp only [Nat.add_zero] at h0
    have hne : byte_at js pos ≠ 0 := by
      intro h; rw [h] at h0; simp [is_hex] at h0
    unfold hex_scan
    rw [if_pos ⟨by omega, hne⟩, if_pos h0,
      ih (pos + 1) (fun i hi => by
        have := hh (i + 1) (by omega)
        rwa [show pos + (i + 1) = pos + 1 + i by omega] at this) (by omega)]
    congr 1
    omega

/-- The hexadecimal scan cut by the end of the buffer stops there. -/
theorem hex_scan_cut (js : List Nat) (len : Nat) :
    ∀ (n pos : Nat), (∀ i, i < n → is_hex (byte_at js (pos + i)) = true) → pos ≤ len →
      len < pos + n → hex_scan js len n pos = some len := by
  intro n
  induction n with
  | zero => intro pos _ h1 h2; omega
  | succ n ih =>
    intro pos hh h1 h2
    unfold hex_scan
    by_cases hg : pos < len ∧ byte_at js pos ≠ 0
    · have h0 := hh 0 (by omega)
      simp only [Nat.add_zero] at h0
      rw [if_pos hg, if_pos h0]
      exact ih (pos + 1) (fun i hi => by
        have := hh (i + 1) (by omega)
        rwa [show pos + (i + 1) = pos + 1 + i by omega] at this) (by omega) (by omega)
    · rw [if_neg hg]
      have h0 := hh 0 (by omega)
      simp only [Nat.add_zero] at h0
      have hne : byte_at js pos ≠ 0 := by
        intro h; rw [h] at h0; simp [is_hex] at h0
      have : ¬ pos < len := fun h => hg ⟨h, hne⟩
      congr 1
      omega

/-- How a string body starts. -/
theorem string_body_cases (low c : Nat) (rest : List Nat)
    (h : string_body low (c :: rest) = true) :
    (c = 92 ∧ ∃ e rest1, rest = e :: rest1 ∧ is_escape e = true ∧
      string_body low rest1 = true) ∨
    (c = 92 ∧ ∃ h1 h2 h3 h4 rest2, rest = 117 :: h1 :: h2 :: h3 :: h4 :: rest2 ∧
      is_hex h1 = true ∧ is_hex h2 = true ∧ is_hex h3 = true ∧ is_hex h4 = true ∧
      string_body low rest2 = true) ∨
    (c ≠ 92 ∧ c ≠ 34 ∧ low ≤ c ∧ string_body low rest = true) := by
  unfold string_body at h
  by_cases hc : c = 92
  · rw [if_pos hc] at h
    cases rest with
    | nil => simp at h
    | cons e rest1 =>
      simp only at h
      by_cases he : is_escape e = true
      · rw [if_pos he] at h
        exact Or.inl ⟨hc, e, rest1, rfl, he, h⟩
      · rw [if_neg he] at h
        by_cases hu : e = 117
        · rw [if_pos hu] at h
          subst hu
          match rest1, h with
          | h1 :: h2 :: h3 :: h4 :: rest2, h =>
            simp only [Bool.and_eq_true] at h
            exact Or.inr (Or.inl ⟨hc, h1, h2, h3, h4, rest2, rfl, h.1.1.1.1, h.1.1.1.2,
              h.1.1.2, h.1.2, h.2⟩)
          | [], h => simp at h
          | [_], h => simp at h
          | [_, _], h => simp at h
          | [_, _, _], h => simp at h
        · rw [if_neg hu] at h
          simp at h
  · rw [if_neg hc] at h
    simp only [ne_eq, Bool.and_eq_true, decide_eq_true_eq] at h
    exact Or.inr (Or.inr ⟨hc, h.1.1, h.1.2, h.2⟩)

theorem is_hex_ne_zero (c : Nat) (h : is_hex c = true) : c ≠ 0 := by
  intro h0; rw [h0] at h; simp [is_hex] at h

/-- The string scan runs over a string body and its closing quote. -/
theorem string_scan_run (js : List Nat) (len : Nat) :
    ∀ (n : Nat) (body : List Nat) (pos fuel : Nat), body.length = n →
      string_body 1 body = true → occupies js pos (body ++ [34]) → pos + body.length < len →
      body.length < fuel →
      string_scan js len fuel pos = StrScan.closed (pos + body.length) := by
  intro n
  induction n using Nat.strong_induction_on with
  | _ n ih =>
    intro body pos fuel hn hb hocc hlen hfuel
    obtain ⟨f, rfl⟩ : ∃ f, fuel = f + 1 := ⟨fuel - 1, by omega⟩
    cases body with
    | nil =>
      have h34 : byte_at js pos = 34 := by
        have := hocc 0 (by simp)
        simpa using this
      unfold string_scan
      rw [if_pos ⟨by simpa using hlen, by rw [h34]; decide⟩, if_pos h34]
      simp
    | cons c rest =>
      simp only [List.length_cons] at hn hlen hfuel ⊢
      rw [List.cons_append, occupies_cons] at hocc
      obtain ⟨h0, hrest⟩ := hocc
      rcases string_body_cases 1 c rest hb with
        ⟨hc, e, rest1, rfl, he, hb1⟩ | ⟨hc, h1, h2, h3, h4, rest2, rfl, e1, e2, e3, e4, hb2⟩ |
        ⟨hc, hq, hlow, hb1⟩
      · -- two-byte escape
        simp only [List.length_cons] at hn hlen hfuel ⊢
        rw [List.cons_append, occupies_cons] at hrest
        obtain ⟨h1, hrest1⟩ := hrest
        unfold string_scan
        rw [if_pos ⟨by omega, by rw [h0, hc]; decide⟩, if_neg (by rw [h0, hc]; decide),
          if_pos ⟨by rw [h0, hc], by omega⟩, h1, if_pos he,
          ih rest1.length (by omega) rest1 (pos + 1 + 1) f rfl hb1 hrest1 (by omega) (by omega)]
        congr 1
        omega
      · -- \u escape
        simp only [List.length_cons] at hn hlen hfuel ⊢
        simp only [List.cons_append, occupies_cons] at hrest
        obtain ⟨hu, g1, g2, g3, g4, hrest2⟩ := hrest
        have hhex : hex_scan js len 4 (pos + 1 + 1) = some (pos + 1 + 1 + 4) := by
          apply hex_scan_run js len 4 (pos + 1 + 1) _ (by omega)
          intro i hi
          obtain rfl | rfl | rfl | rfl : i = 0 ∨ i = 1 ∨ i = 2 ∨ i = 3 := by omega
          · rw [Nat.add_zero, g1]; exact e1
          · rw [g2]; exact e2
          · rw [show pos + 1 + 1 + 2 = pos + 1 + 1 + 1 + 1 by omega, g3]; exact e3
          · rw [show pos + 1 + 1 + 3 = pos + 1 + 1 + 1 + 1 + 1 by omega, g4]; exact e4
        unfold string_scan
        rw [if_pos ⟨by omega, by rw [h0, hc]; decide⟩, if_neg (by rw [h0, hc]; decide),
          if_pos ⟨by rw [h0, hc], by omega⟩, hu, if_neg (by decide), if_pos rfl, hhex]
        simp only
        rw [show pos + 1 + 1 + 4 - 1 + 1 = pos + 1 + 1 + 1 + 1 + 1 + 1 by omega,
          ih rest2.length (by omega) rest2 _ f rfl hb2 hrest2 (by omega) (by omega)]
        congr 1
        omega
      · -- plain byte
        unfold string_scan
        rw [if_pos ⟨by omega, by rw [h0]; omega⟩, if_neg (by rw [h0]; exact hq),
          if_neg (by rw [h0]; exact fun h => hc h.1),
          ih rest.length (by omega) rest (pos + 1) f rfl hb1 hrest (by omega) (by omega)]
        congr 1
        omega

/-- The string scan cut by the end of the buffer before the closing quote
ends with `part`. -/
theorem string_scan_cut (js : List Nat) (len : Nat) :
    ∀ (n : Nat) (body : List Nat) (pos fuel : Nat), body.length = n →
      string_body 1 body = true → occupies js pos body → len ≤ pos + body.length →
      string_scan js len fuel pos = StrScan.part := by
  intro n
  induction n using Nat.strong_induction_on with
  | _ n ih =>
    intro body pos fuel hn hb hocc hlen
    by_cases hg : pos < len ∧ byte_at js pos ≠ 0
    · obtain ⟨f, rfl⟩ | rfl : (∃ f, fuel = f + 1) ∨ fuel = 0 := by
        cases fuel with
        | zero => exact Or.inr rfl
        | succ f => exact Or.inl ⟨f, rfl⟩
      · cases body with
        | nil => simp at hlen; omega
        | cons c rest =>
          simp only [List.length_cons] at hn hlen
          rw [occupies_cons] at hocc
          obtain ⟨h0, hrest⟩ := hocc
          rcases string_body_cases 1 c rest hb with
            ⟨hc, e, rest1, rfl, he, hb1⟩ |
            ⟨hc, h1, h2, h3, h4, rest2, rfl, e1, e2, e3, e4, hb2⟩ | ⟨hc, hq, hlow, hb1⟩
          · simp only [List.length_cons] at hn hlen
            rw [occupies_cons] at hrest
            obtain ⟨h1, hrest1⟩ := hrest
            unfold string_scan
            rw [if_pos hg, if_neg (by rw [h0, hc]; decide)]
            by_cases h2 : pos + 1 < len
            · rw [if_pos ⟨by rw [h0, hc], h2⟩, h1, if_pos he]
              exact ih rest1.length (by omega) rest1 (pos + 1 + 1) f rfl hb1 hrest1 (by omega)
            · rw [if_neg (fun h => h2 h.2)]
              exact string_scan_part_of_stop js len f (pos + 1) (fun h => h2 h.1)
          · simp only [List.length_cons] at hn hlen
            simp only [occupies_cons] at hrest
            obtain ⟨hu, g1, g2, g3, g4, hrest2⟩ := hrest
            have hall : ∀ i, i < 4 → is_hex (byte_at js (pos + 1 + 1 + i)) = true := by
              intro i hi
              obtain rfl | rfl | rfl | rfl : i = 0 ∨ i = 1 ∨ i = 2 ∨ i = 3 := by omega
              · rw [Nat.add_zero, g1]; exact e1
              · rw [g2]; exact e2
              · rw [show pos + 1 + 1 + 2 = pos + 1 + 1 + 1 + 1 by omega, g3]; exact e3
              · rw [show pos + 1 + 1 + 3 = pos + 1 + 1 + 1 + 1 + 1 by omega, g4]; exact e4
            unfold string_scan
            rw [if_pos hg, if_neg (by rw [h0, hc]; decide)]
            by_cases h2 : pos + 1 < len
            · rw [if_pos ⟨by rw [h0, hc], h2⟩, hu, if_neg (by decide), if_pos rfl]
              by_cases h6 : pos + 1 + 1 + 4 ≤ len
              · rw [hex_scan_run js len 4 (pos + 1 + 1) hall h6]
                simp only
                rw [show pos + 1 + 1 + 4 - 1 + 1 = pos + 1 + 1 + 1 + 1 + 1 + 1 by omega]
                exact ih rest2.length (by omega) rest2 _ f rfl hb2 hrest2 (by omega)
              · rw [hex_scan_cut js len 4 (pos + 1 + 1) hall (by omega) (by omega)]
                simp only
                exact string_scan_part_of_stop js len f _ (fun h => by omega)
            · rw [if_neg (fun h => h2 h.2)]
              exact string_scan_part_of_stop js len f (pos + 1) (fun h => h2 h.1)
          · unfold string_scan
            rw [if_pos hg, if_neg (by rw [h0]; exact hq),
              if_neg (by rw [h0]; exact fun h => hc h.1)]
            exact ih rest.length (by omega) rest (pos + 1) f rfl hb1 hrest (by omega)
      · rfl
    · exact string_scan_part_of_stop js len fuel pos hg

/-! ## The kinds of the open tokens -/

theorem is_open_span (t u : jsmntok_t) (h : same_span t u) : is_open t = is_open u := by
  unfold is_open
  rw [h.2.1, h.2.2]

theorem open_types_congr (ts ts1 : Tokens) :
    ∀ n, (∀ i, i < n → same_span (ts1 i) (ts i)) → open_types ts1 n = open_types ts n := by
  intro n
  induction n with
  | zero => intro _; rfl
  | succ n ih =>
    intro h
    unfold open_types
    rw [is_open_span _ _ (h n (by omega)), (h n (by omega)).1, ih (fun i hi => h i (by omega))]

theorem open_types_open_write (ts : Tokens) (p : jsmn_parser_t) (obj : Bool) :
    open_types (open_write ts p obj) (p.toknext + 1) = bracket_type obj :: open_types ts p.toknext := by
  obtain ⟨e1, e2, e3⟩ := open_write_new ts p obj
  have ho : is_open (open_write ts p obj p.toknext) = true := by
    simp [is_open, e2, e3]
  rw [open_types, if_pos ho, e1,
    open_types_congr ts _ p.toknext (fun i hi => open_write_old ts p obj i (by omega))]

theorem open_types_string_write (ts : Tokens) (p : jsmn_parser_t) (q : Nat) :
    open_types (super_incr (string_write ts p q) p) (p.toknext + 1) = open_types ts p.toknext := by
  have hs := string_write_new ts p q
  have ho : ¬ is_open (super_incr (string_write ts p q) p p.toknext) = true := by
    rw [is_open_span _ _ hs]
    simp [is_open]
  rw [open_types, if_neg ho,
    open_types_congr ts _ p.toknext (fun i hi => string_write_old ts p q i (by omega))]

theorem open_types_primitive_write (ts : Tokens) (p : jsmn_parser_t) (q : Nat) :
    open_types (super_incr (primitive_write ts p q) p) (p.toknext + 1)
      = open_types ts p.toknext := by
  have hs := primitive_write_new ts p q
  have ho : ¬ is_open (super_incr (primitive_write ts p q) p p.toknext) = true := by
    rw [is_open_span _ _ hs]
    simp [is_open]
  rw [open_types, if_neg ho,
    open_types_congr ts _ p.toknext (fun i hi => primitive_write_old ts p q i (by omega))]

theorem open_types_find_open (ts : Tokens) (pos : Nat) :
    ∀ n i, find_open ts n = some i →
      open_types ts n = (ts i).type :: open_types ts i ∧
      open_types (close_write ts i pos) n = open_types ts i := by
  intro n
  induction n with
  | zero => intro i h; simp [find_open] at h
  | succ n ih =>
    intro i h
    unfold find_open at h
    by_cases ho : is_open (ts n) = true
    · rw [if_pos ho] at h
      simp only [Option.some.injEq] at h
      subst h
      refine ⟨by rw [open_types, if_pos ho], ?_⟩
      have hc : ¬ is_open (close_write ts n pos n) = true := by
        obtain ⟨-, -, e3⟩ := close_write_new ts n pos
        simp [is_open, e3]
        intro _; omega
      rw [open_types, if_neg hc]
      apply open_types_congr
      intro j hj
      rw [close_write_old ts n pos j (by omega)]
      exact same_span_refl _
    · rw [if_neg ho] at h
      obtain ⟨e1, e2⟩ := ih i h
      have hlt := (find_open_some ts n i h).1
      refine ⟨by rw [open_types, if_neg ho, e1], ?_⟩
      rw [open_types, close_write_old ts i pos n (by omega), if_neg ho, e2]

theorem open_types_nil (ts : Tokens) :
    ∀ n, find_open ts n = none → open_types ts n = [] := by
  intro n
  induction n with
  | zero => intro _; rfl
  | succ n ih =>
    intro h
    unfold find_open at h
    by_cases ho : is_open (ts n) = true
    · rw [if_pos ho] at h; simp at h
    · rw [if_neg ho] at h
      rw [open_types, if_neg ho, ih h]

/-- The token a closing bracket closes, read off the kinds of the open
tokens. -/
theorem find_open_of_types (ts : Tokens) (n : Nat) (t : jsmntype_t) (st : List jsmntype_t)
    (pos : Nat) (h : open_types ts n = t :: st) :
    ∃ i, find_open ts n = some i ∧ (ts i).type = t ∧
      open_types (close_write ts i pos) n = st := by
  cases hf : find_open ts n with
  | none => rw [open_types_nil ts n hf] at h; simp at h
  | some i =>
    obtain ⟨e1, e2⟩ := open_types_find_open ts pos n i hf
    rw [e1] at h
    simp only [List.cons.injEq] at h
    exact ⟨i, rfl, h.1, by rw [e2, h.2]⟩

theorem find_open_of_types_nil (ts : Tokens) (n : Nat) (h : open_types ts n = []) :
    find_open ts n = none := by
  cases hf : find_open ts n with
  | none => rfl
  | some i =>
    rw [(open_types_find_open ts 0 n i hf).1] at h
    simp at h

/-! ## The classification at a lexeme -/

theorem lex_at_ws (js : List Nat) (len pos c : Nat) (h : byte_at js pos = c)
    (hc : is_ws c = true) : lex js len pos = Lex.ws ∧ byte_at js pos ≠ 0 := by
  simp only [is_ws, Bool.or_eq_true, decide_eq_true_eq] at hc
  unfold lex
  rw [h]
  rcases hc with ((rfl | rfl) | rfl) | rfl <;> simp

theorem lex_at_opn (js : List Nat) (len pos : Nat) (obj : Bool)
    (h : byte_at js pos = (if obj then 123 else 91)) :
    lex js len pos = Lex.opn obj ∧ byte_at js pos ≠ 0 := by
  unfold lex
  rw [h]
  cases obj <;> simp

theorem lex_at_cls (js : List Nat) (len pos : Nat) (obj : Bool)
    (h : byte_at js pos = (if obj then 125 else 93)) :
    lex js len pos = Lex.cls obj ∧ byte_at js pos ≠ 0 := by
  unfold lex
  rw [h]
  cases obj <;> simp

theorem lex_at_colon (js : List Nat) (len pos : Nat) (h : byte_at js pos = 58) :
    lex js len pos = Lex.colon ∧ byte_at js pos ≠ 0 := by
  unfold lex
  rw [h]
  simp

theorem lex_at_comma (js : List Nat) (len pos : Nat) (h : byte_at js pos = 44) :
    lex js len pos = Lex.comma ∧ byte_at js pos ≠ 0 := by
  unfold lex
  rw [h]
  simp

theorem lex_at_str (js : List Nat) (len pos : Nat) (h : byte_at js pos = 34) :
    lex js len pos = Lex.str (string_scan js len (len - (pos + 1)) (pos + 1)) ∧
      byte_at js pos ≠ 0 := by
  unfold lex
  rw [h]
  simp

theorem lex_at_prim (js : List Nat) (len pos c : Nat) (h : byte_at js pos = c)
    (hc : prim_byte c = true) :
    lex js len pos = Lex.prim (primitive_scan js len (len - pos) pos) ∧ byte_at js pos ≠ 0 := by
  obtain ⟨f1, f2, -, f4, f5, f6⟩ := prim_byte_facts c hc
  obtain ⟨b1, b2, b3, b4, b5, b6, b7, b8⟩ := boundary_facts c f2
  unfold lex
  rw [h]
  simp [f1, f4, f5, f6, b1, b2, b3, b4, b5, b6, b7, b8]

/-! ## One loop iteration on a lexeme -/

/-- The loop iteration on a lexeme that lies whole inside the buffer: it does
not return when the array has room, it leaves the parser right after the
lexeme, and the open brackets change as the lexeme says. -/
theorem lexeme_step (js : List Nat) (len cap : Nat) (l : Lexeme) (p : jsmn_parser_t)
    (ts : Tokens) (r : List Lexeme) (extra base extra' : List jsmntype_t)
    (hok : l.ok) (hocc : occupies js p.pos l.bytes) (hlen : p.pos + l.bytes.length ≤ len)
    (hdel : delims_ok js p.pos (l :: r)) (hcap : l.tokens = 1 → p.toknext < cap)
    (hty : open_types ts p.toknext = extra ++ base)
    (hrun : run_stack extra (l :: r) = some extra') :
    loop_cond js len p ∧ TStep js len cap p ts (lex_next l p ts).1 (lex_next l p ts).2 ∧
    (lex_next l p ts).1.pos = p.pos + l.bytes.length ∧
    (lex_next l p ts).1.toknext = p.toknext + l.tokens ∧
    delims_ok js (p.pos + l.bytes.length) r ∧
    ∃ extra1, open_types (lex_next l p ts).2 (lex_next l p ts).1.toknext = extra1 ++ base ∧
      run_stack extra1 r = some extra' := by
  cases l with
  | ws c =>
    simp only [Lexeme.bytes, List.length_singleton] at hocc hlen ⊢
    have hb : byte_at js p.pos = c := by simpa using hocc 0 (by simp)
    obtain ⟨hl, hne⟩ := lex_at_ws js len p.pos c hb hok
    exact ⟨⟨by omega, hne⟩, TStep.ws hl, rfl, rfl, hdel.2, extra, hty, hrun⟩
  | opn obj =>
    simp only [Lexeme.bytes, List.length_singleton] at hocc hlen ⊢
    have hb : byte_at js p.pos = (if obj then 123 else 91) := by simpa using hocc 0 (by simp)
    obtain ⟨hl, hne⟩ := lex_at_opn js len p.pos obj hb
    refine ⟨⟨by omega, hne⟩, TStep.opn obj hl (hcap rfl), rfl, rfl, hdel.2,
      bracket_type obj :: extra, ?_, hrun⟩
    simp only [lex_next]
    rw [open_types_open_write, hty]
    rfl
  | cls obj =>
    simp only [Lexeme.bytes, List.length_singleton] at hocc hlen ⊢
    have hb : byte_at js p.pos = (if obj then 125 else 93) := by simpa using hocc 0 (by simp)
    obtain ⟨hl, hne⟩ := lex_at_cls js len p.pos obj hb
    cases extra with
    | nil => simp [run_stack] at hrun
    | cons t e0 =>
      simp only [run_stack] at hrun
      by_cases ht : t = bracket_type obj
      · rw [if_pos ht] at hrun
        obtain ⟨i, hf, hti, hot⟩ := find_open_of_types ts p.toknext t (e0 ++ base) p.pos hty
        have hn : lex_next (Lexeme.cls obj) p ts =
            ({ pos := p.pos + 1, toknext := p.toknext, toksuper := close_super ts i p.pos },
              close_write ts i p.pos) := by
          simp only [lex_next, hf]
        rw [hn]
        exact ⟨⟨by omega, hne⟩, TStep.cls obj i hl hf (hti.trans ht), rfl, rfl, hdel.2, e0, hot,
          hrun⟩
      · rw [if_neg ht] at hrun; simp at hrun
  | colon =>
    simp only [Lexeme.bytes, List.length_singleton] at hocc hlen ⊢
    have hb : byte_at js p.pos = 58 := by simpa using hocc 0 (by simp)
    obtain ⟨hl, hne⟩ := lex_at_colon js len p.pos hb
    exact ⟨⟨by omega, hne⟩, TStep.colon hl, rfl, rfl, hdel.2, extra, hty, hrun⟩
  | comma =>
    simp only [Lexeme.bytes, List.length_singleton] at hocc hlen ⊢
    have hb : byte_at js p.pos = 44 := by simpa using hocc 0 (by simp)
    obtain ⟨hl, hne⟩ := lex_at_comma js len p.pos hb
    exact ⟨⟨by omega, hne⟩, TStep.comma hl, rfl, rfl, hdel.2, extra, hty, hrun⟩
  | str body =>
    simp only [Lexeme.bytes, List.length_cons, List.length_append, List.length_singleton,
      List.length_nil] at hocc hlen ⊢
    rw [occupies_cons] at hocc
    obtain ⟨hb, hbody⟩ := hocc
    obtain ⟨hl, hne⟩ := lex_at_str js len p.pos hb
    rw [string_scan_run js len body.length body (p.pos + 1) _ rfl hok hbody (by omega)
      (by omega)] at hl
    refine ⟨⟨by omega, hne⟩, TStep.str _ hl (hcap rfl), by simp only [lex_next]; omega,
      by simp only [lex_next, Lexeme.tokens], ?_, extra, ?_, hrun⟩
    · have := hdel.2
      simp only [Lexeme.bytes, List.length_cons, List.length_append,
        List.length_singleton, List.length_nil] at this
      exact this
    · simp only [lex_next]
      rw [open_types_string_write, hty]
  | prim bs =>
    simp only [Lexeme.bytes] at hocc hlen ⊢
    obtain ⟨hne0, hall⟩ := hok
    obtain ⟨hfol, hdel⟩ := hdel
    simp only [Lexeme.bytes] at hfol hdel
    obtain ⟨c, bs', rfl⟩ : ∃ c bs', bs = c :: bs' := by
      cases bs with
      | nil => exact absurd rfl hne0
      | cons c bs' => exact ⟨c, bs', rfl⟩
    have hb : byte_at js p.pos = c := ((occupies_cons js p.pos c bs').mp hocc).1
    obtain ⟨hl, hne⟩ := lex_at_prim js len p.pos c hb (hall c (List.mem_cons_self _ _))
    rw [primitive_scan_run js len (c :: bs') p.pos _ hall hocc hlen (Or.inr hfol)
      (by simp only [List.length_cons] at hlen ⊢; omega)] at hl
    simp only [List.length_cons] at hlen
    refine ⟨⟨by omega, hne⟩, TStep.prim _ hl (hcap rfl),
      by simp only [lex_next, List.length_cons]; omega,
      by simp only [lex_next, Lexeme.tokens], hdel, extra, ?_, hrun⟩
    simp only [lex_next]
    rw [open_types_primitive_write, hty]

/-! ## Byte sequences of lexemes -/

theorem lex_bytes_append (a b : List Lexeme) : lex_bytes (a ++ b) = lex_bytes a ++ lex_bytes b := by
  induction a with
  | nil => rfl
  | cons l a ih =>
    show l.bytes ++ lex_bytes (a ++ b) = (l.bytes ++ lex_bytes a) ++ lex_bytes b
    rw [ih, List.append_assoc]

theorem lex_tokens_append (a b : List Lexeme) :
    lex_tokens (a ++ b) = lex_tokens a + lex_tokens b := by
  induction a with
  | nil => simp [lex_tokens]
  | cons l a ih =>
    show l.tokens + lex_tokens (a ++ b) = (l.tokens + lex_tokens a) + lex_tokens b
    rw [ih]; omega

theorem lexeme_bytes_pos (l : Lexeme) (h : l.ok) : 0 < l.bytes.length := by
  cases l with
  | prim bs =>
    obtain ⟨hne, -⟩ := h
    simp only [Lexeme.bytes]
    exact List.length_pos.mpr hne
  | _ => simp [Lexeme.bytes]

/-! ## The scan over a sequence of lexemes that lies whole inside the buffer -/

theorem complete_run (js : List Nat) (len cap : Nat) :
    ∀ (L : List Lexeme) (p : jsmn_parser_t) (ts : Tokens) (extra base extra' : List jsmntype_t),
      (∀ l, l ∈ L → l.ok) → occupies js p.pos (lex_bytes L) → delims_ok js p.pos L →
      p.pos + (lex_bytes L).length ≤ len → p.toknext + lex_tokens L ≤ cap →
      open_types ts p.toknext = extra ++ base → run_stack extra L = some extra' →
      Reach js len cap p ts (lex_run L p ts).1 (lex_run L p ts).2 ∧
      (lex_run L p ts).1.pos = p.pos + (lex_bytes L).length ∧
      (lex_run L p ts).1.toknext = p.toknext + lex_tokens L ∧
      open_types (lex_run L p ts).2 (lex_run L p ts).1.toknext = extra' ++ base := by
  intro L
  induction L with
  | nil =>
    intro p ts extra base extra' _ _ _ _ _ hty hrun
    simp only [run_stack, Option.some.injEq] at hrun
    subst hrun
    exact ⟨Reach.refl p ts, by simp [lex_run, lex_bytes], by simp [lex_run, lex_tokens], hty⟩
  | cons l r ih =>
    intro p ts extra base extra' hok hocc hdel hlen hcap hty hrun
    simp only [lex_bytes, List.length_append] at hocc hlen ⊢
    simp only [lex_tokens] at hcap ⊢
    rw [occupies_append] at hocc
    obtain ⟨hg, hstep, hpos, htok, hdel1, extra1, hty1, hrun1⟩ :=
      lexeme_step js len cap l p ts r extra base extra' (hok l (List.mem_cons_self _ _))
        hocc.1 (by omega) hdel (by intro h; omega) hty hrun
    obtain ⟨h1, h2, h3, h4⟩ := ih (lex_next l p ts).1 (lex_next l p ts).2 extra1 base extra'
      (fun l' hl' => hok l' (List.mem_cons_of_mem _ hl')) (by rw [hpos]; exact hocc.2)
      (by rw [hpos]; exact hdel1) (by rw [hpos]; omega) (by rw [htok]; omega) hty1 hrun1
    refine ⟨Reach.step p ts _ _ _ _ hg hstep h1, ?_, ?_, h4⟩
    · simp only [lex_run]; rw [h2, hpos]; omega
    · simp only [lex_run]; rw [h3, htok]; omega

/-! ## The scan cut by the end of the buffer -/

/-- A lexeme that needs a token, whole inside the buffer, with the array full:
the iteration returns `JSMN_ERROR_NOMEM`. -/
theorem lexeme_nomem (js : List Nat) (len cap : Nat) (l : Lexeme) (p : jsmn_parser_t)
    (ts : Tokens) (r : List Lexeme)
    (hok : l.ok) (hocc : occupies js p.pos l.bytes) (hlen : p.pos + l.bytes.length ≤ len)
    (hdel : delims_ok js p.pos (l :: r)) (htok : l.tokens = 1) (hcap : cap ≤ p.toknext) :
    loop_cond js len p ∧ TErr js len cap p ts JSMN_ERROR_NOMEM := by
  cases l with
  | opn obj =>
    simp only [Lexeme.bytes, List.length_singleton] at hocc hlen
    have hb : byte_at js p.pos = (if obj then 123 else 91) := by simpa using hocc 0 (by simp)
    obtain ⟨hl, hne⟩ := lex_at_opn js len p.pos obj hb
    exact ⟨⟨by omega, hne⟩, TErr.opn_nomem obj hl hcap⟩
  | str body =>
    simp only [Lexeme.bytes, List.length_cons, List.length_append, List.length_singleton,
      List.length_nil] at hocc hlen
    rw [occupies_cons] at hocc
    obtain ⟨hb, hbody⟩ := hocc
    obtain ⟨hl, hne⟩ := lex_at_str js len p.pos hb
    rw [string_scan_run js len body.length body (p.pos + 1) _ rfl hok hbody (by omega)
      (by omega)] at hl
    exact ⟨⟨by omega, hne⟩, TErr.str_nomem _ hl hcap⟩
  | prim bs =>
    simp only [Lexeme.bytes] at hocc hlen
    obtain ⟨hne0, hall⟩ := hok
    obtain ⟨hfol, -⟩ := hdel
    simp only at hfol
    obtain ⟨c, bs', rfl⟩ : ∃ c bs', bs = c :: bs' := by
      cases bs with
      | nil => exact absurd rfl hne0
      | cons c bs' => exact ⟨c, bs', rfl⟩
    have hb : byte_at js p.pos = c := ((occupies_cons js p.pos c bs').mp hocc).1
    obtain ⟨hl, hne⟩ := lex_at_prim js len p.pos c hb (hall c (List.mem_cons_self _ _))
    rw [primitive_scan_run js len (c :: bs') p.pos _ hall hocc hlen (Or.inr hfol)
      (by simp only [List.length_cons] at hlen ⊢; omega)] at hl
    simp only [List.length_cons] at hlen
    exact ⟨⟨by omega, hne⟩, TErr.prim_nomem _ hl hcap⟩
  | ws c => simp [Lexeme.tokens] at htok
  | cls obj => simp [Lexeme.tokens] at htok
  | colon => simp [Lexeme.tokens] at htok
  | comma => simp [Lexeme.tokens] at htok

/-- The call that starts where the loop condition fails: it returns at once,
`JSMN_ERROR_PART` when a token is open. -/
theorem stop_here (js : List Nat) (k cap : Nat) (p : jsmn_parser_t) (ts : Tokens)
    (extra base : List jsmntype_t) (hg : ¬ loop_cond js k p)
    (hty : open_types ts p.toknext = extra ++ base) :
    ∃ r, jsmn_parse p js k (some ts) cap = (r, p, some ts) ∧
      (base ≠ [] → r = JSMN_ERROR_PART) ∧
      (extra ++ base = [] → r = (p.toknext : Int)) := by
  rw [jsmn_parse_stop js k cap p ts hg]
  cases hf : find_open ts p.toknext with
  | none =>
    rw [parse_finish_closed _ p ts hf]
    refine ⟨_, rfl, ?_, fun _ => rfl⟩
    intro hb
    rw [open_types_nil ts _ hf] at hty
    have := List.append_eq_nil.mp hty.symm
    exact absurd this.2 hb
  | some i =>
    rw [parse_finish_open _ p ts i hf]
    refine ⟨_, rfl, fun _ => rfl, ?_⟩
    intro he
    rw [he] at hty
    rw [find_open_of_types_nil ts _ hty] at hf
    simp at hf

theorem cut_run (js : List Nat) (k cap : Nat) :
    ∀ (L : List Lexeme) (p : jsmn_parser_t) (ts : Tokens) (extra base extra' : List jsmntype_t),
      (∀ l, l ∈ L → l.ok) → occupies js p.pos (lex_bytes L) → delims_ok js p.pos L →
      p.pos ≤ k → k ≤ p.pos + (lex_bytes L).length →
      open_types ts p.toknext = extra ++ base → run_stack extra L = some extra' →
      ∃ pT tsT r, Reach js k cap p ts pT tsT ∧
        jsmn_parse pT js k (some tsT) cap = (r, pT, some tsT) ∧
        (¬ cut_in_prim L p.pos k → ∀ len, p.pos + (lex_bytes L).length ≤ len →
          Reach js len cap p ts pT tsT) ∧
        (p.toknext + lex_tokens L ≤ cap → base ≠ [] → r = JSMN_ERROR_PART) := by
  intro L
  induction L with
  | nil =>
    intro p ts extra base extra' _ _ _ hk1 hk2 hty _
    simp only [lex_bytes, List.length_nil, Nat.add_zero] at hk2
    obtain ⟨r, hr, hpart, -⟩ := stop_here js k cap p ts extra base
      (fun hg => by have := hg.1; omega) hty
    exact ⟨p, ts, r, Reach.refl p ts, hr, fun _ _ _ => Reach.refl p ts, fun _ hb => hpart hb⟩
  | cons l r ih =>
    intro p ts extra base extra' hok hocc hdel hk1 hk2 hty hrun
    simp only [lex_bytes, List.length_append] at hocc hk2 ⊢
    simp only [lex_tokens]
    rw [occupies_append] at hocc
    have hlok := hok l (List.mem_cons_self _ _)
    by_cases hstop : k = p.pos
    · -- the buffer ends before the lexeme
      obtain ⟨r0, hr, hpart, -⟩ := stop_here js k cap p ts extra base
        (fun hg => by have := hg.1; omega) hty
      exact ⟨p, ts, r0, Reach.refl p ts, hr, fun _ _ _ => Reach.refl p ts, fun _ hb => hpart hb⟩
    by_cases hwhole : p.pos + l.bytes.length ≤ k
    · -- the lexeme lies whole inside the buffer
      by_cases hroom : l.tokens = 1 → p.toknext < cap
      · obtain ⟨hg, hstep, hpos, htok, hdel1, extra1, hty1, hrun1⟩ :=
          lexeme_step js k cap l p ts r extra base extra' hlok hocc.1 hwhole hdel hroom hty hrun
        obtain ⟨pT, tsT, r0, h1, h2, h3, h4⟩ := ih (lex_next l p ts).1 (lex_next l p ts).2
          extra1 base extra' (fun l' hl' => hok l' (List.mem_cons_of_mem _ hl'))
          (by rw [hpos]; exact hocc.2) (by rw [hpos]; exact hdel1) (by rw [hpos]; omega)
          (by rw [hpos]; omega) hty1 hrun1
        refine ⟨pT, tsT, r0, Reach.step p ts _ _ _ _ hg hstep h1, h2, ?_, ?_⟩
        · intro hcut len hlen
          obtain ⟨hg', hstep', -⟩ :=
            lexeme_step js len cap l p ts r extra base extra' hlok hocc.1 (by omega) hdel hroom
              hty hrun
          refine Reach.step p ts _ _ _ _ hg' hstep' (h3 ?_ len (by rw [hpos]; omega))
          intro hc
          apply hcut
          rw [hpos] at hc
          exact Or.inr hc
        · intro hcap hb
          exact h4 (by rw [htok]; omega) hb
      · have htk : l.tokens = 1 := by
          by_contra hn; exact hroom (fun h => absurd h hn)
        have hfull : cap ≤ p.toknext := by
          by_contra hn; exact hroom (fun _ => by omega)
        obtain ⟨hg, herr⟩ := lexeme_nomem js k cap l p ts r hlok hocc.1 hwhole hdel htk hfull
        refine ⟨p, ts, JSMN_ERROR_NOMEM, Reach.refl p ts,
          jsmn_parse_err js k cap p ts _ hg herr, fun _ _ _ => Reach.refl p ts, ?_⟩
        intro hcap
        omega
    · -- the buffer ends strictly inside the lexeme
      cases l with
      | str body =>
        simp only [Lexeme.bytes, List.length_cons, List.length_append, List.length_singleton,
          List.length_nil] at hocc hwhole hk2
        obtain ⟨hocc1, -⟩ := hocc
        rw [occupies_cons, occupies_append] at hocc1
        obtain ⟨hb, hbody, -⟩ := hocc1
        obtain ⟨hl, hne⟩ := lex_at_str js k p.pos hb
        rw [string_scan_cut js k body.length body (p.pos + 1) _ rfl hlok hbody (by omega)] at hl
        exact ⟨p, ts, JSMN_ERROR_PART, Reach.refl p ts,
          jsmn_parse_err js k cap p ts _ ⟨by omega, hne⟩ (TErr.str_part hl),
          fun _ _ _ => Reach.refl p ts, fun _ _ => rfl⟩
      | prim bs =>
        simp only [Lexeme.bytes] at hocc hwhole hk2
        obtain ⟨hne0, hall⟩ := hlok
        obtain ⟨c, bs', rfl⟩ : ∃ c bs', bs = c :: bs' := by
          cases bs with
          | nil => exact absurd rfl hne0
          | cons c bs' => exact ⟨c, bs', rfl⟩
        have hb : byte_at js p.pos = c := ((occupies_cons js p.pos c bs').mp hocc.1).1
        obtain ⟨hl, hne⟩ := lex_at_prim js k p.pos c hb (hall c (List.mem_cons_self _ _))
        have htake : ((c :: bs').take (k - p.pos)).length = k - p.pos := by
          rw [List.length_take]; omega
        have hscan := primitive_scan_run js k ((c :: bs').take (k - p.pos)) p.pos (k - p.pos)
          (fun x hx => hall x (List.mem_of_mem_take hx))
          (occupies_take js p.pos _ _ hocc.1) (by rw [htake]; omega)
          (Or.inl (by rw [htake]; omega)) (by rw [htake])
        rw [htake, show p.pos + (k - p.pos) = k by omega] at hscan
        rw [hscan] at hl
        have hcutin : cut_in_prim (Lexeme.prim (c :: bs') :: r) p.pos k :=
          Or.inl ⟨by omega, by omega⟩
        by_cases hroom : p.toknext < cap
        · have hstep : TStep js k cap p ts _ _ := TStep.prim k hl hroom
          have hty1 : open_types (super_incr (primitive_write ts p k) p) (p.toknext + 1)
              = extra ++ base := by rw [open_types_primitive_write, hty]
          obtain ⟨r0, hr, hpart, -⟩ := stop_here js k cap
            { pos := k - 1 + 1, toknext := p.toknext + 1, toksuper := p.toksuper }
            (super_incr (primitive_write ts p k) p) extra base
            (fun hg => by have := hg.1; simp only at this; omega) hty1
          exact ⟨_, _, r0, Reach.single ⟨by omega, hne⟩ hstep, hr,
            fun hcut => absurd hcutin hcut, fun _ hb => hpart hb⟩
        · refine ⟨p, ts, JSMN_ERROR_NOMEM, Reach.refl p ts,
            jsmn_parse_err js k cap p ts _ ⟨by omega, hne⟩ (TErr.prim_nomem k hl (by omega)),
            fun _ _ _ => Reach.refl p ts, ?_⟩
          intro hcap
          simp only [Lexeme.tokens] at hcap
          omega
      | ws c => simp only [Lexeme.bytes, List.length_singleton] at hwhole; omega
      | opn obj => simp only [Lexeme.bytes, List.length_singleton] at hwhole; omega
      | cls obj => simp only [Lexeme.bytes, List.length_singleton] at hwhole; omega
      | colon => simp only [Lexeme.bytes, List.length_singleton] at hwhole; omega
      | comma => simp only [Lexeme.bytes, List.length_singleton] at hwhole; omega

/-! ## The lexemes of well-formed JSON -/

theorem lex_bytes_ws (w : List Nat) : lex_bytes (w.map Lexeme.ws) = w := by
  induction w with
  | nil => rfl
  | cons c w ih =>
    show [c] ++ lex_bytes (w.map Lexeme.ws) = c :: w
    rw [ih]; rfl

theorem lex_tokens_ws (w : List Nat) : lex_tokens (w.map Lexeme.ws) = 0 := by
  induction w with
  | nil => rfl
  | cons c w ih =>
    show 0 + lex_tokens (w.map Lexeme.ws) = 0
    rw [ih]

theorem lex_bytes_cons (l : Lexeme) (r : List Lexeme) :
    lex_bytes (l :: r) = l.bytes ++ lex_bytes r := rfl

/-- The lexemes of a JSON tree spell its text. -/
theorem Json.lex_bytes_lexemes {k : JKind} (j : Json k) : lex_bytes j.lexemes = j.render := by
  induction j with
  | prim bs => simp [Json.lexemes, Json.render, lex_bytes, Lexeme.bytes]
  | str body => simp [Json.lexemes, Json.render, lex_bytes, Lexeme.bytes]
  | arr0 w =>
    simp [Json.lexemes, Json.render, lex_bytes_cons, lex_bytes_append, lex_bytes_ws,
      Lexeme.bytes, lex_bytes]
  | arr es ih =>
    simp [Json.lexemes, Json.render, lex_bytes_cons, lex_bytes_append, ih, Lexeme.bytes,
      lex_bytes]
  | obj0 w =>
    simp [Json.lexemes, Json.render, lex_bytes_cons, lex_bytes_append, lex_bytes_ws,
      Lexeme.bytes, lex_bytes]
  | obj ms ih =>
    simp [Json.lexemes, Json.render, lex_bytes_cons, lex_bytes_append, ih, Lexeme.bytes,
      lex_bytes]
  | elem w1 v w2 ih =>
    simp [Json.lexemes, Json.render, lex_bytes_append, lex_bytes_ws, ih]
  | elems w1 v w2 rest ih1 ih2 =>
    simp [Json.lexemes, Json.render, lex_bytes_cons, lex_bytes_append, lex_bytes_ws, ih1, ih2,
      Lexeme.bytes]
  | member w1 key w2 w3 v w4 ih =>
    simp [Json.lexemes, Json.render, lex_bytes_cons, lex_bytes_append, lex_bytes_ws, ih,
      Lexeme.bytes]
  | members w1 key w2 w3 v w4 rest ih1 ih2 =>
    simp [Json.lexemes, Json.render, lex_bytes_cons, lex_bytes_append, lex_bytes_ws, ih1, ih2,
      Lexeme.bytes]

theorem run_stack_append (a b : List Lexeme) :
    ∀ st, run_stack st (a ++ b) = (run_stack st a).bind (fun st1 => run_stack st1 b) := by
  induction a with
  | nil => intro st; rfl
  | cons l a ih =>
    intro st
    cases l with
    | opn obj => exact ih _
    | cls obj =>
      cases st with
      | nil => rfl
      | cons t st1 =>
        show (if t = bracket_type obj then run_stack st1 (a ++ b) else none) =
          (if t = bracket_type obj then run_stack st1 a else none).bind _
        split_ifs
        · exact ih _
        · rfl
    | ws c => exact ih _
    | colon => exact ih _
    | comma => exact ih _
    | str body => exact ih _
    | prim bs => exact ih _

theorem run_stack_ws (w : List Nat) (st : List jsmntype_t) :
    run_stack st (w.map Lexeme.ws) = some st := by
  induction w with
  | nil => rfl
  | cons c w ih => exact ih

theorem run_stack_group (obj : Bool) (inner : List Lexeme)
    (h : ∀ st, run_stack st inner = some st) (st : List jsmntype_t) :
    run_stack st (Lexeme.opn obj :: (inner ++ [Lexeme.cls obj])) = some st := by
  show run_stack (bracket_type obj :: st) (inner ++ [Lexeme.cls obj]) = some st
  rw [run_stack_append, h]
  simp [run_stack]

/-- The brackets of a JSON tree are balanced: its lexemes leave any stack of
open brackets as it was. -/
theorem Json.run_stack_lexemes {k : JKind} (j : Json k) :
    ∀ st, run_stack st j.lexemes = some st := by
  induction j with
  | prim bs => intro st; rfl
  | str body => intro st; rfl
  | arr0 w => intro st; exact run_stack_group false _ (run_stack_ws w) st
  | arr es ih => intro st; exact run_stack_group false _ ih st
  | obj0 w => intro st; exact run_stack_group true _ (run_stack_ws w) st
  | obj ms ih => intro st; exact run_stack_group true _ ih st
  | elem w1 v w2 ih =>
    intro st
    simp only [Json.lexemes, run_stack_append, run_stack_ws, ih, Option.some_bind]
  | elems w1 v w2 rest ih1 ih2 =>
    intro st
    simp only [Json.lexemes, run_stack_append, run_stack_ws, ih1, Option.some_bind]
    exact ih2 st
  | member w1 key w2 w3 v w4 ih =>
    intro st
    simp only [Json.lexemes, run_stack_append, run_stack_ws, Option.some_bind]
    show run_stack st (w2.map Lexeme.ws ++ _) = some st
    simp only [run_stack_append, run_stack_ws, Option.some_bind]
    show run_stack st (w3.map Lexeme.ws ++ _) = some st
    simp only [run_stack_append, run_stack_ws, ih, Option.some_bind]
  | members w1 key w2 w3 v w4 rest ih1 ih2 =>
    intro st
    simp only [Json.lexemes, run_stack_append, run_stack_ws, Option.some_bind]
    show run_stack st (w2.map Lexeme.ws ++ _) = some st
    simp only [run_stack_append, run_stack_ws, Option.some_bind]
    show run_stack st (w3.map Lexeme.ws ++ _) = some st
    simp only [run_stack_append, run_stack_ws, ih1, Option.some_bind]
    exact ih2 st

theorem string_body_mono (low : Nat) (hlow : 1 ≤ low) :
    ∀ (n : Nat) (body : List Nat), body.length = n → string_body low body = true →
      string_body 1 body = true := by
  intro n
  induction n using Nat.strong_induction_on with
  | _ n ih =>
    intro body hn hb
    cases body with
    | nil => exact string_body_nil 1
    | cons c rest =>
      simp only [List.length_cons] at hn
      rcases string_body_cases low c rest hb with
        ⟨hc, e, rest1, rfl, he, hb1⟩ | ⟨hc, h1, h2, h3, h4, rest2, rfl, e1, e2, e3, e4, hb2⟩ |
        ⟨hc, hq, hl, hb1⟩
      · subst hc
        rw [string_body_esc 1 e rest1 he]
        simp only [List.length_cons] at hn
        exact ih rest1.length (by omega) rest1 rfl hb1
      · subst hc
        rw [string_body_hex 1 h1 h2 h3 h4 rest2 e1 e2 e3 e4]
        simp only [List.length_cons] at hn
        exact ih rest2.length (by omega) rest2 rfl hb2
      · rw [string_body_plain 1 c rest hc hq (by omega)]
        exact ih rest.length (by omega) rest rfl hb1

theorem prim_byte_digit (c : Nat) (h : is_digit c = true) : prim_byte c = true := by
  simp only [is_digit, Bool.and_eq_true, decide_eq_true_eq] at h
  obtain ⟨h1, h2⟩ := h
  have : c = 48 ∨ c = 49 ∨ c = 50 ∨ c = 51 ∨ c = 52 ∨ c = 53 ∨ c = 54 ∨ c = 55 ∨ c = 56 ∨
      c = 57 := by omega
  rcases this with rfl | rfl | rfl | rfl | rfl | rfl | rfl | rfl | rfl | rfl <;> decide

theorem prim_bytes_digits (ds : List Nat) (h : ∀ c, c ∈ ds → is_digit c = true) :
    ∀ c, c ∈ ds → prim_byte c = true := fun c hc => prim_byte_digit c (h c hc)

theorem json_int_bytes (l : List Nat) (h : json_int l) :
    l ≠ [] ∧ ∀ c, c ∈ l → prim_byte c = true := by
  rcases h with rfl | ⟨d, ds, rfl, h1, h2, h3⟩
  · exact ⟨by simp, by intro c hc; simp at hc; subst hc; decide⟩
  · refine ⟨by simp, ?_⟩
    intro c hc
    rcases List.mem_cons.mp hc with rfl | hc
    · exact prim_byte_digit c (by simp [is_digit]; omega)
    · exact prim_byte_digit c (h3 c hc)

theorem json_frac_bytes (l : List Nat) (h : json_frac l) : ∀ c, c ∈ l → prim_byte c = true := by
  rcases h with rfl | ⟨ds, rfl, -, h3⟩
  · intro c hc; simp at hc
  · intro c hc
    rcases List.mem_cons.mp hc with rfl | hc
    · decide
    · exact prim_byte_digit c (h3 c hc)

theorem json_exp_bytes (l : List Nat) (h : json_exp l) : ∀ c, c ∈ l → prim_byte c = true := by
  rcases h with rfl | ⟨e, sg, ds, rfl, he, hsg, -, h3⟩
  · intro c hc; simp at hc
  · intro c hc
    rcases List.mem_cons.mp hc with rfl | hc
    · rcases he with rfl | rfl <;> decide
    · rcases List.mem_append.mp hc with hc | hc
      · rcases hsg with rfl | rfl | rfl
        · simp at hc
        · simp at hc; subst hc; decide
        · simp at hc; subst hc; decide
      · exact prim_byte_digit c (h3 c hc)

/-- A JSON primitive is a non-empty run of primitive bytes. -/
theorem json_primitive_ok (bs : List Nat) (h : json_primitive bs) : (Lexeme.prim bs).ok := by
  rcases h with ⟨sg, ip, fp, ep, rfl, hsg, hip, hfp, hep⟩ | rfl | rfl | rfl
  · obtain ⟨hne, hi⟩ := json_int_bytes ip hip
    refine ⟨?_, ?_⟩
    · intro h0
      have := List.append_eq_nil.mp h0
      have := List.append_eq_nil.mp this.2
      exact hne this.1
    · intro c hc
      rcases List.mem_append.mp hc with hc | hc
      · rcases hsg with rfl | rfl
        · simp at hc
        · simp at hc; subst hc; decide
      · rcases List.mem_append.mp hc with hc | hc
        · exact hi c hc
        · rcases List.mem_append.mp hc with hc | hc
          · exact json_frac_bytes fp hfp c hc
          · exact json_exp_bytes ep hep c hc
  · exact ⟨by simp, by decide⟩
  · exact ⟨by simp, by decide⟩
  · exact ⟨by simp, by decide⟩

theorem ws_lexemes_ok (w : List Nat) (h : all_ws w) : ∀ l, l ∈ w.map Lexeme.ws → l.ok := by
  intro l hl
  obtain ⟨c, hc, rfl⟩ := List.mem_map.mp hl
  exact h c hc

/-- The lexemes of well-formed JSON are lexemes the scan accepts. -/
theorem Json.lexemes_ok {k : JKind} (j : Json k) : j.wf → ∀ l, l ∈ j.lexemes → l.ok := by
  induction j with
  | prim bs =>
    intro h l hl
    simp only [Json.lexemes, List.mem_singleton] at hl
    subst hl
    exact json_primitive_ok bs h
  | str body =>
    intro h l hl
    simp only [Json.lexemes, List.mem_singleton] at hl
    subst hl
    exact string_body_mono 32 (by omega) _ body rfl h
  | arr0 w =>
    intro h l hl
    simp only [Json.lexemes, List.mem_cons, List.mem_append, List.mem_singleton,
      List.not_mem_nil, or_false] at hl
    rcases hl with rfl | hl | rfl
    · trivial
    · exact ws_lexemes_ok w h l hl
    · trivial
  | arr es ih =>
    intro h l hl
    simp only [Json.lexemes, List.mem_cons, List.mem_append, List.mem_singleton,
      List.not_mem_nil, or_false] at hl
    rcases hl with rfl | hl | rfl
    · trivial
    · exact ih h l hl
    · trivial
  | obj0 w =>
    intro h l hl
    simp only [Json.lexemes, List.mem_cons, List.mem_append, List.mem_singleton,
      List.not_mem_nil, or_false] at hl
    rcases hl with rfl | hl | rfl
    · trivial
    · exact ws_lexemes_ok w h l hl
    · trivial
  | obj ms ih =>
    intro h l hl
    simp only [Json.lexemes, List.mem_cons, List.mem_append, List.mem_singleton,
      List.not_mem_nil, or_false] at hl
    rcases hl with rfl | hl | rfl
    · trivial
    · exact ih h l hl
    · trivial
  | elem w1 v w2 ih =>
    intro h l hl
    obtain ⟨h1, h2, h3⟩ := h
    simp only [Json.lexemes, List.mem_append] at hl
    rcases hl with hl | hl | hl
    · exact ws_lexemes_ok w1 h1 l hl
    · exact ih h2 l hl
    · exact ws_lexemes_ok w2 h3 l hl
  | elems w1 v w2 rest ih1 ih2 =>
    intro h l hl
    obtain ⟨h1, h2, h3, h4⟩ := h
    simp only [Json.lexemes, List.mem_append, List.mem_cons] at hl
    rcases hl with hl | hl | hl | rfl | hl
    · exact ws_lexemes_ok w1 h1 l hl
    · exact ih1 h2 l hl
    · exact ws_lexemes_ok w2 h3 l hl
    · trivial
    · exact ih2 h4 l hl
  | member w1 key w2 w3 v w4 ih =>
    intro h l hl
    obtain ⟨h1, hk, h2, h3, hv, h4⟩ := h
    simp only [Json.lexemes, List.mem_append, List.mem_cons] at hl
    rcases hl with hl | rfl | hl | rfl | hl | hl | hl
    · exact ws_lexemes_ok w1 h1 l hl
    · exact string_body_mono 32 (by omega) _ key rfl hk
    · exact ws_lexemes_ok w2 h2 l hl
    · trivial
    · exact ws_lexemes_ok w3 h3 l hl
    · exact ih hv l hl
    · exact ws_lexemes_ok w4 h4 l hl
  | members w1 key w2 w3 v w4 rest ih1 ih2 =>
    intro h l hl
    obtain ⟨h1, hk, h2, h3, hv, h4, hr⟩ := h
    simp only [Json.lexemes, List.mem_append, List.mem_cons] at hl
    rcases hl with hl | rfl | hl | rfl | hl | hl | hl | rfl | hl
    · exact ws_lexemes_ok w1 h1 l hl
    · exact string_body_mono 32 (by omega) _ key rfl hk
    · exact ws_lexemes_ok w2 h2 l hl
    · trivial
    · exact ws_lexemes_ok w3 h3 l hl
    · exact ih1 hv l hl
    · exact ws_lexemes_ok w4 h4 l hl
    · trivial
    · exact ih2 hr l hl

/-! ## What follows the primitives of well-formed JSON -/

theorem delims_ok_append (js : List Nat) (a b : List Lexeme) :
    ∀ s, delims_ok js s a → delims_ok js (s + (lex_bytes a).length) b →
      delims_ok js s (a ++ b) := by
  induction a with
  | nil => intro s _ hb; simpa [lex_bytes] using hb
  | cons l a ih =>
    intro s ha hb
    obtain ⟨h1, h2⟩ := ha
    refine ⟨h1, ih _ h2 ?_⟩
    rw [lex_bytes_cons, List.length_append] at hb
    rw [Nat.add_assoc]
    exact hb

theorem delims_ok_ws (js : List Nat) (w : List Nat) : ∀ s, delims_ok js s (w.map Lexeme.ws) := by
  induction w with
  | nil => intro s; trivial
  | cons c w ih => intro s; exact ⟨trivial, ih _⟩

theorem occupies_lex_append (js : List Nat) (s : Nat) (a b : List Lexeme)
    (h : occupies js s (lex_bytes (a ++ b))) :
    occupies js s (lex_bytes a) ∧ occupies js (s + (lex_bytes a).length) (lex_bytes b) := by
  rw [lex_bytes_append, occupies_append] at h
  exact h

theorem is_ws_boundary (c : Nat) (h : is_ws c = true) : is_prim_boundary c = true := by
  simp only [is_ws, Bool.or_eq_true, decide_eq_true_eq] at h
  rcases h with ((rfl | rfl) | rfl) | rfl <;> decide

/-- White space, then something that may follow a primitive: the white space
may follow a primitive too. -/
theorem follow_ws (js : List Nat) (e : Nat) (w : List Nat) (hocc : occupies js e w)
    (hws : all_ws w) (hnext : follow js (e + w.length)) : follow js e := by
  cases w with
  | nil => simpa using hnext
  | cons c w =>
    have hb := ((occupies_cons js e c w).mp hocc).1
    exact Or.inr (by rw [hb]; exact is_ws_boundary c (hws c (List.mem_cons_self _ _)))

theorem follow_byte (js : List Nat) (e c : Nat) (l : List Nat) (hocc : occupies js e (c :: l))
    (hc : is_prim_boundary c = true) : follow js e := by
  have hb := ((occupies_cons js e c l).mp hocc).1
  exact Or.inr (by rw [hb]; exact hc)

/-- A group `open inner close` laid out in the buffer. -/
theorem delims_ok_group (js : List Nat) (obj : Bool) (inner : List Lexeme) (s : Nat)
    (hin : ∀ s1, occupies js s1 (lex_bytes inner) → follow js (s1 + (lex_bytes inner).length) →
      delims_ok js s1 inner)
    (hocc : occupies js s (lex_bytes (Lexeme.opn obj :: (inner ++ [Lexeme.cls obj])))) :
    delims_ok js s (Lexeme.opn obj :: (inner ++ [Lexeme.cls obj])) := by
  rw [lex_bytes_cons, occupies_append] at hocc
  obtain ⟨-, h2⟩ := hocc
  obtain ⟨o1, o2⟩ := occupies_lex_append js _ _ _ h2
  refine ⟨trivial, delims_ok_append js _ _ _ (hin _ o1 ?_) ⟨trivial, trivial⟩⟩
  exact follow_byte js _ _ [] o2 (by cases obj <;> decide)

/-- White space, a value, white space, then what may follow a primitive. -/
theorem delims_ok_padded (js : List Nat) (w1 : List Nat) (V : List Lexeme) (w2 : List Nat)
    (R : List Lexeme) (s : Nat) (hw2 : all_ws w2)
    (hV : ∀ s1, occupies js s1 (lex_bytes V) → follow js (s1 + (lex_bytes V).length) →
      delims_ok js s1 V)
    (hocc : occupies js s (lex_bytes (w1.map Lexeme.ws ++ (V ++ (w2.map Lexeme.ws ++ R)))))
    (hR : ∀ s1, s1 = s + w1.length + (lex_bytes V).length + w2.length →
      occupies js s1 (lex_bytes R) → follow js s1 ∧ delims_ok js s1 R) :
    delims_ok js s (w1.map Lexeme.ws ++ (V ++ (w2.map Lexeme.ws ++ R))) := by
  obtain ⟨-, o2⟩ := occupies_lex_append js _ _ _ hocc
  obtain ⟨oV, o3⟩ := occupies_lex_append js _ _ _ o2
  obtain ⟨oW, oR⟩ := occupies_lex_append js _ _ _ o3
  simp only [lex_bytes_ws] at oV oW oR
  obtain ⟨hf, hd⟩ := hR _ rfl oR
  refine delims_ok_append js _ _ _ (delims_ok_ws js w1 s) ?_
  rw [lex_bytes_ws]
  refine delims_ok_append js _ _ _ (hV _ oV (follow_ws js _ w2 oW hw2 hf)) ?_
  refine delims_ok_append js _ _ _ (delims_ok_ws js w2 _) ?_
  rw [lex_bytes_ws]
  exact hd

theorem follow_congr (js : List Nat) (a b : Nat) (h : a = b) (hf : follow js b) : follow js a := by
  rw [h]; exact hf

theorem append_nil_lexemes (a : List Lexeme) : a = a ++ [] := (List.append_nil a).symm

/-- Every primitive of well-formed JSON laid out in the buffer is followed by
what may follow a primitive, when the whole text is. -/
theorem Json.delims_lexemes {k : JKind} (j : Json k) (js : List Nat) :
    j.wf → ∀ s, occupies js s (lex_bytes j.lexemes) →
      follow js (s + (lex_bytes j.lexemes).length) → delims_ok js s j.lexemes := by
  induction j with
  | prim bs =>
    intro _ s _ hf
    simp only [Json.lexemes, lex_bytes, Lexeme.bytes, List.append_nil] at hf
    exact ⟨hf, trivial⟩
  | str body => intro _ s _ _; exact ⟨trivial, trivial⟩
  | arr0 w =>
    intro _ s hocc _
    exact delims_ok_group js false _ s (fun s1 _ _ => delims_ok_ws js w s1) hocc
  | arr es ih =>
    intro h s hocc _
    exact delims_ok_group js false _ s (ih h) hocc
  | obj0 w =>
    intro _ s hocc _
    exact delims_ok_group js true _ s (fun s1 _ _ => delims_ok_ws js w s1) hocc
  | obj ms ih =>
    intro h s hocc _
    exact delims_ok_group js true _ s (ih h) hocc
  | elem w1 v w2 ih =>
    intro h s hocc hf
    obtain ⟨h1, h2, h3⟩ := h
    simp only [Json.lexemes] at hocc hf ⊢
    rw [append_nil_lexemes (w2.map Lexeme.ws)] at hocc hf ⊢
    refine delims_ok_padded js w1 _ w2 [] s h3 (ih h2) hocc ?_
    intro s1 hs1 _
    refine ⟨?_, trivial⟩
    simp only [lex_bytes_append, lex_bytes_ws, List.length_append, lex_bytes,
      List.length_nil] at hf
    rw [hs1]
    rw [show s + w1.length + (lex_bytes v.lexemes).length + w2.length
      = s + (w1.length + ((lex_bytes v.lexemes).length + (w2.length + 0))) by omega]
    exact hf
  | elems w1 v w2 rest ih1 ih2 =>
    intro h s hocc hf
    obtain ⟨h1, h2, h3, h4⟩ := h
    simp only [Json.lexemes] at hocc hf ⊢
    refine delims_ok_padded js w1 _ w2 _ s h3 (ih1 h2) hocc ?_
    intro s1 hs1 oR
    rw [lex_bytes_cons, occupies_append] at oR
    refine ⟨follow_byte js s1 44 _ (by simpa [Lexeme.bytes, lex_bytes_cons] using
      (show occupies js s1 (lex_bytes (Lexeme.comma :: rest.lexemes)) from by
        rw [lex_bytes_cons, occupies_append]; exact oR)) (by decide), trivial, ?_⟩
    refine ih2 h4 _ oR.2 ?_
    simp only [lex_bytes_append, lex_bytes_ws, List.length_append, lex_bytes_cons,
      Lexeme.bytes, List.length_singleton] at hf ⊢
    rw [hs1]
    rw [show s + w1.length + (lex_bytes v.lexemes).length + w2.length + 1
        + (lex_bytes rest.lexemes).length
      = s + (w1.length + ((lex_bytes v.lexemes).length + (w2.length
        + (1 + (lex_bytes rest.lexemes).length)))) by omega]
    exact hf
  | member w1 key w2 w3 v w4 ih =>
    intro h s hocc hf
    obtain ⟨h1, hk, h2, h3, hv, h4⟩ := h
    simp only [Json.lexemes] at hocc hf ⊢
    obtain ⟨-, o2⟩ := occupies_lex_append js _ _ _ hocc
    rw [lex_bytes_cons, occupies_append] at o2
    obtain ⟨-, o3⟩ := o2
    obtain ⟨-, o4⟩ := occupies_lex_append js _ _ _ o3
    rw [lex_bytes_cons, occupies_append] at o4
    obtain ⟨-, o5⟩ := o4
    refine delims_ok_append js _ _ _ (delims_ok_ws js w1 s) ⟨trivial, ?_⟩
    refine delims_ok_append js _ _ _ (delims_ok_ws js w2 _) ⟨trivial, ?_⟩
    rw [append_nil_lexemes (w4.map Lexeme.ws)] at o5 hf ⊢
    refine delims_ok_padded js w3 _ w4 [] _ h4 (ih hv) o5 ?_
    intro s1 hs1 _
    refine ⟨?_, trivial⟩
    simp only [lex_bytes_append, lex_bytes_ws, List.length_append, lex_bytes_cons,
      Lexeme.bytes, List.length_singleton, List.length_cons, lex_bytes,
      List.length_nil] at hf hs1
    exact follow_congr js _ _ (by rw [hs1]; omega) hf
  | members w1 key w2 w3 v w4 rest ih1 ih2 =>
    intro h s hocc hf
    obtain ⟨h1, hk, h2, h3, hv, h4, hr⟩ := h
    simp only [Json.lexemes] at hocc hf ⊢
    obtain ⟨-, o2⟩ := occupies_lex_append js _ _ _ hocc
    rw [lex_bytes_cons, occupies_append] at o2
    obtain ⟨-, o3⟩ := o2
    obtain ⟨-, o4⟩ := occupies_lex_append js _ _ _ o3
    rw [lex_bytes_cons, occupies_append] at o4
    obtain ⟨-, o5⟩ := o4
    refine delims_ok_append js _ _ _ (delims_ok_ws js w1 s) ⟨trivial, ?_⟩
    refine delims_ok_append js _ _ _ (delims_ok_ws js w2 _) ⟨trivial, ?_⟩
    refine delims_ok_padded js w3 _ w4 _ _ h4 (ih1 hv) o5 ?_
    intro s1 hs1 oR
    rw [lex_bytes_cons, occupies_append] at oR
    refine ⟨follow_byte js s1 44 _ (by simpa [Lexeme.bytes, lex_bytes_cons] using
      (show occupies js s1 (lex_bytes (Lexeme.comma :: rest.lexemes)) from by
        rw [lex_bytes_cons, occupies_append]; exact oR)) (by decide), trivial, ?_⟩
    refine ih2 hr _ oR.2 ?_
    simp only [lex_bytes_append, lex_bytes_ws, List.length_append, lex_bytes_cons,
      Lexeme.bytes, List.length_singleton, List.length_cons, List.length_nil] at hf hs1 ⊢
    exact follow_congr js _ _ (by rw [hs1]; omega) hf

/-! ## Documents -/

theorem JsonDoc.lex_bytes_doc (d : JsonDoc) : lex_bytes d.lexemes = d.render := by
  simp only [JsonDoc.lexemes, JsonDoc.render, lex_bytes_append, lex_bytes_ws,
    Json.lex_bytes_lexemes]

theorem JsonDoc.doc_ok (d : JsonDoc) (h : d.wf) : ∀ l, l ∈ d.lexemes → l.ok := by
  intro l hl
  obtain ⟨h1, h2, h3⟩ := h
  simp only [JsonDoc.lexemes, List.mem_append] at hl
  rcases hl with hl | hl | hl
  · exact ws_lexemes_ok _ h1 l hl
  · exact d.value.lexemes_ok h2 l hl
  · exact ws_lexemes_ok _ h3 l hl

theorem JsonDoc.run_stack_doc (d : JsonDoc) (st : List jsmntype_t) :
    run_stack st d.lexemes = some st := by
  simp only [JsonDoc.lexemes, run_stack_append, run_stack_ws, Json.run_stack_lexemes,
    Option.some_bind]

theorem JsonDoc.occupies_lexemes (d : JsonDoc) : occupies d.render 0 (lex_bytes d.lexemes) := by
  rw [d.lex_bytes_doc]
  exact occupies_self _

theorem JsonDoc.delims_doc (d : JsonDoc) (h : d.wf) : delims_ok d.render 0 d.lexemes := by
  obtain ⟨h1, h2, h3⟩ := h
  have hocc := d.occupies_lexemes
  simp only [JsonDoc.lexemes] at hocc ⊢
  rw [append_nil_lexemes (d.trail.map Lexeme.ws)] at hocc ⊢
  refine delims_ok_padded d.render d.lead _ d.trail [] 0 h3
    (d.value.delims_lexemes d.render h2) hocc ?_
  intro s1 hs1 _
  refine ⟨Or.inl ?_, trivial⟩
  have : s1 = d.render.length := by
    rw [hs1]
    simp only [JsonDoc.render, List.length_append, Json.lex_bytes_lexemes]
    omega
  rw [this]
  exact byte_at_end _

theorem tok_ok_closed (js : List Nat) (t : jsmntok_t) (h : tok_ok js t)
    (hc : is_open t = false) : t.end_ ≠ -1 := by
  intro he
  rcases h with ⟨-, s, e, -, h2, -⟩ | ⟨-, s, e, -, h2, -⟩ | ⟨obj, -, s, h1, -⟩
  · omega
  · omega
  · simp [is_open, he, h1] at hc

/-- The scan of a whole well-formed document with room for its tokens: the
call returns the number of tokens and leaves no token open. -/
theorem JsonDoc.parse_whole (d : JsonDoc) (hwf : d.wf) (cap : Nat)
    (hcap : lex_tokens d.lexemes ≤ cap) (ts : Tokens) :
    ∃ pf tsf, jsmn_parse jsmn_init d.render d.render.length (some ts) cap
        = (((lex_tokens d.lexemes : Nat) : Int), pf, some tsf) ∧
      pf.toknext = lex_tokens d.lexemes ∧ TokInv d.render pf tsf ∧
      find_open tsf pf.toknext = none := by
  have hrun := complete_run d.render d.render.length cap d.lexemes jsmn_init ts [] [] []
    (d.doc_ok hwf) d.occupies_lexemes (d.delims_doc hwf)
    (by rw [d.lex_bytes_doc]; simp [jsmn_init]) (by simpa [jsmn_init] using hcap) rfl
    (d.run_stack_doc [])
  obtain ⟨hreach, hpos, htok, hty⟩ := hrun
  rw [d.lex_bytes_doc, show jsmn_init.pos = 0 from rfl, Nat.zero_add] at hpos
  rw [show jsmn_init.toknext = 0 from rfl, Nat.zero_add] at htok
  obtain ⟨r, hr, -, hsucc⟩ := stop_here d.render d.render.length cap _ _ [] []
    (fun hg => by have := hg.1; rw [hpos] at this; omega) hty
  rw [hsucc rfl, htok] at hr
  refine ⟨_, _, ?_, htok, TokInv_reach _ _ _ _ _ _ _ (TokInv_init _ ts) hreach,
    find_open_of_types_nil _ _ hty⟩
  rw [jsmn_parse_reach _ _ _ _ _ _ _ hreach, hr]

theorem all_ws_nil : all_ws [] := by
  intro c hc; cases hc

theorem json_primitive_1 : json_primitive [49] :=
  Or.inl ⟨[], [49], [], [], rfl, Or.inl rfl,
    Or.inr ⟨49, [], rfl, by decide, by decide, by intro c hc; cases hc⟩, Or.inl rfl, Or.inl rfl⟩

theorem json_primitive_12 : json_primitive [49, 50] :=
  Or.inl ⟨[], [49, 50], [], [], rfl, Or.inl rfl,
    Or.inr ⟨49, [50], rfl, by decide, by decide, by
      intro c hc
      simp only [List.mem_singleton] at hc
      subst hc
      decide⟩, Or.inl rfl, Or.inl rfl⟩

theorem tree_a1_wf : tree_a1.wf :=
  ⟨all_ws_nil, ⟨all_ws_nil, by decide, all_ws_nil, all_ws_nil, json_primitive_1, all_ws_nil⟩,
    all_ws_nil⟩

theorem tree_12_wf : tree_12.wf :=
  ⟨all_ws_nil, json_primitive_12, all_ws_nil⟩

theorem tree_arr12_wf : tree_arr12.wf :=
  ⟨all_ws_nil, ⟨all_ws_nil, json_primitive_12, all_ws_nil⟩, all_ws_nil⟩

theorem delims_ok_split (js : List Nat) (a b : List Lexeme) :
    ∀ s, delims_ok js s (a ++ b) →
      delims_ok js s a ∧ delims_ok js (s + (lex_bytes a).length) b := by
  induction a with
  | nil => intro s h; exact ⟨trivial, by simpa [lex_bytes] using h⟩
  | cons l a ih =>
    intro s h
    obtain ⟨h1, h2⟩ := h
    obtain ⟨h3, h4⟩ := ih _ h2
    refine ⟨⟨h1, h3⟩, ?_⟩
    rw [lex_bytes_cons, List.length_append, ← Nat.add_assoc]
    exact h4

/-- A value that is not a primitive is a string or a bracketed group whose
inside is balanced. -/
theorem Json.group_lexemes (v : Json JKind.value) (h : v.is_prim = false) :
    (∃ body, v = Json.str body) ∨
    (∃ obj inner, v.lexemes = Lexeme.opn obj :: (inner ++ [Lexeme.cls obj]) ∧
      ∀ st, run_stack st inner = some st) := by
  cases v with
  | prim bs => simp [Json.is_prim] at h
  | str body => exact Or.inl ⟨body, rfl⟩
  | arr0 w => exact Or.inr ⟨false, _, rfl, run_stack_ws w⟩
  | arr es => exact Or.inr ⟨false, _, rfl, es.run_stack_lexemes⟩
  | obj0 w => exact Or.inr ⟨true, _, rfl, run_stack_ws w⟩
  | obj ms => exact Or.inr ⟨true, _, rfl, ms.run_stack_lexemes⟩

/-- The call on a prefix of a well-formed document that ends strictly inside
the top-level value, when that value is a string, an object or an array. -/
theorem JsonDoc.parse_cut (d : JsonDoc) (hwf : d.wf) (hnp : d.value.is_prim = false) (k : Nat)
    (hk1 : d.lead.length < k) (hk2 : k < d.lead.length + d.value.render.length) (cap : Nat)
    (hcap : lex_tokens d.lexemes ≤ cap) (ts : Tokens) :
    (jsmn_parse jsmn_init d.render k (some ts) cap).1 = JSMN_ERROR_PART := by
  have hok := d.doc_ok hwf
  have hocc := d.occupies_lexemes
  have hdel := d.delims_doc hwf
  rcases d.value.group_lexemes hnp with ⟨body, hv⟩ | ⟨obj, inner, hv, hbal⟩
  · -- the top-level value is a string
    have hL : d.lexemes = d.lead.map Lexeme.ws ++ (Lexeme.str body :: d.trail.map Lexeme.ws) := by
      simp only [JsonDoc.lexemes, hv, Json.lexemes, List.singleton_append]
    have hr : d.value.render.length = body.length + 2 := by
      rw [hv]; simp [Json.render]
    rw [hL] at hok hocc hdel
    obtain ⟨o1, o2⟩ := occupies_lex_append _ _ _ _ hocc
    obtain ⟨d1, -⟩ := delims_ok_split _ _ _ _ hdel
    obtain ⟨hreach, hpos, -, -⟩ := complete_run d.render k cap (d.lead.map Lexeme.ws)
      jsmn_init ts [] [] [] (fun l hl => hok l (List.mem_append_left _ hl)) o1 d1
      (by rw [lex_bytes_ws]; simp only [jsmn_init]; omega)
      (by rw [lex_tokens_ws]; simp [jsmn_init]) rfl (run_stack_ws _ _)
    replace hpos : (lex_run (d.lead.map Lexeme.ws) jsmn_init ts).1.pos = d.lead.length := by
      rw [hpos, lex_bytes_ws]; exact Nat.zero_add _
    rw [lex_bytes_ws, Nat.zero_add] at o2
    rw [jsmn_parse_reach _ _ _ _ _ _ _ hreach]
    rw [lex_bytes_cons, occupies_append] at o2
    obtain ⟨o3, -⟩ := o2
    simp only [Lexeme.bytes] at o3
    rw [occupies_cons, occupies_append] at o3
    obtain ⟨hq, hbody, -⟩ := o3
    rw [← hpos] at hq hbody
    obtain ⟨hl, hne⟩ := lex_at_str d.render k _ hq
    have hbok : string_body 1 body = true :=
      hok (Lexeme.str body) (List.mem_append_right _ (List.mem_cons_self _ _))
    rw [string_scan_cut d.render k body.length body _ _ rfl hbok hbody
      (by rw [hpos]; omega)] at hl
    rw [jsmn_parse_err _ _ _ _ _ _ ⟨by rw [hpos]; omega, hne⟩ (TErr.str_part hl)]
  · -- the top-level value is an object or an array
    have hL : d.lexemes = (d.lead.map Lexeme.ws ++ [Lexeme.opn obj]) ++
        (inner ++ (Lexeme.cls obj :: d.trail.map Lexeme.ws)) := by
      simp only [JsonDoc.lexemes, hv, List.append_assoc, List.cons_append, List.nil_append]
    have hr : d.value.render.length = (lex_bytes inner).length + 2 := by
      rw [← d.value.lex_bytes_lexemes, hv]
      simp [lex_bytes_cons, lex_bytes_append, Lexeme.bytes, lex_bytes]
    have htoks : lex_tokens d.lexemes = 1 + lex_tokens inner := by
      rw [hL]
      simp [lex_tokens_append, lex_tokens_ws, lex_tokens, Lexeme.tokens]
    rw [hL] at hok hocc hdel
    obtain ⟨o1, o2⟩ := occupies_lex_append _ _ _ _ hocc
    obtain ⟨d1, d2⟩ := delims_ok_split _ _ _ _ hdel
    have hlen1 : (lex_bytes (d.lead.map Lexeme.ws ++ [Lexeme.opn obj])).length
        = d.lead.length + 1 := by
      simp [lex_bytes_append, lex_bytes_ws, lex_bytes, Lexeme.bytes]
    have htok1 : lex_tokens (d.lead.map Lexeme.ws ++ [Lexeme.opn obj]) = 1 := by
      simp [lex_tokens_append, lex_tokens_ws, lex_tokens, Lexeme.tokens]
    obtain ⟨hreach, hpos, htk, hty⟩ := complete_run d.render k cap
      (d.lead.map Lexeme.ws ++ [Lexeme.opn obj]) jsmn_init ts [] [] [bracket_type obj]
      (fun l hl => hok l (List.mem_append_left _ hl)) o1 d1
      (by rw [hlen1]; simp only [jsmn_init]; omega)
      (by rw [htok1]; simp only [jsmn_init]; omega) rfl
      (by rw [run_stack_append, run_stack_ws]; rfl)
    replace hpos : (lex_run (d.lead.map Lexeme.ws ++ [Lexeme.opn obj]) jsmn_init ts).1.pos
        = d.lead.length + 1 := by
      rw [hpos, hlen1]; exact Nat.zero_add _
    replace htk : (lex_run (d.lead.map Lexeme.ws ++ [Lexeme.opn obj]) jsmn_init ts).1.toknext
        = 1 := by
      rw [htk, htok1]; rfl
    rw [hlen1, Nat.zero_add] at o2 d2
    obtain ⟨o3, -⟩ := occupies_lex_append _ _ _ _ o2
    obtain ⟨d3, -⟩ := delims_ok_split _ _ _ _ d2
    obtain ⟨pT, tsT, r, hreach2, hres, -, hpart⟩ := cut_run d.render k cap inner
      (lex_run (d.lead.map Lexeme.ws ++ [Lexeme.opn obj]) jsmn_init ts).1
      (lex_run (d.lead.map Lexeme.ws ++ [Lexeme.opn obj]) jsmn_init ts).2
      [] [bracket_type obj] []
      (fun l hl => hok l (List.mem_append_right _ (List.mem_append_left _ hl)))
      (by rw [hpos]; exact o3) (by rw [hpos]; exact d3) (by rw [hpos]; omega)
      (by rw [hpos]; omega) (by rw [hty]; rfl) (hbal [])
    rw [jsmn_parse_reach _ _ _ _ _ _ _ hreach, jsmn_parse_reach _ _ _ _ _ _ _ hreach2, hres]
    exact hpart (by rw [htk]; omega) (by simp)

/-- The sizing call on a well-formed document returns the number of tokens of
its lexemes. -/
theorem JsonDoc.token_len (d : JsonDoc) (hwf : d.wf) :
    jsmn_getTokenLen d.render 0 d.render.length = ((lex_tokens d.lexemes : Nat) : Int) := by
  obtain ⟨pf, tsf, hp, -, -, -⟩ :=
    d.parse_whole hwf (lex_tokens d.lexemes) (le_refl _) blank_tokens
  rw [jsmn_getTokenLen_eq]
  have := fill_gives_sizing d.render d.render.length (lex_tokens d.lexemes) 0
    (d.render.length - jsmn_init.pos) 0 jsmn_init jsmn_init blank_tokens rfl rfl
    (by rw [hp]; exact Int.natCast_nonneg _)
  rw [this, hp]
  simp [jsmn_init]

theorem result_token_some (r : Int) (p : jsmn_parser_t) (ts : Tokens) (i : Nat) :
    result_token (r, p, some ts) i = ts i := rfl

/-! ## The string scan up to an escape -/

/-- The string scan walks over a string body that lies inside the buffer. -/
theorem string_scan_skip (js : List Nat) (len : Nat) :
    ∀ (n : Nat) (body : List Nat) (pos fuel : Nat), body.length = n →
      string_body 1 body = true → occupies js pos body → pos + body.length ≤ len →
      body.length ≤ fuel →
      ∃ fuel1, fuel ≤ fuel1 + body.length ∧
        string_scan js len fuel pos = string_scan js len fuel1 (pos + body.length) := by
  intro n
  induction n using Nat.strong_induction_on with
  | _ n ih =>
    intro body pos fuel hn hb hocc hlen hfuel
    cases body with
    | nil => exact ⟨fuel, by simp, by simp⟩
    | cons c rest =>
      obtain ⟨f, rfl⟩ : ∃ f, fuel = f + 1 := ⟨fuel - 1, by simp at hfuel; omega⟩
      simp only [List.length_cons] at hn hlen hfuel ⊢
      rw [occupies_cons] at hocc
      obtain ⟨h0, hrest⟩ := hocc
      rcases string_body_cases 1 c rest hb with
        ⟨hc, e, rest1, rfl, he, hb1⟩ | ⟨hc, h1, h2, h3, h4, rest2, rfl, e1, e2, e3, e4, hb2⟩ |
        ⟨hc, hq, hlow, hb1⟩
      · simp only [List.length_cons] at hn hlen hfuel ⊢
        rw [occupies_cons] at hrest
        obtain ⟨h1, hrest1⟩ := hrest
        obtain ⟨f1, hf1, hs⟩ := ih rest1.length (by omega) rest1 (pos + 1 + 1) f rfl hb1 hrest1
          (by omega) (by omega)
        refine ⟨f1, by omega, ?_⟩
        rw [string_scan, if_pos ⟨by omega, by rw [h0, hc]; decide⟩,
          if_neg (by rw [h0, hc]; decide), if_pos ⟨by rw [h0, hc], by omega⟩, h1, if_pos he, hs]
        congr 1
        omega
      · simp only [List.length_cons] at hn hlen hfuel ⊢
        simp only [occupies_cons] at hrest
        obtain ⟨hu, g1, g2, g3, g4, hrest2⟩ := hrest
        have hhex : hex_scan js len 4 (pos + 1 + 1) = some (pos + 1 + 1 + 4) := by
          apply hex_scan_run js len 4 (pos + 1 + 1) _ (by omega)
          intro i hi
          obtain rfl | rfl | rfl | rfl : i = 0 ∨ i = 1 ∨ i = 2 ∨ i = 3 := by omega
          · rw [Nat.add_zero, g1]; exact e1
          · rw [g2]; exact e2
          · rw [show pos + 1 + 1 + 2 = pos + 1 + 1 + 1 + 1 by omega, g3]; exact e3
          · rw [show pos + 1 + 1 + 3 = pos + 1 + 1 + 1 + 1 + 1 by omega, g4]; exact e4
        obtain ⟨f1, hf1, hs⟩ := ih rest2.length (by omega) rest2
          (pos + 1 + 1 + 1 + 1 + 1 + 1) f rfl hb2 hrest2 (by omega) (by omega)
        refine ⟨f1, by omega, ?_⟩
        rw [string_scan, if_pos ⟨by omega, by rw [h0, hc]; decide⟩,
          if_neg (by rw [h0, hc]; decide), if_pos ⟨by rw [h0, hc], by omega⟩, hu,
          if_neg (by decide), if_pos rfl, hhex]
        simp only
        rw [show pos + 1 + 1 + 4 - 1 + 1 = pos + 1 + 1 + 1 + 1 + 1 + 1 by omega, hs]
        congr 1
        omega
      · obtain ⟨f1, hf1, hs⟩ := ih rest.length (by omega) rest (pos + 1) f rfl hb1 hrest
          (by omega) (by omega)
        refine ⟨f1, by omega, ?_⟩
        rw [string_scan, if_pos ⟨by omega, by rw [h0]; omega⟩, if_neg (by rw [h0]; exact hq),
          if_neg (by rw [h0]; exact fun h => hc h.1), hs]
        congr 1
        omega

/-- The hexadecimal scan fails on the first byte that is not a hexadecimal
digit, when no NUL byte and no end of buffer comes before it. -/
theorem hex_scan_bad (js : List Nat) (len : Nat) :
    ∀ (n pos i : Nat), i < n → pos + i < len → is_hex (byte_at js (pos + i)) = false →
      (∀ j, j ≤ i → byte_at js (pos + j) ≠ 0) → hex_scan js len n pos = none := by
  intro n
  induction n with
  | zero => intro pos i hi; omega
  | succ n ih =>
    intro pos i hi hlen hbad hnz
    have h0 := hnz 0 (Nat.zero_le _)
    rw [Nat.add_zero] at h0
    rw [hex_scan, if_pos ⟨by omega, h0⟩]
    by_cases hx : is_hex (byte_at js pos) = true
    · rw [if_pos hx]
      cases i with
      | zero => rw [Nat.add_zero, hx] at hbad; exact absurd hbad (by decide)
      | succ i =>
        apply ih (pos + 1) i (by omega) (by omega)
        · rwa [show pos + 1 + i = pos + (i + 1) by omega]
        · intro j hj
          rw [show pos + 1 + j = pos + (j + 1) by omega]
          exact hnz (j + 1) (by omega)
    · rw [if_neg hx]

/-- The hexadecimal scan stops at the end of the input (end of the buffer or
NUL byte) when fewer than `n` hexadecimal digits come before it. -/
theorem hex_scan_stop (js : List Nat) (len : Nat) :
    ∀ (n pos e : Nat), pos ≤ e → e < pos + n → e ≤ len →
      (∀ i, pos + i < e → is_hex (byte_at js (pos + i)) = true) →
      ¬ (e < len ∧ byte_at js e ≠ 0) → hex_scan js len n pos = some e := by
  intro n
  induction n with
  | zero => intro pos e h1 h2; omega
  | succ n ih =>
    intro pos e h1 h2 h3 hh hstop
    by_cases he : pos = e
    · subst he
      rw [hex_scan, if_neg hstop]
    · have h0 := hh 0 (by omega)
      rw [Nat.add_zero] at h0
      rw [hex_scan, if_pos ⟨by omega, is_hex_ne_zero _ h0⟩, if_pos h0]
      apply ih (pos + 1) e (by omega) (by omega) h3 _ hstop
      intro i hi
      rw [show pos + 1 + i = pos + (i + 1) by omega]
      exact hh (i + 1) (by omega)

/-! ## Strings and primitives the scan rejects -/

/-- On an opening quote followed by a string body and a backslash that
introduces a bad escape, the classification is a string scan that fails. -/
theorem lex_bad_escape (js : List Nat) (len pos : Nat) (body : List Nat)
    (hq : byte_at js pos = 34) (hb : string_body 1 body = true)
    (hocc : occupies js (pos + 1) body) (hbs : byte_at js (pos + 1 + body.length) = 92)
    (hin : pos + 1 + body.length + 1 < len)
    (hbad : (is_escape (byte_at js (pos + 1 + body.length + 1)) = false ∧
        byte_at js (pos + 1 + body.length + 1) ≠ 117) ∨
      (byte_at js (pos + 1 + body.length + 1) = 117 ∧
        ∃ i, i < 4 ∧ pos + 1 + body.length + 2 + i < len ∧
          is_hex (byte_at js (pos + 1 + body.length + 2 + i)) = false ∧
          ∀ j, j ≤ i → byte_at js (pos + 1 + body.length + 2 + j) ≠ 0)) :
    lex js len pos = Lex.str StrScan.inval := by
  rw [(lex_at_str js len pos hq).1]
  obtain ⟨f1, hf1, hs⟩ := string_scan_skip js len body.length body (pos + 1)
    (len - (pos + 1)) rfl hb hocc (by omega) (by omega)
  obtain ⟨f, rfl⟩ : ∃ f, f1 = f + 1 := ⟨f1 - 1, by omega⟩
  rw [hs, string_scan, if_pos ⟨by omega, by rw [hbs]; decide⟩, if_neg (by rw [hbs]; decide),
    if_pos ⟨hbs, by omega⟩]
  rcases hbad with ⟨h1, h2⟩ | ⟨h1, i, hi, hlt, hx, hnz⟩
  · rw [if_neg (by rw [h1]; decide), if_neg h2]
  · rw [h1, if_neg (by decide), if_pos rfl,
      hex_scan_bad js len 4 (pos + 1 + body.length + 1 + 1) i hi (by omega)
        (by rw [show pos + 1 + body.length + 1 + 1 + i = pos + 1 + body.length + 2 + i by omega]
            exact hx)
        (fun j hj => by
          rw [show pos + 1 + body.length + 1 + 1 + j = pos + 1 + body.length + 2 + j by omega]
          exact hnz j hj)]

/-- On an opening quote followed by a string body and a `\u` with fewer than
four hexadecimal digits before the end of the input, the classification is a
string scan that runs out of input. -/
theorem lex_short_u (js : List Nat) (len pos : Nat) (body : List Nat)
    (hq : byte_at js pos = 34) (hb : string_body 1 body = true)
    (hocc : occupies js (pos + 1) body) (hbs : byte_at js (pos + 1 + body.length) = 92)
    (hu : byte_at js (pos + 1 + body.length + 1) = 117) (m : Nat) (hm : m < 4)
    (hhex : ∀ i, i < m → is_hex (byte_at js (pos + 1 + body.length + 2 + i)) = true)
    (hend : pos + 1 + body.length + 2 + m = len ∨
      (pos + 1 + body.length + 2 + m < len ∧ byte_at js (pos + 1 + body.length + 2 + m) = 0)) :
    lex js len pos = Lex.str StrScan.part := by
  rw [(lex_at_str js len pos hq).1]
  obtain ⟨f1, hf1, hs⟩ := string_scan_skip js len body.length body (pos + 1)
    (len - (pos + 1)) rfl hb hocc (by omega) (by omega)
  obtain ⟨f, rfl⟩ : ∃ f, f1 = f + 1 := ⟨f1 - 1, by omega⟩
  have hstop : ¬ (pos + 1 + body.length + 2 + m < len ∧
      byte_at js (pos + 1 + body.length + 2 + m) ≠ 0) := by
    rcases hend with h | ⟨-, h⟩
    · omega
    · exact fun hc => hc.2 h
  rw [hs, string_scan, if_pos ⟨by omega, by rw [hbs]; decide⟩, if_neg (by rw [hbs]; decide),
    if_pos ⟨hbs, by omega⟩, hu, if_neg (by decide), if_pos rfl,
    hex_scan_stop js len 4 (pos + 1 + body.length + 1 + 1) (pos + 1 + body.length + 2 + m)
      (by omega) (by omega) (by omega)
      (fun i hi => by
        rw [show pos + 1 + body.length + 1 + 1 + i = pos + 1 + body.length + 2 + i by omega]
        exact hhex i (by omega)) hstop]
  simp only
  rw [show pos + 1 + body.length + 2 + m - 1 + 1 = pos + 1 + body.length + 2 + m by omega]
  rw [string_scan_part_of_stop js len f _ hstop]

theorem is_illegal_facts (c : Nat) (h : is_illegal c = true) :
    c ≠ 0 ∧ is_prim_boundary c = false ∧ (c < 32 ∨ c ≥ 127) := by
  simp only [is_illegal, Bool.or_eq_true, Bool.and_eq_true, decide_eq_true_eq, ne_eq] at h
  refine ⟨by omega, ?_, by omega⟩
  simp only [is_prim_boundary, Bool.or_eq_false_iff, decide_eq_false_iff_not]
  omega

/-- The primitive scan fails when it meets an illegal byte before any byte
that ends a primitive and before any NUL byte. -/
theorem primitive_scan_bad (js : List Nat) (len : Nat) :
    ∀ (k pos fuel : Nat), k < fuel → pos + k < len → is_illegal (byte_at js (pos + k)) = true →
      (∀ i, i < k → byte_at js (pos + i) ≠ 0 ∧ is_prim_boundary (byte_at js (pos + i)) = false) →
      primitive_scan js len fuel pos = none := by
  intro k
  induction k with
  | zero =>
    intro pos fuel hf hlen hbad _
    obtain ⟨f, rfl⟩ : ∃ f, fuel = f + 1 := ⟨fuel - 1, by omega⟩
    rw [Nat.add_zero] at hbad hlen
    obtain ⟨h0, hb, hr⟩ := is_illegal_facts _ hbad
    rw [primitive_scan, if_pos ⟨hlen, h0⟩, if_neg (by rw [hb]; decide), if_pos hr]
  | succ k ih =>
    intro pos fuel hf hlen hbad hbefore
    obtain ⟨f, rfl⟩ : ∃ f, fuel = f + 1 := ⟨fuel - 1, by omega⟩
    obtain ⟨h0, hb⟩ := hbefore 0 (by omega)
    rw [Nat.add_zero] at h0 hb
    rw [primitive_scan, if_pos ⟨by omega, h0⟩, if_neg (by rw [hb]; decide)]
    by_cases hr : byte_at js pos < 32 ∨ byte_at js pos ≥ 127
    · rw [if_pos hr]
    · rw [if_neg hr]
      apply ih (pos + 1) f (by omega) (by omega)
      · rwa [show pos + 1 + k = pos + (k + 1) by omega]
      · intro i hi
        rw [show pos + 1 + i = pos + (i + 1) by omega]
        exact hbefore (i + 1) (by omega)

/-- A byte that goes to the `default:` label is classified as a primitive. -/
theorem lex_at_default (js : List Nat) (len pos : Nat)
    (h : is_prim_start (byte_at js pos) = true) :
    lex js len pos = Lex.prim (primitive_scan js len (len - pos) pos) := by
  simp only [is_prim_start, Bool.not_eq_true', Bool.or_eq_false_iff,
    decide_eq_false_iff_not] at h
  obtain ⟨⟨⟨⟨⟨⟨⟨⟨⟨⟨h1, h2⟩, h3⟩, h4⟩, h5⟩, h6⟩, h7⟩, h8⟩, h9⟩, h10⟩, h11⟩ := h
  unfold lex
  rw [if_neg h1, if_neg h2, if_neg h3, if_neg h4, if_neg h5, if_neg (by tauto), if_neg h10,
    if_neg h11]

/-! ## Order and range of the token spans -/

theorem SpanInv_init (bound : Nat) (ts : Tokens) : SpanInv bound jsmn_init ts :=
  ⟨Nat.zero_le _, fun i hi => absurd hi (Nat.not_lt_zero i),
    fun _ j _ hj => absurd hj (Nat.not_lt_zero j)⟩

/-- A loop iteration keeps the kind and the span of the tokens it does not
write: those allocated before, but for the `end` of the one a closing bracket
closes. -/
theorem TStep_keeps (js : List Nat) (len cap : Nat) (p : jsmn_parser_t) (ts : Tokens)
    (p1 : jsmn_parser_t) (ts1 : Tokens) (h : TStep js len cap p ts p1 ts1) :
    ∀ i, i < p.toknext → (ts1 i).type = (ts i).type ∧ (ts1 i).start = (ts i).start ∧
      ((ts1 i).end_ = (ts i).end_ ∨ ((ts i).end_ = -1 ∧ (ts1 i).end_ = (p.pos : Int) + 1)) := by
  intro i hi
  cases h with
  | opn obj hl hc =>
    obtain ⟨e1, e2, e3⟩ := open_write_old ts p obj i (by omega)
    exact ⟨e1, e2, Or.inl e3⟩
  | cls obj k hl hf ht =>
    by_cases hik : i = k
    · subst hik
      obtain ⟨e1, e2, e3⟩ := close_write_new ts i p.pos
      have ho := (find_open_some ts _ _ hf).2.1
      simp only [is_open, Bool.and_eq_true, decide_eq_true_eq] at ho
      exact ⟨e1, e2, Or.inr ⟨ho.2, e3⟩⟩
    · rw [close_write_old ts k p.pos i hik]
      exact ⟨rfl, rfl, Or.inl rfl⟩
  | str q hl hc =>
    obtain ⟨e1, e2, e3⟩ := string_write_old ts p q i (by omega)
    exact ⟨e1, e2, Or.inl e3⟩
  | ws hl => exact ⟨rfl, rfl, Or.inl rfl⟩
  | colon hl => exact ⟨rfl, rfl, Or.inl rfl⟩
  | comma hl => exact ⟨rfl, rfl, Or.inl rfl⟩
  | prim q hl hc =>
    obtain ⟨e1, e2, e3⟩ := primitive_write_old ts p q i (by omega)
    exact ⟨e1, e2, Or.inl e3⟩

/-- The token a loop iteration allocates starts at or after the position of
the iteration and before the position of the next one; when it is written
closed it ends at or after its start, inside the buffer. -/
theorem TStep_new (js : List Nat) (len cap : Nat) (p : jsmn_parser_t) (ts : Tokens)
    (p1 : jsmn_parser_t) (ts1 : Tokens) (hg : loop_cond js len p)
    (h : TStep js len cap p ts p1 ts1) (hn : p1.toknext = p.toknext + 1) :
    (p.pos : Int) ≤ (ts1 p.toknext).start ∧ (ts1 p.toknext).start < (p1.pos : Int) ∧
      ((ts1 p.toknext).end_ = -1 ∨
        ((ts1 p.toknext).start ≤ (ts1 p.toknext).end_ ∧ (ts1 p.toknext).end_ ≤ (len : Int))) := by
  cases h with
  | opn obj hl hc =>
    obtain ⟨-, e2, e3⟩ := open_write_new ts p obj
    rw [e2]
    exact ⟨le_refl _, by simp only; omega, Or.inl e3⟩
  | cls obj k hl hf ht => simp only at hn; omega
  | str q hl hc =>
    obtain ⟨-, e2, e3⟩ := string_write_new ts p q
    have := lex_str_closed js len p.pos q hl
    rw [e2, e3]
    simp only
    exact ⟨by omega, by omega, Or.inr ⟨by omega, by omega⟩⟩
  | ws hl => simp only at hn; omega
  | colon hl => simp only at hn; omega
  | comma hl => simp only at hn; omega
  | prim q hl hc =>
    obtain ⟨-, e2, e3⟩ := primitive_write_new ts p q
    have := lex_prim_some js len p.pos q hg.1 hg.2 hl
    rw [e2, e3]
    simp only
    exact ⟨by omega, by omega, Or.inr ⟨by omega, by omega⟩⟩

theorem SpanInv_step (js : List Nat) (len cap bound : Nat) (p : jsmn_parser_t) (ts : Tokens)
    (p1 : jsmn_parser_t) (ts1 : Tokens) (hb : len ≤ bound) (hg : loop_cond js len p)
    (hi : SpanInv bound p ts) (h : TStep js len cap p ts p1 ts1) : SpanInv bound p1 ts1 := by
  obtain ⟨hp1, hp2, hn1, hn2⟩ := TStep_pos js len cap p ts p1 ts1 hg h
  obtain ⟨hpos, htok, hord⟩ := hi
  have hlt : p.pos < len := hg.1
  refine ⟨by omega, ?_, ?_⟩
  · intro i hi1
    by_cases hold : i < p.toknext
    · obtain ⟨-, e2, e3⟩ := TStep_keeps js len cap p ts p1 ts1 h i hold
      obtain ⟨g1, g2, g3⟩ := htok i hold
      rw [e2]
      refine ⟨g1, by omega, ?_⟩
      rcases e3 with e3 | ⟨e3, e4⟩
      · rw [e3]; exact g3
      · rw [e4]; intro _; omega
    · have hin : i = p.toknext := by omega
      subst hin
      obtain ⟨g1, g2, g3⟩ := TStep_new js len cap p ts p1 ts1 hg h (by omega)
      refine ⟨by omega, g2, ?_⟩
      intro hne
      rcases g3 with g3 | g3
      · exact absurd g3 hne
      · exact ⟨g3.1, by omega⟩
  · intro i j hij hj
    have e2 := (TStep_keeps js len cap p ts p1 ts1 h i (by omega)).2.1
    rw [e2]
    by_cases hold : j < p.toknext
    · rw [(TStep_keeps js len cap p ts p1 ts1 h j hold).2.1]
      exact hord i j hij hold
    · have hin : j = p.toknext := by omega
      subst hin
      have g1 := (TStep_new js len cap p ts p1 ts1 hg h (by omega)).1
      have := (htok i hij).2.1
      omega

theorem SpanInv_reach (js : List Nat) (len cap bound : Nat) (hb : len ≤ bound)
    (p : jsmn_parser_t) (ts : Tokens) (p1 : jsmn_parser_t) (ts1 : Tokens)
    (h : Reach js len cap p ts p1 ts1) : SpanInv bound p ts → SpanInv bound p1 ts1 := by
  induction h with
  | refl p ts => exact id
  | step p ts p1 ts1 p2 ts2 hg h1 _ ih =>
    exact fun hi => ih (SpanInv_step js len cap bound p ts p1 ts1 hb hg hi h1)

/-- The scan keeps the kind and the start of every token allocated before. -/
theorem Reach_keeps (js : List Nat) (len cap : Nat) (p : jsmn_parser_t) (ts : Tokens)
    (p1 : jsmn_parser_t) (ts1 : Tokens) (h : Reach js len cap p ts p1 ts1) :
    p.toknext ≤ p1.toknext ∧
      ∀ i, i < p.toknext → (ts1 i).type = (ts i).type ∧ (ts1 i).start = (ts i).start := by
  induction h with
  | refl p ts => exact ⟨le_refl _, fun _ _ => ⟨rfl, rfl⟩⟩
  | step p ts p1 ts1 p2 ts2 hg h1 _ ih =>
    have hn := (TStep_pos js len cap p ts p1 ts1 hg h1).2.2.1
    refine ⟨by omega, fun i hi => ?_⟩
    obtain ⟨e1, e2, -⟩ := TStep_keeps js len cap p ts p1 ts1 h1 i hi
    obtain ⟨g1, g2⟩ := ih.2 i (by omega)
    exact ⟨by rw [g1, e1], by rw [g2, e2]⟩

/-- A call keeps the span invariant, and the kind and start of every token
allocated before it. -/
theorem jsmn_parse_SpanInv (js : List Nat) (len cap bound : Nat) (hb : len ≤ bound)
    (p : jsmn_parser_t) (ts : Tokens) (hi : SpanInv bound p ts) :
    ∃ r pf tsf, jsmn_parse p js len (some ts) cap = (r, pf, some tsf) ∧ SpanInv bound pf tsf ∧
      ∀ i, i < p.toknext → (tsf i).type = (ts i).type ∧ (tsf i).start = (ts i).start := by
  obtain ⟨pf, tsf, r, hr, he, -⟩ := jsmn_parse_final js len cap p ts
  exact ⟨r, pf, tsf, he, SpanInv_reach js len cap bound hb p ts pf tsf hr hi,
    (Reach_keeps js len cap p ts pf tsf hr).2⟩

theorem SpanInv_calls (bound : Nat) :
    ∀ (calls : List Call) (p : jsmn_parser_t) (ts : Tokens), (∀ c, c ∈ calls → c.len ≤ bound) →
      SpanInv bound p ts → SpanInv bound (jsmn_calls calls p ts).1 (jsmn_calls calls p ts).2 := by
  intro calls
  induction calls with
  | nil => intro p ts _ hi; exact hi
  | cons c cs ih =>
    intro p ts hlen hi
    obtain ⟨r, pf, tsf, he, hif, -⟩ := jsmn_parse_SpanInv c.js c.len c.num_tokens bound
      (hlen c (List.mem_cons_self _ _)) p ts hi
    unfold jsmn_calls
    rw [he]
    simp only
    exact ih pf tsf (fun c' hc' => hlen c' (List.mem_cons_of_mem _ hc')) hif

/-! ## The indices of the array a call touches -/

theorem super_incr_frame (ts : Tokens) (p : jsmn_parser_t) (hs : SuperInv p) (i : Nat)
    (hi : p.toknext ≤ i) : super_incr ts p i = ts i := by
  unfold super_incr
  split_ifs with h
  · unfold incr_size
    rw [Function.update_noteq]
    have := hs.1
    have := hs.2
    omega
  · rfl

/-- A loop iteration leaves the array as it was from the new `toknext` on. -/
theorem TStep_frame (js : List Nat) (len cap : Nat) (p : jsmn_parser_t) (ts : Tokens)
    (p1 : jsmn_parser_t) (ts1 : Tokens) (hs : SuperInv p) (h : TStep js len cap p ts p1 ts1) :
    ∀ i, p1.toknext ≤ i → ts1 i = ts i := by
  intro i hi
  cases h with
  | opn obj hl hc =>
    simp only at hi
    unfold open_write
    rw [Function.update_noteq (by omega), super_incr_frame _ p hs i (by omega),
      Function.update_noteq (by omega)]
  | cls obj k hl hf ht =>
    have := (find_open_some ts _ _ hf).1
    simp only at hi
    exact close_write_old ts k p.pos i (by omega)
  | str q hl hc =>
    simp only at hi
    rw [super_incr_frame _ p hs i (by omega)]
    unfold string_write
    rw [Function.update_noteq (by omega)]
  | ws hl => rfl
  | colon hl => rfl
  | comma hl => rfl
  | prim q hl hc =>
    simp only at hi
    rw [super_incr_frame _ p hs i (by omega)]
    unfold primitive_write
    rw [Function.update_noteq (by omega)]

theorem Reach_frame (js : List Nat) (len cap : Nat) (p : jsmn_parser_t) (ts : Tokens)
    (p1 : jsmn_parser_t) (ts1 : Tokens) (h : Reach js len cap p ts p1 ts1) :
    SuperInv p → ∀ i, p1.toknext ≤ i → ts1 i = ts i := by
  induction h with
  | refl p ts => exact fun _ _ _ => rfl
  | step p ts p1 ts1 p2 ts2 hg h1 h2 ih =>
    intro hs i hi
    have hn := (toknext_reach js len cap p1 ts1 p2 ts2 h2).1
    rw [ih (SuperInv_step js len cap p ts p1 ts1 hs h1) i hi,
      TStep_frame js len cap p ts p1 ts1 hs h1 i (by omega)]

/-- The range invariant of a call: `toknext` within the capacity and
`toksuper` the index of an allocated token or `-1`; what the call leaves from
`toknext` on is what the array held. -/
theorem jsmn_parse_range (js : List Nat) (len cap : Nat) (p : jsmn_parser_t) (ts : Tokens)
    (hs : SuperInv p) (hc : p.toknext ≤ cap) :
    ∃ r pf tsf, jsmn_parse p js len (some ts) cap = (r, pf, some tsf) ∧ SuperInv pf ∧
      pf.toknext ≤ cap ∧ ∀ i, pf.toknext ≤ i → tsf i = ts i := by
  obtain ⟨pf, tsf, r, hr, he, -⟩ := jsmn_parse_final js len cap p ts
  exact ⟨r, pf, tsf, he, SuperInv_reach js len cap p ts pf tsf hs hr,
    (toknext_reach js len cap p ts pf tsf hr).2 hc, Reach_frame js len cap p ts pf tsf hr hs⟩

theorem range_calls (cap : Nat) :
    ∀ (calls : List Call) (p : jsmn_parser_t) (ts : Tokens),
      (∀ c, c ∈ calls → c.num_tokens = cap) → SuperInv p → p.toknext ≤ cap →
      SuperInv (jsmn_calls calls p ts).1 ∧ (jsmn_calls calls p ts).1.toknext ≤ cap := by
  intro calls
  induction calls with
  | nil => intro p ts _ hs hc; exact ⟨hs, hc⟩
  | cons c cs ih =>
    intro p ts hcap hs hc
    obtain ⟨r, pf, tsf, he, hsf, hcf, -⟩ := jsmn_parse_range c.js c.len cap p ts hs hc
    unfold jsmn_calls
    rw [hcap c (List.mem_cons_self _ _), he]
    simp only
    exact ih pf tsf (fun c' hc' => hcap c' (List.mem_cons_of_mem _ hc')) hsf hcf

/-- With a null array the loop body hands back a null array and leaves
`toknext` as it was. -/
theorem null_apply_shape (count : Int) (p : jsmn_parser_t) (l : Lex) :
    (∀ r, null_apply count p l = Except.error r → r.2.2 = none ∧ r.2.1.toknext = p.toknext) ∧
    (∀ c1 p1 t1, null_apply count p l = Except.ok (c1, p1, t1) →
      t1 = none ∧ p1.toknext = p.toknext) := by
  cases l with
  | str r =>
    cases r <;> simp only [null_apply] <;> refine ⟨fun r h => ?_, fun c1 p1 t1 h => ?_⟩ <;>
      simp only [Except.ok.injEq, Except.error.injEq, Prod.mk.injEq, reduceCtorEq] at h
    · obtain ⟨-, rfl, rfl⟩ := h; exact ⟨rfl, rfl⟩
    · subst h; exact ⟨rfl, rfl⟩
    · subst h; exact ⟨rfl, rfl⟩
  | prim r =>
    cases r <;> simp only [null_apply] <;> refine ⟨fun r h => ?_, fun c1 p1 t1 h => ?_⟩ <;>
      simp only [Except.ok.injEq, Except.error.injEq, Prod.mk.injEq, reduceCtorEq] at h
    · subst h; exact ⟨rfl, rfl⟩
    · obtain ⟨-, rfl, rfl⟩ := h; exact ⟨rfl, rfl⟩
  | _ =>
    simp only [null_apply]
    refine ⟨fun r h => ?_, fun c1 p1 t1 h => ?_⟩ <;>
      simp only [Except.ok.injEq, Except.error.injEq, Prod.mk.injEq, reduceCtorEq] at h
    obtain ⟨-, rfl, rfl⟩ := h; exact ⟨rfl, rfl⟩

/-- A call with a null array hands back a null array and allocates nothing. -/
theorem parse_loop_null (js : List Nat) (len cap : Nat) :
    ∀ (fuel : Nat) (count : Int) (p : jsmn_parser_t),
      (parse_loop js len cap fuel count p none).2.2 = none ∧
      (parse_loop js len cap fuel count p none).2.1.toknext = p.toknext := by
  intro fuel
  induction fuel with
  | zero => intro count p; exact ⟨rfl, rfl⟩
  | succ f ih =>
    intro count p
    unfold parse_loop
    by_cases hg : p.pos < len ∧ byte_at js p.pos ≠ 0
    · rw [if_pos hg, parse_switch_none]
      obtain ⟨he, ho⟩ := null_apply_shape count p (lex js len p.pos)
      cases hl : null_apply count p (lex js len p.pos) with
      | error r => exact he r hl
      | ok v =>
        obtain ⟨c1, p1, t1⟩ := v
        obtain ⟨rfl, hn⟩ := ho c1 p1 t1 hl
        simp only
        rw [← hn]
        exact ih c1 { p1 with pos := p1.pos + 1 }
    · rw [if_neg hg]
      exact ⟨rfl, rfl⟩

theorem prim_start_boundary (c : Nat) (h : is_prim_start c = true) :
    is_prim_boundary c = false := by
  simp only [is_prim_start, Bool.not_eq_true', Bool.or_eq_false_iff,
    decide_eq_false_iff_not] at h
  simp only [is_prim_boundary, Bool.or_eq_false_iff, decide_eq_false_iff_not]
  tauto

/-! ## The run over the lexemes of well-formed JSON -/

theorem holds_at_nil (ts : Tokens) (base : Nat) : holds_at ts base [] := by
  intro i t h
  simp at h

theorem holds_at_cons (ts : Tokens) (base : Nat) (t : jsmntok_t) (l : List jsmntok_t) :
    holds_at ts base (t :: l) ↔ ts base = t ∧ holds_at ts (base + 1) l := by
  constructor
  · intro h
    refine ⟨h 0 t (by simp), fun i u hu => ?_⟩
    have := h (i + 1) u (by simpa using hu)
    rwa [show base + (i + 1) = base + 1 + i by omega] at this
  · rintro ⟨h0, h1⟩ i u hu
    cases i with
    | zero =>
      simp only [List.getElem?_cons_zero, Option.some.injEq] at hu
      rw [← hu]; exact h0
    | succ i =>
      have := h1 i u (by simpa using hu)
      rwa [show base + 1 + i = base + (i + 1) by omega] at this

theorem holds_at_append (ts : Tokens) (base : Nat) (a b : List jsmntok_t) :
    holds_at ts base (a ++ b) ↔ holds_at ts base a ∧ holds_at ts (base + a.length) b := by
  induction a generalizing base with
  | nil => simp [holds_at_nil]
  | cons t a ih =>
    rw [List.cons_append, holds_at_cons, holds_at_cons, ih (base + 1), List.length_cons,
      show base + 1 + a.length = base + (a.length + 1) by omega, and_assoc]

theorem holds_at_congr (ts ts1 : Tokens) (base : Nat) (l : List jsmntok_t)
    (h : ∀ i, base ≤ i → i < base + l.length → ts1 i = ts i) (hl : holds_at ts base l) :
    holds_at ts1 base l := by
  intro i t hi
  have hlt : i < l.length := by
    by_contra hc
    rw [List.getElem?_eq_none (by omega)] at hi
    exact absurd hi (by simp)
  rw [h (base + i) (by omega) (by omega)]
  exact hl i t hi

theorem add_size_same (ts : Tokens) (a : Nat) (d : Int) :
    add_size ts a d a = { ts a with size := (ts a).size + d } := by
  unfold add_size
  rw [Function.update_same]

theorem add_size_other (ts : Tokens) (a : Nat) (d : Int) (i : Nat) (h : i ≠ a) :
    add_size ts a d i = ts i := by
  unfold add_size
  rw [Function.update_noteq h]

theorem lex_run_append (a b : List Lexeme) :
    ∀ (p : jsmn_parser_t) (ts : Tokens),
      lex_run (a ++ b) p ts = lex_run b (lex_run a p ts).1 (lex_run a p ts).2 := by
  induction a with
  | nil => intro p ts; rfl
  | cons l a ih => intro p ts; exact ih _ _

theorem lex_run_ws (w : List Nat) :
    ∀ (p : jsmn_parser_t) (ts : Tokens), lex_run (w.map Lexeme.ws) p ts
      = ({ pos := p.pos + w.length, toknext := p.toknext, toksuper := p.toksuper }, ts) := by
  induction w with
  | nil => intro p ts; rfl
  | cons c w ih =>
    intro p ts
    simp only [List.map_cons, lex_run, lex_next, List.length_cons]
    rw [ih]
    simp only [Prod.mk.injEq, jsmn_parser_t.mk.injEq, and_true]
    omega

theorem lex_run_cons (l : Lexeme) (r : List Lexeme) (p : jsmn_parser_t) (ts : Tokens) :
    lex_run (l :: r) p ts = lex_run r (lex_next l p ts).1 (lex_next l p ts).2 := rfl

theorem lex_run_nil (p : jsmn_parser_t) (ts : Tokens) : lex_run [] p ts = (p, ts) := rfl

theorem Json.toks_length {k : JKind} (j : Json k) :
    ∀ s, (j.toks s).length = lex_tokens j.lexemes := by
  induction j with
  | prim bs => intro s; rfl
  | str body => intro s; rfl
  | arr0 w =>
    intro s
    simp only [Json.toks, Json.lexemes, lex_tokens, lex_tokens_append, lex_tokens_ws,
      Lexeme.tokens, List.length_singleton]
  | arr es ih =>
    intro s
    simp only [Json.toks, Json.lexemes, lex_tokens, lex_tokens_append, Lexeme.tokens,
      List.length_cons, ih]
    omega
  | obj0 w =>
    intro s
    simp only [Json.toks, Json.lexemes, lex_tokens, lex_tokens_append, lex_tokens_ws,
      Lexeme.tokens, List.length_singleton]
  | obj ms ih =>
    intro s
    simp only [Json.toks, Json.lexemes, lex_tokens, lex_tokens_append, Lexeme.tokens,
      List.length_cons, ih]
    omega
  | elem w1 v w2 ih =>
    intro s
    simp only [Json.toks, Json.lexemes, lex_tokens_append, lex_tokens_ws, ih]
    omega
  | elems w1 v w2 rest ih1 ih2 =>
    intro s
    simp only [Json.toks, Json.lexemes, lex_tokens, lex_tokens_append, lex_tokens_ws,
      Lexeme.tokens, List.length_append, ih1, ih2]
    omega
  | member w1 key w2 w3 v w4 ih =>
    intro s
    simp only [Json.toks, Json.lexemes, lex_tokens, lex_tokens_append, lex_tokens_ws,
      Lexeme.tokens, List.length_cons, ih]
    omega
  | members w1 key w2 w3 v w4 rest ih1 ih2 =>
    intro s
    simp only [Json.toks, Json.lexemes, lex_tokens, lex_tokens_append, lex_tokens_ws,
      Lexeme.tokens, List.length_cons, List.length_append, ih1, ih2]
    omega

/-! ## Token writes, index by index -/

theorem super_incr_eq (ts : Tokens) (p : jsmn_parser_t) (a : Nat) (h : p.toksuper = (a : Int)) :
    super_incr ts p = add_size ts a 1 := by
  unfold super_incr incr_size add_size
  rw [if_pos (by rw [h]; omega), h]
  rfl

theorem super_incr_none (ts : Tokens) (p : jsmn_parser_t) (h : p.toksuper = -1) :
    super_incr ts p = ts := by
  unfold super_incr
  rw [if_neg (by rw [h]; simp)]

theorem super_incr_new (ts : Tokens) (p : jsmn_parser_t) (hs : SuperInv p) :
    super_incr ts p p.toknext = ts p.toknext := by
  unfold super_incr
  split_ifs with h
  · unfold incr_size
    rw [Function.update_noteq]
    have := hs.1
    have := hs.2
    omega
  · rfl

theorem prim_new (ts : Tokens) (p : jsmn_parser_t) (q : Nat) (hs : SuperInv p) :
    super_incr (primitive_write ts p q) p p.toknext
      = { type := JSMN_PRIMITIVE, start := (p.pos : Int), end_ := (q : Int), size := 0 } := by
  rw [super_incr_new _ p hs]
  unfold primitive_write
  rw [Function.update_same]

theorem prim_old (ts : Tokens) (p : jsmn_parser_t) (q i : Nat) (h : i ≠ p.toknext) :
    super_incr (primitive_write ts p q) p i = super_incr ts p i := by
  apply super_incr_congr
  unfold primitive_write
  rw [Function.update_noteq h]

theorem str_new (ts : Tokens) (p : jsmn_parser_t) (q : Nat) (hs : SuperInv p) :
    super_incr (string_write ts p q) p p.toknext
      = { type := JSMN_STRING, start := (p.pos : Int) + 1, end_ := (q : Int), size := 0 } := by
  rw [super_incr_new _ p hs]
  unfold string_write
  rw [Function.update_same]

theorem str_old (ts : Tokens) (p : jsmn_parser_t) (q i : Nat) (h : i ≠ p.toknext) :
    super_incr (string_write ts p q) p i = super_incr ts p i := by
  apply super_incr_congr
  unfold string_write
  rw [Function.update_noteq h]

theorem opn_new (ts : Tokens) (p : jsmn_parser_t) (obj : Bool) (hs : SuperInv p) :
    open_write ts p obj p.toknext
      = { type := bracket_type obj, start := (p.pos : Int), end_ := -1, size := 0 } := by
  unfold open_write
  rw [Function.update_same, super_incr_new _ p hs, Function.update_same]

theorem opn_old (ts : Tokens) (p : jsmn_parser_t) (obj : Bool) (i : Nat) (h : i ≠ p.toknext) :
    open_write ts p obj i = super_incr ts p i := by
  unfold open_write
  rw [Function.update_noteq h]
  apply super_incr_congr
  rw [Function.update_noteq h]

theorem cls_new (ts : Tokens) (i pos : Nat) :
    close_write ts i pos i = { ts i with end_ := (pos : Int) + 1 } := by
  unfold close_write
  rw [Function.update_same]

/-! ## The nearest open token -/

theorem super_incr_open (ts : Tokens) (p : jsmn_parser_t) (i : Nat) :
    is_open (super_incr ts p i) = is_open (ts i) :=
  is_open_span _ _ (super_incr_span ts p i)

theorem add_size_open (ts : Tokens) (a : Nat) (d : Int) (i : Nat) :
    is_open (add_size ts a d i) = is_open (ts i) := by
  by_cases h : i = a
  · subst h; rw [add_size_same]; rfl
  · rw [add_size_other ts a d i h]

theorem find_open_ext (ts ts1 : Tokens) :
    ∀ n, (∀ i, i < n → is_open (ts1 i) = is_open (ts i)) → find_open ts1 n = find_open ts n := by
  intro n
  induction n with
  | zero => intro _; rfl
  | succ n ih =>
    intro h
    unfold find_open
    rw [h n (by omega), ih (fun i hi => h i (by omega))]

theorem find_open_skip (ts : Tokens) (n : Nat) :
    ∀ m, (∀ i, n ≤ i → i < n + m → is_open (ts i) = false) →
      find_open ts (n + m) = find_open ts n := by
  intro m
  induction m with
  | zero => intro _; rfl
  | succ m ih =>
    intro h
    rw [show n + (m + 1) = (n + m) + 1 by omega, find_open,
      if_neg (by rw [h (n + m) (by omega) (by omega)]; simp)]
    exact ih (fun i h1 h2 => h i h1 (by omega))

theorem find_open_top (ts : Tokens) (n : Nat) (h : is_open (ts n) = true) :
    find_open ts (n + 1) = some n := by
  rw [find_open, if_pos h]

/-- The backward scan of the `,` case stops on the nearest open token when
that token is an object or an array. -/
theorem find_open_container_of (ts : Tokens) :
    ∀ n e, find_open ts n = some e →
      ((ts e).type = JSMN_ARRAY ∨ (ts e).type = JSMN_OBJECT) →
      find_open_container ts n = some e := by
  intro n
  induction n with
  | zero => intro e h; simp [find_open] at h
  | succ n ih =>
    intro e h ht
    unfold find_open at h
    unfold find_open_container
    split_ifs at h with h1
    · simp only [Option.some.injEq] at h
      subst h
      rw [if_pos ⟨ht, h1⟩]
    · rw [if_neg (fun hc => h1 hc.2)]
      exact ih e h ht

theorem super_of_some (e : Nat) : super_of (some e) = (e : Int) := rfl

theorem super_of_none : super_of none = -1 := rfl

/-- After a closing bracket closed the nearest open token `c`, `toksuper` is
the nearest open token below `c`. -/
theorem close_super_eq (ts : Tokens) (c pos : Nat) :
    close_super ts c pos = super_of (find_open ts c) := by
  unfold close_super
  have h1 : find_open (close_write ts c pos) (c + 1) = find_open (close_write ts c pos) c := by
    rw [find_open, if_neg]
    rw [cls_new]
    simp only [is_open, Bool.and_eq_true, decide_eq_true_eq, not_and]
    intro _
    omega
  have h2 : find_open (close_write ts c pos) c = find_open ts c := by
    apply find_open_ext
    intro i hi
    rw [close_write_old ts c pos i (by omega)]
  rw [h1, h2]
  cases find_open ts c <;> rfl

theorem lex_next_cls (obj : Bool) (p : jsmn_parser_t) (ts : Tokens) (c : Nat)
    (h : find_open ts p.toknext = some c) :
    lex_next (Lexeme.cls obj) p ts
      = ({ pos := p.pos + 1, toknext := p.toknext, toksuper := super_of (find_open ts c) },
          close_write ts c p.pos) := by
  simp only [lex_next, h, close_super_eq]

theorem find_open_after_token (ts ts1 : Tokens) (n : Nat)
    (hold : ∀ i, i < n → is_open (ts1 i) = is_open (ts i)) (hnew : is_open (ts1 n) = false) :
    find_open ts1 (n + 1) = find_open ts n := by
  rw [find_open, if_neg (by rw [hnew]; simp)]
  exact find_open_ext ts ts1 n hold

theorem value_spec_prim (bs : List Nat) (hwf : (Json.prim bs).wf) :
    value_spec (Json.prim bs) := by
  intro p ts e hs he
  have hne : bs ≠ [] := (json_primitive_ok bs hwf).1
  have hlen : 0 < bs.length := List.length_pos.mpr hne
  have hrun : lex_run (Json.prim bs).lexemes p ts
      = ({ pos := p.pos + bs.length, toknext := p.toknext + 1, toksuper := p.toksuper },
          super_incr (primitive_write ts p (p.pos + bs.length)) p) := by
    simp only [Json.lexemes, lex_run_cons, lex_run_nil, lex_next, Prod.mk.injEq,
      jsmn_parser_t.mk.injEq, and_true]
    omega
  rw [hrun]
  dsimp only
  refine ⟨rfl, rfl, rfl, fun i hi => prim_old ts p _ i (by omega), ?_, ?_⟩
  · simp only [Json.toks]
    rw [holds_at_cons]
    exact ⟨prim_new ts p _ hs, holds_at_nil _ _⟩
  · rw [← he]
    apply find_open_after_token
    · intro i hi
      rw [prim_old ts p _ i (by omega), super_incr_open]
    · rw [prim_new ts p _ hs]
      simp only [is_open, Bool.and_eq_false_imp, decide_eq_true_eq, decide_eq_false_iff_not]
      intro _
      omega

theorem value_spec_str (body : List Nat) : value_spec (Json.str body) := by
  intro p ts e hs he
  have hrun : lex_run (Json.str body).lexemes p ts
      = ({ pos := p.pos + (Json.str body).render.length, toknext := p.toknext + 1,
            toksuper := p.toksuper },
          super_incr (string_write ts p (p.pos + 1 + body.length)) p) := by
    simp only [Json.lexemes, lex_run_cons, lex_run_nil, lex_next, Prod.mk.injEq,
      jsmn_parser_t.mk.injEq, and_true, Json.render, List.length_cons, List.length_append,
      List.length_singleton, List.length_nil]
    omega
  rw [hrun]
  dsimp only
  refine ⟨rfl, rfl, rfl, fun i hi => str_old ts p _ i (by omega), ?_, ?_⟩
  · simp only [Json.toks]
    rw [holds_at_cons]
    refine ⟨?_, holds_at_nil _ _⟩
    rw [str_new ts p _ hs]
    simp only [jsmntok_t.mk.injEq, true_and, and_true]
    push_cast
    omega
  · rw [← he]
    apply find_open_after_token
    · intro i hi
      rw [str_old ts p _ i (by omega), super_incr_open]
    · rw [str_new ts p _ hs]
      simp only [is_open, Bool.and_eq_false_imp, decide_eq_true_eq, decide_eq_false_iff_not]
      intro _
      omega

theorem is_open_opn_new (ts : Tokens) (p : jsmn_parser_t) (obj : Bool) (hs : SuperInv p) :
    is_open (open_write ts p obj p.toknext) = true := by
  rw [opn_new ts p obj hs]
  simp only [is_open, Bool.and_eq_true, decide_eq_true_eq, and_true]
  omega

theorem find_open_opn (ts : Tokens) (p : jsmn_parser_t) (obj : Bool) :
    find_open (open_write ts p obj) p.toknext = find_open ts p.toknext := by
  apply find_open_ext
  intro i hi
  rw [opn_old ts p obj i (by omega), super_incr_open]

/-- The run over an opening bracket, a body and the closing bracket, given
what the run over the body does. -/
theorem group_run {k : JKind} (b : Json k) (obj : Bool) (hb : body_spec b (bracket_type obj))
    (p : jsmn_parser_t) (ts : Tokens) (e : Option Nat) (hs : SuperInv p)
    (he : find_open ts p.toknext = e) :
    (lex_run (Lexeme.opn obj :: (b.lexemes ++ [Lexeme.cls obj])) p ts).1.pos
      = p.pos + 1 + b.render.length + 1 ∧
    (lex_run (Lexeme.opn obj :: (b.lexemes ++ [Lexeme.cls obj])) p ts).1.toknext
      = p.toknext + 1 + lex_tokens b.lexemes ∧
    (lex_run (Lexeme.opn obj :: (b.lexemes ++ [Lexeme.cls obj])) p ts).1.toksuper
      = super_of e ∧
    (∀ i, i < p.toknext →
      (lex_run (Lexeme.opn obj :: (b.lexemes ++ [Lexeme.cls obj])) p ts).2 i
        = super_incr ts p i) ∧
    holds_at (lex_run (Lexeme.opn obj :: (b.lexemes ++ [Lexeme.cls obj])) p ts).2 p.toknext
      ({ type := bracket_type obj, start := (p.pos : Int),
         end_ := ((p.pos + 1 + b.render.length + 1 : Nat) : Int), size := (b.count : Int) }
        :: b.toks (p.pos + 1)) ∧
    find_open (lex_run (Lexeme.opn obj :: (b.lexemes ++ [Lexeme.cls obj])) p ts).2
      (lex_run (Lexeme.opn obj :: (b.lexemes ++ [Lexeme.cls obj])) p ts).1.toknext = e := by
  have hf1 : find_open (open_write ts p obj) (p.toknext + 1) = some p.toknext :=
    find_open_top _ _ (is_open_opn_new ts p obj hs)
  obtain ⟨h1, h2, -, h4, h5, h6⟩ := hb
    { pos := p.pos + 1, toknext := p.toknext + 1, toksuper := (p.toknext : Int) }
    (open_write ts p obj) p.toknext (by simp) rfl (by rw [opn_new ts p obj hs]) hf1
  have hrun : lex_run (Lexeme.opn obj :: (b.lexemes ++ [Lexeme.cls obj])) p ts
      = lex_next (Lexeme.cls obj)
          (lex_run b.lexemes
            { pos := p.pos + 1, toknext := p.toknext + 1, toksuper := (p.toknext : Int) }
            (open_write ts p obj)).1
          (lex_run b.lexemes
            { pos := p.pos + 1, toknext := p.toknext + 1, toksuper := (p.toknext : Int) }
            (open_write ts p obj)).2 := by
    rw [lex_run_cons, lex_run_append]
    rfl
  rw [hrun, lex_next_cls obj _ _ p.toknext h6]
  generalize lex_run b.lexemes
    { pos := p.pos + 1, toknext := p.toknext + 1, toksuper := (p.toknext : Int) }
    (open_write ts p obj) = R at h1 h2 h4 h5 h6
  obtain ⟨p2, t2⟩ := R
  dsimp only at h1 h2 h4 h5 h6 ⊢
  have hbelow : find_open t2 p.toknext = e := by
    rw [← he, ← find_open_opn ts p obj]
    apply find_open_ext
    intro i hi
    rw [h4 i (by omega), add_size_other _ _ _ _ (by omega)]
  refine ⟨by omega, by omega, by rw [hbelow], ?_, ?_, ?_⟩
  · intro i hi
    rw [close_write_old t2 _ _ i (by omega), h4 i (by omega),
      add_size_other _ _ _ _ (by omega), opn_old ts p obj i (by omega)]
  · rw [holds_at_cons]
    constructor
    · rw [cls_new, h4 _ (by omega), add_size_same, opn_new ts p obj hs, h1]
      simp only [jsmntok_t.mk.injEq, true_and, zero_add, and_true]
      push_cast
      omega
    · apply holds_at_congr t2 _ _ _ _ h5
      intro i h1 _
      exact close_write_old t2 _ _ i (by omega)
  · obtain ⟨-, -, habove⟩ := find_open_some t2 _ _ h6
    rw [h2, show p.toknext + 1 + lex_tokens b.lexemes
      = p.toknext + (1 + lex_tokens b.lexemes) by omega, find_open_skip]
    · rw [← hbelow]
      apply find_open_ext
      intro i hi
      rw [close_write_old t2 _ _ i (by omega)]
    · intro i hi1 hi2
      by_cases hic : i = p.toknext
      · subst hic
        rw [cls_new]
        simp only [is_open, Bool.and_eq_false_imp, decide_eq_true_eq, decide_eq_false_iff_not]
        intro _
        omega
      · rw [close_write_old t2 _ _ i hic]
        exact habove i (by omega) (by omega)

/-- The run over an opening bracket, white space and the closing bracket. -/
theorem empty_group_run (w : List Nat) (obj : Bool) (p : jsmn_parser_t) (ts : Tokens)
    (e : Option Nat) (hs : SuperInv p) (he : find_open ts p.toknext = e) :
    lex_run (Lexeme.opn obj :: (w.map Lexeme.ws ++ [Lexeme.cls obj])) p ts
      = ({ pos := p.pos + 1 + w.length + 1, toknext := p.toknext + 1, toksuper := super_of e },
          close_write (open_write ts p obj) p.toknext (p.pos + 1 + w.length)) := by
  have hf1 : find_open (open_write ts p obj) (p.toknext + 1) = some p.toknext :=
    find_open_top _ _ (is_open_opn_new ts p obj hs)
  rw [lex_run_cons, lex_run_append]
  simp only [lex_next, lex_run_ws, lex_run_cons, lex_run_nil]
  rw [hf1]
  simp only [close_super_eq, find_open_opn, he]

theorem value_spec_empty (w : List Nat) (obj : Bool) (p : jsmn_parser_t) (ts : Tokens)
    (e : Option Nat) (hs : SuperInv p) (he : find_open ts p.toknext = e) :
    (∀ i, i < p.toknext →
      close_write (open_write ts p obj) p.toknext (p.pos + 1 + w.length) i
        = super_incr ts p i) ∧
    holds_at (close_write (open_write ts p obj) p.toknext (p.pos + 1 + w.length)) p.toknext
      [{ type := bracket_type obj, start := (p.pos : Int),
         end_ := ((p.pos + 1 + w.length + 1 : Nat) : Int), size := 0 }] ∧
    find_open (close_write (open_write ts p obj) p.toknext (p.pos + 1 + w.length))
      (p.toknext + 1) = e := by
  refine ⟨?_, ?_, ?_⟩
  · intro i hi
    rw [close_write_old _ _ _ i (by omega), opn_old ts p obj i (by omega)]
  · rw [holds_at_cons]
    refine ⟨?_, holds_at_nil _ _⟩
    rw [cls_new, opn_new ts p obj hs]
    simp only [jsmntok_t.mk.injEq, true_and, and_true]
    push_cast
    omega
  · rw [← he]
    apply find_open_after_token
    · intro i hi
      rw [close_write_old _ _ _ i (by omega), opn_old ts p obj i (by omega), super_incr_open]
    · rw [cls_new]
      simp only [is_open, Bool.and_eq_false_imp, decide_eq_true_eq, decide_eq_false_iff_not]
      intro _
      omega

/-- The run over a value with white space before and after it, followed by
more lexemes. -/
theorem padded_run (v : Json JKind.value) (hv : value_spec v) (w1 w2 : List Nat)
    (tail : List Lexeme) (p : jsmn_parser_t) (ts : Tokens) (e : Option Nat) (hs : SuperInv p)
    (he : find_open ts p.toknext = e) :
    ∃ P T, lex_run (w1.map Lexeme.ws ++ (v.lexemes ++ (w2.map Lexeme.ws ++ tail))) p ts
        = lex_run tail P T ∧
      P.pos = p.pos + w1.length + v.render.length + w2.length ∧
      P.toknext = p.toknext + lex_tokens v.lexemes ∧
      P.toksuper = (if v.is_container = true then super_of e else p.toksuper) ∧
      (∀ i, i < p.toknext → T i = super_incr ts p i) ∧
      holds_at T p.toknext (v.toks (p.pos + w1.length)) ∧
      find_open T P.toknext = e := by
  obtain ⟨h1, h2, h3, h4, h5, h6⟩ := hv
    { pos := p.pos + w1.length, toknext := p.toknext, toksuper := p.toksuper } ts e hs he
  generalize hR : lex_run v.lexemes
    { pos := p.pos + w1.length, toknext := p.toknext, toksuper := p.toksuper } ts = R
    at h1 h2 h3 h4 h5 h6
  obtain ⟨p2, t2⟩ := R
  dsimp only at h1 h2 h3 h4 h5 h6
  refine ⟨{ pos := p2.pos + w2.length, toknext := p2.toknext, toksuper := p2.toksuper }, t2,
    ?_, by dsimp only; omega, h2, h3, h4, h5, h6⟩
  rw [lex_run_append, lex_run_ws, lex_run_append, hR, lex_run_append, lex_run_ws]

theorem comma_super_container (ts : Tokens) (p : jsmn_parser_t) (a : Nat)
    (h : p.toksuper = (a : Int)) (hty : (ts a).type = JSMN_ARRAY ∨ (ts a).type = JSMN_OBJECT) :
    comma_super ts p = (a : Int) := by
  unfold comma_super
  rw [if_neg, h]
  rw [h, Int.toNat_ofNat]
  rintro ⟨-, h1, h2⟩
  rcases hty with h3 | h3
  · exact h1 h3
  · exact h2 h3

theorem comma_super_key (ts : Tokens) (p : jsmn_parser_t) (k a : Nat)
    (h : p.toksuper = (k : Int)) (hk : (ts k).type = JSMN_STRING)
    (hf : find_open ts p.toknext = some a)
    (hty : (ts a).type = JSMN_ARRAY ∨ (ts a).type = JSMN_OBJECT) :
    comma_super ts p = (a : Int) := by
  unfold comma_super
  rw [if_pos, find_open_container_of ts _ a hf hty]
  rw [h, Int.toNat_ofNat, hk]
  exact ⟨by omega, by decide, by decide⟩

theorem super_incr_type (ts : Tokens) (p : jsmn_parser_t) (i : Nat) :
    (super_incr ts p i).type = (ts i).type :=
  (super_incr_span ts p i).1

/-- The run over an element of an array, followed by more lexemes. -/
theorem elem_run (v : Json JKind.value) (hv : value_spec v) (w1 w2 : List Nat)
    (tail : List Lexeme) (p : jsmn_parser_t) (ts : Tokens) (a : Nat) (ha : a < p.toknext)
    (hsup : p.toksuper = (a : Int)) (hty : (ts a).type = JSMN_ARRAY)
    (hf : find_open ts p.toknext = some a) :
    ∃ P T, lex_run (w1.map Lexeme.ws ++ (v.lexemes ++ (w2.map Lexeme.ws ++ tail))) p ts
        = lex_run tail P T ∧
      P.pos = p.pos + w1.length + v.render.length + w2.length ∧
      P.toknext = p.toknext + lex_tokens v.lexemes ∧
      P.toksuper = (a : Int) ∧ comma_super T P = (a : Int) ∧
      (∀ i, i < p.toknext → T i = add_size ts a 1 i) ∧
      holds_at T p.toknext (v.toks (p.pos + w1.length)) ∧
      find_open T P.toknext = some a := by
  have hs : SuperInv p := by unfold SuperInv; rw [hsup]; omega
  obtain ⟨P, T, h0, h1, h2, h3, h4, h5, h6⟩ := padded_run v hv w1 w2 tail p ts (some a) hs hf
  have hP : P.toksuper = (a : Int) := by
    rw [h3]
    split_ifs
    · rfl
    · exact hsup
  have hT : ∀ i, i < p.toknext → T i = add_size ts a 1 i := by
    intro i hi
    rw [h4 i hi, super_incr_eq ts p a hsup]
  refine ⟨P, T, h0, h1, h2, hP, ?_, hT, h5, h6⟩
  apply comma_super_container T P a hP
  rw [h4 a ha, super_incr_type]
  exact Or.inl hty

/-- The run over a member of an object, followed by more lexemes. -/
theorem member_run (v : Json JKind.value) (hv : value_spec v) (w1 key w2 w3 w4 : List Nat)
    (tail : List Lexeme) (p : jsmn_parser_t) (ts : Tokens) (a : Nat) (ha : a < p.toknext)
    (hsup : p.toksuper = (a : Int)) (hty : (ts a).type = JSMN_OBJECT)
    (hf : find_open ts p.toknext = some a) :
    ∃ P T, lex_run (w1.map Lexeme.ws ++ (Lexeme.str key :: (w2.map Lexeme.ws ++
          (Lexeme.colon :: (w3.map Lexeme.ws ++ (v.lexemes ++ (w4.map Lexeme.ws ++ tail)))))))
          p ts = lex_run tail P T ∧
      P.pos = p.pos + w1.length + 1 + key.length + 1 + w2.length + 1 + w3.length
        + v.render.length + w4.length ∧
      P.toknext = p.toknext + 1 + lex_tokens v.lexemes ∧
      comma_super T P = (a : Int) ∧
      (∀ i, i < p.toknext → T i = add_size ts a 1 i) ∧
      holds_at T p.toknext
        ({ type := JSMN_STRING, start := ((p.pos + w1.length + 1 : Nat) : Int),
           end_ := ((p.pos + w1.length + 1 + key.length : Nat) : Int), size := 1 }
          :: v.toks (p.pos + w1.length + 1 + key.length + 1 + w2.length + 1 + w3.length)) ∧
      find_open T P.toknext = some a := by
  have hs1 : SuperInv { pos := p.pos + w1.length, toknext := p.toknext, toksuper := p.toksuper } := by
    unfold SuperInv; dsimp only; rw [hsup]; omega
  have hs3 : SuperInv { pos := p.pos + w1.length + 1 + key.length + 1 + w2.length + 1, toknext := p.toknext + 1, toksuper := ((p.toknext + 1 : Nat) : Int) - 1 } := by
    unfold SuperInv; dsimp only; push_cast; omega
  have hf3 : find_open (super_incr (string_write ts
        { pos := p.pos + w1.length, toknext := p.toknext, toksuper := p.toksuper }
        (p.pos + w1.length + 1 + key.length))
        { pos := p.pos + w1.length, toknext := p.toknext, toksuper := p.toksuper })
      (p.toknext + 1) = some a := by
    rw [← hf]
    apply find_open_after_token
    · intro i hi
      rw [str_old ts _ _ i (by dsimp only; omega), super_incr_open]
    · have := str_new ts { pos := p.pos + w1.length, toknext := p.toknext, toksuper := p.toksuper } (p.pos + w1.length + 1 + key.length) hs1
      dsimp only at this
      rw [this]
      simp only [is_open, Bool.and_eq_false_imp, decide_eq_true_eq, decide_eq_false_iff_not]
      intro _
      omega
  obtain ⟨P, T, h0, h1, h2, h3, h4, h5, h6⟩ := padded_run v hv w3 w4 tail
    { pos := p.pos + w1.length + 1 + key.length + 1 + w2.length + 1, toknext := p.toknext + 1, toksuper := ((p.toknext + 1 : Nat) : Int) - 1 }
    (super_incr (string_write ts
        { pos := p.pos + w1.length, toknext := p.toknext, toksuper := p.toksuper }
        (p.pos + w1.length + 1 + key.length))
        { pos := p.pos + w1.length, toknext := p.toknext, toksuper := p.toksuper })
    (some a) hs3 hf3
  dsimp only at h1 h2 h3 h4 h5 h6
  have hk : ((p.toknext + 1 : Nat) : Int) - 1 = (p.toknext : Int) := by push_cast; omega
  have hnewk := str_new ts { pos := p.pos + w1.length, toknext := p.toknext, toksuper := p.toksuper } (p.pos + w1.length + 1 + key.length) hs1
  dsimp only at hnewk
  have hTk : T p.toknext = { type := JSMN_STRING, start := ((p.pos + w1.length : Nat) : Int) + 1, end_ := ((p.pos + w1.length + 1 + key.length : Nat) : Int), size := 0 + 1 } := by
    rw [h4 p.toknext (by omega), super_incr_eq _ _ p.toknext hk, add_size_same, hnewk]
  have hTold : ∀ i, i < p.toknext → T i = add_size ts a 1 i := by
    intro i hi
    rw [h4 i (by omega), super_incr_eq _ _ p.toknext hk, add_size_other _ _ _ _ (by omega),
      str_old ts _ _ i (by dsimp only; omega)]
    exact congrFun (super_incr_eq ts _ a hsup) i
  have hTa : (T a).type = JSMN_OBJECT := by
    rw [hTold a ha, add_size_same]
    exact hty
  refine ⟨P, T, ?_, by omega, by omega, ?_, hTold, ?_, h6⟩
  · rw [← h0, lex_run_append, lex_run_ws, lex_run_cons]
    simp only [lex_next]
    rw [lex_run_append, lex_run_ws, lex_run_cons]
    simp only [lex_next]
  · by_cases hc : v.is_container = true
    · rw [if_pos hc] at h3
      exact comma_super_container T P a h3 (Or.inr hTa)
    · rw [if_neg hc, hk] at h3
      exact comma_super_key T P p.toknext a h3 (by rw [hTk]) h6 (Or.inr hTa)
  · rw [holds_at_cons]
    refine ⟨?_, h5⟩
    rw [hTk]
    simp only [jsmntok_t.mk.injEq, true_and, zero_add, and_true]
    push_cast
    omega

/-- The run over a comma and the rest of a body, after the first element or
member. -/
theorem body_cons {k : JKind} (rest : Json k) (t : jsmntype_t) (hrest : body_spec rest t)
    (p : jsmn_parser_t) (ts : Tokens) (a : Nat) (ha : a < p.toknext) (hty : (ts a).type = t)
    (P : jsmn_parser_t) (T : Tokens) (first : List jsmntok_t)
    (hn : P.toknext = p.toknext + first.length) (hsup : comma_super T P = (a : Int))
    (hold : ∀ i, i < p.toknext → T i = add_size ts a 1 i)
    (hnew : holds_at T p.toknext first) (hf : find_open T P.toknext = some a) :
    (lex_run (Lexeme.comma :: rest.lexemes) P T).1.pos = P.pos + 1 + rest.render.length ∧
    (lex_run (Lexeme.comma :: rest.lexemes) P T).1.toknext
      = P.toknext + lex_tokens rest.lexemes ∧
    (t = JSMN_ARRAY → (lex_run (Lexeme.comma :: rest.lexemes) P T).1.toksuper = (a : Int)) ∧
    (∀ i, i < p.toknext → (lex_run (Lexeme.comma :: rest.lexemes) P T).2 i
      = add_size ts a ((rest.count + 1 : Nat) : Int) i) ∧
    holds_at (lex_run (Lexeme.comma :: rest.lexemes) P T).2 p.toknext
      (first ++ rest.toks (P.pos + 1)) ∧
    find_open (lex_run (Lexeme.comma :: rest.lexemes) P T).2
      (lex_run (Lexeme.comma :: rest.lexemes) P T).1.toknext = some a := by
  have hTa : (T a).type = t := by rw [hold a ha, add_size_same]; exact hty
  obtain ⟨g1, g2, g3, g4, g5, g6⟩ := hrest
    { pos := P.pos + 1, toknext := P.toknext, toksuper := comma_super T P } T a
    (by dsimp only; omega) hsup hTa hf
  rw [lex_run_cons]
  simp only [lex_next]
  dsimp only at g1 g2 g3 g4 g5 g6
  refine ⟨g1, g2, g3, ?_, ?_, g6⟩
  · intro i hi
    rw [g4 i (by omega)]
    by_cases hia : i = a
    · subst hia
      rw [add_size_same, add_size_same, hold i hi, add_size_same]
      simp only [jsmntok_t.mk.injEq, true_and]
      push_cast
      ring
    · rw [add_size_other _ _ _ _ hia, add_size_other _ _ _ _ hia, hold i hi,
        add_size_other _ _ _ _ hia]
  · rw [holds_at_append]
    constructor
    · apply holds_at_congr T _ _ _ _ hnew
      intro i h1 h2
      rw [g4 i (by omega), add_size_other _ _ _ _ (by omega)]
    · rw [← hn]
      exact g5

/-- The run of `jsmn_parse` over the lexemes of well-formed JSON does what
`run_spec` says. -/
theorem run_spec_all {k : JKind} (j : Json k) : j.wf → run_spec k j := by
  induction j with
  | prim bs => intro h; exact value_spec_prim bs h
  | str body => intro _; exact value_spec_str body
  | arr0 w =>
    intro _ p ts e hs he
    obtain ⟨g1, g2, g3⟩ := value_spec_empty w false p ts e hs he
    rw [show (Json.arr0 w).lexemes = Lexeme.opn false :: (w.map Lexeme.ws ++ [Lexeme.cls false])
      from rfl, empty_group_run w false p ts e hs he]
    refine ⟨by simp only [Json.render, List.length_cons, List.length_append,
      List.length_singleton, List.length_nil]; omega, ?_, rfl, g1, g2, g3⟩
    simp only [lex_tokens, lex_tokens_append, lex_tokens_ws, Lexeme.tokens]
  | arr es ih =>
    intro hwf p ts e hs he
    obtain ⟨g1, g2, g3, g4, g5, g6⟩ := group_run es false (ih hwf) p ts e hs he
    rw [show (Json.arr es).lexemes = Lexeme.opn false :: (es.lexemes ++ [Lexeme.cls false])
      from rfl]
    refine ⟨by rw [g1]; simp only [Json.render, List.length_cons, List.length_append,
      List.length_singleton, List.length_nil]; omega, ?_, g3, g4, g5, g6⟩
    rw [g2]
    simp only [lex_tokens, lex_tokens_append, Lexeme.tokens]
    omega
  | obj0 w =>
    intro _ p ts e hs he
    obtain ⟨g1, g2, g3⟩ := value_spec_empty w true p ts e hs he
    rw [show (Json.obj0 w).lexemes = Lexeme.opn true :: (w.map Lexeme.ws ++ [Lexeme.cls true])
      from rfl, empty_group_run w true p ts e hs he]
    refine ⟨by simp only [Json.render, List.length_cons, List.length_append,
      List.length_singleton, List.length_nil]; omega, ?_, rfl, g1, g2, g3⟩
    simp only [lex_tokens, lex_tokens_append, lex_tokens_ws, Lexeme.tokens]
  | obj ms ih =>
    intro hwf p ts e hs he
    obtain ⟨g1, g2, g3, g4, g5, g6⟩ := group_run ms true (ih hwf) p ts e hs he
    rw [show (Json.obj ms).lexemes = Lexeme.opn true :: (ms.lexemes ++ [Lexeme.cls true])
      from rfl]
    refine ⟨by rw [g1]; simp only [Json.render, List.length_cons, List.length_append,
      List.length_singleton, List.length_nil]; omega, ?_, g3, g4, g5, g6⟩
    rw [g2]
    simp only [lex_tokens, lex_tokens_append, Lexeme.tokens]
    omega
  | elem w1 v w2 ih =>
    intro hwf p ts a ha hsup hty hf
    obtain ⟨P, T, h0, h1, h2, h3, -, h5, h6, h7⟩ :=
      elem_run v (ih hwf.2.1) w1 w2 [] p ts a ha hsup hty hf
    rw [List.append_nil, lex_run_nil] at h0
    rw [show (Json.elem w1 v w2).lexemes = w1.map Lexeme.ws ++ (v.lexemes ++ w2.map Lexeme.ws)
      from rfl, h0]
    refine ⟨by rw [h1]; simp only [Json.render, List.length_append]; omega, ?_, fun _ => h3,
      h5, h6, h7⟩
    rw [h2]
    simp only [lex_tokens_append, lex_tokens_ws]
    omega
  | elems w1 v w2 rest ih1 ih2 =>
    intro hwf p ts a ha hsup hty hf
    obtain ⟨P, T, h0, h1, h2, h3, h4, h5, h6, h7⟩ :=
      elem_run v (ih1 hwf.2.1) w1 w2 (Lexeme.comma :: rest.lexemes) p ts a ha hsup hty hf
    obtain ⟨g1, g2, g3, g4, g5, g6⟩ := body_cons rest JSMN_ARRAY (ih2 hwf.2.2.2) p ts a ha hty
      P T (v.toks (p.pos + w1.length)) (by rw [h2, Json.toks_length]) h4 h5 h6 h7
    rw [show (Json.elems w1 v w2 rest).lexemes = w1.map Lexeme.ws ++ (v.lexemes ++
      (w2.map Lexeme.ws ++ (Lexeme.comma :: rest.lexemes))) from rfl, h0]
    refine ⟨?_, ?_, g3, g4, ?_, g6⟩
    · rw [g1, h1]
      simp only [Json.render, List.length_append, List.length_cons]
      omega
    · rw [g2, h2]
      simp only [lex_tokens, lex_tokens_append, lex_tokens_ws, Lexeme.tokens]
      omega
    · rw [h1] at g5
      exact g5
  | member w1 key w2 w3 v w4 ih =>
    intro hwf p ts a ha hsup hty hf
    obtain ⟨P, T, h0, h1, h2, -, h5, h6, h7⟩ :=
      member_run v (ih hwf.2.2.2.2.1) w1 key w2 w3 w4 [] p ts a ha hsup hty hf
    rw [List.append_nil, lex_run_nil] at h0
    rw [show (Json.member w1 key w2 w3 v w4).lexemes = w1.map Lexeme.ws ++ (Lexeme.str key ::
      (w2.map Lexeme.ws ++ (Lexeme.colon :: (w3.map Lexeme.ws ++ (v.lexemes ++
        w4.map Lexeme.ws))))) from rfl, h0]
    refine ⟨?_, ?_, fun h => absurd h (by decide), h5, h6, h7⟩
    · rw [h1]
      simp only [Json.render, List.length_append, List.length_cons]
      omega
    rw [h2]
    simp only [lex_tokens, lex_tokens_append, lex_tokens_ws, Lexeme.tokens]
    omega
  | members w1 key w2 w3 v w4 rest ih1 ih2 =>
    intro hwf p ts a ha hsup hty hf
    obtain ⟨P, T, h0, h1, h2, h4, h5, h6, h7⟩ :=
      member_run v (ih1 hwf.2.2.2.2.1) w1 key w2 w3 w4 (Lexeme.comma :: rest.lexemes) p ts a
        ha hsup hty hf
    obtain ⟨g1, g2, g3, g4, g5, g6⟩ := body_cons rest JSMN_OBJECT (ih2 hwf.2.2.2.2.2.2) p ts a
      ha hty P T _ (by rw [h2, List.length_cons, Json.toks_length]; omega) h4 h5 h6 h7
    rw [show (Json.members w1 key w2 w3 v w4 rest).lexemes = w1.map Lexeme.ws ++
      (Lexeme.str key :: (w2.map Lexeme.ws ++ (Lexeme.colon :: (w3.map Lexeme.ws ++
        (v.lexemes ++ (w4.map Lexeme.ws ++ (Lexeme.comma :: rest.lexemes))))))) from rfl, h0]
    refine ⟨?_, ?_, g3, g4, ?_, g6⟩
    · rw [g1, h1]
      simp only [Json.render, List.length_append, List.length_cons]
      omega
    · rw [g2, h2]
      simp only [lex_tokens, lex_tokens_append, lex_tokens_ws, Lexeme.tokens]
      omega
    · rw [h1] at g5
      exact g5

/-- A call on a well-formed document with room for its tokens returns their
number and leaves the parser and the array of the run over its lexemes. -/
theorem JsonDoc.parse_run (d : JsonDoc) (hwf : d.wf) (cap : Nat)
    (hcap : lex_tokens d.lexemes ≤ cap) (ts : Tokens) :
    jsmn_parse jsmn_init d.render d.render.length (some ts) cap
      = (((lex_tokens d.lexemes : Nat) : Int), (lex_run d.lexemes jsmn_init ts).1,
          some (lex_run d.lexemes jsmn_init ts).2) := by
  have hrun := complete_run d.render d.render.length cap d.lexemes jsmn_init ts [] [] []
    (d.doc_ok hwf) d.occupies_lexemes (d.delims_doc hwf)
    (by rw [d.lex_bytes_doc]; simp [jsmn_init]) (by simpa [jsmn_init] using hcap) rfl
    (d.run_stack_doc [])
  obtain ⟨hreach, hpos, htok, hty⟩ := hrun
  rw [d.lex_bytes_doc, show jsmn_init.pos = 0 from rfl, Nat.zero_add] at hpos
  rw [show jsmn_init.toknext = 0 from rfl, Nat.zero_add] at htok
  obtain ⟨r, hr, -, hsucc⟩ := stop_here d.render d.render.length cap _ _ [] []
    (fun hg => by have := hg.1; rw [hpos] at this; omega) hty
  rw [hsucc rfl, htok] at hr
  rw [jsmn_parse_reach _ _ _ _ _ _ _ hreach, hr]

/-- The run over the lexemes of a well-formed document writes the tokens of
the document from index 0 on. -/
theorem JsonDoc.run_toks (d : JsonDoc) (hwf : d.wf) (ts : Tokens) :
    d.toks.length = lex_tokens d.lexemes ∧
    holds_at (lex_run d.lexemes jsmn_init ts).2 0 d.toks := by
  have hv : value_spec d.value := run_spec_all d.value hwf.2.1
  obtain ⟨P, T, h0, -, -, -, -, h5, -⟩ := padded_run d.value hv d.lead d.trail [] jsmn_init ts
    none SuperInv_init rfl
  rw [List.append_nil, lex_run_nil] at h0
  constructor
  · unfold JsonDoc.toks JsonDoc.lexemes
    rw [Json.toks_length, lex_tokens_append, lex_tokens_append, lex_tokens_ws, lex_tokens_ws]
    omega
  · unfold JsonDoc.lexemes JsonDoc.toks
    rw [h0]
    simpa [jsmn_init] using h5

theorem holds_at_range (ts : Tokens) (l : List jsmntok_t) (h : holds_at ts 0 l) :
    (List.range l.length).map ts = l := by
  apply List.ext_getElem?
  intro i
  by_cases hi : i < l.length
  · rw [List.getElem?_map, List.getElem?_range hi, Option.map_some',
      List.getElem?_eq_getElem hi]
    have := h i _ (List.getElem?_eq_getElem hi)
    rw [Nat.zero_add] at this
    rw [this]
  · rw [List.getElem?_eq_none (by simpa using hi), List.getElem?_eq_none (by omega)]

/-! ## The build with parent links: the loop body -/

theorem jsmn_parse_string_pl_some (p : jsmn_parser_t) (js : List Nat) (len : Nat)
    (us : TokensPL) (cap : Nat) :
    jsmn_parse_string_pl p js len (some us) cap =
      match string_scan js len (len - (p.pos + 1)) (p.pos + 1) with
      | StrScan.closed q =>
        if cap ≤ p.toknext then (JSMN_ERROR_NOMEM, p, some us)
        else (0, { pos := q, toknext := p.toknext + 1, toksuper := p.toksuper },
              some (string_write_pl us p q))
      | StrScan.inval => (JSMN_ERROR_INVAL, p, some us)
      | StrScan.part => (JSMN_ERROR_PART, p, some us) := by
  unfold jsmn_parse_string_pl jsmn_alloc_token_pl string_write_pl jsmn_fill_token_pl
  cases string_scan js len (len - (p.pos + 1)) (p.pos + 1) with
  | closed q =>
    by_cases hc : cap ≤ p.toknext
    · simp [hc]
    · simp [hc]
  | inval => rfl
  | part => rfl

theorem jsmn_parse_primitive_pl_some (p : jsmn_parser_t) (js : List Nat) (len : Nat)
    (us : TokensPL) (cap : Nat) :
    jsmn_parse_primitive_pl p js len (some us) cap =
      match primitive_scan js len (len - p.pos) p.pos with
      | none => (JSMN_ERROR_INVAL, p, some us)
      | some q =>
        if cap ≤ p.toknext then (JSMN_ERROR_NOMEM, p, some us)
        else (0, { pos := q - 1, toknext := p.toknext + 1, toksuper := p.toksuper },
              some (primitive_write_pl us p q)) := by
  unfold jsmn_parse_primitive_pl jsmn_alloc_token_pl primitive_write_pl jsmn_fill_token_pl
  cases primitive_scan js len (len - p.pos) p.pos with
  | none => rfl
  | some q =>
    by_cases hc : cap ≤ p.toknext
    · simp [hc]
    · simp [hc]

/-- On a non-null array the loop body with parent links is `tok_apply_pl`
after `lex`. -/
theorem parse_switch_pl_some (js : List Nat) (len cap : Nat) (count : Int) (p : jsmn_parser_t)
    (us : TokensPL) :
    parse_switch_pl js len cap count p (some us)
      = tok_apply_pl cap count p us (lex js len p.pos) := by
  unfold parse_switch_pl lex
  simp only []
  by_cases h1 : byte_at js p.pos = 123
  · simp [h1, tok_apply_pl, jsmn_alloc_token_pl, open_write_pl, bracket_type]
    by_cases hc : cap ≤ p.toknext
    · simp [hc]
    · simp [hc]
  by_cases h2 : byte_at js p.pos = 91
  · simp [h2, tok_apply_pl, jsmn_alloc_token_pl, open_write_pl, bracket_type]
    by_cases hc : cap ≤ p.toknext
    · simp [hc]
    · simp [hc]
  by_cases h3 : byte_at js p.pos = 125
  · simp only [h3, tok_apply_pl, bracket_type, close_write_pl]
    cases walk_open us p.toknext (p.toknext - 1) <;> simp
  by_cases h4 : byte_at js p.pos = 93
  · simp only [h4, tok_apply_pl, bracket_type, close_write_pl]
    cases walk_open us p.toknext (p.toknext - 1) <;> simp
  by_cases h5 : byte_at js p.pos = 34
  · simp only [h5]
    simp
    rw [jsmn_parse_string_pl_some]
    cases string_scan js len (len - (p.pos + 1)) (p.pos + 1) with
    | closed q =>
      by_cases hc : cap ≤ p.toknext
      · simp [hc, tok_apply_pl, neg_codes.1]
      · simp [hc, tok_apply_pl, incr_super_pl, super_incr_pl]
        split_ifs <;> rfl
    | inval => simp [tok_apply_pl, neg_codes.2.1]
    | part => simp [tok_apply_pl, neg_codes.2.2]
  by_cases h6 : byte_at js p.pos = 9 ∨ byte_at js p.pos = 13 ∨ byte_at js p.pos = 10 ∨
      byte_at js p.pos = 32
  · simp [h1, h2, h3, h4, h5, h6, tok_apply_pl]
  by_cases h7 : byte_at js p.pos = 58
  · simp [h7, tok_apply_pl]
  by_cases h8 : byte_at js p.pos = 44
  · simp only [h8, tok_apply_pl, comma_super_pl]
    simp
    split_ifs <;> rfl
  · simp only [h1, h2, h3, h4, h5, h6, h7, h8, or_self, if_false]
    rw [jsmn_parse_primitive_pl_some]
    cases primitive_scan js len (len - p.pos) p.pos with
    | none => simp [tok_apply_pl, neg_codes.2.1]
    | some q =>
      by_cases hc : cap ≤ p.toknext
      · simp [hc, tok_apply_pl, neg_codes.1]
      · simp [hc, tok_apply_pl, incr_super_pl, super_incr_pl]
        split_ifs <;> rfl

/-! ## The classification of a lexeme -/

theorem lex_of_lexeme (js : List Nat) (len : Nat) (l : Lexeme) (pos : Nat) (r : List Lexeme)
    (hok : l.ok) (hocc : occupies js pos l.bytes) (hlen : pos + l.bytes.length ≤ len)
    (hdel : delims_ok js pos (l :: r)) :
    lex js len pos = lexeme_class l pos ∧ pos < len ∧ byte_at js pos ≠ 0 := by
  cases l with
  | ws c =>
    simp only [Lexeme.bytes, List.length_singleton] at hocc hlen
    have hb : byte_at js pos = c := by simpa using hocc 0 (by simp)
    obtain ⟨hl, hne⟩ := lex_at_ws js len pos c hb hok
    exact ⟨hl, by omega, hne⟩
  | opn obj =>
    simp only [Lexeme.bytes, List.length_singleton] at hocc hlen
    have hb : byte_at js pos = (if obj then 123 else 91) := by simpa using hocc 0 (by simp)
    obtain ⟨hl, hne⟩ := lex_at_opn js len pos obj hb
    exact ⟨hl, by omega, hne⟩
  | cls obj =>
    simp only [Lexeme.bytes, List.length_singleton] at hocc hlen
    have hb : byte_at js pos = (if obj then 125 else 93) := by simpa using hocc 0 (by simp)
    obtain ⟨hl, hne⟩ := lex_at_cls js len pos obj hb
    exact ⟨hl, by omega, hne⟩
  | colon =>
    simp only [Lexeme.bytes, List.length_singleton] at hocc hlen
    have hb : byte_at js pos = 58 := by simpa using hocc 0 (by simp)
    obtain ⟨hl, hne⟩ := lex_at_colon js len pos hb
    exact ⟨hl, by omega, hne⟩
  | comma =>
    simp only [Lexeme.bytes, List.length_singleton] at hocc hlen
    have hb : byte_at js pos = 44 := by simpa using hocc 0 (by simp)
    obtain ⟨hl, hne⟩ := lex_at_comma js len pos hb
    exact ⟨hl, by omega, hne⟩
  | str body =>
    simp only [Lexeme.bytes, List.length_cons, List.length_append, List.length_singleton,
      List.length_nil] at hocc hlen
    rw [occupies_cons] at hocc
    obtain ⟨hb, hbody⟩ := hocc
    obtain ⟨hl, hne⟩ := lex_at_str js len pos hb
    rw [string_scan_run js len body.length body (pos + 1) _ rfl hok hbody (by omega)
      (by omega)] at hl
    exact ⟨hl, by omega, hne⟩
  | prim bs =>
    simp only [Lexeme.bytes] at hocc hlen
    obtain ⟨hne0, hall⟩ := hok
    obtain ⟨hfol, -⟩ := hdel
    simp only [Lexeme.bytes] at hfol
    obtain ⟨c, bs', rfl⟩ : ∃ c bs', bs = c :: bs' := by
      cases bs with
      | nil => exact absurd rfl hne0
      | cons c bs' => exact ⟨c, bs', rfl⟩
    have hb : byte_at js pos = c := ((occupies_cons js pos c bs').mp hocc).1
    obtain ⟨hl, hne⟩ := lex_at_prim js len pos c hb (hall c (List.mem_cons_self _ _))
    rw [primitive_scan_run js len (c :: bs') pos _ hall hocc hlen (Or.inr hfol)
      (by simp only [List.length_cons] at hlen ⊢; omega)] at hl
    simp only [List.length_cons] at hlen
    exact ⟨hl, by omega, hne⟩

/-! ## The build with parent links: the scan over lexemes -/

/-- The loop body with parent links on a lexeme, with room in the array: it
goes on to the loop increment with the parser and the array of
`lex_next_pl`. -/
theorem tok_apply_pl_lexeme (cap : Nat) (count : Int) (l : Lexeme) (p : jsmn_parser_t)
    (us : TokensPL) (hcap : l.tokens = 1 → p.toknext < cap)
    (hcls : ∀ obj, l = Lexeme.cls obj → 1 ≤ p.toknext ∧
      ∃ i, walk_open us p.toknext (p.toknext - 1) = Walk.found i ∧
        (us i).type = bracket_type obj) :
    ∃ p1, tok_apply_pl cap count p us (lexeme_class l p.pos)
        = Except.ok (count + (l.tokens : Int), p1, some (lex_next_pl l p us).2) ∧
      ({ p1 with pos := p1.pos + 1 } : jsmn_parser_t) = (lex_next_pl l p us).1 := by
  cases l with
  | ws c => exact ⟨p, by simp [lexeme_class, tok_apply_pl, lex_next_pl, Lexeme.tokens], rfl⟩
  | opn obj =>
    have := hcap rfl
    refine ⟨{ pos := p.pos, toknext := p.toknext + 1, toksuper := (p.toknext : Int) }, ?_, rfl⟩
    simp only [lexeme_class, tok_apply_pl, lex_next_pl, Lexeme.tokens]
    rw [if_neg (by omega)]
    simp
  | cls obj =>
    obtain ⟨h1, i, hw, ht⟩ := hcls obj rfl
    refine ⟨{ p with toksuper := (us i).parent }, ?_, ?_⟩
    · simp only [lexeme_class, tok_apply_pl, lex_next_pl, Lexeme.tokens, hw]
      rw [if_neg (by omega), if_neg (by simp [ht])]
      simp
    · simp only [lex_next_pl, hw]
  | colon =>
    exact ⟨{ p with toksuper := (p.toknext : Int) - 1 },
      by simp [lexeme_class, tok_apply_pl, lex_next_pl, Lexeme.tokens], rfl⟩
  | comma =>
    exact ⟨{ p with toksuper := comma_super_pl us p },
      by simp [lexeme_class, tok_apply_pl, lex_next_pl, Lexeme.tokens], rfl⟩
  | str body =>
    have := hcap rfl
    refine ⟨⟨p.pos + 1 + body.length, p.toknext + 1, p.toksuper⟩, ?_, rfl⟩
    simp only [lexeme_class, tok_apply_pl, lex_next_pl, Lexeme.tokens]
    rw [if_neg (by omega)]
    simp
  | prim bs =>
    have := hcap rfl
    refine ⟨⟨p.pos + bs.length - 1, p.toknext + 1, p.toksuper⟩, ?_, rfl⟩
    simp only [lexeme_class, tok_apply_pl, lex_next_pl, Lexeme.tokens]
    rw [if_neg (by omega)]
    simp

/-- A lexeme that needs a token, with the array full: the loop body with
parent links returns `JSMN_ERROR_NOMEM`. -/
theorem tok_apply_pl_nomem (cap : Nat) (count : Int) (l : Lexeme) (p : jsmn_parser_t)
    (us : TokensPL) (ht : l.tokens = 1) (hcap : cap ≤ p.toknext) :
    tok_apply_pl cap count p us (lexeme_class l p.pos)
      = Except.error (some (JSMN_ERROR_NOMEM, p, some us)) := by
  cases l with
  | opn obj => simp only [lexeme_class, tok_apply_pl]; rw [if_pos hcap]
  | str body => simp only [lexeme_class, tok_apply_pl]; rw [if_pos hcap]
  | prim bs => simp only [lexeme_class, tok_apply_pl]; rw [if_pos hcap]
  | _ => simp [Lexeme.tokens] at ht

theorem parse_loop_pl_stop (js : List Nat) (len cap : Nat) (fuel : Nat) (count : Int)
    (p : jsmn_parser_t) (t : Option TokensPL) (h : ¬ (p.pos < len ∧ byte_at js p.pos ≠ 0)) :
    parse_loop_pl js len cap fuel count p t = some (parse_finish_pl count p t) := by
  cases fuel with
  | zero => rfl
  | succ f => rw [parse_loop_pl, if_neg h]

theorem Lexeme.tokens_le_one (l : Lexeme) : l.tokens ≤ 1 := by
  cases l <;> simp [Lexeme.tokens]

/-- The default build, with too little room for the tokens of the sequence:
the call returns `JSMN_ERROR_NOMEM` at the first lexeme that finds the array
full, with the parser and the array the lexemes before it leave. -/
theorem short_run (js : List Nat) (len cap : Nat) :
    ∀ (L : List Lexeme) (p : jsmn_parser_t) (ts : Tokens) (extra base extra' : List jsmntype_t),
      (∀ l, l ∈ L → l.ok) → occupies js p.pos (lex_bytes L) → delims_ok js p.pos L →
      p.pos + (lex_bytes L).length ≤ len → p.toknext ≤ cap → cap < p.toknext + lex_tokens L →
      open_types ts p.toknext = extra ++ base → run_stack extra L = some extra' →
      jsmn_parse p js len (some ts) cap
        = (JSMN_ERROR_NOMEM, (lex_run (cap_take L (cap - p.toknext)) p ts).1,
            some (lex_run (cap_take L (cap - p.toknext)) p ts).2) := by
  intro L
  induction L with
  | nil =>
    intro p ts extra base extra' _ _ _ _ _ hshort _ _
    simp only [lex_tokens] at hshort
    omega
  | cons l r ih =>
    intro p ts extra base extra' hok hocc hdel hlen hle hshort hty hrun
    simp only [lex_bytes, List.length_append] at hocc hlen
    simp only [lex_tokens] at hshort
    rw [occupies_append] at hocc
    have h1 := l.tokens_le_one
    by_cases hfit : l.tokens ≤ cap - p.toknext
    · obtain ⟨hg, hstep, hpos, htok, hdel1, extra1, hty1, hrun1⟩ :=
        lexeme_step js len cap l p ts r extra base extra' (hok l (List.mem_cons_self _ _))
          hocc.1 (by omega) hdel (by intro h; omega) hty hrun
      rw [jsmn_parse_step js len cap p ts _ _ hg hstep,
        ih (lex_next l p ts).1 (lex_next l p ts).2 extra1 base extra'
          (fun l' hl' => hok l' (List.mem_cons_of_mem _ hl')) (by rw [hpos]; exact hocc.2)
          (by rw [hpos]; exact hdel1) (by rw [hpos]; omega) (by rw [htok]; omega)
          (by rw [htok]; omega) hty1 hrun1]
      simp only [cap_take, if_pos hfit, lex_run]
      rw [htok, show cap - (p.toknext + l.tokens) = cap - p.toknext - l.tokens by omega]
    · obtain ⟨hg, herr⟩ := lexeme_nomem js len cap l p ts r (hok l (List.mem_cons_self _ _))
        hocc.1 (by omega) hdel (by omega) (by omega)
      rw [jsmn_parse_err js len cap p ts _ hg herr]
      simp only [cap_take, if_neg hfit, lex_run]

/-- Where a lexeme leaves the position and the next free slot in the build
with parent links, when the walk of a closing bracket ends. -/
theorem lex_next_pl_pos (l : Lexeme) (p : jsmn_parser_t) (us : TokensPL) (hok : l.ok)
    (hcls : ∀ obj, l = Lexeme.cls obj →
      ∃ i, walk_open us p.toknext (p.toknext - 1) = Walk.found i) :
    (lex_next_pl l p us).1.pos = p.pos + l.bytes.length ∧
    (lex_next_pl l p us).1.toknext = p.toknext + l.tokens := by
  cases l with
  | cls obj =>
    obtain ⟨i, hw⟩ := hcls obj rfl
    simp [lex_next_pl, hw, Lexeme.bytes, Lexeme.tokens]
  | str body =>
    simp only [lex_next_pl, Lexeme.bytes, Lexeme.tokens, List.length_cons, List.length_append,
      List.length_singleton, List.length_nil]
    exact ⟨by omega, trivial⟩
  | prim bs =>
    obtain ⟨hne, -⟩ := hok
    have : 0 < bs.length := List.length_pos.mpr hne
    simp only [lex_next_pl, Lexeme.bytes, Lexeme.tokens]
    exact ⟨by omega, trivial⟩
  | _ => simp [lex_next_pl, Lexeme.bytes, Lexeme.tokens]

/-- The scan of the build with parent links over a sequence of lexemes that
lie in the buffer: with room for all their tokens the loop gets to the state
of `lex_run_pl`; with less room it returns `JSMN_ERROR_NOMEM` at the first
lexeme that finds the array full. -/
theorem run_pl (js : List Nat) (len cap : Nat) :
    ∀ (L : List Lexeme) (fuel : Nat) (count : Int) (p : jsmn_parser_t) (us : TokensPL),
      (∀ l, l ∈ L → l.ok) → occupies js p.pos (lex_bytes L) → delims_ok js p.pos L →
      p.pos + (lex_bytes L).length ≤ len → closes_ok_pl L p us → p.toknext ≤ cap →
      len - p.pos ≤ fuel →
      (lex_run_pl (cap_take L (cap - p.toknext)) p us).1.toknext ≤ cap ∧
      (p.toknext + lex_tokens L ≤ cap →
        (lex_run_pl L p us).1.pos = p.pos + (lex_bytes L).length ∧
        (lex_run_pl L p us).1.toknext = p.toknext + lex_tokens L ∧
        ∃ fuel1, parse_loop_pl js len cap fuel count p (some us)
          = parse_loop_pl js len cap fuel1 (count + (lex_tokens L : Int))
              (lex_run_pl L p us).1 (some (lex_run_pl L p us).2)) ∧
      (cap < p.toknext + lex_tokens L →
        parse_loop_pl js len cap fuel count p (some us)
          = some (JSMN_ERROR_NOMEM, (lex_run_pl (cap_take L (cap - p.toknext)) p us).1,
              some (lex_run_pl (cap_take L (cap - p.toknext)) p us).2)) := by
  intro L
  induction L with
  | nil =>
    intro fuel count p us _ _ _ _ _ hle _
    refine ⟨by simpa [cap_take, lex_run_pl] using hle, ?_, ?_⟩
    · intro _
      exact ⟨by simp [lex_run_pl, lex_bytes], by simp [lex_run_pl, lex_tokens],
        fuel, by simp [lex_run_pl, lex_tokens]⟩
    · intro hshort
      simp only [lex_tokens] at hshort
      omega
  | cons l r ih =>
    intro fuel count p us hok hocc hdel hlen hcl hle hfuel
    simp only [lex_bytes, List.length_append] at hocc hlen
    rw [occupies_append] at hocc
    have h1 := l.tokens_le_one
    have hlok := hok l (List.mem_cons_self _ _)
    obtain ⟨hclass, hlt, hne⟩ := lex_of_lexeme js len l p.pos r hlok hocc.1 (by omega) hdel
    obtain ⟨hcl0, hclr⟩ := hcl
    have hcls : ∀ obj, l = Lexeme.cls obj → 1 ≤ p.toknext ∧
        ∃ i, walk_open us p.toknext (p.toknext - 1) = Walk.found i ∧
          (us i).type = bracket_type obj := by
      intro obj hl
      subst hl
      exact hcl0
    obtain ⟨hpos, htok⟩ := lex_next_pl_pos l p us hlok
      (fun obj hl => by obtain ⟨-, i, hi, -⟩ := hcls obj hl; exact ⟨i, hi⟩)
    have hbl : 0 < l.bytes.length := by
      cases l with
      | prim bs => exact List.length_pos.mpr hlok.1
      | _ => simp [Lexeme.bytes]
    obtain ⟨f, rfl⟩ : ∃ f, fuel = f + 1 := ⟨fuel - 1, by omega⟩
    by_cases hfit : l.tokens ≤ cap - p.toknext
    · obtain ⟨p1, happ, hp1⟩ := tok_apply_pl_lexeme cap count l p us (by intro h; omega) hcls
      have hloop : parse_loop_pl js len cap (f + 1) count p (some us)
          = parse_loop_pl js len cap f (count + (l.tokens : Int)) (lex_next_pl l p us).1
              (some (lex_next_pl l p us).2) := by
        rw [parse_loop_pl, if_pos ⟨hlt, hne⟩, parse_switch_pl_some, hclass, happ]
        simp only
        rw [hp1]
      obtain ⟨ihc, ih1, ih2⟩ := ih f (count + (l.tokens : Int)) (lex_next_pl l p us).1
        (lex_next_pl l p us).2 (fun l' hl' => hok l' (List.mem_cons_of_mem _ hl'))
        (by rw [hpos]; exact hocc.2) (by rw [hpos]; exact hdel.2) (by rw [hpos]; omega)
        hclr (by rw [htok]; omega) (by rw [hpos]; omega)
      have hsub : cap - (lex_next_pl l p us).1.toknext = cap - p.toknext - l.tokens := by
        rw [htok]; omega
      rw [hsub] at ihc ih2
      refine ⟨by simpa only [cap_take, if_pos hfit, lex_run_pl] using ihc, ?_, ?_⟩
      · intro hroom
        simp only [lex_tokens] at hroom
        obtain ⟨e1, e2, fuel1, e3⟩ := ih1 (by rw [htok]; omega)
        refine ⟨?_, ?_, fuel1, ?_⟩
        · simp only [lex_run_pl, lex_bytes, List.length_append]; rw [e1, hpos]; omega
        · simp only [lex_run_pl, lex_tokens]; rw [e2, htok]; omega
        · rw [hloop, e3]
          simp only [lex_run_pl, lex_tokens]
          congr 1
          push_cast
          ring
      · intro hshort
        simp only [lex_tokens] at hshort
        rw [hloop, ih2 (by rw [htok]; omega)]
        simp only [cap_take, if_pos hfit, lex_run_pl]
    · refine ⟨by simpa [cap_take, if_neg hfit, lex_run_pl] using hle, ?_, ?_⟩
      · intro hroom
        simp only [lex_tokens] at hroom
        omega
      · intro _
        rw [parse_loop_pl, if_pos ⟨hlt, hne⟩, parse_switch_pl_some, hclass,
          tok_apply_pl_nomem cap count l p us (by omega) (by omega)]
        simp only [cap_take, if_neg hfit, lex_run_pl]

/-! ## The two builds side by side -/

theorem strip_update (us : TokensPL) (i : Nat) (t : jsmntok_pl) :
    strip (Function.update us i t) = Function.update (strip us) i t.tojsmntok_t := by
  funext j
  unfold strip
  by_cases h : j = i
  · subst h; simp
  · simp [Function.update_noteq h]

theorem strip_incr_size_pl (us : TokensPL) (i : Nat) :
    strip (incr_size_pl us i) = incr_size (strip us) i := by
  unfold incr_size_pl incr_size
  rw [strip_update]
  rfl

theorem strip_super_incr_pl (us : TokensPL) (q p : jsmn_parser_t) (h : q.toksuper = p.toksuper) :
    strip (super_incr_pl us q) = super_incr (strip us) p := by
  unfold super_incr_pl super_incr
  rw [h]
  split_ifs
  · exact strip_incr_size_pl us _
  · rfl

theorem strip_string_write_pl (us : TokensPL) (q p : jsmn_parser_t) (e : Nat)
    (h1 : q.pos = p.pos) (h2 : q.toknext = p.toknext) :
    strip (string_write_pl us q e) = string_write (strip us) p e := by
  unfold string_write_pl string_write
  rw [strip_update, h1, h2]

theorem strip_primitive_write_pl (us : TokensPL) (q p : jsmn_parser_t) (e : Nat)
    (h1 : q.pos = p.pos) (h2 : q.toknext = p.toknext) :
    strip (primitive_write_pl us q e) = primitive_write (strip us) p e := by
  unfold primitive_write_pl primitive_write
  rw [strip_update, h1, h2]

theorem strip_close_write_pl (us : TokensPL) (i pos : Nat) :
    strip (close_write_pl us i pos) = close_write (strip us) i pos := by
  unfold close_write_pl close_write
  rw [strip_update]
  rfl

theorem strip_open_write_pl (us : TokensPL) (q p : jsmn_parser_t) (obj : Bool)
    (h1 : q.pos = p.pos) (h2 : q.toknext = p.toknext) (h3 : q.toksuper = p.toksuper) :
    strip (open_write_pl us q obj) = open_write (strip us) p obj := by
  unfold open_write_pl open_write super_incr
  rw [h1, h2, h3]
  split_ifs with h
  · rw [strip_update, Function.update_same, strip_update, strip_incr_size_pl, strip_update]
    simp only [Function.update_same]
    rw [Function.update_idem]
    have key := congrFun (strip_incr_size_pl (Function.update us p.toknext { us p.toknext with start := -1, end_ := -1, size := 0, parent := -1 }) p.toksuper.toNat) p.toknext
    rw [strip_update] at key
    have e1 := congrArg jsmntok_t.end_ key
    have e2 := congrArg jsmntok_t.size key
    refine congrArg (Function.update _ p.toknext) ?_
    simp only [jsmntok_t.mk.injEq, true_and]
    exact ⟨e1, e2⟩
  · rw [strip_update, strip_update]
    simp only [Function.update_same, Function.update_idem]

/-! ### The parent links after a write -/

theorem super_incr_pl_parent (us : TokensPL) (q : jsmn_parser_t) (i : Nat) :
    (super_incr_pl us q i).parent = (us i).parent := by
  unfold super_incr_pl incr_size_pl
  split_ifs
  · by_cases h : i = q.toksuper.toNat
    · subst h; simp
    · rw [Function.update_noteq h]
  · rfl

theorem string_write_pl_new (us : TokensPL) (q : jsmn_parser_t) (e : Nat) :
    (super_incr_pl (string_write_pl us q e) q q.toknext).parent = q.toksuper := by
  rw [super_incr_pl_parent]
  unfold string_write_pl
  rw [Function.update_same]

theorem string_write_pl_old (us : TokensPL) (q : jsmn_parser_t) (e i : Nat)
    (h : i ≠ q.toknext) :
    (super_incr_pl (string_write_pl us q e) q i).parent = (us i).parent := by
  rw [super_incr_pl_parent]
  unfold string_write_pl
  rw [Function.update_noteq h]

theorem primitive_write_pl_new (us : TokensPL) (q : jsmn_parser_t) (e : Nat) :
    (super_incr_pl (primitive_write_pl us q e) q q.toknext).parent = q.toksuper := by
  rw [super_incr_pl_parent]
  unfold primitive_write_pl
  rw [Function.update_same]

theorem primitive_write_pl_old (us : TokensPL) (q : jsmn_parser_t) (e i : Nat)
    (h : i ≠ q.toknext) :
    (super_incr_pl (primitive_write_pl us q e) q i).parent = (us i).parent := by
  rw [super_incr_pl_parent]
  unfold primitive_write_pl
  rw [Function.update_noteq h]

theorem open_write_pl_new (us : TokensPL) (q : jsmn_parser_t) (obj : Bool) :
    (open_write_pl us q obj q.toknext).parent = q.toksuper := by
  unfold open_write_pl
  rw [Function.update_same]
  split_ifs with h
  · simp
  · simp only [Function.update_same]
    simp only [ne_eq, not_not] at h
    exact h.symm

theorem open_write_pl_old (us : TokensPL) (q : jsmn_parser_t) (obj : Bool) (i : Nat)
    (h : i ≠ q.toknext) : (open_write_pl us q obj i).parent = (us i).parent := by
  unfold open_write_pl
  rw [Function.update_noteq h]
  split_ifs with h1
  · rw [Function.update_noteq h]
    unfold incr_size_pl
    by_cases h2 : i = q.toksuper.toNat
    · rw [h2, Function.update_same]
      simp only
      rw [← h2, Function.update_noteq h]
    · rw [Function.update_noteq h2, Function.update_noteq h]
  · rw [Function.update_noteq h]

theorem close_write_pl_parent (us : TokensPL) (a pos i : Nat) :
    (close_write_pl us a pos i).parent = (us i).parent := by
  unfold close_write_pl
  by_cases h : i = a
  · subst h; simp
  · rw [Function.update_noteq h]

theorem close_write_pl_type (us : TokensPL) (a pos i : Nat) :
    (close_write_pl us a pos i).type = (us i).type := by
  unfold close_write_pl
  by_cases h : i = a
  · subst h; simp
  · rw [Function.update_noteq h]

/-! ### The walk along the parent links -/

theorem walk_open_found (us : TokensPL) (n a : Nat) (hinv : LinkInv us n)
    (hopen : is_open (strip us a) = true)
    (hclosed : ∀ j, a < j → j < n → is_open (strip us j) = false) :
    ∀ fuel j, a ≤ j → j < fuel → j < n → walk_open us fuel j = Walk.found a := by
  intro fuel
  induction fuel with
  | zero => intro j _ h _; omega
  | succ f ih =>
    intro j haj hjf hjn
    unfold walk_open
    by_cases hj : j = a
    · subst hj
      have hopen1 : is_open (us j).tojsmntok_t = true := hopen
      rw [if_pos hopen1]
    · have hlt : a < j := by omega
      have hnot : is_open (us j).tojsmntok_t = false := hclosed j hlt hjn
      have hfo : find_open (strip us) j = some a :=
        find_open_eq_some (strip us) j a hlt hopen (fun k h1 h2 => hclosed k h1 (by omega))
      obtain ⟨hp1, hp2⟩ := hinv j hjn a hfo
      rw [if_neg (by rw [hnot]; simp), if_neg (by omega)]
      exact ih _ (by omega) (by omega) (by omega)

/-- With the parent links in order, the walk of a closing bracket ends on the
nearest open token, the one the backward scan of the other build finds. -/
theorem walk_nearest (us : TokensPL) (n a : Nat) (hinv : LinkInv us n)
    (hf : find_open (strip us) n = some a) :
    walk_open us n (n - 1) = Walk.found a := by
  obtain ⟨h1, h2, h3⟩ := find_open_some (strip us) n a hf
  exact walk_open_found us n a hinv h2 h3 n (n - 1) (by omega) (by omega) (by omega)

theorem LinkInv_push (us us1 : TokensPL) (n : Nat) (S : Int) (hinv : LinkInv us n)
    (hold : ∀ i, i < n → (us1 i).parent = (us i).parent ∧
      is_open (strip us1 i) = is_open (strip us i))
    (hnew : (us1 n).parent = S) (hS : S < (n : Int))
    (hE : ∀ e, find_open (strip us) n = some e → (e : Int) ≤ S) :
    LinkInv us1 (n + 1) := by
  intro i hi e he
  have hfo : find_open (strip us1) i = find_open (strip us) i :=
    find_open_ext (strip us) (strip us1) i (fun k hk => (hold k (by omega)).2)
  rw [hfo] at he
  by_cases h : i = n
  · subst h
    rw [hnew]
    exact ⟨hE e he, hS⟩
  · rw [(hold i (by omega)).1]
    exact hinv i (by omega) e he

theorem LinkInv_close (us : TokensPL) (n a pos : Nat) (hinv : LinkInv us n)
    (hf : find_open (strip us) n = some a) :
    LinkInv (close_write_pl us a pos) n := by
  obtain ⟨h1, h2, h3⟩ := find_open_some (strip us) n a hf
  intro i hi e he
  rw [close_write_pl_parent]
  rw [strip_close_write_pl] at he
  by_cases hia : i ≤ a
  · have : find_open (close_write (strip us) a pos) i = find_open (strip us) i :=
      find_open_ext _ _ i (fun k hk => by rw [close_write_old _ a pos k (by omega)])
    rw [this] at he
    exact hinv i hi e he
  · have hlt : a < i := by omega
    have hfo : find_open (strip us) i = some a :=
      find_open_eq_some (strip us) i a hlt h2 (fun k k1 k2 => h3 k k1 (by omega))
    obtain ⟨hp1, hp2⟩ := hinv i hi a hfo
    obtain ⟨g1, g2, g3⟩ := find_open_some _ i e he
    have hea : e ≠ a := by
      intro hc
      subst hc
      rw [cls_new] at g2
      simp [is_open] at g2
      omega
    have hle : e < a := by
      by_contra hc
      have hgt : a < e := by omega
      have := h3 e hgt (by omega)
      rw [close_write_old _ a pos e hea, this] at g2
      exact Bool.noConfusion g2
    exact ⟨by omega, hp2⟩

/-! ### Runs in correspondence -/

theorem lex_run_pl_append (a b : List Lexeme) :
    ∀ (q : jsmn_parser_t) (us : TokensPL),
      lex_run_pl (a ++ b) q us = lex_run_pl b (lex_run_pl a q us).1 (lex_run_pl a q us).2 := by
  induction a with
  | nil => intro q us; rfl
  | cons l a ih => intro q us; exact ih _ _

theorem lex_run_pl_ws (w : List Nat) :
    ∀ (q : jsmn_parser_t) (us : TokensPL), lex_run_pl (w.map Lexeme.ws) q us
      = ({ pos := q.pos + w.length, toknext := q.toknext, toksuper := q.toksuper }, us) := by
  induction w with
  | nil => intro q us; rfl
  | cons c w ih =>
    intro q us
    simp only [List.map_cons, lex_run_pl, lex_next_pl, List.length_cons]
    rw [ih]
    simp only [Prod.mk.injEq, jsmn_parser_t.mk.injEq, and_true]
    omega

theorem sim_run_mono (Post Post1 : jsmn_parser_t → Tokens → jsmn_parser_t → TokensPL → Prop)
    (h : ∀ p ts q us, Post p ts q us → Post1 p ts q us) :
    ∀ (L : List Lexeme) (p : jsmn_parser_t) (ts : Tokens) (q : jsmn_parser_t) (us : TokensPL),
      sim_run L p ts q us Post → sim_run L p ts q us Post1 := by
  intro L
  induction L with
  | nil => intro p ts q us hs; exact ⟨hs.1, h _ _ _ _ hs.2⟩
  | cons l r ih => intro p ts q us hs; exact ⟨hs.1, hs.2.1, ih _ _ _ _ hs.2.2⟩

theorem sim_run_append (b : List Lexeme)
    (Post : jsmn_parser_t → Tokens → jsmn_parser_t → TokensPL → Prop) :
    ∀ (a : List Lexeme) (p : jsmn_parser_t) (ts : Tokens) (q : jsmn_parser_t) (us : TokensPL),
      sim_run a p ts q us (fun p1 ts1 q1 us1 => sim_run b p1 ts1 q1 us1 Post) →
      sim_run (a ++ b) p ts q us Post := by
  intro a
  induction a with
  | nil => intro p ts q us hs; exact hs.2
  | cons l r ih => intro p ts q us hs; exact ⟨hs.1, hs.2.1, ih _ _ _ _ hs.2.2⟩

theorem sim_run_end (Post : jsmn_parser_t → Tokens → jsmn_parser_t → TokensPL → Prop) :
    ∀ (L : List Lexeme) (p : jsmn_parser_t) (ts : Tokens) (q : jsmn_parser_t) (us : TokensPL),
      sim_run L p ts q us Post →
      Sim (lex_run L p ts).1 (lex_run L p ts).2 (lex_run_pl L q us).1 (lex_run_pl L q us).2 ∧
      Post (lex_run L p ts).1 (lex_run L p ts).2 (lex_run_pl L q us).1 (lex_run_pl L q us).2 := by
  intro L
  induction L with
  | nil => intro p ts q us hs; exact hs
  | cons l r ih => intro p ts q us hs; exact ih _ _ _ _ hs.2.2

theorem sim_run_closes (Post : jsmn_parser_t → Tokens → jsmn_parser_t → TokensPL → Prop) :
    ∀ (L : List Lexeme) (p : jsmn_parser_t) (ts : Tokens) (q : jsmn_parser_t) (us : TokensPL),
      sim_run L p ts q us Post → closes_ok_pl L q us := by
  intro L
  induction L with
  | nil => intro p ts q us _; trivial
  | cons l r ih =>
    intro p ts q us hs
    refine ⟨?_, ih _ _ _ _ hs.2.2⟩
    exact hs.2.1

theorem sim_run_take (Post : jsmn_parser_t → Tokens → jsmn_parser_t → TokensPL → Prop) :
    ∀ (L : List Lexeme) (b : Nat) (p : jsmn_parser_t) (ts : Tokens) (q : jsmn_parser_t)
      (us : TokensPL), sim_run L p ts q us Post →
      Sim (lex_run (cap_take L b) p ts).1 (lex_run (cap_take L b) p ts).2
        (lex_run_pl (cap_take L b) q us).1 (lex_run_pl (cap_take L b) q us).2 := by
  intro L
  induction L with
  | nil => intro b p ts q us hs; exact hs.1
  | cons l r ih =>
    intro b p ts q us hs
    unfold cap_take
    split_ifs
    · exact ih _ _ _ _ _ hs.2.2
    · exact hs.1

theorem sim_run_ws (Post : jsmn_parser_t → Tokens → jsmn_parser_t → TokensPL → Prop)
    (w : List Nat) :
    ∀ (p : jsmn_parser_t) (ts : Tokens) (q : jsmn_parser_t) (us : TokensPL),
      Sim p ts q us →
      (Sim ⟨p.pos + w.length, p.toknext, p.toksuper⟩ ts ⟨q.pos + w.length, q.toknext, q.toksuper⟩ us →
        Post ⟨p.pos + w.length, p.toknext, p.toksuper⟩ ts
          ⟨q.pos + w.length, q.toknext, q.toksuper⟩ us) →
      sim_run (w.map Lexeme.ws) p ts q us Post := by
  induction w with
  | nil =>
    intro p ts q us hs hp
    exact ⟨hs, hp hs⟩
  | cons c w ih =>
    intro p ts q us hs hp
    refine ⟨hs, trivial, ?_⟩
    apply ih
    · exact ⟨by simp only [lex_next_pl, lex_next]; rw [hs.1], hs.2.1, hs.2.2⟩
    · simp only [lex_next_pl, lex_next, List.length_cons] at hp ⊢
      rw [show p.pos + 1 + w.length = p.pos + (w.length + 1) by omega,
        show q.pos + 1 + w.length = q.pos + (w.length + 1) by omega]
      exact hp

theorem sim_run_imp (Post Post1 : jsmn_parser_t → Tokens → jsmn_parser_t → TokensPL → Prop) :
    ∀ (L : List Lexeme) (p : jsmn_parser_t) (ts : Tokens) (q : jsmn_parser_t) (us : TokensPL),
      sim_run L p ts q us Post →
      (∀ p1 ts1 q1 us1, Sim p1 ts1 q1 us1 → Post p1 ts1 q1 us1 → Post1 p1 ts1 q1 us1) →
      sim_run L p ts q us Post1 := by
  intro L
  induction L with
  | nil => intro p ts q us hs h; exact ⟨hs.1, h _ _ _ _ hs.1 hs.2⟩
  | cons l r ih => intro p ts q us hs h; exact ⟨hs.1, hs.2.1, ih _ _ _ _ hs.2.2 h⟩

theorem sim_run_ends (Post : jsmn_parser_t → Tokens → jsmn_parser_t → TokensPL → Prop) :
    ∀ (L : List Lexeme) (p : jsmn_parser_t) (ts : Tokens) (q : jsmn_parser_t) (us : TokensPL),
      sim_run L p ts q us Post →
      sim_run L p ts q us (fun p1 ts1 q1 us1 =>
        Post p1 ts1 q1 us1 ∧ p1 = (lex_run L p ts).1 ∧ ts1 = (lex_run L p ts).2) := by
  intro L
  induction L with
  | nil => intro p ts q us hs; exact ⟨hs.1, hs.2, rfl, rfl⟩
  | cons l r ih => intro p ts q us hs; exact ⟨hs.1, hs.2.1, ih _ _ _ _ hs.2.2⟩

theorem find_open_le (ts : Tokens) (n e : Nat) (S : Int) (h : find_open ts n = some e)
    (hS : S = (n : Int) - 1) : (e : Int) ≤ S := by
  have := (find_open_some ts n e h).1
  omega

/-- A string, in corresponding states with the same `toksuper`. -/
theorem sim_string (body : List Nat) (tail : List Lexeme)
    (Post : jsmn_parser_t → Tokens → jsmn_parser_t → TokensPL → Prop)
    (p : jsmn_parser_t) (ts : Tokens) (q : jsmn_parser_t) (us : TokensPL)
    (hsim : Sim p ts q us) (htop : q.toksuper = p.toksuper) (hsup : SuperInv p)
    (hE : ∀ e, find_open ts p.toknext = some e → (e : Int) ≤ p.toksuper)
    (hinv : LinkInv us q.toknext)
    (hk : Sim ⟨p.pos + 1 + body.length + 1, p.toknext + 1, p.toksuper⟩
        (super_incr (string_write ts p (p.pos + 1 + body.length)) p)
        ⟨q.pos + 1 + body.length + 1, q.toknext + 1, q.toksuper⟩
        (super_incr_pl (string_write_pl us q (q.pos + 1 + body.length)) q) →
      LinkInv (super_incr_pl (string_write_pl us q (q.pos + 1 + body.length)) q)
        (q.toknext + 1) →
      sim_run tail ⟨p.pos + 1 + body.length + 1, p.toknext + 1, p.toksuper⟩
        (super_incr (string_write ts p (p.pos + 1 + body.length)) p)
        ⟨q.pos + 1 + body.length + 1, q.toknext + 1, q.toksuper⟩
        (super_incr_pl (string_write_pl us q (q.pos + 1 + body.length)) q) Post) :
    sim_run (Lexeme.str body :: tail) p ts q us Post := by
  obtain ⟨h1, h2, h3⟩ := hsim
  have harr : super_incr (string_write ts p (p.pos + 1 + body.length)) p
      = strip (super_incr_pl (string_write_pl us q (q.pos + 1 + body.length)) q) := by
    rw [strip_super_incr_pl _ q p htop, strip_string_write_pl us q p _ h1 h2, h3, h1]
  refine ⟨⟨h1, h2, h3⟩, trivial, ?_⟩
  apply hk
  · exact ⟨by rw [h1], by rw [h2], harr⟩
  · apply LinkInv_push us _ q.toknext q.toksuper hinv
    · intro i hi
      refine ⟨string_write_pl_old us q _ i (by omega), ?_⟩
      rw [← harr, str_old ts p _ i (by omega), super_incr_open, h3]
    · exact string_write_pl_new us q _
    · rw [htop, h2]; exact hsup.2
    · intro e he
      rw [htop]
      exact hE e (by rw [h3, ← h2]; exact he)

/-- A primitive, in corresponding states with the same `toksuper`. -/
theorem sim_primitive (bs : List Nat) (tail : List Lexeme)
    (Post : jsmn_parser_t → Tokens → jsmn_parser_t → TokensPL → Prop)
    (p : jsmn_parser_t) (ts : Tokens) (q : jsmn_parser_t) (us : TokensPL)
    (hsim : Sim p ts q us) (htop : q.toksuper = p.toksuper) (hsup : SuperInv p)
    (hE : ∀ e, find_open ts p.toknext = some e → (e : Int) ≤ p.toksuper)
    (hinv : LinkInv us q.toknext)
    (hk : Sim ⟨p.pos + bs.length - 1 + 1, p.toknext + 1, p.toksuper⟩
        (super_incr (primitive_write ts p (p.pos + bs.length)) p)
        ⟨q.pos + bs.length - 1 + 1, q.toknext + 1, q.toksuper⟩
        (super_incr_pl (primitive_write_pl us q (q.pos + bs.length)) q) →
      LinkInv (super_incr_pl (primitive_write_pl us q (q.pos + bs.length)) q)
        (q.toknext + 1) →
      sim_run tail ⟨p.pos + bs.length - 1 + 1, p.toknext + 1, p.toksuper⟩
        (super_incr (primitive_write ts p (p.pos + bs.length)) p)
        ⟨q.pos + bs.length - 1 + 1, q.toknext + 1, q.toksuper⟩
        (super_incr_pl (primitive_write_pl us q (q.pos + bs.length)) q) Post) :
    sim_run (Lexeme.prim bs :: tail) p ts q us Post := by
  obtain ⟨h1, h2, h3⟩ := hsim
  have harr : super_incr (primitive_write ts p (p.pos + bs.length)) p
      = strip (super_incr_pl (primitive_write_pl us q (q.pos + bs.length)) q) := by
    rw [strip_super_incr_pl _ q p htop, strip_primitive_write_pl us q p _ h1 h2, h3, h1]
  refine ⟨⟨h1, h2, h3⟩, trivial, ?_⟩
  apply hk
  · exact ⟨by rw [h1], by rw [h2], harr⟩
  · apply LinkInv_push us _ q.toknext q.toksuper hinv
    · intro i hi
      refine ⟨primitive_write_pl_old us q _ i (by omega), ?_⟩
      rw [← harr, prim_old ts p _ i (by omega), super_incr_open, h3]
    · exact primitive_write_pl_new us q _
    · rw [htop, h2]; exact hsup.2
    · intro e he
      rw [htop]
      exact hE e (by rw [h3, ← h2]; exact he)

theorem value_sim_str (body : List Nat) : value_sim (Json.str body) := by
  intro p ts q us hsim htop hsup hE hinv
  apply sim_string body [] _ p ts q us hsim htop hsup hE hinv
  intro hs hl
  exact ⟨hs, rfl, hl, fun i hi => string_write_pl_old us q _ i (by omega)⟩

theorem value_sim_prim (bs : List Nat) : value_sim (Json.prim bs) := by
  intro p ts q us hsim htop hsup hE hinv
  apply sim_primitive bs [] _ p ts q us hsim htop hsup hE hinv
  intro hs hl
  exact ⟨hs, rfl, hl, fun i hi => primitive_write_pl_old us q _ i (by omega)⟩

/-- An array or an object, given the correspondence over what stands between
its brackets. -/
theorem sim_group (obj : Bool) (B : List Lexeme)
    (p : jsmn_parser_t) (ts : Tokens) (q : jsmn_parser_t) (us : TokensPL)
    (hsim : Sim p ts q us) (htop : q.toksuper = p.toksuper) (hsup : SuperInv p)
    (hE : ∀ e, find_open ts p.toknext = some e → (e : Int) ≤ p.toksuper)
    (hinv : LinkInv us q.toknext)
    (hmid : Sim ⟨p.pos + 1, p.toknext + 1, (p.toknext : Int)⟩ (open_write ts p obj)
        ⟨q.pos + 1, q.toknext + 1, (q.toknext : Int)⟩ (open_write_pl us q obj) →
      (open_write ts p obj p.toknext).type = bracket_type obj →
      find_open (open_write ts p obj) (p.toknext + 1) = some p.toknext →
      LinkInv (open_write_pl us q obj) (q.toknext + 1) →
      sim_run B ⟨p.pos + 1, p.toknext + 1, (p.toknext : Int)⟩ (open_write ts p obj)
        ⟨q.pos + 1, q.toknext + 1, (q.toknext : Int)⟩ (open_write_pl us q obj)
        (fun p2 ts2 q2 us2 => LinkInv us2 q2.toknext ∧
          (∀ i, i < q.toknext + 1 → (us2 i).parent = (open_write_pl us q obj i).parent) ∧
          find_open ts2 p2.toknext = some p.toknext ∧
          (ts2 p.toknext).type = bracket_type obj)) :
    sim_run (Lexeme.opn obj :: (B ++ [Lexeme.cls obj])) p ts q us (fun _ _ q1 us1 =>
      q1.toksuper = q.toksuper ∧ LinkInv us1 q1.toknext ∧
      ∀ i, i < q.toknext → (us1 i).parent = (us i).parent) := by
  obtain ⟨h1, h2, h3⟩ := hsim
  have harr : open_write ts p obj = strip (open_write_pl us q obj) := by
    rw [strip_open_write_pl us q p obj h1 h2 htop, h3]
  refine ⟨⟨h1, h2, h3⟩, trivial, ?_⟩
  apply sim_run_append
  have hm := hmid ⟨by rw [h1], by rw [h2], harr⟩ (by rw [opn_new ts p obj hsup])
    (find_open_top _ _ (is_open_opn_new ts p obj hsup))
    (by
      apply LinkInv_push us _ q.toknext q.toksuper hinv
      · intro i hi
        refine ⟨open_write_pl_old us q obj i (by omega), ?_⟩
        rw [← harr, opn_old ts p obj i (by omega), super_incr_open, h3]
      · exact open_write_pl_new us q obj
      · rw [htop, h2]; exact hsup.2
      · intro e he
        rw [htop]
        exact hE e (by rw [h3, ← h2]; exact he))
  refine sim_run_imp _ _ B _ _ _ _ hm ?_
  intro p2 ts2 q2 us2 hs2 hpost
  obtain ⟨g1, g2, g3⟩ := hs2
  obtain ⟨k1, k2, k3, k4⟩ := hpost
  have hf2 : find_open (strip us2) q2.toknext = some p.toknext := by
    rw [← g3, g2]; exact k3
  have hlt := (find_open_some ts2 p2.toknext p.toknext k3).1
  have hw : walk_open us2 q2.toknext (q2.toknext - 1) = Walk.found p.toknext :=
    walk_nearest us2 q2.toknext p.toknext k1 hf2
  have hty : (us2 p.toknext).type = bracket_type obj := by
    rw [← k4, g3]; rfl
  refine ⟨⟨g1, g2, g3⟩, ⟨by omega, p.toknext, hw, hty⟩, ?_, ?_, ?_, ?_⟩
  · rw [lex_next_cls obj p2 ts2 p.toknext k3]
    simp only [lex_next_pl, hw]
    exact ⟨by rw [g1], g2, by rw [strip_close_write_pl, g3, g1]⟩
  · simp only [lex_next_pl, hw]
    rw [k2 p.toknext (by omega), ← h2, open_write_pl_new]
  · simp only [lex_next_pl, hw]
    exact LinkInv_close us2 q2.toknext p.toknext q2.pos k1 hf2
  · intro i hi
    simp only [lex_next_pl, hw]
    rw [close_write_pl_parent, k2 i (by omega), open_write_pl_old us q obj i (by omega)]

theorem value_sim_empty (w : List Nat) (obj : Bool)
    (p : jsmn_parser_t) (ts : Tokens) (q : jsmn_parser_t) (us : TokensPL)
    (hsim : Sim p ts q us) (htop : q.toksuper = p.toksuper) (hsup : SuperInv p)
    (hE : ∀ e, find_open ts p.toknext = some e → (e : Int) ≤ p.toksuper)
    (hinv : LinkInv us q.toknext) :
    sim_run (Lexeme.opn obj :: (w.map Lexeme.ws ++ [Lexeme.cls obj])) p ts q us
      (fun _ _ q1 us1 => q1.toksuper = q.toksuper ∧ LinkInv us1 q1.toknext ∧
        ∀ i, i < q.toknext → (us1 i).parent = (us i).parent) := by
  apply sim_group obj _ p ts q us hsim htop hsup hE hinv
  intro hs hty hf hl
  apply sim_run_ws _ w _ _ _ _ hs
  intro _
  exact ⟨hl, fun i _ => rfl, hf, hty⟩

theorem value_sim_group {k : JKind} (b : Json k) (obj : Bool)
    (hb : body_spec b (bracket_type obj)) (hs : body_sim b)
    (p : jsmn_parser_t) (ts : Tokens) (q : jsmn_parser_t) (us : TokensPL)
    (hsim : Sim p ts q us) (htop : q.toksuper = p.toksuper) (hsup : SuperInv p)
    (hE : ∀ e, find_open ts p.toknext = some e → (e : Int) ≤ p.toksuper)
    (hinv : LinkInv us q.toknext) :
    sim_run (Lexeme.opn obj :: (b.lexemes ++ [Lexeme.cls obj])) p ts q us
      (fun _ _ q1 us1 => q1.toksuper = q.toksuper ∧ LinkInv us1 q1.toknext ∧
        ∀ i, i < q.toknext → (us1 i).parent = (us i).parent) := by
  apply sim_group obj _ p ts q us hsim htop hsup hE hinv
  intro hs1 hty hf hl
  have hcont : (open_write ts p obj p.toknext).type = JSMN_ARRAY ∨
      (open_write ts p obj p.toknext).type = JSMN_OBJECT := by
    rw [hty]; cases obj
    · exact Or.inl rfl
    · exact Or.inr rfl
  have hrun := hs ⟨p.pos + 1, p.toknext + 1, (p.toknext : Int)⟩ (open_write ts p obj)
    ⟨q.pos + 1, q.toknext + 1, (q.toknext : Int)⟩ (open_write_pl us q obj) p.toknext
    hs1 (Nat.lt_succ_self _) rfl (by rw [hsim.2.1]) hcont hf hl
  obtain ⟨-, -, -, d4, -, d6⟩ := hb ⟨p.pos + 1, p.toknext + 1, (p.toknext : Int)⟩
    (open_write ts p obj) p.toknext (Nat.lt_succ_self _) rfl hty hf
  refine sim_run_imp _ _ _ _ _ _ _ (sim_run_ends _ _ _ _ _ _ hrun) ?_
  intro p2 ts2 q2 us2 _ hpost
  obtain ⟨⟨k1, k2⟩, e1, e2⟩ := hpost
  subst e1 e2
  refine ⟨k1, k2, d6, ?_⟩
  rw [d4 p.toknext (Nat.lt_succ_self _), add_size_same]
  exact hty

/-- A value with white space around it, followed by more lexemes. -/
theorem sim_padded (v : Json JKind.value) (hv : value_spec v) (hs : value_sim v)
    (w1 w2 : List Nat) (tail : List Lexeme)
    (Post : jsmn_parser_t → Tokens → jsmn_parser_t → TokensPL → Prop)
    (p : jsmn_parser_t) (ts : Tokens) (q : jsmn_parser_t) (us : TokensPL)
    (hsim : Sim p ts q us) (htop : q.toksuper = p.toksuper) (hsup : SuperInv p)
    (hE : ∀ e, find_open ts p.toknext = some e → (e : Int) ≤ p.toksuper)
    (hinv : LinkInv us q.toknext)
    (hk : ∀ p1 ts1 q1 us1, Sim p1 ts1 q1 us1 → q1.toksuper = q.toksuper →
      LinkInv us1 q1.toknext → (∀ i, i < q.toknext → (us1 i).parent = (us i).parent) →
      p.toknext ≤ p1.toknext →
      p1.toksuper = (if v.is_container = true then super_of (find_open ts p.toknext)
        else p.toksuper) →
      (∀ i, i < p.toknext → ts1 i = super_incr ts p i) →
      find_open ts1 p1.toknext = find_open ts p.toknext →
      sim_run tail p1 ts1 q1 us1 Post) :
    sim_run (w1.map Lexeme.ws ++ (v.lexemes ++ (w2.map Lexeme.ws ++ tail))) p ts q us Post := by
  apply sim_run_append
  apply sim_run_ws _ w1 p ts q us hsim
  intro hs1
  apply sim_run_append
  have hrun := hs ⟨p.pos + w1.length, p.toknext, p.toksuper⟩ ts
    ⟨q.pos + w1.length, q.toknext, q.toksuper⟩ us hs1 htop hsup hE hinv
  obtain ⟨-, d2, d3, d4, -, d6⟩ := hv ⟨p.pos + w1.length, p.toknext, p.toksuper⟩ ts _ hsup rfl
  refine sim_run_imp _ _ _ _ _ _ _ (sim_run_ends _ _ _ _ _ _ hrun) ?_
  intro p2 ts2 q2 us2 hs2 hpost
  obtain ⟨⟨k1, k2, k3⟩, e1, e2⟩ := hpost
  subst e1 e2
  apply sim_run_append
  apply sim_run_ws _ w2 _ _ _ _ hs2
  intro hs3
  apply hk _ _ _ _ hs3 k1 k2 k3
  · show p.toknext ≤ (lex_run v.lexemes _ ts).1.toknext
    rw [d2]; exact Nat.le_add_right _ _
  · exact d3
  · exact d4
  · exact d6

theorem comma_super_pl_container (us : TokensPL) (q : jsmn_parser_t) (a : Nat)
    (h : q.toksuper = (a : Int)) (hty : (us a).type = JSMN_ARRAY ∨ (us a).type = JSMN_OBJECT) :
    comma_super_pl us q = (a : Int) := by
  unfold comma_super_pl
  rw [if_neg, h]
  rw [h, Int.toNat_ofNat]
  rintro ⟨-, h1, h2⟩
  rcases hty with h3 | h3
  · exact h1 h3
  · exact h2 h3

theorem comma_super_pl_key (us : TokensPL) (q : jsmn_parser_t) (k : Nat)
    (h : q.toksuper = (k : Int)) (hk : (us k).type = JSMN_STRING) :
    comma_super_pl us q = (us k).parent := by
  unfold comma_super_pl
  rw [if_pos, h, Int.toNat_ofNat]
  rw [h, Int.toNat_ofNat, hk]
  exact ⟨by omega, by decide, by decide⟩

/-- The elements of an array: one element, followed by a comma and more
elements or by nothing. -/
theorem sim_elem (v : Json JKind.value) (hv : value_spec v) (hs : value_sim v)
    (w1 w2 : List Nat) (tail : List Lexeme)
    (p : jsmn_parser_t) (ts : Tokens) (q : jsmn_parser_t) (us : TokensPL) (a : Nat)
    (hsim : Sim p ts q us) (ha : a < p.toknext) (hp : p.toksuper = (a : Int))
    (hq : q.toksuper = (a : Int))
    (hty : (ts a).type = JSMN_ARRAY ∨ (ts a).type = JSMN_OBJECT)
    (hf : find_open ts p.toknext = some a) (hinv : LinkInv us q.toknext)
    (hk : ∀ p1 ts1 q1 us1, Sim p1 ts1 q1 us1 → a < p1.toknext → p1.toksuper = (a : Int) →
      q1.toksuper = (a : Int) → ((ts1 a).type = JSMN_ARRAY ∨ (ts1 a).type = JSMN_OBJECT) →
      find_open ts1 p1.toknext = some a → LinkInv us1 q1.toknext →
      (∀ i, i < q.toknext → (us1 i).parent = (us i).parent) → q.toknext ≤ q1.toknext →
      sim_run tail p1 ts1 q1 us1 (fun _ _ q2 us2 =>
        LinkInv us2 q2.toknext ∧ ∀ i, i < q.toknext → (us2 i).parent = (us i).parent)) :
    sim_run (w1.map Lexeme.ws ++ (v.lexemes ++ (w2.map Lexeme.ws ++ tail))) p ts q us
      (fun _ _ q2 us2 =>
        LinkInv us2 q2.toknext ∧ ∀ i, i < q.toknext → (us2 i).parent = (us i).parent) := by
  apply sim_padded v hv hs w1 w2 tail _ p ts q us hsim (by rw [hq, hp])
    ⟨by rw [hp]; omega, by rw [hp]; omega⟩
    (by intro e he; rw [hf] at he; cases he; rw [hp]) hinv
  intro p1 ts1 q1 us1 hs1 k1 k2 k3 k4 k5 k6 k7
  have hsup1 : p1.toksuper = (a : Int) := by
    rw [k5, hf, super_of_some, hp]; simp
  have hty1 : (ts1 a).type = JSMN_ARRAY ∨ (ts1 a).type = JSMN_OBJECT := by
    rw [k6 a ha, super_incr_type]; exact hty
  apply hk p1 ts1 q1 us1 hs1 (by omega) hsup1 (by rw [k1, hq]) hty1 (by rw [k7, hf]) k2 k3
  rw [hs1.2.1, hsim.2.1]; exact k4

theorem body_sim_elem (v : Json JKind.value) (hv : value_spec v) (hs : value_sim v)
    (w1 w2 : List Nat) : body_sim (Json.elem w1 v w2) := by
  intro p ts q us a hsim ha hp hq hty hf hinv
  have h := sim_elem v hv hs w1 w2 [] p ts q us a hsim ha hp hq hty hf hinv
    (fun p1 ts1 q1 us1 hs1 _ _ _ _ _ hl hpar _ => ⟨hs1, hl, hpar⟩)
  rw [List.append_nil] at h
  exact h

theorem body_sim_elems (v : Json JKind.value) (hv : value_spec v) (hs : value_sim v)
    (w1 w2 : List Nat) (rest : Json JKind.elems) (hr : body_sim rest) :
    body_sim (Json.elems w1 v w2 rest) := by
  intro p ts q us a hsim ha hp hq hty hf hinv
  apply sim_elem v hv hs w1 w2 (Lexeme.comma :: rest.lexemes) p ts q us a hsim ha hp hq hty hf
    hinv
  intro p1 ts1 q1 us1 hs1 ha1 hp1 hq1 hty1 hf1 hl1 hpar hle
  have hty2 : (us1 a).type = JSMN_ARRAY ∨ (us1 a).type = JSMN_OBJECT := by
    have := hs1.2.2
    rw [this] at hty1
    exact hty1
  refine ⟨hs1, trivial, ?_⟩
  have hrun := hr ⟨p1.pos + 1, p1.toknext, comma_super ts1 p1⟩ ts1
    ⟨q1.pos + 1, q1.toknext, comma_super_pl us1 q1⟩ us1 a
    ⟨by rw [hs1.1], hs1.2.1, hs1.2.2⟩ ha1 (comma_super_container ts1 p1 a hp1 hty1)
    (comma_super_pl_container us1 q1 a hq1 hty2) hty1 hf1 hl1
  refine sim_run_imp _ _ _ _ _ _ _ hrun ?_
  intro p2 ts2 q2 us2 _ hpost
  exact ⟨hpost.1, fun i hi => by rw [hpost.2 i (Nat.lt_of_lt_of_le hi hle), hpar i hi]⟩

/-- A member of an object, followed by more lexemes. -/
theorem sim_member (v : Json JKind.value) (hv : value_spec v) (hs : value_sim v)
    (w1 key w2 w3 w4 : List Nat) (tail : List Lexeme)
    (p : jsmn_parser_t) (ts : Tokens) (q : jsmn_parser_t) (us : TokensPL) (a : Nat)
    (hsim : Sim p ts q us) (ha : a < p.toknext) (hp : p.toksuper = (a : Int))
    (hq : q.toksuper = (a : Int))
    (hty : (ts a).type = JSMN_ARRAY ∨ (ts a).type = JSMN_OBJECT)
    (hf : find_open ts p.toknext = some a) (hinv : LinkInv us q.toknext)
    (hk : ∀ p1 ts1 q1 us1, Sim p1 ts1 q1 us1 → p.toknext < p1.toknext →
      (p1.toksuper = (a : Int) ∨ p1.toksuper = (p.toknext : Int)) →
      q1.toksuper = (p.toknext : Int) → (ts1 p.toknext).type = JSMN_STRING →
      (us1 p.toknext).parent = (a : Int) →
      ((ts1 a).type = JSMN_ARRAY ∨ (ts1 a).type = JSMN_OBJECT) →
      find_open ts1 p1.toknext = some a → LinkInv us1 q1.toknext →
      (∀ i, i < q.toknext → (us1 i).parent = (us i).parent) →
      sim_run tail p1 ts1 q1 us1 (fun _ _ q2 us2 =>
        LinkInv us2 q2.toknext ∧ ∀ i, i < q.toknext → (us2 i).parent = (us i).parent)) :
    sim_run (w1.map Lexeme.ws ++ (Lexeme.str key :: (w2.map Lexeme.ws ++ (Lexeme.colon ::
      (w3.map Lexeme.ws ++ (v.lexemes ++ (w4.map Lexeme.ws ++ tail))))))) p ts q us
      (fun _ _ q2 us2 =>
        LinkInv us2 q2.toknext ∧ ∀ i, i < q.toknext → (us2 i).parent = (us i).parent) := by
  have hn : q.toknext = p.toknext := hsim.2.1
  apply sim_run_append
  apply sim_run_ws _ w1 p ts q us hsim
  intro hs0
  have hsup0 : SuperInv ⟨p.pos + w1.length, p.toknext, p.toksuper⟩ :=
    ⟨by show -1 ≤ p.toksuper; rw [hp]; omega, by show p.toksuper < _; rw [hp]; simp; omega⟩
  apply sim_string key _ _ ⟨p.pos + w1.length, p.toknext, p.toksuper⟩ ts
    ⟨q.pos + w1.length, q.toknext, q.toksuper⟩ us hs0 (by show q.toksuper = p.toksuper; rw [hq, hp])
    hsup0 (by intro e he; rw [show find_open ts p.toknext = some a from hf] at he; cases he; show _ ≤ p.toksuper; rw [hp]) hinv
  intro hs1 hl1
  apply sim_run_append
  apply sim_run_ws _ w2 _ _ _ _ hs1
  intro hs2
  refine ⟨hs2, trivial, ?_⟩
  simp only [lex_next, lex_next_pl]
  have hs3 : Sim ⟨p.pos + w1.length + 1 + key.length + 1 + w2.length + 1, p.toknext + 1, ((p.toknext + 1 : Nat) : Int) - 1⟩ (super_incr (string_write ts ⟨p.pos + w1.length, p.toknext, p.toksuper⟩ (p.pos + w1.length + 1 + key.length)) ⟨p.pos + w1.length, p.toknext, p.toksuper⟩) ⟨q.pos + w1.length + 1 + key.length + 1 + w2.length + 1, q.toknext + 1, ((q.toknext + 1 : Nat) : Int) - 1⟩ (super_incr_pl (string_write_pl us ⟨q.pos + w1.length, q.toknext, q.toksuper⟩ (q.pos + w1.length + 1 + key.length)) ⟨q.pos + w1.length, q.toknext, q.toksuper⟩) :=
    ⟨by rw [hsim.1], by rw [hn], hs2.2.2⟩
  have hfk : find_open (super_incr (string_write ts ⟨p.pos + w1.length, p.toknext, p.toksuper⟩ (p.pos + w1.length + 1 + key.length)) ⟨p.pos + w1.length, p.toknext, p.toksuper⟩) (p.toknext + 1) = some a := by
    rw [find_open_after_token ts _ p.toknext, hf]
    · intro i hi
      rw [str_old ts _ _ i (by simp only; omega), super_incr_open]
    · rw [str_new ts _ _ hsup0]
      simp only [is_open, Bool.and_eq_false_eq_eq_false_or_eq_false, decide_eq_false_iff_not]
      right
      omega
  apply sim_padded v hv hs w3 w4 tail _ _ _ _ _ hs3 (by simp only; rw [hn])
    ⟨by simp only; omega, by simp only; omega⟩
    (by intro e he; exact find_open_le _ _ e _ he rfl) hl1
  intro p1 ts1 q1 us1 hsp k1 k2 k3 k4 k5 k6 k7
  simp only at k1 k3 k4 k5 k6 k7
  have hkey : (ts1 p.toknext).type = JSMN_STRING := by
    rw [k6 p.toknext (by omega), super_incr_type, str_new ts _ _ hsup0]
  have hpar : (us1 p.toknext).parent = (a : Int) := by
    rw [← hn, k3 q.toknext (by omega)]
    rw [show q.toknext = (⟨q.pos + w1.length, q.toknext, q.toksuper⟩ : jsmn_parser_t).toknext
      from rfl, string_write_pl_new]
    exact hq
  have hty1 : (ts1 a).type = JSMN_ARRAY ∨ (ts1 a).type = JSMN_OBJECT := by
    rw [k6 a (by omega), super_incr_type, str_old ts _ _ a (by simp only; omega),
      super_incr_type]
    exact hty
  apply hk p1 ts1 q1 us1 hsp (by omega) ?_ (by rw [k1, hn]; omega) hkey hpar hty1
    (by rw [k7, hfk]) k2
  · intro i hi
    rw [k3 i (by omega)]
    exact string_write_pl_old us _ _ i (by simp only; omega)
  · rw [k5, hfk, super_of_some]
    split_ifs
    · exact Or.inl rfl
    · right; omega

theorem body_sim_member (v : Json JKind.value) (hv : value_spec v) (hs : value_sim v)
    (w1 key w2 w3 w4 : List Nat) : body_sim (Json.member w1 key w2 w3 v w4) := by
  intro p ts q us a hsim ha hp hq hty hf hinv
  have h := sim_member v hv hs w1 key w2 w3 w4 [] p ts q us a hsim ha hp hq hty hf hinv
    (fun p1 ts1 q1 us1 hs1 _ _ _ _ _ _ _ hl hpar => ⟨hs1, hl, hpar⟩)
  rw [List.append_nil] at h
  exact h

theorem body_sim_members (v : Json JKind.value) (hv : value_spec v) (hs : value_sim v)
    (w1 key w2 w3 w4 : List Nat) (rest : Json JKind.members) (hr : body_sim rest) :
    body_sim (Json.members w1 key w2 w3 v w4 rest) := by
  intro p ts q us a hsim ha hp hq hty hf hinv
  apply sim_member v hv hs w1 key w2 w3 w4 (Lexeme.comma :: rest.lexemes) p ts q us a hsim ha
    hp hq hty hf hinv
  intro p1 ts1 q1 us1 hs1 hlt hp1 hq1 hkey hpar hty1 hf1 hl1 hold
  have hkey2 : (us1 p.toknext).type = JSMN_STRING := by
    have := hs1.2.2
    rw [this] at hkey
    exact hkey
  have hsupd : comma_super ts1 p1 = (a : Int) := by
    rcases hp1 with h | h
    · exact comma_super_container ts1 p1 a h hty1
    · exact comma_super_key ts1 p1 p.toknext a h hkey hf1 hty1
  refine ⟨hs1, trivial, ?_⟩
  have hrun := hr ⟨p1.pos + 1, p1.toknext, comma_super ts1 p1⟩ ts1
    ⟨q1.pos + 1, q1.toknext, comma_super_pl us1 q1⟩ us1 a
    ⟨by rw [hs1.1], hs1.2.1, hs1.2.2⟩ (by simp only; omega) hsupd
    (by rw [comma_super_pl_key us1 q1 p.toknext hq1 hkey2, hpar]) hty1 hf1 hl1
  refine sim_run_imp _ _ _ _ _ _ _ hrun ?_
  intro p2 ts2 q2 us2 _ hpost
  have hle : q.toknext ≤ q1.toknext := by rw [hs1.2.1, hsim.2.1]; omega
  exact ⟨hpost.1, fun i hi => by rw [hpost.2 i (Nat.lt_of_lt_of_le hi hle), hold i hi]⟩

/-- On the lexemes of every well-formed JSON tree the two builds stay in
correspondence. -/
theorem link_spec_all {k : JKind} (j : Json k) : j.wf → link_spec k j := by
  induction j with
  | prim bs => intro _; exact value_sim_prim bs
  | str body => intro _; exact value_sim_str body
  | arr0 w => intro _ p ts q us; exact value_sim_empty w false p ts q us
  | arr es ih =>
    intro hwf p ts q us
    exact value_sim_group es false (run_spec_all es hwf) (ih hwf) p ts q us
  | obj0 w => intro _ p ts q us; exact value_sim_empty w true p ts q us
  | obj ms ih =>
    intro hwf p ts q us
    exact value_sim_group ms true (run_spec_all ms hwf) (ih hwf) p ts q us
  | elem w1 v w2 ih =>
    intro hwf
    exact body_sim_elem v (run_spec_all v hwf.2.1) (ih hwf.2.1) w1 w2
  | elems w1 v w2 rest ih1 ih2 =>
    intro hwf
    exact body_sim_elems v (run_spec_all v hwf.2.1) (ih1 hwf.2.1) w1 w2 rest (ih2 hwf.2.2.2)
  | member w1 key w2 w3 v w4 ih =>
    intro hwf
    exact body_sim_member v (run_spec_all v hwf.2.2.2.2.1) (ih hwf.2.2.2.2.1) w1 key w2 w3 w4
  | members w1 key w2 w3 v w4 rest ih1 ih2 =>
    intro hwf
    exact body_sim_members v (run_spec_all v hwf.2.2.2.2.1) (ih1 hwf.2.2.2.2.1) w1 key w2 w3 w4
      rest (ih2 hwf.2.2.2.2.2.2)

/-- On the lexemes of a well-formed document, from `jsmn_init` on, the two
builds stay in correspondence, and no token is left open. -/
theorem JsonDoc.sim_doc (d : JsonDoc) (hwf : d.wf) (us : TokensPL) :
    sim_run d.lexemes jsmn_init (strip us) jsmn_init us
      (fun p1 ts1 _ _ => find_open ts1 p1.toknext = none) := by
  have h := sim_padded d.value (run_spec_all d.value hwf.2.1) (link_spec_all d.value hwf.2.1)
    d.lead d.trail [] (fun p1 ts1 _ _ => find_open ts1 p1.toknext = none)
    jsmn_init (strip us) jsmn_init us ⟨rfl, rfl, rfl⟩ rfl SuperInv_init
    (by intro e he; simp [jsmn_init, find_open] at he)
    (by intro i hi; simp [jsmn_init] at hi)
    (fun p1 ts1 q1 us1 hs1 _ _ _ _ _ _ hf => ⟨hs1, by show find_open ts1 p1.toknext = none; rw [hf]; rfl⟩)
  rw [List.append_nil] at h
  exact h

theorem tree_nest_wf : tree_nest.wf :=
  ⟨all_ws_nil, ⟨all_ws_nil, by decide, all_ws_nil, all_ws_nil,
    ⟨all_ws_nil, json_primitive_1, all_ws_nil, all_ws_nil, all_ws_nil, all_ws_nil⟩, all_ws_nil,
    all_ws_nil, by decide, all_ws_nil, all_ws_nil, json_primitive_1, all_ws_nil⟩, all_ws_nil⟩

/-- The two builds agree on JSON: on every well-formed JSON document
(RFC 8259), given as the whole buffer, and for every token capacity and every
content of the token arrays before the call, `jsmn_parse` from `jsmn_init`
compiled with `JSMN_PARENT_LINKS` returns, and it returns the same result
code as `jsmn_parse` compiled without it, leaves the same `pos` and the same
`toknext`, and the same kind, start, end and size in every token below
`toknext`. -/
theorem builds_agree_on_json (d : JsonDoc) (hwf : d.wf) (cap : Nat) (ts : Tokens)
    (us : TokensPL) :
    ∃ r pf tsf qf usf,
      jsmn_parse jsmn_init d.render d.render.length (some ts) cap = (r, pf, some tsf) ∧
      jsmn_parse_pl jsmn_init d.render d.render.length (some us) cap
        = some (r, qf, some usf) ∧
      qf.pos = pf.pos ∧ qf.toknext = pf.toknext ∧
      ∀ i, i < pf.toknext → (usf i).tojsmntok_t = tsf i := by
  obtain ⟨r, pf, tsf, tsf1, e1, e2, hag⟩ := jsmn_parse_agree d.render d.render.length cap
    jsmn_init ts (strip us) SuperInv_init (by intro i hi; simp [jsmn_init] at hi)
  have hsim := d.sim_doc hwf us
  have hbytes : jsmn_init.pos + (lex_bytes d.lexemes).length ≤ d.render.length := by
    rw [d.lex_bytes_doc]; simp [jsmn_init]
  obtain ⟨-, hfull, hshort⟩ := run_pl d.render d.render.length cap d.lexemes
    (d.render.length - jsmn_init.pos) ((jsmn_init.toknext : Nat) : Int) jsmn_init us
    (d.doc_ok hwf) d.occupies_lexemes (d.delims_doc hwf) hbytes
    (sim_run_closes _ _ _ _ _ _ hsim) (Nat.zero_le _) (Nat.le_refl _)
  by_cases hcap : lex_tokens d.lexemes ≤ cap
  · have hd := d.parse_run hwf cap hcap (strip us)
    rw [e2] at hd
    simp only [Prod.mk.injEq, Option.some.injEq] at hd
    obtain ⟨rfl, rfl, rfl⟩ := hd
    obtain ⟨⟨s1, s2, s3⟩, hnone⟩ := sim_run_end _ _ _ _ _ _ hsim
    obtain ⟨hpos, -, fuel1, hloop⟩ := hfull (by simpa [jsmn_init] using hcap)
    refine ⟨_, _, tsf, (lex_run_pl d.lexemes jsmn_init us).1,
      (lex_run_pl d.lexemes jsmn_init us).2, e1, ?_, s1, s2, ?_⟩
    · unfold jsmn_parse_pl
      rw [hloop, parse_loop_pl_stop _ _ _ _ _ _ _
        (by rw [hpos, d.lex_bytes_doc]; simp [jsmn_init])]
      unfold parse_finish_pl
      simp only
      rw [← s3, s2, hnone]
      simp [jsmn_init]
    · intro i hi
      rw [hag i hi, s3]
      rfl
  · have hd := short_run d.render d.render.length cap d.lexemes jsmn_init (strip us) [] [] []
      (d.doc_ok hwf) d.occupies_lexemes (d.delims_doc hwf) hbytes (Nat.zero_le _)
      (by simp only [jsmn_init]; omega) rfl (d.run_stack_doc [])
    rw [e2] at hd
    simp only [Prod.mk.injEq, Option.some.injEq] at hd
    obtain ⟨rfl, rfl, rfl⟩ := hd
    obtain ⟨s1, s2, s3⟩ := sim_run_take _ d.lexemes (cap - jsmn_init.toknext) _ _ _ _ hsim
    refine ⟨_, _, tsf, (lex_run_pl (cap_take d.lexemes (cap - jsmn_init.toknext)) jsmn_init us).1,
      (lex_run_pl (cap_take d.lexemes (cap - jsmn_init.toknext)) jsmn_init us).2, e1, ?_, s1, s2,
      ?_⟩
    · unfold jsmn_parse_pl
      exact hshort (by simp only [jsmn_init]; omega)
    · intro i hi
      rw [hag i hi, s3]
      rfl

/-- The two builds on the document `{"a":[1,{}],"b":1}` with room for its 7
tokens: both return 7, past two closing brackets of each kind and a comma
after a container. -/
theorem builds_agree_on_nest :
    tree_nest.wf ∧
    (jsmn_parse jsmn_init tree_nest.render tree_nest.render.length (some blank_tokens) 7).1
      = 7 ∧
    (jsmn_parse_pl jsmn_init tree_nest.render tree_nest.render.length (some blank_tokens_pl)
      7).map Prod.fst = some 7 ∧
    ∃ r pf tsf qf usf,
      jsmn_parse jsmn_init tree_nest.render tree_nest.render.length (some blank_tokens) 7
        = (r, pf, some tsf) ∧
      jsmn_parse_pl jsmn_init tree_nest.render tree_nest.render.length (some blank_tokens_pl) 7
        = some (r, qf, some usf) ∧
      qf.pos = pf.pos ∧ qf.toknext = pf.toknext ∧
      ∀ i, i < pf.toknext → (usf i).tojsmntok_t = tsf i :=
  ⟨tree_nest_wf, by decide, by decide,
    builds_agree_on_json tree_nest tree_nest_wf 7 blank_tokens blank_tokens_pl⟩

/-! ## The claims -/

/-- C8: for every sequence of `jsmn_parse` calls on one parser initialised by
`jsmn_init`, each with a non-null token array, a further call that returns
`r ≥ 0` returns `r = parser.toknext`, the number of tokens allocated since
`jsmn_init` (earlier calls included). -/
theorem C8_success_returns_toknext (earlier : List Call) (ts0 : Tokens)
    (js : List Nat) (len cap : Nat)
    (h : 0 ≤ (jsmn_parse (jsmn_calls earlier jsmn_init ts0).1 js len
      (some (jsmn_calls earlier jsmn_init ts0).2) cap).1) :
    (jsmn_parse (jsmn_calls earlier jsmn_init ts0).1 js len
        (some (jsmn_calls earlier jsmn_init ts0).2) cap).1
      = (((jsmn_parse (jsmn_calls earlier jsmn_init ts0).1 js len
        (some (jsmn_calls earlier jsmn_init ts0).2) cap).2.1.toknext : Nat) : Int) :=
  jsmn_parse_count _ js len _ cap h

/-- Witness of C8: `{"a":1` (6 bytes) then the whole `{"a":1}` on the same
parser; the second call returns 3 and `toknext` is 3. -/
theorem C8_success_returns_toknext_witness :
    0 ≤ (jsmn_parse (jsmn_calls [⟨doc_a1, 6, 3⟩] jsmn_init blank_tokens).1 doc_a1 7
      (some (jsmn_calls [⟨doc_a1, 6, 3⟩] jsmn_init blank_tokens).2) 3).1 ∧
    (jsmn_parse (jsmn_calls [⟨doc_a1, 6, 3⟩] jsmn_init blank_tokens).1 doc_a1 7
        (some (jsmn_calls [⟨doc_a1, 6, 3⟩] jsmn_init blank_tokens).2) 3).1
      = (((jsmn_parse (jsmn_calls [⟨doc_a1, 6, 3⟩] jsmn_init blank_tokens).1 doc_a1 7
        (some (jsmn_calls [⟨doc_a1, 6, 3⟩] jsmn_init blank_tokens).2) 3).2.1.toknext : Nat) : Int) :=
  ⟨by decide, C8_success_returns_toknext [⟨doc_a1, 6, 3⟩] blank_tokens doc_a1 7 3 (by decide)⟩

/-- C5: when the scan of a call from a fresh parser (non-null array) arrives,
without having returned, at a `}` or `]` while no object or array token is
open, or while the nearest open object or array token is of the other kind,
the call returns `JSMN_ERROR_INVAL`. -/
theorem C5_unmatched_close_is_invalid (js : List Nat) (len cap : Nat) (ts0 : Tokens) (n : Nat)
    (p : jsmn_parser_t) (ts : Tokens)
    (hreach : scan_state js len cap n jsmn_init ts0 = some (p, ts))
    (hlt : p.pos < len)
    (hc : byte_at js p.pos = 125 ∨ byte_at js p.pos = 93)
    (hopen : (∀ i, i < p.toknext → ¬ open_container (ts i)) ∨
      (∃ i, i < p.toknext ∧ open_container (ts i) ∧
        (∀ j, i < j → j < p.toknext → ¬ open_container (ts j)) ∧
        (ts i).type ≠ (if byte_at js p.pos = 125 then JSMN_OBJECT else JSMN_ARRAY))) :
    (jsmn_parse jsmn_init js len (some ts0) cap).1 = JSMN_ERROR_INVAL := by
  have hr := scan_state_reach js len cap n _ _ _ _ hreach
  have hinv := TokInv_reach js len cap _ _ _ _ (TokInv_init js ts0) hr
  have hg : loop_cond js len p := ⟨hlt, by rcases hc with h | h <;> rw [h] <;> decide⟩
  have hl := lex_of_close js len p.pos hc
  rw [jsmn_parse_reach js len cap _ _ _ _ hr]
  rcases hopen with hno | ⟨i, hi, ho, hafter, hty⟩
  · have hf : find_open ts p.toknext = none := by
      apply find_open_eq_none
      intro j hj
      have := hno j hj
      rw [open_container_iff js _ (hinv j hj)] at this
      simpa using this
    rw [jsmn_parse_err js len cap p ts _ hg (TErr.cls_unmatched _ hl hf)]
  · have hf : find_open ts p.toknext = some i := by
      apply find_open_eq_some _ _ _ hi ((open_container_iff js _ (hinv i hi)).mp ho)
      intro j h1 h2
      have := hafter j h1 h2
      rw [open_container_iff js _ (hinv j h2)] at this
      simpa using this
    have ht : (ts i).type ≠ bracket_type (decide (byte_at js p.pos = 125)) := by
      intro he
      apply hty
      rw [he]
      rcases hc with h | h <;> simp [h, bracket_type]
    rw [jsmn_parse_err js len cap p ts _ hg (TErr.cls_mismatch _ i hl hf ht)]

/-- Witness of C5: on `[}` the scan arrives at `}` after one iteration with
only the array token open, and the call returns `JSMN_ERROR_INVAL`. -/
theorem C5_unmatched_close_is_invalid_witness :
    (jsmn_parse jsmn_init [91, 125] 2 (some blank_tokens) 2).1 = JSMN_ERROR_INVAL :=
  C5_unmatched_close_is_invalid [91, 125] 2 2 blank_tokens 1
    { pos := 1, toknext := 1, toksuper := 0 } (open_write blank_tokens jsmn_init false)
    (by rfl) (by decide) (by decide)
    (Or.inr ⟨0, by decide, by unfold open_container; decide,
      by intro j h1 h2; simp only at h2; omega, by decide⟩)

/-- C9: after a call of `jsmn_parse` that returns `r ≥ 0` (non-null array) on
buffer `js`, on a fresh parser or on a parser left by earlier calls on the
same buffer, the span of every token written delimits its construct: a string
token lies between two double quotes, an object token goes from `{` to `}`, an
array token from `[` to `]`. -/
theorem C9_spans_delimit_constructs (js : List Nat) (earlier : List Call)
    (hsame : ∀ c, c ∈ earlier → c.js = js) (ts0 : Tokens) (len cap : Nat)
    (hok : 0 ≤ (jsmn_parse (jsmn_calls earlier jsmn_init ts0).1 js len
      (some (jsmn_calls earlier jsmn_init ts0).2) cap).1) :
    ∃ tsf, (jsmn_parse (jsmn_calls earlier jsmn_init ts0).1 js len
        (some (jsmn_calls earlier jsmn_init ts0).2) cap).2.2 = some tsf ∧
      ∀ i, i < (jsmn_parse (jsmn_calls earlier jsmn_init ts0).1 js len
        (some (jsmn_calls earlier jsmn_init ts0).2) cap).2.1.toknext →
        span_delimits js (tsf i) := by
  have hinv := TokInv_calls js earlier jsmn_init ts0 hsame (TokInv_init js ts0)
  obtain ⟨pf, tsf, r, he, hif, hcl⟩ := jsmn_parse_TokInv js len cap _ _ hinv
  rw [he] at hok ⊢
  refine ⟨tsf, rfl, ?_⟩
  intro i hi
  exact span_delimits_of_ok js _ (hif i hi) (find_open_none tsf _ (hcl hok) i hi)

/-- Witness of C9: `{"a":1}` parsed by a first call on its first 6 bytes and a
second call on all 7 bytes. -/
theorem C9_spans_delimit_constructs_witness :
    ∃ tsf, (jsmn_parse (jsmn_calls [⟨doc_a1, 6, 3⟩] jsmn_init blank_tokens).1 doc_a1 7
        (some (jsmn_calls [⟨doc_a1, 6, 3⟩] jsmn_init blank_tokens).2) 3).2.2 = some tsf ∧
      ∀ i, i < (jsmn_parse (jsmn_calls [⟨doc_a1, 6, 3⟩] jsmn_init blank_tokens).1 doc_a1 7
        (some (jsmn_calls [⟨doc_a1, 6, 3⟩] jsmn_init blank_tokens).2) 3).2.1.toknext →
        span_delimits doc_a1 (tsf i) :=
  C9_spans_delimit_constructs doc_a1 [⟨doc_a1, 6, 3⟩]
    (by intro c hc; simp only [List.mem_singleton] at hc; rw [hc]) blank_tokens 7 3 (by decide)

/-- C10 as amended: for every string token written by a call of `jsmn_parse`
that returns `r ≥ 0` (fresh parser, or a parser left by earlier calls on the
same buffer), the bytes `js[start..end)` wrapped in double quotes are a string
literal without unescaped double quote and without NUL byte, in which every
backslash begins `\"`, `\\`, `\/`, `\b`, `\f`, `\n`, `\r`, `\t` or `\u` with
four hexadecimal digits, and that literal is the source text
`js[start-1..end+1)`.  (Raw control bytes other than NUL are let through.) -/
theorem C10_string_roundtrip_amended (js : List Nat) (earlier : List Call)
    (hsame : ∀ c, c ∈ earlier → c.js = js) (ts0 : Tokens) (len cap : Nat)
    (_hok : 0 ≤ (jsmn_parse (jsmn_calls earlier jsmn_init ts0).1 js len
      (some (jsmn_calls earlier jsmn_init ts0).2) cap).1) :
    ∃ tsf, (jsmn_parse (jsmn_calls earlier jsmn_init ts0).1 js len
        (some (jsmn_calls earlier jsmn_init ts0).2) cap).2.2 = some tsf ∧
      ∀ i, i < (jsmn_parse (jsmn_calls earlier jsmn_init ts0).1 js len
        (some (jsmn_calls earlier jsmn_init ts0).2) cap).2.1.toknext →
        (tsf i).type = JSMN_STRING → string_roundtrip 1 js (tsf i) := by
  have hinv := TokInv_calls js earlier jsmn_init ts0 hsame (TokInv_init js ts0)
  obtain ⟨pf, tsf, r, he, hif, -⟩ := jsmn_parse_TokInv js len cap _ _ hinv
  rw [he]
  exact ⟨tsf, rfl, fun i hi ht => string_roundtrip_of_ok js _ (hif i hi) ht⟩

/-- Witness of the amended C10: the string token `a` of `{"a":1}`. -/
theorem C10_string_roundtrip_amended_witness :
    ∃ tsf, (jsmn_parse (jsmn_calls [] jsmn_init blank_tokens).1 doc_a1 7
        (some (jsmn_calls [] jsmn_init blank_tokens).2) 3).2.2 = some tsf ∧
      ∀ i, i < (jsmn_parse (jsmn_calls [] jsmn_init blank_tokens).1 doc_a1 7
        (some (jsmn_calls [] jsmn_init blank_tokens).2) 3).2.1.toknext →
        (tsf i).type = JSMN_STRING → string_roundtrip 1 doc_a1 (tsf i) :=
  C10_string_roundtrip_amended doc_a1 [] (by intro c hc; cases hc) blank_tokens 7 3 (by decide)

/-- Counterexample to C10 as stated: the 3-byte buffer `"`, TAB, `"` is parsed
with success into one string token spanning the raw tab, and the tab wrapped
in double quotes is not a string literal of RFC 8259. -/
theorem C10_string_roundtrip_counterexample :
    (jsmn_parse jsmn_init doc_tab 3 (some blank_tokens) 1).1 = 1 ∧
    (∃ tsf, (jsmn_parse jsmn_init doc_tab 3 (some blank_tokens) 1).2.2 = some tsf ∧
      (tsf 0).type = JSMN_STRING ∧ (tsf 0).start = 1 ∧ (tsf 0).end_ = 2 ∧
      ¬ string_roundtrip 32 doc_tab (tsf 0)) := by
  refine ⟨by decide, _, rfl, by decide, by decide, by decide, ?_⟩
  intro h
  have h1 := h.1
  revert h1
  decide

/-- C6: when a call from a fresh parser with capacity `n ≥ 1` returns `n`, a
call from a fresh parser with capacity `n - 1` returns `JSMN_ERROR_NOMEM`
(whatever the array held), and a new call from a fresh parser with capacity
`n` on the array left by the failed call returns `n` again with the same
parser and the same `n` tokens as the first call. -/
theorem C6_one_token_short (js : List Nat) (len n : Nat) (ts : Tokens) (hn : 1 ≤ n)
    (hok : (jsmn_parse jsmn_init js len (some ts) n).1 = (n : Int)) (ts1 : Tokens) :
    (jsmn_parse jsmn_init js len (some ts1) (n - 1)).1 = JSMN_ERROR_NOMEM ∧
    ∃ tsfail tsf tsr, (jsmn_parse jsmn_init js len (some ts1) (n - 1)).2.2 = some tsfail ∧
      (jsmn_parse jsmn_init js len (some ts) n).2.2 = some tsf ∧
      (jsmn_parse jsmn_init js len (some tsfail) n).2.2 = some tsr ∧
      (jsmn_parse jsmn_init js len (some tsfail) n).1 = (n : Int) ∧
      (jsmn_parse jsmn_init js len (some tsfail) n).2.1
        = (jsmn_parse jsmn_init js len (some ts) n).2.1 ∧
      ∀ i, i < n → tsr i = tsf i := by
  obtain ⟨pf1, tsfail, r1, -, he1, -⟩ := jsmn_parse_final js len (n - 1) jsmn_init ts1
  have hle1 := jsmn_parse_toknext_le js len (n - 1) ts1
  have hcount := jsmn_parse_count jsmn_init js len ts n (by rw [hok]; omega)
  rw [hok] at hcount
  constructor
  · rw [he1]
    by_contra hne
    have hcap := jsmn_parse_cap js len (n - 1) n jsmn_init ts1 r1 pf1 (some tsfail) he1 hne
      (by rw [he1] at hle1; simp only at hle1; omega)
    obtain ⟨r, pf, tsf, tsf', e1, e2, -⟩ :=
      jsmn_parse_agree js len n jsmn_init ts ts1 SuperInv_init (fun i hi => by
        simp [jsmn_init] at hi)
    rw [hcap] at e2
    simp only [Prod.mk.injEq] at e2
    rw [e1] at hcount
    rw [he1] at hle1
    simp only at hcount hle1
    rw [← e2.2.1] at hcount
    omega
  · obtain ⟨r, pf, tsf, tsr, e1, e2, hag⟩ :=
      jsmn_parse_agree js len n jsmn_init ts tsfail SuperInv_init (fun i hi => by
        simp [jsmn_init] at hi)
    refine ⟨tsfail, tsf, tsr, by rw [he1], by rw [e1], by rw [e2], ?_, by rw [e1, e2], ?_⟩
    · rw [e2]; rw [e1] at hok; exact hok
    · intro i hi
      rw [e1] at hcount
      simp only at hcount
      exact (hag i (by omega)).symm

/-- Witness of C6: `{"a":1}` needs 3 tokens. -/
theorem C6_one_token_short_witness :
    (jsmn_parse jsmn_init doc_a1 7 (some blank_tokens) 3).1 = 3 ∧
    (jsmn_parse jsmn_init doc_a1 7 (some blank_tokens) (3 - 1)).1 = JSMN_ERROR_NOMEM :=
  ⟨by decide, (C6_one_token_short doc_a1 7 3 blank_tokens (by decide) (by decide) blank_tokens).1⟩

/-- C7: when a call from a fresh parser with capacity `c` returns
`JSMN_ERROR_NOMEM`, the parser and the array it leaves are those of a loop
head of that call (nothing of the construct that failed is recorded), with
`toknext = c` and `pos` on the first byte of a construct that needs a token;
and a call on that parser and that array with a capacity `c1 > c` gives the
return value, the parser and the tokens of a call from a fresh parser with
capacity `c1`. -/
theorem C7_retry_after_nomem (js : List Nat) (len c c1 : Nat) (ts0 : Tokens) (hc : c < c1)
    (hfail : (jsmn_parse jsmn_init js len (some ts0) c).1 = JSMN_ERROR_NOMEM) :
    ∃ pf tsf, jsmn_parse jsmn_init js len (some ts0) c = (JSMN_ERROR_NOMEM, pf, some tsf) ∧
      (∃ n, scan_state js len c n jsmn_init ts0 = some (pf, tsf)) ∧
      pf.pos < len ∧ token_start js len pf.pos ∧ pf.toknext = c ∧
      ∀ fresh : Tokens, ∃ r pr tsr tsr1,
        jsmn_parse pf js len (some tsf) c1 = (r, pr, some tsr) ∧
        jsmn_parse jsmn_init js len (some fresh) c1 = (r, pr, some tsr1) ∧
        agree pr.toknext tsr tsr1 := by
  obtain ⟨pf, tsf, r, hreach, he, hcase⟩ := jsmn_parse_final js len c jsmn_init ts0
  rw [he] at hfail
  simp only at hfail
  subst hfail
  have hle := (toknext_reach js len c _ _ _ _ hreach).2 (by simp [jsmn_init])
  rcases hcase with ⟨-, hfin⟩ | ⟨hg, herr⟩
  · rcases (parse_finish_result pf tsf _ pf (some tsf) hfin).2.2 with ⟨h1, -⟩ | ⟨h1, -⟩
    · exfalso; have : (0 : Int) ≤ (pf.toknext : Int) := Int.natCast_nonneg _
      rw [← h1] at this; revert this; decide
    · exact absurd h1 (by decide)
  · obtain ⟨hge, hstart⟩ := TErr_nomem js len c pf tsf herr
    refine ⟨pf, tsf, he, reach_scan_state js len c _ _ _ _ hreach, hg.1, hstart, by omega, ?_⟩
    intro fresh
    have hreach1 := Reach_cap js len c c1 _ _ _ _ hreach (by omega)
    obtain ⟨r, pr, tsr, tsr1, e1, e2, hag⟩ :=
      jsmn_parse_agree js len c1 jsmn_init ts0 fresh SuperInv_init (fun i hi => by
        simp [jsmn_init] at hi)
    refine ⟨r, pr, tsr, tsr1, ?_, e2, hag⟩
    rw [← jsmn_parse_reach js len c1 _ _ _ _ hreach1]
    exact e1

/-- Witness of C7: `{"a":1}` with capacity 2 fails on the primitive `1`; the
call leaves `pos = 5` and `toknext = 2`. -/
theorem C7_retry_after_nomem_witness :
    ∃ pf tsf, jsmn_parse jsmn_init doc_a1 7 (some blank_tokens) 2
        = (JSMN_ERROR_NOMEM, pf, some tsf) ∧
      (∃ n, scan_state doc_a1 7 2 n jsmn_init blank_tokens = some (pf, tsf)) ∧
      pf.pos < 7 ∧ token_start doc_a1 7 pf.pos ∧ pf.toknext = 2 ∧
      ∀ fresh : Tokens, ∃ r pr tsr tsr1,
        jsmn_parse pf doc_a1 7 (some tsf) 3 = (r, pr, some tsr) ∧
        jsmn_parse jsmn_init doc_a1 7 (some fresh) 3 = (r, pr, some tsr1) ∧
        agree pr.toknext tsr tsr1 :=
  C7_retry_after_nomem doc_a1 7 2 3 blank_tokens (by decide) (by decide)

/-- C2: when `jsmn_getTokenLen(js, 0, len)` returns `n ≥ 0`, `jsmn_parse` from
a fresh parser with a non-null array of capacity `n` does not return
`JSMN_ERROR_NOMEM`, and a value `r ≥ 0` it returns is `n`; this for every
buffer. -/
theorem C2_sizing_call_suffices (js : List Nat) (len n : Nat) (ts : Tokens)
    (h : jsmn_getTokenLen js 0 len = (n : Int)) :
    (jsmn_parse jsmn_init js len (some ts) n).1 ≠ JSMN_ERROR_NOMEM ∧
    (0 ≤ (jsmn_parse jsmn_init js len (some ts) n).1 →
      (jsmn_parse jsmn_init js len (some ts) n).1 = (n : Int)) := by
  rw [jsmn_getTokenLen_eq] at h
  have := sizing_bounds_fill js len n 0 (len - jsmn_init.pos) 0 jsmn_init jsmn_init ts rfl rfl
    (by rw [h]; omega) (by rw [h]; simp [jsmn_init])
  rw [h] at this
  refine ⟨this.1, fun h0 => ?_⟩
  rw [this.2 h0]
  simp [jsmn_init]

/-- Witness of C2: `{"a":1}` is sized at 3 tokens. -/
theorem C2_sizing_call_suffices_witness :
    jsmn_getTokenLen doc_a1 0 7 = 3 ∧
    (jsmn_parse jsmn_init doc_a1 7 (some blank_tokens) 3).1 ≠ JSMN_ERROR_NOMEM ∧
    (0 ≤ (jsmn_parse jsmn_init doc_a1 7 (some blank_tokens) 3).1 →
      (jsmn_parse jsmn_init doc_a1 7 (some blank_tokens) 3).1 = ((3 : Nat) : Int)) :=
  ⟨by decide, C2_sizing_call_suffices doc_a1 7 3 blank_tokens (by decide)⟩

/-- C1: for every well-formed JSON document `D` (default build),
`jsmn_getTokenLen(D, 0, |D|)` returns some `n ≥ 0`, and `jsmn_parse` from a
fresh parser into an array of capacity exactly `n` returns the same `n` and
leaves each of the `n` tokens closed (`end ≠ -1`). -/
theorem C1_two_pass_protocol (d : JsonDoc) (hwf : d.wf) (ts : Tokens) :
    ∃ n : Nat, jsmn_getTokenLen d.render 0 d.render.length = (n : Int) ∧
      (jsmn_parse jsmn_init d.render d.render.length (some ts) n).1 = (n : Int) ∧
      ∃ tsf, (jsmn_parse jsmn_init d.render d.render.length (some ts) n).2.2 = some tsf ∧
        ∀ i, i < n → (tsf i).end_ ≠ -1 := by
  obtain ⟨pf, tsf, hp, htok, hinv, hclosed⟩ :=
    d.parse_whole hwf (lex_tokens d.lexemes) (le_refl _) ts
  refine ⟨lex_tokens d.lexemes, ?_, by rw [hp], tsf, by rw [hp], ?_⟩
  · rw [jsmn_getTokenLen_eq]
    have := fill_gives_sizing d.render d.render.length (lex_tokens d.lexemes) 0
      (d.render.length - jsmn_init.pos) 0 jsmn_init jsmn_init ts rfl rfl
      (by rw [hp]; exact Int.natCast_nonneg _)
    rw [this, hp]
    simp [jsmn_init]
  · intro i hi
    exact tok_ok_closed d.render _ (hinv i (by omega))
      (find_open_none tsf _ hclosed i (by omega))

/-- Witness of C1: the document `{"a":1}`. -/
theorem C1_two_pass_protocol_witness :
    tree_a1.wf ∧ tree_a1.render = doc_a1 ∧
    ∃ n : Nat, jsmn_getTokenLen tree_a1.render 0 tree_a1.render.length = (n : Int) ∧
      (jsmn_parse jsmn_init tree_a1.render tree_a1.render.length (some blank_tokens) n).1
        = (n : Int) ∧
      ∃ tsf, (jsmn_parse jsmn_init tree_a1.render tree_a1.render.length
          (some blank_tokens) n).2.2 = some tsf ∧
        ∀ i, i < n → (tsf i).end_ ≠ -1 :=
  ⟨tree_a1_wf, by decide, C1_two_pass_protocol tree_a1 tree_a1_wf blank_tokens⟩

/-- C3 as amended: for every well-formed JSON document whose top-level value
is a string, an object or an array, and every cut position `k` strictly
inside that value, `jsmn_parse` on the first `k` bytes from a fresh parser,
with a non-null array at least as large as the sizing call on the whole
document says, returns `JSMN_ERROR_PART`. -/
theorem C3_truncation_is_part_amended (d : JsonDoc) (hwf : d.wf)
    (hnp : d.value.is_prim = false) (k : Nat) (hk1 : d.lead.length < k)
    (hk2 : k < d.lead.length + d.value.render.length) (cap : Nat)
    (hcap : jsmn_getTokenLen d.render 0 d.render.length ≤ (cap : Int)) (ts : Tokens) :
    (jsmn_parse jsmn_init d.render k (some ts) cap).1 = JSMN_ERROR_PART := by
  rw [d.token_len hwf] at hcap
  exact d.parse_cut hwf hnp k hk1 hk2 cap (by exact_mod_cast hcap) ts

/-- Witness of the amended C3: the first 6 bytes `{"a":1` of `{"a":1}`. -/
theorem C3_truncation_is_part_amended_witness :
    tree_a1.render = doc_a1 ∧
    (jsmn_parse jsmn_init tree_a1.render 6 (some blank_tokens) 3).1 = JSMN_ERROR_PART :=
  ⟨by decide, C3_truncation_is_part_amended tree_a1 tree_a1_wf (by decide) 6 (by decide)
    (by decide) 3 (by decide) blank_tokens⟩

/-- Counterexample to C3 as stated: the well-formed document `12` cut at
`k = 1`, strictly inside its primitive; the call on the prefix `1` returns 1,
not `JSMN_ERROR_PART`. -/
theorem C3_truncation_is_part_counterexample :
    tree_12.wf ∧ tree_12.render = [49, 50] ∧
    (jsmn_parse jsmn_init tree_12.render 1 (some blank_tokens) 2).1 = 1 ∧
    (jsmn_parse jsmn_init tree_12.render 1 (some blank_tokens) 2).1 ≠ JSMN_ERROR_PART :=
  ⟨tree_12_wf, by decide, by decide, by decide⟩

/-- C4 as amended: for every well-formed JSON document `D` and every cut
position `k ≤ |D|` that is not strictly inside a primitive (so every cut
strictly inside a string, and every cut inside an object or array that does
not split a primitive), a call on the first `k` bytes followed by a call on
the whole of `D` with the parser and the array the first call left gives the
result of a single call on `D` from a fresh parser: the same return value, the
same parser and the same token array.  This for every capacity. -/
theorem C4_resume_equals_whole_amended (d : JsonDoc) (hwf : d.wf) (k : Nat)
    (hk : k ≤ d.render.length) (hcut : ¬ cut_in_prim d.lexemes 0 k) (cap : Nat) (ts : Tokens) :
    jsmn_parse (jsmn_parse jsmn_init d.render k (some ts) cap).2.1 d.render d.render.length
        (jsmn_parse jsmn_init d.render k (some ts) cap).2.2 cap
      = jsmn_parse jsmn_init d.render d.render.length (some ts) cap := by
  obtain ⟨pT, tsT, r, hreach, hres, hlen, -⟩ := cut_run d.render k cap d.lexemes jsmn_init ts
    [] [] [] (d.doc_ok hwf) d.occupies_lexemes (d.delims_doc hwf) (Nat.zero_le _)
    (by rw [d.lex_bytes_doc]; simpa [jsmn_init] using hk) rfl (d.run_stack_doc [])
  have hfull := hlen hcut d.render.length (by rw [d.lex_bytes_doc]; simp [jsmn_init])
  rw [jsmn_parse_reach _ _ _ _ _ _ _ hreach, hres]
  exact (jsmn_parse_reach _ _ _ _ _ _ _ hfull).symm

/-- Witness of the amended C4: `{"a":1}` cut at `k = 3`, strictly inside the
string `"a"`. -/
theorem C4_resume_equals_whole_amended_witness :
    tree_a1.render = doc_a1 ∧
    jsmn_parse (jsmn_parse jsmn_init tree_a1.render 3 (some blank_tokens) 3).2.1 tree_a1.render
        tree_a1.render.length (jsmn_parse jsmn_init tree_a1.render 3 (some blank_tokens) 3).2.2 3
      = jsmn_parse jsmn_init tree_a1.render tree_a1.render.length (some blank_tokens) 3 :=
  ⟨by decide, C4_resume_equals_whole_amended tree_a1 tree_a1_wf 3 (by decide)
    (by simp [cut_in_prim, tree_a1, JsonDoc.lexemes, Json.lexemes, Lexeme.bytes]) 3
    blank_tokens⟩

/-- Counterexample to C4 as stated: the well-formed document `[12]` cut at
`k = 2`, strictly inside the array and inside the primitive `12`.  The call
on the prefix `[1` returns `JSMN_ERROR_PART` after writing a primitive token
for `1`; the second call, on the whole document, returns 3 tokens, a single
call from a fresh parser returns 2. -/
theorem C4_resume_equals_whole_counterexample :
    tree_arr12.wf ∧ tree_arr12.render = [91, 49, 50, 93] ∧
    (jsmn_parse jsmn_init tree_arr12.render 2 (some blank_tokens) 3).1 = JSMN_ERROR_PART ∧
    (jsmn_parse (jsmn_parse jsmn_init tree_arr12.render 2 (some blank_tokens) 3).2.1
      tree_arr12.render 4 (jsmn_parse jsmn_init tree_arr12.render 2 (some blank_tokens) 3).2.2
      3).1 = 3 ∧
    (jsmn_parse jsmn_init tree_arr12.render 4 (some blank_tokens) 3).1 = 2 :=
  ⟨tree_arr12_wf, by decide, by decide, by decide, by decide⟩

/-- C11 as amended: `jsmn_parse` of the 17-byte input `{"a":1,"b":[2,3]}`
from a fresh parser, with any capacity of at least 7 and whatever the array
held, returns 7, and the 7 tokens are: Object over bytes 0-17 (the whole
input), String `a` (2-3), Primitive `1` (5-6), String `b` (8-9), Array `[2,3]`
(11-16), Primitive `2` (12-13) and Primitive `3` (14-15). -/
theorem C11_example_one_amended (ts : Tokens) (cap : Nat) (hcap : 7 ≤ cap) :
    ∃ pf tsf, jsmn_parse jsmn_init doc_ex1 17 (some ts) cap = (7, pf, some tsf) ∧
      pf.toknext = 7 ∧
      tsf 0 = { type := JSMN_OBJECT, start := 0, end_ := 17, size := 2 } ∧
      tsf 1 = { type := JSMN_STRING, start := 2, end_ := 3, size := 1 } ∧
      tsf 2 = { type := JSMN_PRIMITIVE, start := 5, end_ := 6, size := 0 } ∧
      tsf 3 = { type := JSMN_STRING, start := 8, end_ := 9, size := 1 } ∧
      tsf 4 = { type := JSMN_ARRAY, start := 11, end_ := 16, size := 2 } ∧
      tsf 5 = { type := JSMN_PRIMITIVE, start := 12, end_ := 13, size := 0 } ∧
      tsf 6 = { type := JSMN_PRIMITIVE, start := 14, end_ := 15, size := 0 } := by
  obtain ⟨r, pf, tsf, tsf', h1, h2, ha⟩ := jsmn_parse_agree doc_ex1 17 7 jsmn_init
    blank_tokens ts SuperInv_init (fun i hi => absurd hi (Nat.not_lt_zero i))
  have hr : (jsmn_parse jsmn_init doc_ex1 17 (some blank_tokens) 7).1 = 7 := by decide
  have hp : (jsmn_parse jsmn_init doc_ex1 17 (some blank_tokens) 7).2.1.toknext = 7 := by
    decide
  have hv : ∀ i, result_token (jsmn_parse jsmn_init doc_ex1 17 (some blank_tokens) 7) i
      = tsf i := by
    intro i
    rw [h1, result_token_some]
  rw [h1] at hr hp
  simp only at hr hp
  subst hr
  have hag : ∀ i, i < 7 → tsf' i = tsf i := fun i hi => (ha i (by rw [hp]; exact hi)).symm
  refine ⟨pf, tsf', jsmn_parse_cap doc_ex1 17 7 cap jsmn_init ts 7 _ _ h2 (by decide)
    (by rw [hp]; exact hcap), hp, ?_, ?_, ?_, ?_, ?_, ?_, ?_⟩
  · rw [hag 0 (by decide), ← hv]; decide
  · rw [hag 1 (by decide), ← hv]; decide
  · rw [hag 2 (by decide), ← hv]; decide
  · rw [hag 3 (by decide), ← hv]; decide
  · rw [hag 4 (by decide), ← hv]; decide
  · rw [hag 5 (by decide), ← hv]; decide
  · rw [hag 6 (by decide), ← hv]; decide

/-- Witness of the amended C11: capacity 8 and a blank array. -/
theorem C11_example_one_amended_witness :
    ∃ pf tsf, jsmn_parse jsmn_init doc_ex1 17 (some blank_tokens) 8 = (7, pf, some tsf) ∧
      pf.toknext = 7 ∧
      tsf 0 = { type := JSMN_OBJECT, start := 0, end_ := 17, size := 2 } ∧
      tsf 1 = { type := JSMN_STRING, start := 2, end_ := 3, size := 1 } ∧
      tsf 2 = { type := JSMN_PRIMITIVE, start := 5, end_ := 6, size := 0 } ∧
      tsf 3 = { type := JSMN_STRING, start := 8, end_ := 9, size := 1 } ∧
      tsf 4 = { type := JSMN_ARRAY, start := 11, end_ := 16, size := 2 } ∧
      tsf 5 = { type := JSMN_PRIMITIVE, start := 12, end_ := 13, size := 0 } ∧
      tsf 6 = { type := JSMN_PRIMITIVE, start := 14, end_ := 15, size := 0 } :=
  C11_example_one_amended blank_tokens 8 (by decide)

/-- Counterexample to C11 as stated: on the 17-byte input `{"a":1,"b":[2,3]}`
with capacity 8 the call returns 7, not 8, and leaves `toknext = 7`: there is
no eighth token. -/
theorem C11_example_one_counterexample :
    doc_ex1.length = 17 ∧
    (jsmn_parse jsmn_init doc_ex1 17 (some blank_tokens) 8).1 = 7 ∧
    (jsmn_parse jsmn_init doc_ex1 17 (some blank_tokens) 8).1 ≠ 8 ∧
    (jsmn_parse jsmn_init doc_ex1 17 (some blank_tokens) 8).2.1.toknext = 7 :=
  ⟨by decide, by decide, by decide, by decide⟩

/-- C12 as amended: when the scan of a call from a fresh parser (non-null
array) arrives, without having returned, at the opening quote of a string
whose text goes on, without NUL byte and without unescaped quote, up to a
backslash that starts an escape and is followed inside the buffer either by a
byte that is none of `"` `/` `\` `b` `f` `r` `n` `t` `u` and not NUL, or by `u`
and, among the next four bytes, a byte inside the buffer that is not a
hexadecimal digit with no NUL byte up to and including it, the call returns
`JSMN_ERROR_INVAL` and leaves the
parser as it was on the opening quote (`pos` on the quote) and the array as
it was there. -/
theorem C12_bad_escape_amended (js : List Nat) (len cap : Nat) (ts0 : Tokens) (n : Nat)
    (p : jsmn_parser_t) (ts : Tokens)
    (hreach : scan_state js len cap n jsmn_init ts0 = some (p, ts))
    (hq : byte_at js p.pos = 34) (body : List Nat) (hb : string_body 1 body = true)
    (hocc : occupies js (p.pos + 1) body) (hbs : byte_at js (p.pos + 1 + body.length) = 92)
    (hin : p.pos + 1 + body.length + 1 < len)
    (hbad : (is_escape (byte_at js (p.pos + 1 + body.length + 1)) = false ∧
        byte_at js (p.pos + 1 + body.length + 1) ≠ 117 ∧
        byte_at js (p.pos + 1 + body.length + 1) ≠ 0) ∨
      (byte_at js (p.pos + 1 + body.length + 1) = 117 ∧
        ∃ i, i < 4 ∧ p.pos + 1 + body.length + 2 + i < len ∧
          is_hex (byte_at js (p.pos + 1 + body.length + 2 + i)) = false ∧
          ∀ j, j ≤ i → byte_at js (p.pos + 1 + body.length + 2 + j) ≠ 0)) :
    jsmn_parse jsmn_init js len (some ts0) cap = (JSMN_ERROR_INVAL, p, some ts) := by
  have hr := scan_state_reach js len cap n _ _ _ _ hreach
  have hl := lex_bad_escape js len p.pos body hq hb hocc hbs hin
    (hbad.imp (fun h => ⟨h.1, h.2.1⟩) id)
  rw [jsmn_parse_reach js len cap _ _ _ _ hr]
  exact jsmn_parse_err js len cap p ts _ ⟨by omega, by rw [hq]; decide⟩ (TErr.str_inval hl)

/-- Witness of the amended C12: Example 3, `{"a": "\uZZZZ"}`; the scan is on
the opening quote at index 6 after four iterations, the body before the
backslash is empty and the first byte after `\u` is `Z`. -/
theorem C12_bad_escape_amended_witness :
    (jsmn_parse jsmn_init doc_ex3 15 (some blank_tokens) 4).1 = JSMN_ERROR_INVAL ∧
    (jsmn_parse jsmn_init doc_ex3 15 (some blank_tokens) 4).2.1.pos = 6 := by
  have hs : (scan_state doc_ex3 15 4 4 jsmn_init blank_tokens).isSome = true := by decide
  obtain ⟨st, hst⟩ := Option.isSome_iff_exists.mp hs
  have hp : (scan_state doc_ex3 15 4 4 jsmn_init blank_tokens).map Prod.fst
      = some { pos := 6, toknext := 2, toksuper := 1 } := by decide
  rw [hst, Option.map_some', Option.some.injEq] at hp
  have h := C12_bad_escape_amended doc_ex3 15 4 blank_tokens 4 st.1 st.2 hst
    (by rw [hp]; decide) [] (by decide) (occupies_nil _ _) (by rw [hp]; decide)
    (by rw [hp]; decide)
    (Or.inr ⟨by rw [hp]; decide, 0, by decide, by rw [hp]; decide, by rw [hp]; decide, by
      intro j hj
      obtain rfl : j = 0 := by omega
      rw [hp]
      decide⟩)
  rw [h, hp]
  exact ⟨rfl, rfl⟩

/-- Counterexample to C12 as stated: in the 4-byte buffer `"\u` NUL the string
holds a backslash-u followed, among the next four bytes, by a byte inside the
buffer (the NUL at index 3) that is not a hexadecimal digit, and the call
returns `JSMN_ERROR_PART`, not `JSMN_ERROR_INVAL`. -/
theorem C12_bad_escape_counterexample :
    byte_at [34, 92, 117, 0] 1 = 92 ∧ byte_at [34, 92, 117, 0] 2 = 117 ∧
    3 < 4 ∧ is_hex (byte_at [34, 92, 117, 0] 3) = false ∧
    (jsmn_parse jsmn_init [34, 92, 117, 0] 4 (some blank_tokens) 4).1 = JSMN_ERROR_PART ∧
    (jsmn_parse jsmn_init [34, 92, 117, 0] 4 (some blank_tokens) 4).1 ≠ JSMN_ERROR_INVAL :=
  ⟨by decide, by decide, by decide, by decide, by decide, by decide⟩

/-- C13 as amended: when the scan of a call from a fresh parser (non-null
array) arrives, without having returned, at the opening quote of a string
whose text goes on, without NUL byte and without unescaped quote, up to a
backslash-u escape followed by fewer than four hexadecimal digits and then
the end of the input (the end of the buffer, or a NUL byte), the call returns
`JSMN_ERROR_PART` and leaves the parser as it was on the opening quote and
the array as it was there. -/
theorem C13_short_u_amended (js : List Nat) (len cap : Nat) (ts0 : Tokens) (n : Nat)
    (p : jsmn_parser_t) (ts : Tokens)
    (hreach : scan_state js len cap n jsmn_init ts0 = some (p, ts))
    (hq : byte_at js p.pos = 34) (body : List Nat) (hb : string_body 1 body = true)
    (hocc : occupies js (p.pos + 1) body) (hbs : byte_at js (p.pos + 1 + body.length) = 92)
    (hu : byte_at js (p.pos + 1 + body.length + 1) = 117) (m : Nat) (hm : m < 4)
    (hhex : ∀ i, i < m → is_hex (byte_at js (p.pos + 1 + body.length + 2 + i)) = true)
    (hend : p.pos + 1 + body.length + 2 + m = len ∨
      (p.pos + 1 + body.length + 2 + m < len ∧
        byte_at js (p.pos + 1 + body.length + 2 + m) = 0)) :
    jsmn_parse jsmn_init js len (some ts0) cap = (JSMN_ERROR_PART, p, some ts) := by
  have hr := scan_state_reach js len cap n _ _ _ _ hreach
  have hl := lex_short_u js len p.pos body hq hb hocc hbs hu m hm hhex hend
  rw [jsmn_parse_reach js len cap _ _ _ _ hr]
  exact jsmn_parse_err js len cap p ts _ ⟨by omega, by rw [hq]; decide⟩ (TErr.str_part hl)

/-- Witness of the amended C13: the 5-byte input `"\u12`. -/
theorem C13_short_u_amended_witness :
    jsmn_parse jsmn_init [34, 92, 117, 49, 50] 5 (some blank_tokens) 1
      = (JSMN_ERROR_PART, jsmn_init, some blank_tokens) :=
  C13_short_u_amended [34, 92, 117, 49, 50] 5 1 blank_tokens 0 jsmn_init blank_tokens rfl
    (by decide) [] (by decide) (occupies_nil _ _) (by decide) (by decide) 2 (by decide)
    (by
      intro i hi
      obtain rfl | rfl : i = 0 ∨ i = 1 := by omega
      · decide
      · decide)
    (Or.inl (by decide))

/-- Counterexample to C13 as stated: the 5-byte input `"\u12`, a string with
a backslash-u escape followed by two hexadecimal digits and the end of the
buffer, returns `JSMN_ERROR_PART`, not `JSMN_ERROR_INVAL`. -/
theorem C13_short_u_counterexample :
    (jsmn_parse jsmn_init [34, 92, 117, 49, 50] 5 (some blank_tokens) 1).1 = JSMN_ERROR_PART ∧
    (jsmn_parse jsmn_init [34, 92, 117, 49, 50] 5 (some blank_tokens) 1).1
      ≠ JSMN_ERROR_INVAL ∧
    (jsmn_parse jsmn_init [34, 92, 117, 49, 50] 5 none 0).1 = JSMN_ERROR_PART :=
  ⟨by decide, by decide, by decide⟩

/-- C14: when the scan of a call from a fresh parser (non-null array)
arrives, without having returned, at the first byte of a primitive, and at
`k` bytes from there (inside the buffer) stands an illegal byte (below 32 and
none of NUL, tab, LF, CR, or 127 and above) with no NUL byte and no byte that
ends a primitive (`:` tab CR LF space `,` `]` `}`) before it, the call returns
`JSMN_ERROR_INVAL`, leaves the array as it was on the first byte of the
primitive (no token written for it, `toknext` unchanged) and leaves `pos` on
that first byte. -/
theorem C14_illegal_byte_is_invalid (js : List Nat) (len cap : Nat) (ts0 : Tokens) (n : Nat)
    (p : jsmn_parser_t) (ts : Tokens)
    (hreach : scan_state js len cap n jsmn_init ts0 = some (p, ts))
    (hstart : is_prim_start (byte_at js p.pos) = true) (h0 : byte_at js p.pos ≠ 0)
    (k : Nat) (hk : p.pos + k < len) (hbad : is_illegal (byte_at js (p.pos + k)) = true)
    (hbefore : ∀ i, i < k →
      byte_at js (p.pos + i) ≠ 0 ∧ is_prim_boundary (byte_at js (p.pos + i)) = false) :
    jsmn_parse jsmn_init js len (some ts0) cap = (JSMN_ERROR_INVAL, p, some ts) := by
  have hr := scan_state_reach js len cap n _ _ _ _ hreach
  have hl := lex_at_default js len p.pos hstart
  rw [primitive_scan_bad js len k p.pos (len - p.pos) (by omega) hk hbad hbefore] at hl
  rw [jsmn_parse_reach js len cap _ _ _ _ hr]
  exact jsmn_parse_err js len cap p ts _ ⟨by omega, h0⟩ (TErr.prim_inval hl)

/-- Witness of C14: `[1` + byte 1 + `]`; the scan is on `1` at index 1 after
one iteration and the control byte 1 stands one byte further. -/
theorem C14_illegal_byte_is_invalid_witness :
    jsmn_parse jsmn_init [91, 49, 1, 93] 4 (some blank_tokens) 2
      = (JSMN_ERROR_INVAL, { pos := 1, toknext := 1, toksuper := 0 },
          some (open_write blank_tokens jsmn_init false)) :=
  C14_illegal_byte_is_invalid [91, 49, 1, 93] 4 2 blank_tokens 1
    { pos := 1, toknext := 1, toksuper := 0 } (open_write blank_tokens jsmn_init false)
    (by rfl) (by decide) (by decide) 1 (by decide) (by decide)
    (by
      intro i hi
      obtain rfl : i = 0 := by omega
      decide)

/-- C16: after any call of `jsmn_parse` with a non-null array (whatever it
returns), on a fresh parser or on a parser left by earlier calls on buffers
of no greater length, the tokens allocated start at strictly increasing
indices, every token has `0 ≤ start ≤ len`, every closed token has
`start ≤ end ≤ len`, and every token allocated before the call, or earlier
in the call (before some loop head of it), has kept its kind and its start. -/
theorem C16_tokens_in_document_order (earlier : List Call) (ts0 : Tokens) (js : List Nat)
    (len cap : Nat) (hlen : ∀ c, c ∈ earlier → c.len ≤ len) :
    ∃ r pf tsf, jsmn_parse (jsmn_calls earlier jsmn_init ts0).1 js len
        (some (jsmn_calls earlier jsmn_init ts0).2) cap = (r, pf, some tsf) ∧
      (∀ i j, i < j → j < pf.toknext → (tsf i).start < (tsf j).start) ∧
      (∀ i, i < pf.toknext → 0 ≤ (tsf i).start ∧ (tsf i).start ≤ (len : Int)) ∧
      (∀ i, i < pf.toknext → (tsf i).end_ ≠ -1 →
        (tsf i).start ≤ (tsf i).end_ ∧ (tsf i).end_ ≤ (len : Int)) ∧
      (∀ n p ts, scan_state js len cap n (jsmn_calls earlier jsmn_init ts0).1
          (jsmn_calls earlier jsmn_init ts0).2 = some (p, ts) →
        ∀ i, i < p.toknext → (tsf i).type = (ts i).type ∧ (tsf i).start = (ts i).start) := by
  have hinv := SpanInv_calls len earlier jsmn_init ts0 hlen (SpanInv_init len ts0)
  obtain ⟨r, pf, tsf, he, ⟨hpos, htok, hord⟩, -⟩ :=
    jsmn_parse_SpanInv js len cap len (le_refl _) _ _ hinv
  refine ⟨r, pf, tsf, he, hord, ?_, ?_, ?_⟩
  · intro i hi
    obtain ⟨g1, g2, -⟩ := htok i hi
    exact ⟨g1, by omega⟩
  · intro i hi hne
    exact (htok i hi).2.2 hne
  · intro n p ts hs
    have hr := scan_state_reach js len cap n _ _ _ _ hs
    obtain ⟨pf1, tsf1, r1, hr1, he1, -⟩ := jsmn_parse_final js len cap p ts
    rw [jsmn_parse_reach js len cap _ _ _ _ hr, he1] at he
    simp only [Prod.mk.injEq, Option.some.injEq] at he
    obtain ⟨-, rfl, rfl⟩ := he
    exact (Reach_keeps js len cap p ts _ _ hr1).2

/-- Witness of C16: `{"a":1` (6 bytes) then the whole `{"a":1}` on the same
parser and array. -/
theorem C16_tokens_in_document_order_witness :
    ∃ r pf tsf, jsmn_parse (jsmn_calls [⟨doc_a1, 6, 3⟩] jsmn_init blank_tokens).1 doc_a1 7
        (some (jsmn_calls [⟨doc_a1, 6, 3⟩] jsmn_init blank_tokens).2) 3 = (r, pf, some tsf) ∧
      (∀ i j, i < j → j < pf.toknext → (tsf i).start < (tsf j).start) ∧
      (∀ i, i < pf.toknext → 0 ≤ (tsf i).start ∧ (tsf i).start ≤ ((7 : Nat) : Int)) ∧
      (∀ i, i < pf.toknext → (tsf i).end_ ≠ -1 →
        (tsf i).start ≤ (tsf i).end_ ∧ (tsf i).end_ ≤ ((7 : Nat) : Int)) ∧
      (∀ n p ts, scan_state doc_a1 7 3 n (jsmn_calls [⟨doc_a1, 6, 3⟩] jsmn_init blank_tokens).1
          (jsmn_calls [⟨doc_a1, 6, 3⟩] jsmn_init blank_tokens).2 = some (p, ts) →
        ∀ i, i < p.toknext → (tsf i).type = (ts i).type ∧ (tsf i).start = (ts i).start) :=
  C16_tokens_in_document_order [⟨doc_a1, 6, 3⟩] blank_tokens doc_a1 7 3
    (by intro c hc; simp only [List.mem_singleton] at hc; rw [hc]; decide)

/-- C20: for every buffer and every capacity `num_tokens`, in a call of
`jsmn_parse` on a parser started by `jsmn_init` and taken through any earlier
calls with that capacity: at every loop head of the call, and in the state
the call returns, `toknext ≤ num_tokens` and `-1 ≤ toksuper < toknext`; the
call leaves the array as it was at the indices from `num_tokens` on and its
result does not depend on what the array holds there (every index it reads
or writes is below `num_tokens`); a call with a null array hands back a null
array and allocates no token; and the primitive scan started on a byte of the
`default:` label stops at least one byte further, so `pos--` does not
underflow. -/
theorem C20_indexing_in_bounds (earlier : List Call) (ts0 : Tokens) (js : List Nat)
    (len cap : Nat) (hcap : ∀ c, c ∈ earlier → c.num_tokens = cap) :
    (∀ n p ts, scan_state js len cap n (jsmn_calls earlier jsmn_init ts0).1
        (jsmn_calls earlier jsmn_init ts0).2 = some (p, ts) →
      p.toknext ≤ cap ∧ -1 ≤ p.toksuper ∧ p.toksuper < (p.toknext : Int)) ∧
    (∃ r pf tsf, jsmn_parse (jsmn_calls earlier jsmn_init ts0).1 js len
        (some (jsmn_calls earlier jsmn_init ts0).2) cap = (r, pf, some tsf) ∧
      pf.toknext ≤ cap ∧ -1 ≤ pf.toksuper ∧ pf.toksuper < (pf.toknext : Int) ∧
      (∀ i, cap ≤ i → tsf i = (jsmn_calls earlier jsmn_init ts0).2 i) ∧
      (∀ ts1, agree cap (jsmn_calls earlier jsmn_init ts0).2 ts1 →
        ∃ tsf1, jsmn_parse (jsmn_calls earlier jsmn_init ts0).1 js len (some ts1) cap
            = (r, pf, some tsf1) ∧ agree cap tsf tsf1)) ∧
    (∀ p, (jsmn_parse p js len none cap).2.2 = none ∧
      (jsmn_parse p js len none cap).2.1.toknext = p.toknext) ∧
    (∀ (p : jsmn_parser_t) (q : Nat), p.pos < len → byte_at js p.pos ≠ 0 → is_prim_start (byte_at js p.pos) = true →
      primitive_scan js len (len - p.pos) p.pos = some q → p.pos + 1 ≤ q) := by
  obtain ⟨hs0, hc0⟩ := range_calls cap earlier jsmn_init ts0 hcap SuperInv_init
    (Nat.zero_le _)
  refine ⟨?_, ?_, ?_, ?_⟩
  · intro n p ts hn
    have hr := scan_state_reach js len cap n _ _ _ _ hn
    have hs := SuperInv_reach js len cap _ _ _ _ hs0 hr
    exact ⟨(toknext_reach js len cap _ _ _ _ hr).2 hc0, hs.1, hs.2⟩
  · obtain ⟨r, pf, tsf, he, hsf, hcf, hfr⟩ := jsmn_parse_range js len cap _ _ hs0 hc0
    refine ⟨r, pf, tsf, he, hcf, hsf.1, hsf.2, fun i hi => hfr i (by omega), ?_⟩
    intro ts1 ha
    obtain ⟨r1, pf1, tsf0, tsf1, h1, h2, hag⟩ := jsmn_parse_agree js len cap _ _ ts1 hs0
      (agree_mono cap _ _ _ ha hc0)
    rw [he] at h1
    simp only [Prod.mk.injEq, Option.some.injEq] at h1
    obtain ⟨rfl, rfl, rfl⟩ := h1
    refine ⟨tsf1, h2, ?_⟩
    intro i hi
    by_cases hlt : i < pf.toknext
    · exact hag i hlt
    · obtain ⟨r2, pf2, tsf2, he2, -, -, hfr2⟩ := jsmn_parse_range js len cap _ ts1 hs0 hc0
      rw [h2] at he2
      simp only [Prod.mk.injEq, Option.some.injEq] at he2
      obtain ⟨rfl, rfl, rfl⟩ := he2
      rw [hfr i (by omega), hfr2 i (by omega)]
      exact ha i hi
  · intro p
    exact parse_loop_null js len cap _ _ p
  · intro p q hlt h0 hst hq
    exact primitive_scan_gt js len p.pos q hlt h0 (prim_start_boundary _ hst) hq

/-- Witness of C20: `{"a":1` (6 bytes) then the whole `{"a":1}` on the same
parser and array of capacity 3. -/
theorem C20_indexing_in_bounds_witness :
    (∀ n p ts, scan_state doc_a1 7 3 n (jsmn_calls [⟨doc_a1, 6, 3⟩] jsmn_init blank_tokens).1
        (jsmn_calls [⟨doc_a1, 6, 3⟩] jsmn_init blank_tokens).2 = some (p, ts) →
      p.toknext ≤ 3 ∧ -1 ≤ p.toksuper ∧ p.toksuper < (p.toknext : Int)) ∧
    (∃ r pf tsf, jsmn_parse (jsmn_calls [⟨doc_a1, 6, 3⟩] jsmn_init blank_tokens).1 doc_a1 7
        (some (jsmn_calls [⟨doc_a1, 6, 3⟩] jsmn_init blank_tokens).2) 3 = (r, pf, some tsf) ∧
      pf.toknext ≤ 3 ∧ -1 ≤ pf.toksuper ∧ pf.toksuper < (pf.toknext : Int) ∧
      (∀ i, 3 ≤ i → tsf i = (jsmn_calls [⟨doc_a1, 6, 3⟩] jsmn_init blank_tokens).2 i) ∧
      (∀ ts1, agree 3 (jsmn_calls [⟨doc_a1, 6, 3⟩] jsmn_init blank_tokens).2 ts1 →
        ∃ tsf1, jsmn_parse (jsmn_calls [⟨doc_a1, 6, 3⟩] jsmn_init blank_tokens).1 doc_a1 7
            (some ts1) 3 = (r, pf, some tsf1) ∧ agree 3 tsf tsf1)) ∧
    (∀ p, (jsmn_parse p doc_a1 7 none 3).2.2 = none ∧
      (jsmn_parse p doc_a1 7 none 3).2.1.toknext = p.toknext) ∧
    (∀ (p : jsmn_parser_t) (q : Nat), p.pos < 7 → byte_at doc_a1 p.pos ≠ 0 → is_prim_start (byte_at doc_a1 p.pos) = true →
      primitive_scan doc_a1 7 (7 - p.pos) p.pos = some q → p.pos + 1 ≤ q) :=
  C20_indexing_in_bounds [⟨doc_a1, 6, 3⟩] blank_tokens doc_a1 7 3
    (by intro c hc; simp only [List.mem_singleton] at hc; rw [hc])

/-- C18 at the failing input: in the 3-byte buffer `"\` NUL the first NUL byte
is at index 2; `jsmn_parse` with `len = 3` returns `JSMN_ERROR_INVAL`, and
with the prefix of length 2 (the same bytes without the NUL, or the same
buffer with `len = 2`) it returns `JSMN_ERROR_PART`: the lookahead of the
backslash case (jsmn.c 114-116) tests `pos + 1 < len` and reads the NUL as an
escape letter. -/
theorem C18_nul_after_backslash :
    byte_at doc_bs_nul 0 ≠ 0 ∧ byte_at doc_bs_nul 1 ≠ 0 ∧ byte_at doc_bs_nul 2 = 0 ∧
    (jsmn_parse jsmn_init doc_bs_nul 3 (some blank_tokens) 1).1 = JSMN_ERROR_INVAL ∧
    (jsmn_parse jsmn_init (doc_bs_nul.take 2) 2 (some blank_tokens) 1).1 = JSMN_ERROR_PART ∧
    (jsmn_parse jsmn_init doc_bs_nul 2 (some blank_tokens) 1).1 = JSMN_ERROR_PART ∧
    (jsmn_parse jsmn_init doc_bs_nul 3 none 0).1 = JSMN_ERROR_INVAL ∧
    (jsmn_parse jsmn_init (doc_bs_nul.take 2) 2 none 0).1 = JSMN_ERROR_PART :=
  ⟨by decide, by decide, by decide, by decide, by decide, by decide, by decide, by decide⟩

/-- C17 at the failing inputs.  On `{"a":{"b":"c"}}` with the keys `a`, `b`
(Example 4) the explorer returns token index 4 and the text `c`.  On
`{"x":"b","b":"c"}` with the key `b`, a path that exists with value `c`
(token 4), it returns token index 3 and the text `b`: it matches the key
against the value `"b"` of `x` and hands back the token after it, the key `b`
itself.  On `{"a":{"b":"c"}}` with the single key `b`, a path that does not
exist, it returns token index 4 and the text `c`, not `-1` and `NULL`. -/
theorem C17_explore_matches_any_string :
    jsmn_parse_explore doc_ex4 blank_tokens 2 [[97], [98]] = some (4, some [99]) ∧
    jsmn_parse_explore doc_xb blank_tokens 1 [[98]] = some (3, some [98]) ∧
    jsmn_parse_explore doc_ex4 blank_tokens 1 [[98]] = some (4, some [99]) ∧
    jsmn_explore doc_xb (result_token (jsmn_parse jsmn_init doc_xb 17 (some blank_tokens) 5))
      5 1 [[98]] = some (3, some [98]) :=
  ⟨by decide, by decide, by decide, by decide⟩

/-- C15 as amended: after `jsmn_parse` of a well-formed JSON document from a
fresh parser, with room for its tokens, the call returns the number of tokens
of `JsonDoc.toks` and the array holds exactly these tokens, in that order: the
size of every Object token is the number of its key/value pairs (not twice
that number), the String token of every key has size 1 (its value), the size
of every Array token is the number of its elements, and the other tokens have
size 0. -/
theorem C15_object_size_amended (d : JsonDoc) (hwf : d.wf) (cap : Nat)
    (hcap : d.toks.length ≤ cap) (ts : Tokens) :
    ∃ pf tsf, jsmn_parse jsmn_init d.render d.render.length (some ts) cap
        = (((d.toks.length : Nat) : Int), pf, some tsf) ∧
      (List.range d.toks.length).map tsf = d.toks := by
  obtain ⟨hlen, hh⟩ := d.run_toks hwf ts
  refine ⟨(lex_run d.lexemes jsmn_init ts).1, (lex_run d.lexemes jsmn_init ts).2, ?_,
    holds_at_range _ _ hh⟩
  rw [hlen]
  exact d.parse_run hwf cap (by omega) ts

/-- Witness of the amended C15: `{"a":1}`; the Object token has size 1, the
key `a` has size 1 and the primitive `1` has size 0. -/
theorem C15_object_size_amended_witness :
    tree_a1.wf ∧ tree_a1.render = doc_a1 ∧
    tree_a1.toks = [{ type := JSMN_OBJECT, start := 0, end_ := 7, size := 1 },
      { type := JSMN_STRING, start := 2, end_ := 3, size := 1 },
      { type := JSMN_PRIMITIVE, start := 5, end_ := 6, size := 0 }] ∧
    ∃ pf tsf, jsmn_parse jsmn_init tree_a1.render tree_a1.render.length (some blank_tokens) 3
        = (((tree_a1.toks.length : Nat) : Int), pf, some tsf) ∧
      (List.range tree_a1.toks.length).map tsf = tree_a1.toks :=
  ⟨tree_a1_wf, by decide, by decide,
    C15_object_size_amended tree_a1 tree_a1_wf 3 (by decide) blank_tokens⟩

/-- Counterexample to C15 as stated: after the successful parse of the
well-formed document `{"a":1}` (one key/value pair) the Object token, token
0, has size 1, not 2. -/
theorem C15_object_size_counterexample :
    tree_a1.wf ∧ tree_a1.render = doc_a1 ∧
    (jsmn_parse jsmn_init doc_a1 7 (some blank_tokens) 3).1 = 3 ∧
    (result_token (jsmn_parse jsmn_init doc_a1 7 (some blank_tokens) 3) 0).type = JSMN_OBJECT ∧
    (result_token (jsmn_parse jsmn_init doc_a1 7 (some blank_tokens) 3) 0).size = 1 ∧
    (result_token (jsmn_parse jsmn_init doc_a1 7 (some blank_tokens) 3) 0).size ≠ 2 :=
  ⟨tree_a1_wf, by decide, by decide, by decide, by decide, by decide⟩

/-- C19 at the failing inputs.  On the 4-byte buffer `{}:}`, whose last `}`
closes nothing, `jsmn_parse` without `JSMN_PARENT_LINKS` returns
`JSMN_ERROR_INVAL` and `jsmn_parse` with it returns 1, with `pos = 4` and
token 0 the object `{}`: the walk along the parent links stops on the closed
token 0, whose `parent` is `-1`, and its test `parser->toksuper == -1`
(jsmn.c 200-203) lets the bracket pass because the `:` before it has set
`toksuper` to 0.  Without the `:`, on the 3-byte buffer `{}}`, both builds
return `JSMN_ERROR_INVAL`.  On the 5-byte buffer `1:2,3` both builds return 3,
and token 0 has size 2 without parent links and size 1 with them. -/
theorem C19_parent_links_unmatched_close :
    (jsmn_parse jsmn_init [123, 125, 58, 125] 4 (some blank_tokens) 3).1 = JSMN_ERROR_INVAL ∧
    (jsmn_parse_pl jsmn_init [123, 125, 58, 125] 4 (some blank_tokens_pl) 3).map Prod.fst
      = some 1 ∧
    (jsmn_parse_pl jsmn_init [123, 125, 58, 125] 4 (some blank_tokens_pl) 3).map
      (fun r => (r.2.1.pos, r.2.1.toknext)) = some (4, 1) ∧
    result_token_pl (jsmn_parse_pl jsmn_init [123, 125, 58, 125] 4 (some blank_tokens_pl) 3) 0
      = some { type := JSMN_OBJECT, start := 0, end_ := 2, size := 0 } ∧
    (jsmn_parse jsmn_init [123, 125, 125] 3 (some blank_tokens) 3).1 = JSMN_ERROR_INVAL ∧
    (jsmn_parse_pl jsmn_init [123, 125, 125] 3 (some blank_tokens_pl) 3).map Prod.fst
      = some JSMN_ERROR_INVAL ∧
    (jsmn_parse jsmn_init [49, 58, 50, 44, 51] 5 (some blank_tokens) 3).1 = 3 ∧
    (jsmn_parse_pl jsmn_init [49, 58, 50, 44, 51] 5 (some blank_tokens_pl) 3).map Prod.fst
      = some 3 ∧
    (result_token (jsmn_parse jsmn_init [49, 58, 50, 44, 51] 5 (some blank_tokens) 3) 0).size
      = 2 ∧
    (result_token_pl (jsmn_parse_pl jsmn_init [49, 58, 50, 44, 51] 5 (some blank_tokens_pl) 3)
      0).map jsmntok_t.size = some 1 := by
  refine ⟨by decide, by decide, by decide, by decide, by decide, by decide, by decide,
    by decide, by decide, by decide⟩

end Jsmn
